import Mathlib

/-!
# Verification development for the game-assistants solvers

Two programs are embedded:

* `Transmission` : `src/transmission/transmission_solver.cc`
* `Chrooma`      : `src/chrooma/chrooma_solver.cc`

Conventions of the embedding.

* The mutable globals `currentState` / `currentLevel` / `objSelected` become explicit
  arguments.
* An `Element*` is represented by the index of the element in `Level::elements`;
  `Level::readXML` renumbers the elements so that `elements[i]->id == i` when the input ids
  of the elements are pairwise distinct (section C20 below), hence `e->id` is that index.
  The renumbering itself is embedded separately (`readXML` on `XMLLine`s).
* The cells of `State` are C++ `char`s.  Every store into such a cell goes through
  `toChar`, which faults with `Fault.overflow` when the value does not fit into a signed
  8-bit char; `int` temporaries are mathematical integers.
* `assert` is kept: a failing assertion is `Fault.assertion`.
* Recursion through `onConnectedNow` and the `while (flowOnce() > 0)` loop need not
  terminate; they are driven by a fuel argument and fault with `Fault.fuel` when it runs out.
* Floating-point geometry (`geometry::LineSegment` and friends) is not evaluated by the
  solver model; a level carries the Boolean outcome of each geometric test the solver
  performs on it. The functions `intersect` and `shorten` themselves are embedded in
  `Transmission.geometry` over the rational numbers, with exact arithmetic in place of
  `double` (see the section Geometry).
* In the Chrooma solver `exit` ends a run: `move_now` and `search` return how the run ended.
  A `State*` is an address together with the object it points to; the set `seen` of `search`
  compares addresses, as `std::set<State*>` does.
-/

namespace Transmission

/-- Reasons for which a run of the embedded code has no result. -/
inductive Fault where
  | overflow
  | assertion
  | fuel
  deriving DecidableEq, Repr

/-- Result of running embedded code. -/
abbrev Run (α : Type) := Except Fault α

/-- The element kinds that `Level::readXML` keeps in `Level::elements`
(`enum ElementType` without objectives, blockers and `PlacedSignal`). -/
inductive ElementType where
  | CellTransmitter
  | RadialTransmitter
  | Receiver
  | SignalBooster
  | SwapperTransmitter
  | Transceiver
  | Transmitter
  deriving DecidableEq, Repr

/-- Colours, `enum ElementGroup`. -/
inductive ElementGroup where
  | InvalidColor
  | Cable
  | Exchange
  | Fibre
  | Wave
  deriving DecidableEq, Repr

/-- One `<element .../>` line as the XML reader sees it: the kind and the attributes
`elementGroup`, `swapGroup1`, `swapGroup2`, `amount`, `target`. -/
structure Element where
  type : ElementType
  elementGroup : ElementGroup
  swapGroup1 : ElementGroup
  swapGroup2 : ElementGroup
  amountAttr : Int
  targetAttr : Int

instance : Inhabited Element :=
  ⟨⟨ElementType.Receiver, ElementGroup.InvalidColor, ElementGroup.InvalidColor,
    ElementGroup.InvalidColor, 0, 0⟩⟩

/-- Field `Element::color` after the kind-specific `readXML`. -/
def Element.color (e : Element) : ElementGroup :=
  match e.type with
  | .SwapperTransmitter => e.swapGroup1
  | _ => e.elementGroup

/-- Field `SwapperTransmitterElement::swapColor` after `readXML`. -/
def Element.swapColor (e : Element) : ElementGroup := e.swapGroup2

/-- Field `Element::amount` after the kind-specific `readXML`
(`new T()` zero-initialises the fields that `readXML` does not set). -/
def Element.amount (e : Element) : Int :=
  match e.type with
  | .Transmitter => e.amountAttr
  | .Transceiver => e.amountAttr
  | .SwapperTransmitter => e.amountAttr
  | _ => 0

/-- Field `Element::target` after the kind-specific `readXML`. -/
def Element.target (e : Element) : Int :=
  match e.type with
  | .Receiver => e.targetAttr
  | .Transceiver => e.targetAttr
  | .SwapperTransmitter => e.targetAttr
  | _ => 0

/-- Source function `Element::isSender` with its overrides. -/
def Element.isSender (e : Element) : Bool :=
  match e.type with
  | .Transmitter => true
  | .Transceiver => true
  | .SwapperTransmitter => true
  | .CellTransmitter => true
  | .SignalBooster => true
  | .Receiver => false
  | .RadialTransmitter => false

/-- Source function `Element::isReceiver` with its overrides. -/
def Element.isReceiver (e : Element) : Bool :=
  match e.type with
  | .Transmitter => false
  | _ => true

/-- Source function `Element::isColorFixed` with its override in `SwapperTransmitterElement`. -/
def Element.isColorFixed (e : Element) : Bool :=
  match e.type with
  | .SwapperTransmitter => false
  | _ => true

/-- Source function `Element::isWireless` with its override in `RadialTransmitterElement`. -/
def Element.isWireless (e : Element) : Bool :=
  match e.type with
  | .RadialTransmitter => true
  | _ => false

/-- Source function `Element::canReceiveColor` with its override in `SwapperTransmitterElement`. -/
def Element.canReceiveColor (e : Element) (color : ElementGroup) : Bool :=
  match e.type with
  | .SwapperTransmitter => decide (e.color = color) || decide (e.swapColor = color)
  | _ => decide (e.color = color)

/-- Source function `Element::isColorMatch` with its overrides in `SwapperTransmitterElement` and
`CellTransmitterElement`. -/
def Element.isColorMatch (e dst : Element) : Bool :=
  match e.type with
  | .SwapperTransmitter => dst.canReceiveColor e.color || dst.canReceiveColor e.swapColor
  | .CellTransmitter =>
      if dst.type = ElementType.CellTransmitter then false else dst.canReceiveColor e.color
  | _ => dst.canReceiveColor e.color

/-- A blocker (`BlockElement`): its colour and, for every ordered pair of element indices,
whether its shape meets the segment between the two element positions (the geometric part of
`canBlock`). -/
structure BlockElement where
  color : ElementGroup
  hits : Nat → Nat → Bool

/-- Source function `BlockElement::canBlock(color, LineSegment(src->pos, dst->pos))`. -/
def BlockElement.canBlock (b : BlockElement) (color : ElementGroup) (src dst : Nat) : Bool :=
  if color ≠ b.color then false else b.hits src dst

/-- A level after `Level::readXML`: the elements, the blockers, and the outcomes of the
geometric tests on the element positions.

* `inBetween e src dst` : `elements[e]->isInBetween(LineSegment(src->pos, dst->pos))`
* `inRadius r i` : `elements[i]->pos.distance(elements[r]->pos) <= elements[r]->radius`
* `crossing i j src dst` : `LineSegment(pos i, pos j).shorten(1).intersect(
  LineSegment(pos src, pos dst).shorten(1))` -/
structure Level where
  elements : List Element
  blocks : List BlockElement
  inBetween : Nat → Nat → Nat → Bool
  inRadius : Nat → Nat → Bool
  crossing : Nat → Nat → Nat → Nat → Bool

/-- Number of elements, `elements.size()`. -/
def Level.size (lv : Level) : Nat := lv.elements.length

/-- The element `elements[i]`. -/
def Level.el (lv : Level) (i : Nat) : Element := lv.elements.getD i default

/-- The objective globals `objSelected`, `objSigCount`, `objTargetValue`. -/
structure Objectives where
  objSelected : Nat
  objSigCount : Int
  objTargetValue : Nat

/-- Bit `ObjCrossWires` of `enum ObjectiveIndex`. -/
def ObjCrossWires : Nat := 1

/-- Bit `ObjSigCount` of `enum ObjectiveIndex`. -/
def ObjSigCount : Nat := 2

/-- Bit `ObjTargetValue` of `enum ObjectiveIndex`. -/
def ObjTargetValue : Nat := 4

/-- The test `objSelected & bit`. -/
def Objectives.has (obj : Objectives) (bit : Nat) : Bool := obj.objSelected &&& bit != 0

/-- The constant `MAX_ELEMENTS`. -/
def MAX_ELEMENTS : Nat := 21

/-- The search state `struct State`; the `char` arrays are read as functions of the index. -/
structure State where
  amounts : Nat → Int
  left : Nat → Int
  connected : Nat → Nat → Int
  colorSwapped : Nat → Int

/-- Conversion of an `int` to the `char` stored in a `State` cell. -/
def toChar (v : Int) : Run Int :=
  if -128 ≤ v ∧ v ≤ 127 then pure v else throw Fault.overflow

/-- Array cell update `a[i] = v`. -/
def set1 (a : Nat → Int) (i : Nat) (v : Int) : Nat → Int :=
  fun k => if k = i then v else a k

/-- Array cell update `a[i][j] = v`. -/
def set2 (a : Nat → Nat → Int) (i j : Nat) (v : Int) : Nat → Nat → Int :=
  fun k l => if k = i ∧ l = j then v else a k l

/-- The sum `f 0 + ... + f (n-1)`, the result of `for (i = 0; i < n; ++i) acc += f i`. -/
def sumTo (n : Nat) (f : Nat → Int) : Int :=
  match n with
  | 0 => 0
  | k + 1 => sumTo k f + f k

/-- Source function `Element::colorNow` with its override in `SwapperTransmitterElement`. -/
def colorNow (lv : Level) (s : State) (id : Nat) : Run ElementGroup :=
  match (lv.el id).type with
  | .SwapperTransmitter =>
      if s.colorSwapped id = -1 then pure (lv.el id).color
      else if s.colorSwapped id = 1 then pure (lv.el id).swapColor
      else throw Fault.assertion
  | _ => pure (lv.el id).color

/-- Source function `Element::canReceiveColorNow` with its override in `SwapperTransmitterElement`. -/
def canReceiveColorNow (lv : Level) (s : State) (id : Nat) (color : ElementGroup) : Run Bool :=
  match (lv.el id).type with
  | .SwapperTransmitter =>
      if s.colorSwapped id = 0 then
        pure (decide ((lv.el id).color = color) || decide ((lv.el id).swapColor = color))
      else if s.colorSwapped id = 1 then pure (decide ((lv.el id).color = color))
      else if s.colorSwapped id = -1 then pure (decide ((lv.el id).swapColor = color))
      else throw Fault.assertion
  | _ => pure (decide ((lv.el id).color = color))

/-- Source function `Element::canReceivePacketNumberNow` with its overrides. -/
def canReceivePacketNumberNow (lv : Level) (s : State) (id : Nat) : Int :=
  match (lv.el id).type with
  | .RadialTransmitter => 32767
  | .CellTransmitter => 32767
  | .SignalBooster => if s.amounts id > 0 then 0 else 32767
  | _ => (lv.el id).target - s.amounts id

/-- Source function `Element::canReceivePacketNow` with its overrides. -/
def canReceivePacketNow (lv : Level) (s : State) (id : Nat) : Bool :=
  match (lv.el id).type with
  | .RadialTransmitter => true
  | .CellTransmitter => true
  | _ => decide (canReceivePacketNumberNow lv s id > 0)

/-- Source function `Element::hasExtraPacketNow`. -/
def hasExtraPacketNow (s : State) (id : Nat) : Bool := decide (s.left id > 0)

/-- Source function `Element::isFulfilled` with its overrides. -/
def isFulfilled (lv : Level) (s : State) (id : Nat) : Bool :=
  match (lv.el id).type with
  | .Transmitter => true
  | .RadialTransmitter => true
  | .CellTransmitter => true
  | .SignalBooster => true
  | _ => decide (s.amounts id = (lv.el id).target)

/-- The loop `for (auto& b : blocks) if (b->canBlock(color, l)) return true;` of
`isWireAlwaysBlocked`. -/
def anyBlock (blocks : List BlockElement) (color : ElementGroup) (src dst : Nat) : Bool :=
  match blocks with
  | [] => false
  | b :: bs => if b.canBlock color src dst then true else anyBlock bs color src dst

/-- Source function `isWireAlwaysBlocked(srcId, dstId)`. -/
def isWireAlwaysBlocked (lv : Level) (srcId dstId : Nat) : Bool :=
  let src := lv.el srcId
  let dst := lv.el dstId
  if srcId = dstId ∨ !src.isSender ∨ !dst.isReceiver then true
  else if !src.isColorMatch dst then true
  else if (List.range lv.size).any
      (fun e => !(decide (e = srcId) || decide (e = dstId)) && lv.inBetween e srcId dstId)
    then true
  else if src.isColorFixed then anyBlock lv.blocks src.color srcId dstId
  else if dst.isColorFixed then anyBlock lv.blocks dst.color srcId dstId
  else false

/-- The matrix `connectable` filled by `calculateConnectable`
(entries outside `0..n-1` are not written and not read). -/
def connectable (lv : Level) (i j : Nat) : Bool :=
  decide (i < lv.size) && decide (j < lv.size) && !isWireAlwaysBlocked lv i j

/-- The loop of `isWireBlockedByBlockersNow`; `src->colorNow()` is evaluated once per
blocker. -/
def anyBlockNow (lv : Level) (s : State) (src dst : Nat) : List BlockElement → Run Bool
  | [] => pure false
  | b :: bs => do
      let c ← colorNow lv s src
      if b.canBlock c src dst then pure true else anyBlockNow lv s src dst bs

/-- Source function `isWireBlockedByBlockersNow(srcId, dstId)`. -/
def isWireBlockedByBlockersNow (lv : Level) (s : State) (srcId dstId : Nat) : Run Bool :=
  if (lv.el srcId).isColorFixed then pure false
  else anyBlockNow lv s srcId dstId lv.blocks

/-- Source function `Element::canConnectToNow(dst)` for the element `id`. -/
def canConnectToNow (lv : Level) (s : State) (id dst : Nat) : Run Bool :=
  if !connectable lv id dst then pure false
  else if s.connected id dst ≠ 0 ∨ s.connected dst id ≠ 0 then pure false
  else if !hasExtraPacketNow s id ∨ !canReceivePacketNow lv s dst then pure false
  else do
    let c ← colorNow lv s id
    let ok ← canReceiveColorNow lv s dst c
    if !ok then pure false
    else do
      let blocked ← isWireBlockedByBlockersNow lv s id dst
      if blocked then pure false else pure true

/-- Source function `Element::willCrossIfConnectNow(dst, elements)` for the element `id`. -/
def willCrossIfConnectNow (lv : Level) (s : State) (id dst : Nat) : Bool :=
  (List.range lv.size).any fun i =>
    !(lv.el i).isWireless &&
    (List.range lv.size).any fun j =>
      decide (i < j) && !(lv.el j).isWireless &&
      decide (s.connected i j + s.connected j i ≠ 0) && lv.crossing i j id dst

/-- The test that `getAvailableConnections` applies to the pair `(i, j)`: whether it is
pushed to the result. -/
def offers (lv : Level) (obj : Objectives) (s : State) (i j : Nat) : Run Bool :=
  if i = j then pure false
  else do
    let can ← canConnectToNow lv s i j
    if !can then pure false
    else if obj.has ObjCrossWires ∧ willCrossIfConnectNow lv s i j then pure false
    else pure true

/-- The inner loop over `j` of `getAvailableConnections`, for a fixed `i`. -/
def availableFrom (lv : Level) (obj : Objectives) (s : State) (i : Nat) :
    List Nat → Run (List (Nat × Nat))
  | [] => pure []
  | j :: js => do
      let b ← offers lv obj s i j
      let rest ← availableFrom lv obj s i js
      pure (if b then (i, j) :: rest else rest)

/-- The outer loop over `i` of `getAvailableConnections`. -/
def availableAll (lv : Level) (obj : Objectives) (s : State) :
    List Nat → Run (List (Nat × Nat))
  | [] => pure []
  | i :: is => do
      let row ← availableFrom lv obj s i (List.range lv.size)
      let rest ← availableAll lv obj s is
      pure (row ++ rest)

/-- Source function `StatePlus::getAvailableConnections`. -/
def getAvailableConnections (lv : Level) (obj : Objectives) (s : State) :
    Run (List (Nat × Nat)) :=
  availableAll lv obj s (List.range lv.size)

/-- Source function `CellTransmitterElement::syncToAllCellTransmittersNow` for the element `id`. -/
def syncToAllCellTransmittersNow (lv : Level) (s : State) (id : Nat) : State :=
  let left := s.left id
  (List.range lv.size).foldl
    (fun st e =>
      if e = id then st
      else if (lv.el e).color = (lv.el id).color ∧ (lv.el e).type = (lv.el id).type then
        { st with amounts := set1 st.amounts e left, left := set1 st.left e left }
      else st)
    s

/-- The list `RadialTransmitterElement::adjIds` computed by `init`. -/
def adjIds (lv : Level) (id : Nat) : List Nat :=
  (List.range lv.size).filter fun i =>
    !(decide (i = id) || !(lv.el i).isReceiver) &&
    (lv.inRadius id i && (lv.el id).isColorMatch (lv.el i))

/-- The value of `nNewPacket` in `RadialTransmitterElement::onConnectedNow` for the radial
element `id` and its neighbour `i`. -/
def newPacketNumber (lv : Level) (s : State) (id i : Nat) (npacket : Int) : Int :=
  let nCanReceive := canReceivePacketNumberNow lv s i
  let nCurrTransmit := s.connected id i
  if npacket - nCurrTransmit > nCanReceive then nCanReceive else npacket - nCurrTransmit

/-- The three assignments `connected[id][i] += n; left[i] += n; amounts[i] += n` of
`RadialTransmitterElement::onConnectedNow`. -/
def radialGive (s : State) (id i : Nat) (n : Int) : Run State := do
  let c ← toChar (s.connected id i + n)
  let l ← toChar (s.left i + n)
  let a ← toChar (s.amounts i + n)
  pure { s with connected := set2 s.connected id i c, left := set1 s.left i l,
                amounts := set1 s.amounts i a }

/-- The loop `for (int i : adjIds)` of `RadialTransmitterElement::onConnectedNow` for the
radial element `id`; `recur` is the virtual call `elements[i]->onConnectedNow(this, elements)`. -/
def radialLoop (lv : Level) (recur : State → Nat → Nat → Run (State × Int)) (id : Nat)
    (npacket : Int) : List Nat → State → Int → Run (State × Int)
  | [], s, result => pure (s, result)
  | i :: rest, s, result =>
      if i = id ∨ !(lv.el i).isReceiver then radialLoop lv recur id npacket rest s result
      else if canReceivePacketNumberNow lv s i = 0 then
        radialLoop lv recur id npacket rest s result
      else if s.connected id i = 0 ∧ s.connected i id > 0 then
        radialLoop lv recur id npacket rest s result
      else if s.connected id i = npacket then radialLoop lv recur id npacket rest s result
      else do
        let s1 ← radialGive s id i (newPacketNumber lv s id i npacket)
        let (s2, r) ← recur s1 i id
        radialLoop lv recur id npacket rest s2 (result + newPacketNumber lv s id i npacket + r)

/-- The overrides of `onConnectedNow(src, elements)` that make no nested call, for the
element `id`: `SwapperTransmitterElement`, `CellTransmitterElement`, `SignalBoosterElement`
and the default `return 0` of `Element`. -/
def onConnectedNowLeaf (lv : Level) (s : State) (id src : Nat) : Run (State × Int) :=
  match (lv.el id).type with
  | .SwapperTransmitter =>
      if s.colorSwapped id = 0 then do
        let c ← colorNow lv s src
        let v : Int := if c = (lv.el id).color then 1 else -1
        pure ({ s with colorSwapped := set1 s.colorSwapped id v }, 0)
      else pure (s, 0)
  | .CellTransmitter => pure (syncToAllCellTransmittersNow lv s id, 0)
  | .SignalBooster =>
      if ¬ s.left id > 0 then throw Fault.assertion
      else if s.left id ≠ s.amounts id then throw Fault.assertion
      else do
        let l ← toChar (s.left id * 2)
        let s1 : State := { s with left := set1 s.left id l }
        pure (s1, s1.amounts id)
  | _ => pure (s, 0)

/-- One level of `onConnectedNow(src, elements)` for the element `id`, dispatched on the
kind; `recur` stands for the nested virtual calls made by a `RadialTransmitterElement`. -/
def onConnectedNowF (lv : Level) (recur : State → Nat → Nat → Run (State × Int))
    (s : State) (id src : Nat) : Run (State × Int) :=
  match (lv.el id).type with
  | .RadialTransmitter =>
      let npacket := sumTo lv.size (fun i => s.connected i id)
      radialLoop lv recur id npacket (adjIds lv id) s 0
  | _ => onConnectedNowLeaf lv s id src

/-- The virtual call `elements[id]->onConnectedNow(elements[src], elements)`; the fuel bounds
the nesting depth of the calls. -/
def onConnectedNow (lv : Level) : Nat → State → Nat → Nat → Run (State × Int)
  | 0 => fun _ _ _ => throw Fault.fuel
  | k + 1 => onConnectedNowF lv (onConnectedNow lv k)

/-- The number of packets `n` that `Element::connectToNow` moves from `id` to `did`:
the smaller of `left[id]` and what `did` can receive. -/
def packetNumber (lv : Level) (s : State) (id did : Nat) : Int :=
  let n := s.left id
  let m := canReceivePacketNumberNow lv s did
  if m < n then m else n

/-- The four assignments `connected[id][did] += n; left[id] -= n; amounts[did] += n;
left[did] += n` of `Element::connectToNow`. -/
def deliver (s : State) (id did : Nat) (n : Int) : Run State := do
  let c ← toChar (s.connected id did + n)
  let s1 : State := { s with connected := set2 s.connected id did c }
  let l ← toChar (s1.left id - n)
  let s2 : State := { s1 with left := set1 s1.left id l }
  let a ← toChar (s2.amounts did + n)
  let s3 : State := { s2 with amounts := set1 s2.amounts did a }
  let l2 ← toChar (s3.left did + n)
  pure { s3 with left := set1 s3.left did l2 }

/-- Source function `Element::connectToNow(dst, elements)` (the base implementation) for the element `id`. -/
def Element.connectToNow (lv : Level) (fuel : Nat) (s : State) (id did : Nat) :
    Run (State × Int) :=
  let n := packetNumber lv s id did
  if n > 0 then do
    let s4 ← deliver s id did n
    let (s5, r) ← onConnectedNow lv fuel s4 did id
    pure (s5, n + r)
  else pure (s, n)

/-- The virtual call `elements[id]->connectToNow(elements[did], elements)`:
`CellTransmitterElement::connectToNow` for a CellTransmitter, the base implementation
otherwise. -/
def connectToNow (lv : Level) (fuel : Nat) (s : State) (id did : Nat) : Run (State × Int) :=
  match (lv.el id).type with
  | .CellTransmitter => do
      let (s1, result) ← Element.connectToNow lv fuel s id did
      if result > 0 then pure (syncToAllCellTransmittersNow lv s1 id, result)
      else pure (s1, result)
  | _ => Element.connectToNow lv fuel s id did

/-- The inner loop over `j` of `StatePlus::flowOnce`, for a fixed `i`. -/
def flowRow (lv : Level) (fuel : Nat) (i : Nat) : List Nat → State → Int → Run (State × Int)
  | [], s, result => pure (s, result)
  | j :: js, s, result =>
      if s.connected i j = 0 then flowRow lv fuel i js s result
      else do
        let (s1, newPackets) ← connectToNow lv fuel s i j
        flowRow lv fuel i js s1 (result + newPackets)

/-- The outer loop over `i` of `StatePlus::flowOnce`. -/
def flowRows (lv : Level) (fuel : Nat) : List Nat → State → Int → Run (State × Int)
  | [], s, result => pure (s, result)
  | i :: is, s, result =>
      if s.left i = 0 ∨ !(lv.el i).isSender then flowRows lv fuel is s result
      else do
        let (s1, result1) ← flowRow lv fuel i (List.range lv.size) s result
        flowRows lv fuel is s1 result1

/-- Source function `StatePlus::flowOnce`. -/
def flowOnce (lv : Level) (fuel : Nat) (s : State) : Run (State × Int) :=
  flowRows lv fuel (List.range lv.size) s 0

/-- The loop `while (result->flowOnce() > 0);` of `addConnection`; the first argument bounds
the number of iterations. -/
def flowLoop (lv : Level) (fuel : Nat) : Nat → State → Run State
  | 0, _ => throw Fault.fuel
  | k + 1, s => do
      let (s1, result) ← flowOnce lv fuel s
      if result > 0 then flowLoop lv fuel k s1 else pure s1

/-- A search node `struct StatePlus`: the state, the depth, and the chain of `prevState`
pointers flattened to the `lastConnection` of every node on it (newest first). -/
structure StatePlus where
  state : State
  depth : Int
  steps : List (Nat × Nat)

/-- Source function `StatePlus::addConnection(srcId, dstId)`. -/
def addConnection (lv : Level) (fuel : Nat) (sp : StatePlus) (srcId dstId : Nat) :
    Run StatePlus := do
  let (s1, _) ← connectToNow lv fuel sp.state srcId dstId
  let s2 ← flowLoop lv fuel fuel s1
  pure { state := s2, depth := sp.depth + 1, steps := (srcId, dstId) :: sp.steps }

/-- The all-zero state produced by the `memset` calls of `getInitialState`. -/
def zeroState : State :=
  { amounts := fun _ => 0, left := fun _ => 0, connected := fun _ _ => 0,
    colorSwapped := fun _ => 0 }

/-- The loop `for (auto & e : level.elements)` of `getInitialState`; `id` is the id of the
first element of the list. -/
def initLoop : List Element → Nat → State → Run State
  | [], _, s => pure s
  | e :: es, id, s => do
      let v ← toChar e.amount
      initLoop es (id + 1) { s with left := set1 s.left id v, amounts := set1 s.amounts id v }

/-- Source function `getInitialState(level)`. -/
def getInitialState (lv : Level) : Run StatePlus := do
  let s ← initLoop lv.elements 0 zeroState
  pure { state := s, depth := 0, steps := [] }

/-- The loop over the elements of `StatePlus::isWin`. -/
def allFulfilled (lv : Level) (s : State) : List Nat → Bool
  | [] => true
  | e :: es =>
      if !(lv.el e).isReceiver then allFulfilled lv s es
      else if !isFulfilled lv s e then false
      else allFulfilled lv s es

/-- Source function `StatePlus::isWin`. -/
def isWin (lv : Level) (obj : Objectives) (s : State) : Bool :=
  if !allFulfilled lv s (List.range lv.size) then false
  else if obj.has ObjTargetValue then decide (s.left obj.objTargetValue > 0)
  else true

/-- The comparison `State::operator<` is `memcmp` on the whole struct; two states are the same key of the
`visited` set when all their bytes agree. -/
def State.sameBytes (a b : State) : Bool :=
  (List.range MAX_ELEMENTS).all fun i =>
    decide (a.amounts i = b.amounts i) && decide (a.left i = b.left i) &&
    decide (a.colorSwapped i = b.colorSwapped i) &&
    (List.range MAX_ELEMENTS).all fun j => decide (a.connected i j = b.connected i j)

/-- What `search` reports. -/
inductive SearchOutcome where
  | solved (s : StatePlus)
  | notSolved

/-- What one run of the `for (auto& s : state->getAvailableConnections())` loop of `search`
leaves behind: either the winning node, or the new `visited` set and `queue`. -/
inductive ExpandResult where
  | win (s : StatePlus)
  | next (visited : List State) (queue : List StatePlus)

/-- The loop `for (auto& s : state->getAvailableConnections())` in `search`. -/
def searchExpand (lv : Level) (obj : Objectives) (fuel : Nat) (state : StatePlus) :
    List (Nat × Nat) → List State → List StatePlus → Run ExpandResult
  | [], visited, queue => pure (ExpandResult.next visited queue)
  | c :: cs, visited, queue => do
      let nextState ← addConnection lv fuel state c.1 c.2
      if visited.any (fun v => v.sameBytes nextState.state) then
        searchExpand lv obj fuel state cs visited queue
      else if isWin lv obj nextState.state then pure (ExpandResult.win nextState)
      else searchExpand lv obj fuel state cs (nextState.state :: visited) (queue ++ [nextState])

/-- A finished run of `search`: the nodes on which `getAvailableConnections` was called, in
order (a record kept for the proofs, the program has no such list), and the outcome. -/
structure SearchRun where
  expanded : List StatePlus
  result : Run SearchOutcome

/-- The loop `while (!queue.empty())` of `search`; the first argument bounds the number of
iterations. -/
def searchLoop (lv : Level) (obj : Objectives) (fuel : Nat) :
    Nat → List State → List StatePlus → List StatePlus → SearchRun
  | 0, _, _, expanded => ⟨expanded, throw Fault.fuel⟩
  | _ + 1, _, [], expanded => ⟨expanded, pure SearchOutcome.notSolved⟩
  | k + 1, visited, state :: queue, expanded =>
      if obj.has ObjSigCount ∧ state.depth ≥ obj.objSigCount then
        searchLoop lv obj fuel k visited queue expanded
      else
        match getAvailableConnections lv obj state.state with
        | .error e => ⟨expanded ++ [state], throw e⟩
        | .ok cs =>
            match searchExpand lv obj fuel state cs visited queue with
            | .error e => ⟨expanded ++ [state], throw e⟩
            | .ok (ExpandResult.win s) => ⟨expanded ++ [state], pure (SearchOutcome.solved s)⟩
            | .ok (ExpandResult.next visited1 queue1) =>
                searchLoop lv obj fuel k visited1 queue1 (expanded ++ [state])

/-- Source function `search()`. -/
def search (lv : Level) (obj : Objectives) (fuel : Nat) : SearchRun :=
  match getInitialState lv with
  | .error e => ⟨[], throw e⟩
  | .ok initState => searchLoop lv obj fuel fuel [initState.state] [initState] []

/-- The nodes that `search` can construct: the initial state, and every node that
`addConnection` returns for a connection offered by `getAvailableConnections`. -/
inductive Reachable (lv : Level) (obj : Objectives) : StatePlus → Prop where
  | init (sp : StatePlus) : getInitialState lv = .ok sp → Reachable lv obj sp
  | step (sp : StatePlus) (cs : List (Nat × Nat)) (c : Nat × Nat) (fuel : Nat)
      (sp1 : StatePlus) :
      Reachable lv obj sp → getAvailableConnections lv obj sp.state = .ok cs → c ∈ cs →
      addConnection lv fuel sp c.1 c.2 = .ok sp1 → Reachable lv obj sp1

/-- The two situations in which the solver calls `connectToNow(src, dst)`: from
`addConnection`, for a connection that `getAvailableConnections` offers in the current
state; and from `flowOnce`, for an existing wire of a sender. -/
def ConnGuard (lv : Level) (obj : Objectives) (s : State) (src dst : Nat) : Prop :=
  (∃ cs, getAvailableConnections lv obj s = .ok cs ∧ (src, dst) ∈ cs) ∨
  (s.connected src dst ≠ 0 ∧ (lv.el src).isSender = true ∧ src < lv.size ∧ dst < lv.size)


/-- What a predicate on states must satisfy to hold along every run of the stepper: it
survives each of the three kinds of atomic update the stepper makes.

* `wire`: the four assignments of `connectToNow` followed by the receiver's own
  `onConnectedNow` reaction;
* `give`: the three assignments with which a RadialTransmitter `id` hands packets to a
  neighbour `i`, followed by that neighbour's own reaction; `s0` is the state in which the
  radial element computed `npacket`;
* `sync`: `syncToAllCellTransmittersNow` at the end of `CellTransmitterElement::connectToNow`. -/
structure Stable (lv : Level) (obj : Objectives) (P : State → Prop) : Prop where
  wire : ∀ (s : State) (src dst : Nat) (s1 s2 : State) (r : Int), P s →
    ConnGuard lv obj s src dst → packetNumber lv s src dst > 0 →
    deliver s src dst (packetNumber lv s src dst) = .ok s1 →
    onConnectedNowLeaf lv s1 dst src = .ok (s2, r) → P s2
  give : ∀ (s0 s : State) (id i : Nat) (s1 s2 : State) (r : Int), P s0 → P s →
    (lv.el id).type = ElementType.RadialTransmitter → id < lv.size → i ∈ adjIds lv id →
    canReceivePacketNumberNow lv s i ≠ 0 →
    ¬ (s.connected id i = 0 ∧ s.connected i id > 0) →
    s.connected id i ≠ sumTo lv.size (fun k => s0.connected k id) →
    radialGive s id i (newPacketNumber lv s id i (sumTo lv.size (fun k => s0.connected k id)))
      = .ok s1 →
    onConnectedNowLeaf lv s1 i id = .ok (s2, r) → P s2
  sync : ∀ (s : State) (id : Nat), P s → (lv.el id).type = ElementType.CellTransmitter →
    P (syncToAllCellTransmittersNow lv s id)

/-- Invariant behind the anti-parallel exclusion: of the two directions between two elements
at most one carries a non-zero entry, and no entry into a RadialTransmitter is negative. -/
def OneWay (lv : Level) (s : State) : Prop :=
  (∀ i j, s.connected i j ≠ 0 → s.connected j i = 0) ∧
  (∀ a r, (lv.el r).type = ElementType.RadialTransmitter → 0 ≤ s.connected a r)

/-- The pair `{i, j}` is a wire of the state: `connected[i][j] + connected[j][i]` is not
zero (the test of `willCrossIfConnectNow`). -/
def Wire (s : State) (i j : Nat) : Prop := s.connected i j + s.connected j i ≠ 0

/-- For two wires, one of the crossing tests that the solver can have run on them reports no
intersection: `LineSegment::intersect` called on the shortened segment of one wire, taken
from its lower-numbered end, with the shortened segment of the other as argument, in one of
its two directions. -/
def Uncrossed (lv : Level) (i j k l : Nat) : Prop :=
  lv.crossing i j k l = false ∨ lv.crossing i j l k = false ∨
    lv.crossing k l i j = false ∨ lv.crossing k l j i = false

/-- Invariant behind the crossing objective: entries are non-zero only between elements of
the level, entries out of a wired (not wireless) element are not negative, and any two
different wires between wired elements are uncrossed. -/
def NoCrossing (lv : Level) (s : State) : Prop :=
  (∀ a b, s.connected a b ≠ 0 → a < lv.size ∧ b < lv.size) ∧
  (∀ a b, (lv.el a).isWireless = false → 0 ≤ s.connected a b) ∧
  (∀ i j k l, i < j → k < l → (i, j) ≠ (k, l) →
    (lv.el i).isWireless = false → (lv.el j).isWireless = false →
    (lv.el k).isWireless = false → (lv.el l).isWireless = false →
    Wire s i j → Wire s k l → Uncrossed lv i j k l)

/-- An element of the given kind and colour with the given `amount` and `target`
attributes. -/
def mkElement (type : ElementType) (color : ElementGroup) (amount target : Int) : Element :=
  ⟨type, color, color, color, amount, target⟩

/-- A level without blockers in which no element lies between two others, no element is in
the range of a RadialTransmitter and no two wires cross. -/
def openLevel (elements : List Element) : Level :=
  { elements := elements, blocks := [], inBetween := fun _ _ _ => false,
    inRadius := fun _ _ => false, crossing := fun _ _ _ _ => false }

/-- No objective selected: `objSelected = ObjAbsent`, `objSigCount = -1`. -/
def noObjectives : Objectives := ⟨0, -1, 0⟩

/-- The node of a run that has one; the all-zero root otherwise. -/
def nodeOf (r : Run StatePlus) : StatePlus :=
  match r with
  | .ok sp => sp
  | .error _ => ⟨zeroState, 0, []⟩

/-- A Transmitter with one packet, two CellTransmitters and a Receiver that wants one
packet, all of colour Cable. -/
def poolLevel : Level :=
  openLevel
    [mkElement .Transmitter .Cable 1 0, mkElement .CellTransmitter .Cable 0 0,
      mkElement .CellTransmitter .Cable 0 0, mkElement .Receiver .Cable 0 1]

/-- The initial node of `poolLevel`. -/
def poolNode0 : StatePlus := nodeOf (getInitialState poolLevel)

/-- The node of `poolLevel` after connecting the Transmitter 0 to the CellTransmitter 1. -/
def poolNode1 : StatePlus := nodeOf (addConnection poolLevel 2 poolNode0 0 1)

/-- A Transmitter with one packet and a SignalBooster. -/
def boostLevel : Level :=
  openLevel [mkElement .Transmitter .Cable 1 0, mkElement .SignalBooster .Cable 0 0]

/-- The initial node of `boostLevel`. -/
def boostNode0 : StatePlus := nodeOf (getInitialState boostLevel)

/-- Two Transmitters (0 and 2) and two Receivers (1 and 3) on the corners of a square; the
wires between 0 and 3 and between 1 and 2 are the diagonals and cross each other. -/
def squareLevel : Level :=
  { elements :=
      [mkElement .Transmitter .Cable 1 0, mkElement .Receiver .Cable 0 1,
        mkElement .Transmitter .Cable 1 0, mkElement .Receiver .Cable 0 1]
    blocks := []
    inBetween := fun _ _ _ => false
    inRadius := fun _ _ => false
    crossing := fun i j k l =>
      (decide (i + j = 3) && decide (k + l = 3)) &&
        (decide (i = 0 ∨ j = 0) != decide (k = 0 ∨ l = 0)) }

/-- The crossing objective alone: `objSelected = ObjCrossWires`. -/
def crossObjective : Objectives := ⟨1, -1, 0⟩

/-- The initial node of `squareLevel`. -/
def squareNode0 : StatePlus := nodeOf (getInitialState squareLevel)

/-- The node of `squareLevel` after connecting 0 to 1. -/
def squareNode1 : StatePlus := nodeOf (addConnection squareLevel 2 squareNode0 0 1)

/-- The node of `squareLevel` after then connecting 2 to 3. -/
def squareNode2 : StatePlus := nodeOf (addConnection squareLevel 2 squareNode1 2 3)

/-- A Transmitter with one packet and a Receiver that wants one. -/
def wireLevel : Level :=
  openLevel [mkElement .Transmitter .Cable 1 0, mkElement .Receiver .Cable 0 1]

/-- The SigCount objective with a bound of two signals. -/
def twoSignals : Objectives := ⟨2, 2, 0⟩

/-- The depth of the node that a search reports as solved, if it reports one. -/
def solvedDepth (run : SearchRun) : Option Int :=
  match run.result with
  | .ok (SearchOutcome.solved sp) => some sp.depth
  | _ => none

/-- The initial node of `wireLevel`. -/
def wireNode0 : StatePlus := nodeOf (getInitialState wireLevel)

/-- Every non-zero entry of `connected` whose source is not a RadialTransmitter lies on a
pair that `calculateConnectable` marked as connectable. -/
def EdgesConnectable (lv : Level) (s : State) : Prop :=
  ∀ i j, (lv.el i).type ≠ ElementType.RadialTransmitter → s.connected i j ≠ 0 →
    connectable lv i j = true

/-- A Transmitter with one packet, a RadialTransmitter and a Receiver that wants one packet
and lies in the range of the RadialTransmitter. -/
def beamLevel : Level :=
  { elements :=
      [mkElement .Transmitter .Cable 1 0, mkElement .RadialTransmitter .Cable 0 0,
        mkElement .Receiver .Cable 0 1]
    blocks := []
    inBetween := fun _ _ _ => false
    inRadius := fun r i => decide (r = 1) && decide (i = 2)
    crossing := fun _ _ _ _ => false }

/-- The initial node of `beamLevel`. -/
def beamNode0 : StatePlus := nodeOf (getInitialState beamLevel)

/-- The node of `beamLevel` after connecting the Transmitter 0 to the RadialTransmitter 1. -/
def beamNode1 : StatePlus := nodeOf (addConnection beamLevel 3 beamNode0 0 1)

/-- The cell `colorSwapped[k]` holds one of the three values `0`, `1`, `-1`. -/
def SwapValue (s : State) (k : Nat) : Prop :=
  s.colorSwapped k = 0 ∨ s.colorSwapped k = 1 ∨ s.colorSwapped k = -1

/-- A Transmitter of colour Cable with one packet, a SwapperTransmitter with the colours
Cable and Fibre that wants one packet, and a Receiver of colour Fibre that wants one. -/
def swapLevel : Level :=
  openLevel
    [mkElement .Transmitter .Cable 1 0,
      ⟨.SwapperTransmitter, .InvalidColor, .Cable, .Fibre, 0, 1⟩,
      mkElement .Receiver .Fibre 0 1]

/-- The initial node of `swapLevel`. -/
def swapNode0 : StatePlus := nodeOf (getInitialState swapLevel)

/-- The node of `swapLevel` after connecting the Transmitter 0 to the SwapperTransmitter 1. -/
def swapNode1 : StatePlus := nodeOf (addConnection swapLevel 2 swapNode0 0 1)

/-- The node of `swapLevel` after then connecting the SwapperTransmitter 1 to the
Receiver 2. -/
def swapNode2 : StatePlus := nodeOf (addConnection swapLevel 2 swapNode1 1 2)

/-- A SwapperTransmitter with the colours Cable and Fibre that starts with one packet, and a
Receiver of colour Cable that wants one packet. -/
def loadedSwapLevel : Level :=
  openLevel
    [⟨.SwapperTransmitter, .InvalidColor, .Cable, .Fibre, 1, 0⟩,
      mkElement .Receiver .Cable 0 1]

/-- The initial node of `loadedSwapLevel`. -/
def loadedSwapNode0 : StatePlus := nodeOf (getInitialState loadedSwapLevel)

/-- Every SwapperTransmitter that has a packet left has its `colorSwapped` cell set. -/
def SwapperReady (lv : Level) (s : State) : Prop :=
  ∀ k, (lv.el k).type = ElementType.SwapperTransmitter → s.left k > 0 → s.colorSwapped k ≠ 0

/-- A Transmitter with one packet and a Receiver that wants no packet: the initial state
already satisfies `isWin`, and no connection is offered in it. -/
def doneLevel : Level :=
  openLevel [mkElement .Transmitter .Cable 1 0, mkElement .Receiver .Cable 0 0]

/-- The initial node of `doneLevel`. -/
def doneNode0 : StatePlus := nodeOf (getInitialState doneLevel)

/-- What the search keeps true of a node in its queue: the depth is not negative, and a node
other than the root (depth at least one) was tested with `isWin` before it was queued and
failed the test. -/
def Tested (lv : Level) (obj : Objectives) (sp : StatePlus) : Prop :=
  0 ≤ sp.depth ∧ (1 ≤ sp.depth → isWin lv obj sp.state = false)

/-- All enumerators of `enum ElementType`, as `extractElementType` returns them. -/
inductive XMLType where
  | InvalidElement
  | CellTransmitter
  | ObjectiveCrossedWires
  | ObjectiveSignalCount
  | ObjectiveTargetValue
  | PlacedSignal
  | RadialTransmitter
  | Receiver
  | SignalBlock
  | SignalBlockCircle
  | SignalBlockHexagon
  | SignalBooster
  | SwapperTransmitter
  | Transceiver
  | Transmitter
  deriving DecidableEq, Repr

/-- Source function `isObjective` of the class that `readElementFromXMLLine` instantiates for
the type: true for the three `ObjectiveElement` classes. -/
def XMLType.isObjective (t : XMLType) : Bool :=
  match t with
  | .ObjectiveCrossedWires => true
  | .ObjectiveSignalCount => true
  | .ObjectiveTargetValue => true
  | _ => false

/-- Source function `isBlock` of the class that `readElementFromXMLLine` instantiates for the
type: true for the three `BlockElement` classes. -/
def XMLType.isBlock (t : XMLType) : Bool :=
  match t with
  | .SignalBlock => true
  | .SignalBlockCircle => true
  | .SignalBlockHexagon => true
  | _ => false

/-- What `readElementFromXMLLine` reads from a line before it decides: whether the line
contains the text `<element `, the value of `extractInt(line, "id")`, and the value of
`extractElementType(line, "type")`. -/
structure XMLLine where
  hasElementTag : Bool
  id : Int
  type : XMLType
  deriving Repr

/-- The fields `id` and `type` of the object that `readElementFromXMLLine` returns. -/
structure RawElement where
  id : Int
  type : XMLType
  deriving DecidableEq, Repr

/-- Source function `readElementFromXMLLine(line)`; `none` is the null pointer. -/
def readElementFromXMLLine (line : XMLLine) : Option RawElement :=
  if !line.hasElementTag then none
  else if line.id < 0 ∨ line.type = XMLType.InvalidElement then none
  else
    match line.type with
    | .PlacedSignal => none
    | .InvalidElement => none
    | t => some ⟨line.id, t⟩

/-- The assignment `m[k] = v` on a `std::map<int, int>`, kept as the list of its key/value
pairs: the value of an existing key is replaced, a new key is added. -/
def mapSet (m : List (Int × Int)) (k v : Int) : List (Int × Int) :=
  match m with
  | [] => [(k, v)]
  | (k1, v1) :: rest => if k1 = k then (k, v) :: rest else (k1, v1) :: mapSet rest k v

/-- The lookup of the key `k` in a `std::map<int, int>`; `none` when `m.count(k)` is zero. -/
def mapGet (m : List (Int × Int)) (k : Int) : Option Int :=
  match m with
  | [] => none
  | (k1, v1) :: rest => if k1 = k then some v1 else mapGet rest k

/-- The members `idMap`, `elements`, `objectives` and `blocks` of `struct Level` while
`Level::readXML` fills them. -/
structure LevelData where
  idMap : List (Int × Int)
  elements : List RawElement
  objectives : List RawElement
  blocks : List RawElement
  deriving Repr

/-- The body of the loop over the lines in `Level::readXML`; `idMap.size()` is the number of
pairs of the map. -/
def readLine (lv : LevelData) (line : XMLLine) : LevelData :=
  match readElementFromXMLLine line with
  | none => lv
  | some e =>
      if e.type.isObjective then { lv with objectives := lv.objectives ++ [{ e with id := -1 }] }
      else if e.type.isBlock then { lv with blocks := lv.blocks ++ [{ e with id := -1 }] }
      else
        let oldId := e.id
        let newId : Int := lv.idMap.length
        { lv with idMap := mapSet lv.idMap oldId newId,
                  elements := lv.elements ++ [{ e with id := newId }] }

/-- Source function `Level::readXML`, up to the end of the loop over the lines: `clearAll()`
followed by the loop. The two loops that follow (`useIdMap` on the objectives, `init` on the
elements) change neither an `id` nor `idMap`. -/
def readXML (lines : List XMLLine) : LevelData :=
  lines.foldl readLine ⟨[], [], [], []⟩

/-- The object that a line contributes to `Level::elements`: what `readElementFromXMLLine`
returns for it, when that is neither null, nor an objective, nor a blocker. -/
def keptOf (line : XMLLine) : Option RawElement :=
  match readElementFromXMLLine line with
  | none => none
  | some e => if e.type.isObjective || e.type.isBlock then none else some e

/-- The objects, with the ids of the input, that the lines contribute to `Level::elements`,
in input order. -/
def keptElements (lines : List XMLLine) : List RawElement := lines.filterMap keptOf

/-- The state of `idMap` and `elements` after the elements `done` have been pushed, when
their input ids are renumbered in order: the keys of `idMap` are the input ids, its values
and the ids in `elements` are `0, 1, ...`, and the types are kept. -/
def Renumbered (lv : LevelData) (done : List RawElement) : Prop :=
  lv.idMap.map Prod.fst = done.map (fun e => e.id) ∧
    lv.idMap.map Prod.snd = (List.range done.length).map Int.ofNat ∧
    lv.elements.map (fun e => e.id) = (List.range done.length).map Int.ofNat ∧
    lv.elements.map (fun e => e.type) = done.map (fun e => e.type)

/-- Three Transmitter lines with the ids 5, 5 and 7. -/
def repeatedIdLines : List XMLLine :=
  [⟨true, 5, .Transmitter⟩, ⟨true, 5, .Transmitter⟩, ⟨true, 7, .Transmitter⟩]

/-- Lines with the ids 4, 9 and 2 of a Transmitter, an objective and a Receiver, and a line
that is no element. -/
def mixedLines : List XMLLine :=
  [⟨true, 4, .Transmitter⟩, ⟨true, 9, .ObjectiveCrossedWires⟩,
    ⟨false, 0, .InvalidElement⟩, ⟨true, 2, .Receiver⟩]

/-- Two Transmitters (0 and 2), a RadialTransmitter (1) and a Receiver (3) on the corners of
a square; the wires between 0 and 3 and between 1 and 2 are the diagonals and cross each
other. No element lies in the range of the RadialTransmitter. -/
def radialSquareLevel : Level :=
  { elements :=
      [mkElement .Transmitter .Cable 1 0, mkElement .RadialTransmitter .Cable 0 0,
        mkElement .Transmitter .Cable 1 0, mkElement .Receiver .Cable 0 1]
    blocks := []
    inBetween := fun _ _ _ => false
    inRadius := fun _ _ => false
    crossing := fun i j k l =>
      (decide (i + j = 3) && decide (k + l = 3)) &&
        (decide (i = 0 ∨ j = 0) != decide (k = 0 ∨ l = 0)) }

/-- The initial node of `radialSquareLevel`. -/
def radialSquareNode0 : StatePlus := nodeOf (getInitialState radialSquareLevel)

/-- The node of `radialSquareLevel` after connecting the Transmitter 0 to the Receiver 3. -/
def radialSquareNode1 : StatePlus :=
  nodeOf (addConnection radialSquareLevel 2 radialSquareNode0 0 3)

/-- The node of `radialSquareLevel` after connecting the Transmitter 2 to the
RadialTransmitter 1. -/
def radialFirstNode1 : StatePlus :=
  nodeOf (addConnection radialSquareLevel 2 radialSquareNode0 2 1)

/-! ## Geometry

Source namespace `geometry` of `transmission_solver.cc`. The type `real` (`double`) is
modelled by the rational numbers with exact arithmetic: rounding, overflow and the values
`inf` and `NaN` are not modelled. Every finite `double` is a rational number, and the
concrete segments used below have coordinates `k / 2^n` on which the source computes
without rounding. The constant `eps` is `1/1000000`. The square root in `Line::length` is
not computed: `shorten` takes the value that `length()` returned as its argument `l`, and
the statements about it assume `l` different from zero (in the source a zero `l` gives
`NaN` coordinates, in the model a division by zero gives zero). -/

namespace geometry

/-- Source constant `eps = 1e-6`. -/
def eps : ℚ := 1 / 1000000

/-- Source function `is_zero`. -/
def is_zero (x : ℚ) : Bool := decide (x ≤ eps) && decide (x ≥ -eps)

/-- Source template `min`. -/
def min (a b : ℚ) : ℚ := if a < b then a else b

/-- Source template `max`. -/
def max (a b : ℚ) : ℚ := if a > b then a else b

/-- Source struct `Point`. -/
structure Point where
  x : ℚ
  y : ℚ
  deriving DecidableEq

/-- Source function `Point::cross`. -/
def Point.cross (a p : Point) : ℚ := a.x * p.y - a.y * p.x

/-- Source function `Point::minus`. -/
def Point.minus (a p : Point) : Point := ⟨a.x - p.x, a.y - p.y⟩

/-- Source struct `LineSegment` with the four coordinates of its base `Line`. -/
structure LineSegment where
  x1 : ℚ
  y1 : ℚ
  x2 : ℚ
  y2 : ℚ
  deriving DecidableEq

/-- Source function `Line::p1`. -/
def LineSegment.p1 (a : LineSegment) : Point := ⟨a.x1, a.y1⟩

/-- Source function `Line::p2`. -/
def LineSegment.p2 (a : LineSegment) : Point := ⟨a.x2, a.y2⟩

/-- The point `Point(x2 - x1, y2 - y1)`, which `intersect` computes as `r` for `this` and
as `s` for its argument: the direction of the segment from its first to its second end. -/
def LineSegment.direction (a : LineSegment) : Point := ⟨a.x2 - a.x1, a.y2 - a.y1⟩

/-- Source function `LineSegment::intersect` (without the output point `out_p`, which the
solver never passes). -/
def LineSegment.intersect (a l : LineSegment) : Bool :=
  let p := a.p1
  let q := l.p1
  let r : Point := ⟨a.x2 - a.x1, a.y2 - a.y1⟩
  let s : Point := ⟨l.x2 - l.x1, l.y2 - l.y1⟩
  if is_zero (r.cross s) then
    if is_zero ((q.minus p).cross r) then
      decide (max a.x1 a.x2 ≥ min l.x1 l.x2) && decide (min a.x1 a.x2 ≤ max l.x1 l.x2) &&
        decide (max a.y1 a.y2 ≥ min l.y1 l.y2) && decide (min a.y1 a.y2 ≤ max l.y1 l.y2)
    else false
  else
    let t := (q.minus p).cross s / r.cross s
    let u := (p.minus q).cross r / s.cross r
    decide (u ≥ 0) && decide (u ≤ 1) && decide (t ≥ 0) && decide (t ≤ 1)

/-- The two segments have a point in common: the point at parameter `t` of the first is the
point at parameter `u` of the second, with both parameters between 0 and 1. -/
def SharePoint (a l : LineSegment) : Prop :=
  ∃ t u : ℚ, 0 ≤ t ∧ t ≤ 1 ∧ 0 ≤ u ∧ u ≤ 1 ∧
    a.x1 + t * (a.x2 - a.x1) = l.x1 + u * (l.x2 - l.x1) ∧
    a.y1 + t * (a.y2 - a.y1) = l.y1 + u * (l.y2 - l.y1)

/-- The diagonal from (0, 0) to (1, 1). -/
def diagonal : LineSegment := ⟨0, 0, 1, 1⟩

/-- The diagonal moved up by `2^-24`: from (0, 2^-24) to (1, 1 + 2^-24). -/
def liftedDiagonal : LineSegment := ⟨0, 1 / 16777216, 1, 1 + 1 / 16777216⟩

/-- The diagonal moved up by one half: from (0, 1/2) to (1, 3/2). -/
def farDiagonal : LineSegment := ⟨0, 1 / 2, 1, 3 / 2⟩

/-- The segment from (1, 1) to (2, 0), which starts at the upper end of `diagonal`. -/
def hook : LineSegment := ⟨1, 1, 2, 0⟩

end geometry

/-- The nodes that `search` can construct from the node `sp` on: `sp` itself, and every node
that `addConnection` returns for a connection offered in such a node. -/
inductive ReachableFrom (lv : Level) (obj : Objectives) (sp : StatePlus) : StatePlus → Prop where
  | here : ReachableFrom lv obj sp sp
  | step (sp1 : StatePlus) (cs : List (Nat × Nat)) (c : Nat × Nat) (fuel : Nat)
      (sp2 : StatePlus) :
      ReachableFrom lv obj sp sp1 → getAvailableConnections lv obj sp1.state = .ok cs →
      c ∈ cs → addConnection lv fuel sp1 c.1 c.2 = .ok sp2 → ReachableFrom lv obj sp sp2

/-- Invariant behind the booster saturation, for the element `b`: while `amounts[b]` is not
positive no entry of `connected` leads into `b`, and at most one entry that leads into `b`
is not zero. -/
def Saturated (s : State) (b : Nat) : Prop :=
  (s.amounts b ≤ 0 → ∀ a, s.connected a b = 0) ∧
  (∀ a a1, s.connected a b ≠ 0 → s.connected a1 b ≠ 0 → a = a1)

/-- A Transmitter with one packet, a SignalBooster and a Receiver that wants two packets. -/
def relayLevel : Level :=
  openLevel
    [mkElement .Transmitter .Cable 1 0, mkElement .SignalBooster .Cable 0 0,
      mkElement .Receiver .Cable 0 2]

/-- The initial node of `relayLevel`. -/
def relayNode0 : StatePlus := nodeOf (getInitialState relayLevel)

/-- The node of `relayLevel` after connecting the Transmitter 0 to the SignalBooster 1. -/
def relayNode1 : StatePlus := nodeOf (addConnection relayLevel 2 relayNode0 0 1)

/-- The node of `relayLevel` after then connecting the SignalBooster 1 to the Receiver 2. -/
def relayNode2 : StatePlus := nodeOf (addConnection relayLevel 2 relayNode1 1 2)

/-- The kinds of element whose `canReceivePacketNumberNow` is `target - amounts[id]` and for
which a target is read: Receiver, Transceiver and SwapperTransmitter. -/
def Element.hasTarget (e : Element) : Bool :=
  match e.type with
  | .Receiver => true
  | .Transceiver => true
  | .SwapperTransmitter => true
  | _ => false

/-- No Receiver, Transceiver or SwapperTransmitter of the level holds more than its
target. -/
def NotOverfilled (lv : Level) (s : State) : Prop :=
  ∀ j, j < lv.size → (lv.el j).hasTarget = true → s.amounts j ≤ (lv.el j).target

/-- The node of `wireLevel` after connecting the Transmitter 0 to the Receiver 1. -/
def wireNode1 : StatePlus := nodeOf (addConnection wireLevel 2 wireNode0 0 1)

/-- The nodes that `k` legal connections lead to: the initial state for `k = 0`, and every
node that `addConnection` returns, for a connection that `getAvailableConnections` offers, on
a node that `k` connections lead to, for `k + 1`. -/
inductive ReachableIn (lv : Level) (obj : Objectives) : Nat → StatePlus → Prop where
  | init (sp : StatePlus) : getInitialState lv = .ok sp → ReachableIn lv obj 0 sp
  | step (k : Nat) (sp : StatePlus) (cs : List (Nat × Nat)) (c : Nat × Nat) (fuel : Nat)
      (sp1 : StatePlus) :
      ReachableIn lv obj k sp → getAvailableConnections lv obj sp.state = .ok cs → c ∈ cs →
      addConnection lv fuel sp c.1 c.2 = .ok sp1 → ReachableIn lv obj (k + 1) sp1

/-- All entries of the state beyond the elements of the level are zero, as `memset` left
them. -/
def InRange (lv : Level) (s : State) : Prop :=
  (∀ i, lv.size ≤ i → s.amounts i = 0 ∧ s.left i = 0 ∧ s.colorSwapped i = 0) ∧
  (∀ i j, lv.size ≤ i ∨ lv.size ≤ j → s.connected i j = 0)

/-- The invariant of the loop `while (!queue.empty())` of `search`, on the `visited` set, the
`queue` and the nodes popped so far, for a search started at `start` in which
`addConnection` runs with the given fuel.

* `root`: the start node is among the nodes, at depth 0;
* `reach`: every node is reached by as many legal connections as its depth says;
* `lose`: no node satisfies `isWin`, unless its state is that of the start node (which
  `search` never tests);
* `seen`: every member of `visited` is the state of a node;
* `sorted`, `near`: the queue is ordered by depth and its depths differ by at most one;
* `before`: a popped node is not deeper than a queued one;
* `closed`: every connection offered on a popped node leads to the state of a node that
  is at most one deeper. -/
structure Frontier (lv : Level) (obj : Objectives) (fuel : Nat) (start : StatePlus)
    (visited : List State) (queue expanded : List StatePlus) : Prop where
  root : ∃ n ∈ expanded ++ queue, n.state = start.state ∧ n.depth = 0
  reach : ∀ n ∈ expanded ++ queue, ∃ d : Nat, ReachableIn lv obj d n ∧ n.depth = d
  lose : ∀ n ∈ expanded ++ queue, n.state = start.state ∨ isWin lv obj n.state = false
  seen : ∀ v ∈ visited, ∃ n ∈ expanded ++ queue, n.state = v
  sorted : queue.Pairwise (fun a b => a.depth ≤ b.depth)
  near : ∀ a ∈ queue, ∀ b ∈ queue, b.depth ≤ a.depth + 1
  before : ∀ e ∈ expanded, ∀ q ∈ queue, e.depth ≤ q.depth
  closed : ∀ e ∈ expanded, ∀ (cs : List (Nat × Nat)) (c : Nat × Nat),
    getAvailableConnections lv obj e.state = .ok cs → c ∈ cs →
    ∃ r, addConnection lv fuel e c.1 c.2 = .ok r ∧
      ∃ n ∈ expanded ++ queue, n.state = r.state ∧ n.depth ≤ e.depth + 1

/-- Some sender has a positive entry in its row of `connected`. -/
def HasWire (lv : Level) (s : State) : Prop :=
  ∃ a b, (lv.el a).isSender = true ∧ s.connected a b > 0

end Transmission

namespace Chrooma

/-- Terrain character `' '` (the constant `WALL`). -/
def WALL : Int := 32

/-- Terrain character `'.'` (the constant `BLANK`). -/
def BLANK : Int := 46

/-- Terrain character `'x'`, a lock door. -/
def LOCK : Int := 120

/-- Terrain character `'o'`, a key cell. -/
def KEY : Int := 111

/-- Terrain character `'*'`, a consumer. -/
def STAR : Int := 42

/-- Terrain character `'@'`, a portal. -/
def PORTAL : Int := 64

/-- The table `DIRECTION_DY`; an index outside the table reads as `0`. -/
def DIRECTION_DY (direction : Nat) : Int := [0, 1, 0, -1].getD direction 0

/-- The table `DIRECTION_DX`; an index outside the table reads as `0`. -/
def DIRECTION_DX (direction : Nat) : Int := [1, 0, -1, 0].getD direction 0

/-- The characters of the string `DIRECTION_CHAR` (the arrows east, south, west, north, then a
space), with the terminating zero. -/
def DIRECTION_CHAR : List Int := [62, 118, 60, 94, 32, 0]

/-- The call `strchr(DIRECTION_CHAR, c)`, as the offset of the hit from the start of the
string (`none` for a null pointer). -/
def strchr (s : List Int) (c : Int) : Option Nat :=
  match s with
  | [] => none
  | a :: rest => if a = c then some 0 else (strchr rest c).map (fun k => k + 1)

/-- The immutable terrain `struct Board`; the `int` array `cells` is read as a function of the
index, `goto_table` is the list of the key/value pairs of the map. -/
structure Board where
  height : Nat
  width : Nat
  cells : Nat → Int
  goto_table : List (Nat × Nat)
  unlock_positions : List Nat

/-- The lookup `goto_table[pos]` of a `std::map<int, int>`: a missing key reads as `0`. -/
def gotoLookup (table : List (Nat × Nat)) (pos : Nat) : Nat :=
  match table with
  | [] => 0
  | (k, v) :: rest => if k = pos then v else gotoLookup rest pos

/-- Source function `BaseBoard::at(y, x)` on a cell array of the given width. -/
def getAt (width : Nat) (cells : Nat → Int) (y x : Nat) : Int := cells (y * width + x)

/-- The store `cells[pos] = v`. -/
def setCell (cells : Nat → Int) (pos : Nat) (v : Int) : Nat → Int :=
  fun k => if k = pos then v else cells k

/-- Source function `BaseBoard::set(y, x, v)` on a cell array of the given width. -/
def setAt (width : Nat) (cells : Nat → Int) (y x : Nat) (v : Int) : Nat → Int :=
  setCell cells (y * width + x) v

/-- The mutable part of `struct State` that `move_now` works on: the ball grid, the `fail`
flag and the set `killed_positions`. -/
structure State where
  cells : Nat → Int
  fail : Bool
  killed_positions : List Nat
  step : Int
  last_direction : Nat

/-- Source function `State::get_board_unlocked`. -/
def get_board_unlocked (board : Board) (cells : Nat → Int) : Bool :=
  board.unlock_positions.any fun p => cells p != 0

/-- The variables that one pass of the double loop of `move_now` updates. -/
structure Pass where
  cells : Nat → Int
  moving : Bool
  pending_direction : Int

/-- The statements of the loop body of `move_now` from the comment `move!` on: the ball `v`
goes from `(y, x)` to `(yd, xd)` and reacts to the terrain under it. -/
def moveBall (board : Board) (y x yd xd : Nat) (v : Int) (p : Pass) : Pass :=
  let cells1 := setAt board.width (setAt board.width p.cells yd xd v) y x 0
  let t := getAt board.width board.cells yd xd
  if t = STAR then ⟨setAt board.width cells1 yd xd 0, true, p.pending_direction⟩
  else if t = PORTAL then
    let pos := gotoLookup board.goto_table (yd * board.width + xd)
    ⟨setCell (setAt board.width cells1 yd xd 0) pos v, true, p.pending_direction⟩
  else if t = 62 then ⟨cells1, true, 0⟩
  else if t = 118 then ⟨cells1, true, 1⟩
  else if t = 60 then ⟨cells1, true, 2⟩
  else if t = 94 then ⟨cells1, true, 3⟩
  else ⟨cells1, true, p.pending_direction⟩

/-- The test `board_direction && (board_direction - DIRECTION_CHAR) != direction` of
`move_now` for a ball standing on terrain `t`. -/
def trapped (t : Int) (direction : Nat) : Bool :=
  match strchr DIRECTION_CHAR t with
  | some k => decide (k ≠ direction)
  | none => false

/-- The value of `board_dest` in `move_now` once a lock door has been resolved: the terrain
at the destination `(yd, xd)`, a lock door reading as `'.'` when unlocked and as `' '`
otherwise. -/
def destTerrain (board : Board) (killed_positions : List Nat) (board_unlocked : Bool)
    (yd xd : Nat) : Int :=
  let board_dest := getAt board.width board.cells yd xd
  if board_dest = LOCK then
    let local_unlocked :=
      if !board_unlocked ∧ (yd * board.width + xd) ∈ killed_positions then true
      else board_unlocked
    if local_unlocked then BLANK else WALL
  else board_dest

/-- The body of the double loop of `move_now` at the cell `(y, x)`. -/
def visit (board : Board) (killed_positions : List Nat) (board_unlocked : Bool)
    (direction : Nat) (y x : Nat) (p : Pass) : Pass :=
  let v := getAt board.width p.cells y x
  if v < 48 ∨ v > 57 then p
  else
    let y_dest : Int := (y : Int) + DIRECTION_DY direction
    let x_dest : Int := (x : Int) + DIRECTION_DX direction
    if y_dest ≥ board.height ∨ x_dest ≥ board.width ∨ x_dest < 0 ∨ y_dest < 0 then p
    else if destTerrain board killed_positions board_unlocked y_dest.toNat x_dest.toNat = WALL ∨
        getAt board.width p.cells y_dest.toNat x_dest.toNat ≠ 0 then p
    else if trapped (getAt board.width board.cells y x) direction then p
    else moveBall board y x y_dest.toNat x_dest.toNat v p

/-- The values of the loop variable in `for (y = y_begin; y != y_end; y += y_step)` (and the
same for `x`): ascending when the step `d` is not negative, descending otherwise. -/
def loopOrder (d : Int) (size : Nat) : List Nat :=
  if d ≥ 0 then List.range size else (List.range size).reverse

/-- The inner loop over `x` of one pass of `move_now`. -/
def passRow (board : Board) (killed_positions : List Nat) (board_unlocked : Bool)
    (direction : Nat) (y : Nat) : List Nat → Pass → Pass
  | [], p => p
  | x :: xs, p =>
      passRow board killed_positions board_unlocked direction y xs
        (visit board killed_positions board_unlocked direction y x p)

/-- The outer loop over `y` of one pass of `move_now`. -/
def passRows (board : Board) (killed_positions : List Nat) (board_unlocked : Bool)
    (direction : Nat) (xs : List Nat) : List Nat → Pass → Pass
  | [], p => p
  | y :: ys, p =>
      passRows board killed_positions board_unlocked direction xs ys
        (passRow board killed_positions board_unlocked direction y xs p)

/-- One pass of the `do ... while (moving)` loop of `move_now`: `moving = false` followed by
the double loop over the grid. -/
def pass (board : Board) (killed_positions : List Nat) (board_unlocked : Bool)
    (direction : Nat) (cells : Nat → Int) (pending_direction : Int) : Pass :=
  passRows board killed_positions board_unlocked direction
    (loopOrder (DIRECTION_DX direction) board.width)
    (loopOrder (DIRECTION_DY direction) board.height)
    ⟨cells, false, pending_direction⟩

/-- The variables of the first double loop of `check_adjacent`: the grid and whether the set
`killed` is non-empty. -/
structure Marking where
  cells : Nat → Int
  killed : Bool

/-- The body of the first double loop of `check_adjacent` at the cell `(y, x)`. -/
def markCell (board : Board) (y x : Nat) (m : Marking) : Marking :=
  let v := |getAt board.width m.cells y x|
  if v = 0 then m
  else
    let m1 : Marking :=
      if (y : Int) < (board.height : Int) - 1 ∧
          |getAt board.width m.cells y x| = |getAt board.width m.cells (y + 1) x| then
        ⟨setAt board.width (setAt board.width m.cells y x (-v)) (y + 1) x (-v), true⟩
      else m
    if (x : Int) < (board.width : Int) - 1 ∧
        |getAt board.width m1.cells y x| = |getAt board.width m1.cells y (x + 1)| then
      ⟨setAt board.width (setAt board.width m1.cells y x (-v)) y (x + 1) (-v), true⟩
    else m1

/-- The inner loop over `x` of the first double loop of `check_adjacent`. -/
def markRow (board : Board) (y : Nat) : List Nat → Marking → Marking
  | [], m => m
  | x :: xs, m => markRow board y xs (markCell board y x m)

/-- The first double loop of `check_adjacent`. -/
def markRows (board : Board) : List Nat → Marking → Marking
  | [], m => m
  | y :: ys, m => markRows board ys (markRow board y (List.range board.width) m)

/-- The variables of the second double loop of `check_adjacent`: the grid, the set
`killed_positions`, and the map `left`, kept as the list of the positive cell values seen (the
count of a colour in the map is the number of its occurrences in the list). -/
structure Sweep where
  cells : Nat → Int
  killed_positions : List Nat
  left : List Int

/-- The body of the second double loop of `check_adjacent` at the cell `(y, x)`. -/
def sweepCell (board : Board) (y x : Nat) (w : Sweep) : Sweep :=
  let v := getAt board.width w.cells y x
  if v > 0 then { w with left := v :: w.left }
  else if v < 0 then
    { w with killed_positions := (y * board.width + x) :: w.killed_positions,
             cells := setAt board.width w.cells y x 0 }
  else w

/-- The inner loop over `x` of the second double loop of `check_adjacent`. -/
def sweepRow (board : Board) (y : Nat) : List Nat → Sweep → Sweep
  | [], w => w
  | x :: xs, w => sweepRow board y xs (sweepCell board y x w)

/-- The second double loop of `check_adjacent`. -/
def sweepRows (board : Board) : List Nat → Sweep → Sweep
  | [], w => w
  | y :: ys, w => sweepRows board ys (sweepRow board y (List.range board.width) w)

/-- How `check_adjacent` ends: it returns a Boolean, or it prints the solution and calls
`exit(0)`. -/
inductive Adjacent where
  | returned (result : Bool) (s : State)
  | exited (s : State)

/-- Source function `State::check_adjacent`. -/
def check_adjacent (board : Board) (s : State) : Adjacent :=
  let m := markRows board (List.range board.height) ⟨s.cells, false⟩
  let w := sweepRows board (List.range board.height) ⟨m.cells, s.killed_positions, []⟩
  let s1 : State := { s with cells := w.cells, killed_positions := w.killed_positions }
  if w.left.isEmpty then Adjacent.exited s1
  else if w.left.any (fun v => decide (w.left.count v ≤ 1)) then
    Adjacent.returned false { s1 with fail := true }
  else Adjacent.returned m.killed s1

/-- How `move_now` ends: it returns, or `check_adjacent` has called `exit(0)` on a cleared
grid. -/
inductive Outcome where
  | returned (s : State)
  | exited (s : State)

/-- The `do ... while (moving)` loop of `move_now` together with the recursive call that
follows it; the first argument bounds the number of passes. `move_now` enters it with
`first = true`, `pending_direction = -1`. -/
def moveLoop (board : Board) : Nat → Nat → State → Bool → Bool → Int → Option Outcome
  | 0, _, _, _, _, _ => none
  | fuel + 1, direction, s, board_unlocked, first, pending_direction =>
      let p := pass board s.killed_positions board_unlocked direction s.cells pending_direction
      let s1 : State := { s with cells := p.cells }
      if !p.moving ∧ first then some (Outcome.returned { s1 with fail := true })
      else if !p.moving ∧ p.pending_direction < 0 then
        match check_adjacent board s1 with
        | Adjacent.exited s2 => some (Outcome.exited s2)
        | Adjacent.returned true s2 =>
            moveLoop board fuel direction s2 (get_board_unlocked board s2.cells) false
              p.pending_direction
        | Adjacent.returned false s2 => some (Outcome.returned s2)
      else if p.moving then
        moveLoop board fuel direction s1 board_unlocked false p.pending_direction
      else
        moveLoop board fuel p.pending_direction.toNat { s1 with killed_positions := [] }
          (get_board_unlocked board s1.cells) true (-1)

/-- Source function `State::move_now(direction)`. -/
def move_now (board : Board) (fuel : Nat) (s : State) (direction : Nat) : Option Outcome :=
  moveLoop board fuel direction { s with killed_positions := [] }
    (get_board_unlocked board s.cells) true (-1)

/-- Source function `State::move_state(direction)`: the copy made by `copy_from`, then `move_now`. -/
def move_state (board : Board) (fuel : Nat) (s : State) (direction : Nat) : Option Outcome :=
  move_now board fuel
    { cells := s.cells, fail := s.fail, killed_positions := [], step := s.step + 1,
      last_direction := direction }
    direction

/-- The vector `special_positions[c]` filled by `main`: the positions of the character `c`
in the input, in increasing order. -/
def special_positions (buf : List Int) (c : Int) : List Nat :=
  (List.range buf.length).filter fun pos => decide (buf.getD pos 0 = c)

/-- The board that `main` builds from the input characters `buf` (line ends removed) and the
width of the first line. -/
def mainBoard (width : Nat) (buf : List Int) : Board :=
  { height := buf.length / width
    width := width
    cells := fun pos =>
      let v := buf.getD pos 0
      if v ≥ 48 ∧ v ≤ 57 then BLANK else v
    goto_table :=
      match special_positions buf PORTAL with
      | [p0, p1] => [(p0, p1), (p1, p0)]
      | _ => []
    unlock_positions := special_positions buf KEY }

/-- The initial state that `main` builds from the input characters; cells without a ball
are empty. -/
def mainState (buf : List Int) : State :=
  { cells := fun pos =>
      let v := buf.getD pos 0
      if v ≥ 48 ∧ v ≤ 57 then v else 0
    fail := false
    killed_positions := []
    step := 0
    last_direction := 4 }

/-- The state in which `move_now` ends. -/
def Outcome.state : Outcome → State
  | Outcome.returned s => s
  | Outcome.exited s => s

/-- The number of cells among the first `n` of a grid that hold the value `c`; with
`n = height * width` and `c` a ball character, the number of balls of colour `c`. -/
def countCells (n : Nat) (cells : Nat → Int) (c : Int) : Nat :=
  match n with
  | 0 => 0
  | k + 1 => countCells k cells c + (if cells k = c then 1 else 0)

/-- Input of a two-row board of width 4: the rows `11.1` and `2 .2`. -/
def rowOfThreeInput : List Int := [49, 49, 46, 49, 50, 32, 46, 50]

/-- Input of a one-row board of width 5: the row `1@.@.`, two portals. -/
def portalInput : List Int := [49, 64, 46, 64, 46]

/-- A one-row board of width 3 whose first cell is the direction sign `<`. -/
def signBoard : Board :=
  { height := 1, width := 3, cells := fun pos => if pos = 0 then 60 else 46,
    goto_table := [], unlock_positions := [] }

/-- A ball grid with one ball of colour `1` on the first cell. -/
def signCells : Nat → Int := fun pos => if pos = 0 then 49 else 0

/-- The outcome of the move east on the board of `rowOfThreeInput`. -/
def rowOfThreeOut : Outcome :=
  (move_now (mainBoard 4 rowOfThreeInput) 8 (mainState rowOfThreeInput) 0).getD
    (Outcome.returned (mainState rowOfThreeInput))

/-- The loop variables at the start of a pass over the board of `portalInput`. -/
def portalPass : Pass := ⟨(mainState portalInput).cells, false, -1⟩

/-- The constant `STEP_LIMIT`. -/
def STEP_LIMIT : Int := 10

/-- A pointer `State*` of `search`: the address of the object and the object it points to. -/
structure Node where
  addr : Nat
  state : State

/-- The address that `new State()` returns in `move_state`. When `search` calls `move_state`,
the `State` objects alive are the ones whose pointers are in `seen` (the initial state and
every successor that was inserted; a successor that was not inserted has been deleted), and
`new` returns the address of an object that does not overlap any living one. The free
address chosen here is the one above all addresses in `seen`; a deleted successor leaves
its address free, and the next call returns it again. -/
def newAddr (seen : List Node) : Nat := (seen.map fun n => n.addr).foldl max 0 + 1

/-- How `search` ends: `check_adjacent` has printed the solution and called `exit(0)` in the
state `s`; `NO SOLUTION` with `exit(2)`; `STEP LIMIT EXCEEDED` with `exit(1)`. -/
inductive SearchEnd where
  | success (s : State)
  | noSolution
  | stepLimitExceeded

/-- The exit code of the process. -/
def SearchEnd.exitCode : SearchEnd → Nat
  | SearchEnd.success _ => 0
  | SearchEnd.noSolution => 2
  | SearchEnd.stepLimitExceeded => 1

/-- What the loop `for (int d = 0; d < 4; ++d)` of `search` leaves behind: the process has
exited inside `move_state`, or the loop has ended with new values of `seen` and `queue`. In
both cases `generated` lists the states that `move_state` has produced so far (a record
kept for the proofs, the program has no such list). -/
inductive Expanded where
  | exited (s : State) (generated : List State)
  | continued (seen queue : List Node) (generated : List State)

/-- The loop `for (int d = 0; d < 4; ++d)` of `search` for the node `pstate`. The set
`seen` is a `std::set<State*>` without a comparison of its own, so `seen.count(next_state)`
compares addresses. The result is `none` when a `move_now` does not end within `fuel`
passes. -/
def expand (board : Board) (fuel : Nat) (pstate : Node) :
    List Nat → List Node → List Node → List State → Option Expanded
  | [], seen, queue, generated => some (Expanded.continued seen queue generated)
  | d :: ds, seen, queue, generated =>
      match move_state board fuel pstate.state d with
      | none => none
      | some (Outcome.exited s) => some (Expanded.exited s (generated ++ [s]))
      | some (Outcome.returned next) =>
          let next_state : Node := ⟨newAddr seen, next⟩
          if seen.any (fun n => decide (n.addr = next_state.addr)) ∨ next.fail then
            expand board fuel pstate ds seen queue (generated ++ [next])
          else
            expand board fuel pstate ds (seen ++ [next_state]) (queue ++ [next_state])
              (generated ++ [next])

/-- A run of `search`: the nodes taken from the queue by `pop_front`, the states produced by
`move_state`, both in order (records kept for the proofs), and how the run ends; `none` when
the bound on the number of iterations or on the passes of a `move_now` is used up. -/
structure SearchRun where
  popped : List Node
  generated : List State
  result : Option SearchEnd

/-- The loop `for (;;)` of `search`; the first number bounds the passes of each `move_now`,
the second the iterations of the loop. -/
def searchLoop (board : Board) (fuel : Nat) :
    Nat → List Node → List Node → List Node → List State → SearchRun
  | 0, _, _, popped, generated => ⟨popped, generated, none⟩
  | _ + 1, _, [], popped, generated => ⟨popped, generated, some SearchEnd.noSolution⟩
  | k + 1, seen, pstate :: queue, popped, generated =>
      if pstate.state.step > STEP_LIMIT then
        ⟨popped, generated, some SearchEnd.stepLimitExceeded⟩
      else
        match expand board fuel pstate [0, 1, 2, 3] seen queue generated with
        | none => ⟨popped ++ [pstate], generated, none⟩
        | some (Expanded.exited s generated1) =>
            ⟨popped ++ [pstate], generated1, some (SearchEnd.success s)⟩
        | some (Expanded.continued seen1 queue1 generated1) =>
            searchLoop board fuel k seen1 queue1 (popped ++ [pstate]) generated1

/-- Source function `search(initial_state)`. -/
def search (board : Board) (fuel iterations : Nat) (initial_state : State) : SearchRun :=
  let p : Node := ⟨newAddr [], initial_state⟩
  searchLoop board fuel iterations [p] [p] [] []

/-- The first `n` cells of a ball grid. -/
def gridOf (n : Nat) (s : State) : List Int := (List.range n).map s.cells

/-- Input of a one-row board of width 5: the row `1. 1.`, two balls of colour `1` that a wall
keeps apart. -/
def shuttleInput : List Int := [49, 46, 32, 49, 46]

/-- Input of a one-row board of width 3: the row `1.1`, solved by the move east. -/
def pairInput : List Int := [49, 46, 49]

/-- The number of moves of the solution, when the search ends with `SUCCESS`: the `step` of the
state in which `check_adjacent` found the grid empty. -/
def SearchEnd.moves : SearchEnd → Option Int
  | SearchEnd.success s => some s.step
  | _ => none

/-- Input of a board of 7 rows of width 14. A ball of colour `1` stands at the top of a
staircase of six rows; the other ball of colour `1` stands in the bottom right corner, under
the last cell of the staircase. West of the first cell of each row lies a `*`, and a `*`
lies two cells above the second ball.

```
*1..
  *...
    *...
      *...
        *... *
          *...
             1
``` -/
def stairInput : List Int :=
  [42, 49, 46, 46, 32, 32, 32, 32, 32, 32, 32, 32, 32, 32,
    32, 32, 42, 46, 46, 46, 32, 32, 32, 32, 32, 32, 32, 32,
    32, 32, 32, 32, 42, 46, 46, 46, 32, 32, 32, 32, 32, 32,
    32, 32, 32, 32, 32, 32, 42, 46, 46, 46, 32, 32, 32, 32,
    32, 32, 32, 32, 32, 32, 32, 32, 42, 46, 46, 46, 32, 42,
    32, 32, 32, 32, 32, 32, 32, 32, 32, 32, 42, 46, 46, 46,
    32, 32, 32, 32, 32, 32, 32, 32, 32, 32, 32, 32, 32, 49]

/-- Input of a one-row board of width 3: the row `12.`, a ball of colour `1` behind a ball of
colour `2`, and a free cell. -/
def queueInput : List Int := [49, 50, 46]

/-- The cell `(y, x)` of a ball grid holds a ball, and a horizontally or vertically adjacent
cell of the grid holds a ball of the same colour. -/
def Matched (board : Board) (cells : Nat → Int) (y x : Nat) : Prop :=
  getAt board.width cells y x ≠ 0 ∧
    ((y + 1 < board.height ∧ getAt board.width cells (y + 1) x = getAt board.width cells y x) ∨
      (1 ≤ y ∧ getAt board.width cells (y - 1) x = getAt board.width cells y x) ∨
      (x + 1 < board.width ∧ getAt board.width cells y (x + 1) = getAt board.width cells y x) ∨
      (1 ≤ x ∧ getAt board.width cells y (x - 1) = getAt board.width cells y x))

/-- The position `pos` is a cell of the grid that is `Matched`. -/
def MatchedAt (board : Board) (cells : Nat → Int) (pos : Nat) : Prop :=
  ∃ y x, y < board.height ∧ x < board.width ∧ pos = y * board.width + x ∧
    Matched board cells y x

/-- The state that `check_adjacent` leaves behind. -/
def Adjacent.state : Adjacent → State
  | Adjacent.returned _ s => s
  | Adjacent.exited s => s

/-- What the first double loop of `check_adjacent` keeps true of the grid `c0` it started
with: the absolute values of the cells are those of `c0`, a cell that differs from `c0` is
negative and `MatchedAt` in `c0`, and the flag `killed` is set only if some cell of `c0` is
`MatchedAt`. -/
def MarkInv (board : Board) (c0 : Nat → Int) (m : Marking) : Prop :=
  (∀ pos, |m.cells pos| = |c0 pos|) ∧
    (∀ pos, m.cells pos = c0 pos ∨ (m.cells pos < 0 ∧ MatchedAt board c0 pos)) ∧
    (m.killed = true → ∃ pos, MatchedAt board c0 pos)

/-- What the second double loop of `check_adjacent` keeps true of the grid `m0` and the set
`k0` it started with: a cell that differs from `m0` was a negative cell of the grid, is zero now and
is in `killed_positions`; every member of `killed_positions` was in `k0` or is a cell of the grid
that was negative. -/
def SweepInv (board : Board) (m0 : Nat → Int) (k0 : List Nat) (w : Sweep) : Prop :=
  (∀ pos, w.cells pos = m0 pos ∨
      (m0 pos < 0 ∧ w.cells pos = 0 ∧ pos ∈ w.killed_positions ∧
        ∃ y x, y < board.height ∧ x < board.width ∧ pos = y * board.width + x)) ∧
    (∀ pos, pos ∈ w.killed_positions → pos ∈ k0 ∨
      (m0 pos < 0 ∧ ∃ y x, y < board.height ∧ x < board.width ∧ pos = y * board.width + x)) ∧
    (∀ pos, pos ∈ k0 → pos ∈ w.killed_positions)

/-- Ball placement: every ball is on a cell of the grid whose terrain is neither a wall nor a
consumer. The array `cells` of a state has `height * width` entries; the model reads it as a
function on all positions, so the entries past the grid hold nothing. -/
def Placed (board : Board) (cells : Nat → Int) : Prop :=
  ∀ pos, cells pos ≠ 0 →
    pos < board.height * board.width ∧ board.cells pos ≠ WALL ∧ board.cells pos ≠ STAR

/-- Every portal cell of the grid has an entry in `goto_table` that leads to a cell of the
grid whose terrain is neither a wall nor a consumer. -/
def PortalsPaired (board : Board) : Prop :=
  ∀ pos, pos < board.height * board.width → board.cells pos = PORTAL →
    gotoLookup board.goto_table pos < board.height * board.width ∧
      board.cells (gotoLookup board.goto_table pos) ≠ WALL ∧
      board.cells (gotoLookup board.goto_table pos) ≠ STAR

/-- The outcome of the move east on the board of `portalInput`. -/
def portalOut : Outcome :=
  (move_now (mainBoard 5 portalInput) 8 (mainState portalInput) 0).getD
    (Outcome.returned (mainState portalInput))

/-- A sequence of user moves from the state `s`: `move_state` for each direction of the list
in turn, up to the first move in which `check_adjacent` calls `exit` on a cleared grid (the
win); the result is `none` when a `move_now` does not end within `fuel` passes. -/
def runMoves (board : Board) (fuel : Nat) : List Nat → State → Option Outcome
  | [], s => some (Outcome.returned s)
  | d :: ds, s =>
      match move_state board fuel s d with
      | some (Outcome.returned s1) => runMoves board fuel ds s1
      | some (Outcome.exited s1) => some (Outcome.exited s1)
      | none => none

/-- No cell of the grid is a consumer `'*'` or a portal `'@'`. -/
def NoStarPortal (board : Board) : Prop :=
  ∀ pos, pos < board.height * board.width →
    board.cells pos ≠ STAR ∧ board.cells pos ≠ PORTAL

/-- A ball grid (no cell is negative) in which the colour `c` has exactly one ball. -/
def Lonely (board : Board) (c : Int) (cells : Nat → Int) : Prop :=
  (∀ pos, 0 ≤ cells pos) ∧ countCells (board.height * board.width) cells c = 1

/-- What the second double loop of `check_adjacent` keeps true while it has swept the first
`n` cells: for every colour, the number of its entries in `left` is the number of its balls
among these cells. -/
def LeftCounts (n : Nat) (w : Sweep) : Prop :=
  ∀ c : Int, 0 < c → w.left.count c = countCells n w.cells c

/-- Input of a one-row board of width 2: the row `1*`, a ball in front of a consumer. -/
def starInput : List Int := [49, 42]

/-- Input of a two-row board of width 7: the rows `21@...@` and six walls followed by `2`.
The colour `1` has one ball, the colour `2` has two. -/
def swallowInput : List Int :=
  [50, 49, 64, 46, 46, 46, 64, 32, 32, 32, 32, 32, 32, 50]

/-- The outcome of the moves east and west on the board of `queueInput`. -/
def queueOut : Outcome :=
  (runMoves (mainBoard 3 queueInput) 8 [0, 2] (mainState queueInput)).getD
    (Outcome.exited (mainState queueInput))

/-- No cell of the grid is a portal `'@'` or a direction sign `'>'`, `'v'`, `'<'`, `'^'`. -/
def NoPortalSign (board : Board) : Prop :=
  ∀ pos, pos < board.height * board.width →
    board.cells pos ≠ PORTAL ∧ board.cells pos ≠ 62 ∧ board.cells pos ≠ 118 ∧
      board.cells pos ≠ 60 ∧ board.cells pos ≠ 94

/-- One more than the number of steps that a ball on the position `pos` can make in the
given direction before it stands at the edge of the grid. -/
def ballWeight (board : Board) (direction : Nat) (pos : Nat) : Nat :=
  1 + (if DIRECTION_DX direction > 0 then board.width - 1 - pos % board.width
      else if DIRECTION_DX direction < 0 then pos % board.width else 0) +
    (if DIRECTION_DY direction > 0 then board.height - 1 - pos / board.width
      else if DIRECTION_DY direction < 0 then pos / board.width else 0)

/-- The sum of the weights of the occupied cells among the first `n` cells of a grid. -/
def weightSum (weight : Nat → Nat) (n : Nat) (cells : Nat → Int) : Nat :=
  match n with
  | 0 => 0
  | k + 1 => weightSum weight k cells + (if cells k ≠ 0 then weight k else 0)

/-- The measure that every pass of `move_now` in which a ball moves, and every
`check_adjacent` that clears balls, decreases: the sum of `ballWeight` over the occupied
cells of the grid. -/
def potential (board : Board) (direction : Nat) (cells : Nat → Int) : Nat :=
  weightSum (ballWeight board direction) (board.height * board.width) cells

end Chrooma

/-! # Proofs -/

set_option maxRecDepth 100000

namespace Transmission

/-! ## Running embedded code -/

theorem bind_ok {α β : Type} {x : Run α} {f : α → Run β} {b : β} :
    (x >>= f) = Except.ok b ↔ ∃ a, x = Except.ok a ∧ f a = Except.ok b := by
  cases x with
  | error e => simp [bind, Except.bind]
  | ok a => simp [bind, Except.bind]

theorem pure_ok {α : Type} {a b : α} : (pure a : Run α) = Except.ok b ↔ a = b := by
  simp [pure, Except.pure]

theorem toChar_ok {v w : Int} : toChar v = Except.ok w ↔ (-128 ≤ v ∧ v ≤ 127) ∧ w = v := by
  unfold toChar
  split
  · rename_i h
    simp [pure, Except.pure, h]
    exact eq_comm
  · rename_i h
    simp [throw, throwThe, MonadExceptOf.throw, h]


/-! ## C9: the win predicate -/

theorem allFulfilled_iff (lv : Level) (s : State) (l : List Nat) :
    allFulfilled lv s l = true ↔
      ∀ e ∈ l, (lv.el e).isReceiver = true → isFulfilled lv s e = true := by
  induction l with
  | nil => simp [allFulfilled]
  | cons e es ih =>
      unfold allFulfilled
      by_cases h1 : (lv.el e).isReceiver = true
      · by_cases h2 : isFulfilled lv s e = true
        · simp [h1, h2, ih]
        · simp [h1, h2]
      · simp [h1, ih]

theorem receiver_fulfilled_iff (lv : Level) (s : State) (i : Nat) :
    ((lv.el i).isReceiver = true → isFulfilled lv s i = true) ↔
      (((lv.el i).type = ElementType.Receiver ∨ (lv.el i).type = ElementType.Transceiver ∨
          (lv.el i).type = ElementType.SwapperTransmitter) →
        s.amounts i = (lv.el i).target) := by
  unfold Element.isReceiver isFulfilled
  cases h : (lv.el i).type <;> simp

/-- C9. `isWin` is true exactly when every Receiver, Transceiver and SwapperTransmitter `i`
has `amounts[i] = target[i]` and, when the TargetValue objective is selected,
`left[objTargetValue] > 0`; elements of the other kinds put no condition on a win. -/
theorem isWin_iff (lv : Level) (obj : Objectives) (s : State) :
    isWin lv obj s = true ↔
      (∀ i, i < lv.size →
        ((lv.el i).type = ElementType.Receiver ∨ (lv.el i).type = ElementType.Transceiver ∨
          (lv.el i).type = ElementType.SwapperTransmitter) →
        s.amounts i = (lv.el i).target) ∧
      (obj.has ObjTargetValue = true → s.left obj.objTargetValue > 0) := by
  have hall : allFulfilled lv s (List.range lv.size) = true ↔
      ∀ i, i < lv.size →
        ((lv.el i).type = ElementType.Receiver ∨ (lv.el i).type = ElementType.Transceiver ∨
          (lv.el i).type = ElementType.SwapperTransmitter) →
        s.amounts i = (lv.el i).target := by
    rw [allFulfilled_iff]
    constructor
    · intro h i hi
      exact (receiver_fulfilled_iff lv s i).1 (h i (List.mem_range.2 hi))
    · intro h i hi
      exact (receiver_fulfilled_iff lv s i).2 (h i (List.mem_range.1 hi))
  unfold isWin
  by_cases h1 : allFulfilled lv s (List.range lv.size) = true
  · by_cases h2 : obj.has ObjTargetValue = true
    · simp [h1, h2, hall.1 h1]
      intro _
      exact hall.1 h1
    · simp [h1, h2]
      exact hall.1 h1
  · have : ¬ (∀ i, i < lv.size →
        ((lv.el i).type = ElementType.Receiver ∨ (lv.el i).type = ElementType.Transceiver ∨
          (lv.el i).type = ElementType.SwapperTransmitter) →
        s.amounts i = (lv.el i).target) := fun h => h1 (hall.2 h)
    simp [h1]
    intro h
    exact absurd h this

end Transmission

namespace Chrooma

/-! ## C7: the trap of a direction sign -/

theorem visit_cases (board : Board) (killed : List Nat) (unlocked : Bool) (d y x : Nat)
    (p : Pass) :
    visit board killed unlocked d y x p = p ∨
      ((48 ≤ getAt board.width p.cells y x ∧ getAt board.width p.cells y x ≤ 57) ∧
        (0 ≤ (y : Int) + DIRECTION_DY d ∧ (y : Int) + DIRECTION_DY d < board.height ∧
          0 ≤ (x : Int) + DIRECTION_DX d ∧ (x : Int) + DIRECTION_DX d < board.width) ∧
        destTerrain board killed unlocked ((y : Int) + DIRECTION_DY d).toNat
          ((x : Int) + DIRECTION_DX d).toNat ≠ WALL ∧
        getAt board.width p.cells ((y : Int) + DIRECTION_DY d).toNat
          ((x : Int) + DIRECTION_DX d).toNat = 0 ∧
        trapped (getAt board.width board.cells y x) d = false ∧
        visit board killed unlocked d y x p =
          moveBall board y x ((y : Int) + DIRECTION_DY d).toNat
            ((x : Int) + DIRECTION_DX d).toNat (getAt board.width p.cells y x) p) := by
  unfold visit
  simp only []
  split_ifs with h1 h2 h3 h4
  · exact Or.inl rfl
  · exact Or.inl rfl
  · exact Or.inl rfl
  · exact Or.inl rfl
  · right
    refine ⟨by omega, by omega, fun h => h3 (Or.inl h), ?_, by simpa using h4, rfl⟩
    by_contra hne
    exact h3 (Or.inr hne)

theorem strchr_arrow (k : Nat) (hk : k < 4) :
    strchr DIRECTION_CHAR (DIRECTION_CHAR.getD k 0) = some k := by
  interval_cases k <;> decide

theorem trapped_of_arrow (t : Int) (k d : Nat) (hk : k < 4)
    (ht : t = DIRECTION_CHAR.getD k 0) (hne : k ≠ d) : trapped t d = true := by
  unfold trapped
  rw [ht, strchr_arrow k hk]
  simpa using hne

theorem visit_trapped (board : Board) (killed : List Nat) (unlocked : Bool) (d y x : Nat)
    (p : Pass) (h : trapped (getAt board.width board.cells y x) d = true) :
    visit board killed unlocked d y x p = p := by
  rcases visit_cases board killed unlocked d y x p with h1 | ⟨_, _, _, _, h5, _⟩
  · exact h1
  · rw [h] at h5
    cases h5

theorem moveBall_cells_ball (board : Board) (y x yd xd : Nat) (v : Int) (p : Pass) (t : Nat)
    (hv : 48 ≤ v ∧ v ≤ 57) (ht : 48 ≤ p.cells t ∧ p.cells t ≤ 57)
    (hsrc : y * board.width + x ≠ t) (hdst : yd * board.width + xd ≠ t) :
    48 ≤ (moveBall board y x yd xd v p).cells t ∧ (moveBall board y x yd xd v p).cells t ≤ 57 := by
  unfold moveBall
  simp only []
  have hs : t ≠ y * board.width + x := fun h => hsrc h.symm
  have hd : t ≠ yd * board.width + xd := fun h => hdst h.symm
  split_ifs <;> simp only [setAt, setCell, hs, hd, if_false] <;> first | exact ht | skip
  split_ifs
  · exact hv
  · exact ht

theorem visit_keeps_trapped (board : Board) (killed : List Nat) (unlocked : Bool)
    (d y x : Nat) (p : Pass) (t : Nat) (htrap : trapped (board.cells t) d = true)
    (ht : 48 ≤ p.cells t ∧ p.cells t ≤ 57) :
    48 ≤ (visit board killed unlocked d y x p).cells t ∧
      (visit board killed unlocked d y x p).cells t ≤ 57 := by
  rcases visit_cases board killed unlocked d y x p with h1 | ⟨hv, _, _, hempty, hfree, heq⟩
  · rw [h1]; exact ht
  · rw [heq]
    apply moveBall_cells_ball board _ _ _ _ _ p t hv ht
    · intro h
      unfold getAt at hfree
      rw [h, htrap] at hfree
      cases hfree
    · intro h
      unfold getAt at hempty
      rw [h] at hempty
      omega

theorem passRow_keeps_trapped (board : Board) (killed : List Nat) (unlocked : Bool)
    (d y : Nat) (t : Nat) (htrap : trapped (board.cells t) d = true) (xs : List Nat) :
    ∀ p : Pass, (48 ≤ p.cells t ∧ p.cells t ≤ 57) →
      48 ≤ (passRow board killed unlocked d y xs p).cells t ∧
        (passRow board killed unlocked d y xs p).cells t ≤ 57 := by
  induction xs with
  | nil => intro p hp; exact hp
  | cons x xs ih =>
      intro p hp
      exact ih _ (visit_keeps_trapped board killed unlocked d y x p t htrap hp)

theorem passRows_keeps_trapped (board : Board) (killed : List Nat) (unlocked : Bool)
    (d : Nat) (t : Nat) (htrap : trapped (board.cells t) d = true) (xs ys : List Nat) :
    ∀ p : Pass, (48 ≤ p.cells t ∧ p.cells t ≤ 57) →
      48 ≤ (passRows board killed unlocked d xs ys p).cells t ∧
        (passRows board killed unlocked d xs ys p).cells t ≤ 57 := by
  induction ys with
  | nil => intro p hp; exact hp
  | cons y ys ih =>
      intro p hp
      exact ih _ (passRow_keeps_trapped board killed unlocked d y t htrap xs p hp)

/-- C7. In a pass of `move_now` with direction `d`, a ball standing on a direction-sign cell
whose arrow `k` differs from `d` is not moved: the loop body at that cell changes nothing, and
after the whole pass the cell still holds a ball. -/
theorem trapped_ball_not_moved (board : Board) (killed : List Nat) (unlocked : Bool)
    (d y x k : Nat) (cells : Nat → Int) (pending : Int) (hk : k < 4)
    (hsign : getAt board.width board.cells y x = DIRECTION_CHAR.getD k 0) (hne : k ≠ d)
    (hball : 48 ≤ getAt board.width cells y x ∧ getAt board.width cells y x ≤ 57) :
    (∀ p : Pass, visit board killed unlocked d y x p = p) ∧
      48 ≤ getAt board.width (pass board killed unlocked d cells pending).cells y x ∧
      getAt board.width (pass board killed unlocked d cells pending).cells y x ≤ 57 := by
  have htrap : trapped (getAt board.width board.cells y x) d = true :=
    trapped_of_arrow _ k d hk hsign hne
  refine ⟨fun p => visit_trapped board killed unlocked d y x p htrap, ?_⟩
  unfold pass
  exact passRows_keeps_trapped board killed unlocked d (y * board.width + x) htrap _ _ _ hball


/-! ## C8: portal symmetry -/

theorem special_positions_spec (buf : List Int) (c : Int) (pos : Nat)
    (h : pos ∈ special_positions buf c) : buf.getD pos 0 = c := by
  unfold special_positions at h
  simpa using (List.mem_filter.1 h).2

theorem special_positions_nodup (buf : List Int) (c : Int) :
    (special_positions buf c).Nodup := by
  unfold special_positions
  exact (List.nodup_range _).filter _

theorem portal_pair_facts (width : Nat) (buf : List Int) (p0 p1 : Nat)
    (hport : special_positions buf PORTAL = [p0, p1]) :
    p0 ≠ p1 ∧ (mainBoard width buf).cells p0 = PORTAL ∧ (mainBoard width buf).cells p1 = PORTAL ∧
      gotoLookup (mainBoard width buf).goto_table p0 = p1 ∧
      gotoLookup (mainBoard width buf).goto_table p1 = p0 := by
  have hnd := special_positions_nodup buf PORTAL
  rw [hport] at hnd
  have hne : p0 ≠ p1 := by
    intro h
    simp [h] at hnd
  have h0 : buf.getD p0 0 = PORTAL := special_positions_spec buf PORTAL p0 (by rw [hport]; simp)
  have h1 : buf.getD p1 0 = PORTAL := special_positions_spec buf PORTAL p1 (by rw [hport]; simp)
  refine ⟨hne, ?_, ?_, ?_, ?_⟩
  · show (if buf.getD p0 0 ≥ 48 ∧ buf.getD p0 0 ≤ 57 then BLANK else buf.getD p0 0) = PORTAL
    rw [h0]
    simp [PORTAL]
  · show (if buf.getD p1 0 ≥ 48 ∧ buf.getD p1 0 ≤ 57 then BLANK else buf.getD p1 0) = PORTAL
    rw [h1]
    simp [PORTAL]
  · simp [mainBoard, hport, gotoLookup]
  · simp [mainBoard, hport, gotoLookup, hne]

/-- C8. On a board that `main` builds from an input with exactly two portal cells `p0` and
`p1`, the pairing is an involution, and for either order `(a, b)` of the two: a ball that
slides onto `a` is removed from `a` and placed on `b`, and the pending redirect is left as it
was. -/
theorem portal_symmetry (width : Nat) (buf : List Int) (p0 p1 a b : Nat)
    (hport : special_positions buf PORTAL = [p0, p1])
    (hab : (a = p0 ∧ b = p1) ∨ (a = p1 ∧ b = p0))
    (killed : List Nat) (unlocked : Bool) (d y x : Nat) (p : Pass)
    (hball : 48 ≤ getAt width p.cells y x ∧ getAt width p.cells y x ≤ 57)
    (hin : 0 ≤ (y : Int) + DIRECTION_DY d ∧
      (y : Int) + DIRECTION_DY d < ((buf.length / width : Nat) : Int) ∧
      0 ≤ (x : Int) + DIRECTION_DX d ∧ (x : Int) + DIRECTION_DX d < (width : Int))
    (hdest : ((y : Int) + DIRECTION_DY d).toNat * width + ((x : Int) + DIRECTION_DX d).toNat = a)
    (hempty : p.cells a = 0)
    (hfree : trapped (getAt width (mainBoard width buf).cells y x) d = false) :
    gotoLookup (mainBoard width buf).goto_table a = b ∧
      gotoLookup (mainBoard width buf).goto_table b = a ∧
      (visit (mainBoard width buf) killed unlocked d y x p).cells a = 0 ∧
      (visit (mainBoard width buf) killed unlocked d y x p).cells b = getAt width p.cells y x ∧
      (visit (mainBoard width buf) killed unlocked d y x p).pending_direction =
        p.pending_direction := by
  obtain ⟨hne, hc0, hc1, hg0, hg1⟩ := portal_pair_facts width buf p0 p1 hport
  have hw : (mainBoard width buf).width = width := rfl
  have hh : (mainBoard width buf).height = buf.length / width := rfl
  have hca : (mainBoard width buf).cells a = PORTAL := by
    rcases hab with ⟨h, _⟩ | ⟨h, _⟩ <;> rw [h] <;> assumption
  have hga : gotoLookup (mainBoard width buf).goto_table a = b := by
    rcases hab with ⟨h, h'⟩ | ⟨h, h'⟩ <;> rw [h, h'] <;> assumption
  have hgb : gotoLookup (mainBoard width buf).goto_table b = a := by
    rcases hab with ⟨h, h'⟩ | ⟨h, h'⟩ <;> rw [h, h'] <;> assumption
  have hneab : a ≠ b := by
    rcases hab with ⟨h, h'⟩ | ⟨h, h'⟩ <;> rw [h, h']
    · exact hne
    · exact fun e => hne e.symm
  have hv : visit (mainBoard width buf) killed unlocked d y x p =
      moveBall (mainBoard width buf) y x ((y : Int) + DIRECTION_DY d).toNat
        ((x : Int) + DIRECTION_DX d).toNat (getAt width p.cells y x) p := by
    unfold visit
    simp only [hw, hh]
    rw [if_neg (by omega), if_neg (by omega), if_neg, if_neg (by simp [hfree])]
    intro h
    rcases h with h | h
    · unfold destTerrain getAt at h
      simp only [hw, hdest, hca] at h
      simp [PORTAL, LOCK, WALL] at h
    · apply h
      unfold getAt
      rw [hdest]
      exact hempty
  refine ⟨hga, hgb, ?_, ?_, ?_⟩
  · rw [hv]
    unfold moveBall
    simp only [getAt, hw, hdest, hca]
    simp [PORTAL, STAR, setCell, setAt, hdest, hga, hneab]
  · rw [hv]
    unfold moveBall
    simp only [getAt, hw, hdest, hca]
    simp [PORTAL, STAR, setCell, setAt, hdest, hga, hneab]
  · rw [hv]
    unfold moveBall
    simp only [getAt, hw, hdest, hca]
    simp [PORTAL, STAR, setCell, setAt, hdest, hga, hneab]


/-! ## C6: the number of balls of a colour -/

theorem countCells_setCell (n : Nat) (cells : Nat → Int) (pos : Nat) (v c : Int) :
    countCells n (setCell cells pos v) c + (if pos < n ∧ cells pos = c then 1 else 0) =
      countCells n cells c + (if pos < n ∧ v = c then 1 else 0) := by
  induction n with
  | zero => simp [countCells]
  | succ k ih =>
      simp only [countCells]
      by_cases hk : k = pos
      · subst hk
        have h1 : ¬ (k < k) := lt_irrefl k
        simp only [h1, false_and, if_false, add_zero] at ih
        simp only [setCell, if_true, Nat.lt_succ_self, true_and]
        rw [ih]
        split_ifs <;> omega
      · have hlt : (pos < k + 1) ↔ (pos < k) := by omega
        simp only [hlt]
        have : setCell cells pos v k = cells k := by simp [setCell, hk]
        rw [this]
        omega

theorem countCells_setCell_le (n : Nat) (cells : Nat → Int) (pos : Nat) (v c : Int)
    (h : v ≠ c) : countCells n (setCell cells pos v) c ≤ countCells n cells c := by
  have := countCells_setCell n cells pos v c
  simp only [h, and_false, if_false, add_zero] at this
  omega

theorem index_lt (h w y x : Nat) (hy : y < h) (hx : x < w) : y * w + x < h * w := by
  have : (y + 1) * w ≤ h * w := Nat.mul_le_mul_right w hy
  have h2 : (y + 1) * w = y * w + w := by ring
  omega

theorem moveBall_count_le (board : Board) (n y x yd xd : Nat) (p : Pass) (c : Int)
    (hc : c ≠ 0) (hsrc : y * board.width + x < n)
    (hv : getAt board.width p.cells y x ≠ 0) (hempty : getAt board.width p.cells yd xd = 0) :
    countCells n (moveBall board y x yd xd (getAt board.width p.cells y x) p).cells c ≤
      countCells n p.cells c := by
  unfold getAt at hv hempty
  have hne : y * board.width + x ≠ yd * board.width + xd := by
    intro h
    rw [h] at hv
    exact hv hempty
  have e1 := countCells_setCell n p.cells (yd * board.width + xd)
    (p.cells (y * board.width + x)) c
  have e2 := countCells_setCell n
    (setCell p.cells (yd * board.width + xd) (p.cells (y * board.width + x)))
    (y * board.width + x) 0 c
  have e3 := countCells_setCell n
    (setCell (setCell p.cells (yd * board.width + xd) (p.cells (y * board.width + x)))
      (y * board.width + x) 0) (yd * board.width + xd) 0 c
  have e4 := countCells_setCell n
    (setCell (setCell (setCell p.cells (yd * board.width + xd) (p.cells (y * board.width + x)))
      (y * board.width + x) 0) (yd * board.width + xd) 0)
    (gotoLookup board.goto_table (yd * board.width + xd)) (p.cells (y * board.width + x)) c
  have hc0 : ¬ ((0 : Int) = c) := fun h => hc h.symm
  have v1 : setCell p.cells (yd * board.width + xd) (p.cells (y * board.width + x))
      (y * board.width + x) = p.cells (y * board.width + x) := by
    simp [setCell, hne]
  have v2 : setCell (setCell p.cells (yd * board.width + xd) (p.cells (y * board.width + x)))
      (y * board.width + x) 0 (yd * board.width + xd) = p.cells (y * board.width + x) := by
    simp [setCell, hne, Ne.symm hne]
  rw [v1] at e2
  rw [v2] at e3
  rw [hempty] at e1
  simp only [hc0, and_false, if_false, add_zero, hsrc, true_and] at e1 e2 e3 e4
  unfold moveBall
  simp only [getAt, setAt]
  split_ifs at e1 e2 e3 e4 ⊢ <;> simp only [] <;> omega

theorem visit_count_le (board : Board) (killed : List Nat) (unlocked : Bool) (d y x : Nat)
    (p : Pass) (c : Int) (hc : c ≠ 0) (hy : y < board.height) (hx : x < board.width) :
    countCells (board.height * board.width) (visit board killed unlocked d y x p).cells c ≤
      countCells (board.height * board.width) p.cells c := by
  rcases visit_cases board killed unlocked d y x p with h1 | ⟨hv, _, _, hempty, _, heq⟩
  · rw [h1]
  · rw [heq]
    apply moveBall_count_le board _ y x _ _ p c hc (index_lt _ _ _ _ hy hx) _ hempty
    omega


theorem mem_loopOrder (d : Int) (size x : Nat) (h : x ∈ loopOrder d size) : x < size := by
  unfold loopOrder at h
  split_ifs at h
  · exact List.mem_range.1 h
  · exact List.mem_range.1 (List.mem_reverse.1 h)

theorem passRow_count_le (board : Board) (killed : List Nat) (unlocked : Bool) (d y : Nat)
    (c : Int) (hc : c ≠ 0) (hy : y < board.height) (xs : List Nat)
    (hxs : ∀ x ∈ xs, x < board.width) :
    ∀ p : Pass,
      countCells (board.height * board.width) (passRow board killed unlocked d y xs p).cells c ≤
        countCells (board.height * board.width) p.cells c := by
  induction xs with
  | nil => intro p; exact le_refl _
  | cons x xs ih =>
      intro p
      exact le_trans (ih (fun a ha => hxs a (List.mem_cons_of_mem _ ha)) _)
        (visit_count_le board killed unlocked d y x p c hc hy (hxs x (List.mem_cons_self _ _)))

theorem passRows_count_le (board : Board) (killed : List Nat) (unlocked : Bool) (d : Nat)
    (c : Int) (hc : c ≠ 0) (xs : List Nat) (hxs : ∀ x ∈ xs, x < board.width) (ys : List Nat)
    (hys : ∀ y ∈ ys, y < board.height) :
    ∀ p : Pass,
      countCells (board.height * board.width) (passRows board killed unlocked d xs ys p).cells c ≤
        countCells (board.height * board.width) p.cells c := by
  induction ys with
  | nil => intro p; exact le_refl _
  | cons y ys ih =>
      intro p
      exact le_trans (ih (fun a ha => hys a (List.mem_cons_of_mem _ ha)) _)
        (passRow_count_le board killed unlocked d y c hc (hys y (List.mem_cons_self _ _)) xs hxs p)

theorem pass_count_le (board : Board) (killed : List Nat) (unlocked : Bool) (d : Nat)
    (cells : Nat → Int) (pending : Int) (c : Int) (hc : c ≠ 0) :
    countCells (board.height * board.width) (pass board killed unlocked d cells pending).cells c ≤
      countCells (board.height * board.width) cells c := by
  unfold pass
  exact passRows_count_le board killed unlocked d c hc _ (fun x hx => mem_loopOrder _ _ x hx) _
    (fun y hy => mem_loopOrder _ _ y hy) _

theorem markCell_count_le (board : Board) (n y x : Nat) (m : Marking) (c : Int) (hc : 0 < c) :
    countCells n (markCell board y x m).cells c ≤ countCells n m.cells c := by
  unfold markCell
  simp only []
  by_cases hv : |getAt board.width m.cells y x| = 0
  · simp [hv]
  · have hpos : 0 < |getAt board.width m.cells y x| :=
      lt_of_le_of_ne (abs_nonneg _) (Ne.symm hv)
    have hne : -|getAt board.width m.cells y x| ≠ c := by omega
    rw [if_neg hv]
    have step : ∀ (cells : Nat → Int) (a b : Nat),
        countCells n (setCell (setCell cells a (-|getAt board.width m.cells y x|)) b
          (-|getAt board.width m.cells y x|)) c ≤ countCells n cells c := fun cells a b =>
      le_trans (countCells_setCell_le n _ b _ c hne) (countCells_setCell_le n _ a _ c hne)
    split_ifs <;>
      first
      | exact le_refl _
      | exact step _ _ _
      | exact le_trans (step _ _ _) (step _ _ _)

theorem markRow_count_le (board : Board) (n y : Nat) (c : Int) (hc : 0 < c) (xs : List Nat) :
    ∀ m : Marking, countCells n (markRow board y xs m).cells c ≤ countCells n m.cells c := by
  induction xs with
  | nil => intro m; exact le_refl _
  | cons x xs ih => intro m; exact le_trans (ih _) (markCell_count_le board n y x m c hc)

theorem markRows_count_le (board : Board) (n : Nat) (c : Int) (hc : 0 < c) (ys : List Nat) :
    ∀ m : Marking, countCells n (markRows board ys m).cells c ≤ countCells n m.cells c := by
  induction ys with
  | nil => intro m; exact le_refl _
  | cons y ys ih => intro m; exact le_trans (ih _) (markRow_count_le board n y c hc _ m)

theorem sweepCell_count_le (board : Board) (n y x : Nat) (w : Sweep) (c : Int) (hc : 0 < c) :
    countCells n (sweepCell board y x w).cells c ≤ countCells n w.cells c := by
  unfold sweepCell
  simp only []
  split_ifs
  · exact le_refl _
  · exact countCells_setCell_le n _ _ 0 c (by omega)
  · exact le_refl _

theorem sweepRow_count_le (board : Board) (n y : Nat) (c : Int) (hc : 0 < c) (xs : List Nat) :
    ∀ w : Sweep, countCells n (sweepRow board y xs w).cells c ≤ countCells n w.cells c := by
  induction xs with
  | nil => intro w; exact le_refl _
  | cons x xs ih => intro w; exact le_trans (ih _) (sweepCell_count_le board n y x w c hc)

theorem sweepRows_count_le (board : Board) (n : Nat) (c : Int) (hc : 0 < c) (ys : List Nat) :
    ∀ w : Sweep, countCells n (sweepRows board ys w).cells c ≤ countCells n w.cells c := by
  induction ys with
  | nil => intro w; exact le_refl _
  | cons y ys ih => intro w; exact le_trans (ih _) (sweepRow_count_le board n y c hc _ w)

theorem check_adjacent_cells (board : Board) (s : State) :
    ∃ s1 : State,
      (check_adjacent board s = Adjacent.exited s1 ∨
        ∃ b, check_adjacent board s = Adjacent.returned b s1) ∧
      s1.cells = (sweepRows board (List.range board.height)
        ⟨(markRows board (List.range board.height) ⟨s.cells, false⟩).cells,
          s.killed_positions, []⟩).cells := by
  unfold check_adjacent
  simp only []
  split_ifs
  · exact ⟨_, Or.inl rfl, rfl⟩
  · exact ⟨_, Or.inr ⟨_, rfl⟩, rfl⟩
  · exact ⟨_, Or.inr ⟨_, rfl⟩, rfl⟩

theorem check_adjacent_count_le (board : Board) (n : Nat) (s s1 : State) (c : Int)
    (hc : 0 < c)
    (h : check_adjacent board s = Adjacent.exited s1 ∨
      ∃ b, check_adjacent board s = Adjacent.returned b s1) :
    countCells n s1.cells c ≤ countCells n s.cells c := by
  obtain ⟨s2, h2, hcells⟩ := check_adjacent_cells board s
  have hs : s1 = s2 := by
    rcases h with h | ⟨b, h⟩ <;> rcases h2 with h2 | ⟨b2, h2⟩ <;> rw [h] at h2 <;>
      first
      | exact Adjacent.exited.inj h2
      | exact (Adjacent.returned.inj h2).2
      | cases h2
  rw [hs, hcells]
  exact le_trans (sweepRows_count_le board n c hc _ _) (markRows_count_le board n c hc _ _)

theorem moveLoop_count_le (board : Board) (c : Int) (hc : 0 < c) (fuel : Nat) :
    ∀ (d : Nat) (s : State) (unlocked first : Bool) (pending : Int) (out : Outcome),
      moveLoop board fuel d s unlocked first pending = some out →
      countCells (board.height * board.width) out.state.cells c ≤
        countCells (board.height * board.width) s.cells c := by
  induction fuel with
  | zero => intro d s unlocked first pending out h; simp [moveLoop] at h
  | succ k ih =>
      intro d s unlocked first pending out h
      have hp := pass_count_le board s.killed_positions unlocked d s.cells pending c (by omega)
      unfold moveLoop at h
      simp only [] at h
      split_ifs at h with h1 h2 h3
      · cases h
        exact hp
      · split at h
        · rename_i s2 hca
          cases h
          exact le_trans (check_adjacent_count_le board _ _ s2 c hc (Or.inl hca)) hp
        · rename_i s2 hca
          exact le_trans (ih _ _ _ _ _ _ h)
            (le_trans (check_adjacent_count_le board _ _ s2 c hc (Or.inr ⟨_, hca⟩)) hp)
        · rename_i s2 hca
          cases h
          exact le_trans (check_adjacent_count_le board _ _ s2 c hc (Or.inr ⟨_, hca⟩)) hp
      · exact le_trans (ih _ _ _ _ _ _ h) hp
      · exact le_trans (ih _ _ _ _ _ _ h) hp


theorem visit_star_count (board : Board) (killed : List Nat) (unlocked : Bool) (d y x : Nat)
    (p : Pass) (c : Int) (hc : c ≠ 0) (hy : y < board.height) (hx : x < board.width)
    (hmoved : visit board killed unlocked d y x p ≠ p)
    (hstar : getAt board.width board.cells ((y : Int) + DIRECTION_DY d).toNat
      ((x : Int) + DIRECTION_DX d).toNat = STAR) :
    countCells (board.height * board.width) (visit board killed unlocked d y x p).cells c +
        (if getAt board.width p.cells y x = c then 1 else 0) =
      countCells (board.height * board.width) p.cells c := by
  rcases visit_cases board killed unlocked d y x p with h1 | ⟨hv, hin, _, hempty, _, heq⟩
  · exact absurd h1 hmoved
  · rw [heq]
    have hsrc := index_lt _ _ _ _ hy hx
    have hdst : ((y : Int) + DIRECTION_DY d).toNat * board.width +
        ((x : Int) + DIRECTION_DX d).toNat < board.height * board.width :=
      index_lt _ _ _ _ (by omega) (by omega)
    generalize ((y : Int) + DIRECTION_DY d).toNat = yd at *
    generalize ((x : Int) + DIRECTION_DX d).toNat = xd at *
    unfold getAt at hv hempty hstar ⊢
    have hne : y * board.width + x ≠ yd * board.width + xd := by
      intro h
      rw [h] at hv
      omega
    have e1 := countCells_setCell (board.height * board.width) p.cells (yd * board.width + xd)
      (p.cells (y * board.width + x)) c
    have e2 := countCells_setCell (board.height * board.width)
      (setCell p.cells (yd * board.width + xd) (p.cells (y * board.width + x)))
      (y * board.width + x) 0 c
    have e3 := countCells_setCell (board.height * board.width)
      (setCell (setCell p.cells (yd * board.width + xd) (p.cells (y * board.width + x)))
        (y * board.width + x) 0) (yd * board.width + xd) 0 c
    have hc0 : ¬ ((0 : Int) = c) := fun h => hc h.symm
    have v1 : setCell p.cells (yd * board.width + xd) (p.cells (y * board.width + x))
        (y * board.width + x) = p.cells (y * board.width + x) := by
      simp [setCell, hne]
    have v2 : setCell (setCell p.cells (yd * board.width + xd) (p.cells (y * board.width + x)))
        (y * board.width + x) 0 (yd * board.width + xd) = p.cells (y * board.width + x) := by
      simp [setCell, hne, Ne.symm hne]
    rw [v1] at e2
    rw [v2] at e3
    rw [hempty] at e1
    simp only [hc0, and_false, if_false, add_zero, hsrc, hdst, true_and] at e1 e2 e3
    unfold moveBall
    simp only [getAt, setAt, hstar, if_true]
    split_ifs at e1 e2 e3 ⊢ <;> omega

/-- C6 (amended). After one user move the number of balls of a colour `c` has not grown: it
is equal or smaller, by an amount that need not be even. A ball that slides onto a `*`
consumer lowers the count of its own colour by exactly one and leaves the count of every
other colour as it was. -/
theorem ball_count_after_move (board : Board) (fuel : Nat) (s : State) (d : Nat)
    (out : Outcome) (c : Int) (hc : 0 < c) (hmove : move_now board fuel s d = some out) :
    countCells (board.height * board.width) out.state.cells c ≤
        countCells (board.height * board.width) s.cells c ∧
      ∀ (killed : List Nat) (unlocked : Bool) (dir y x : Nat) (p : Pass),
        y < board.height → x < board.width →
        visit board killed unlocked dir y x p ≠ p →
        getAt board.width board.cells ((y : Int) + DIRECTION_DY dir).toNat
          ((x : Int) + DIRECTION_DX dir).toNat = STAR →
        countCells (board.height * board.width)
            (visit board killed unlocked dir y x p).cells c +
            (if getAt board.width p.cells y x = c then 1 else 0) =
          countCells (board.height * board.width) p.cells c := by
  constructor
  · unfold move_now at hmove
    exact moveLoop_count_le board c hc fuel d { s with killed_positions := [] } _ _ _ out hmove
  · intro killed unlocked dir y x p hy hx hmoved hstar
    exact visit_star_count board killed unlocked dir y x p c (by omega) hy hx hmoved hstar


/-- C6 (counterexample). On the board with rows `11.1` and `2 .2`, which has no `*` cell, the
move east returns without failure and takes the number of balls of colour `1` from three to
zero: an odd decrease. -/
theorem ball_count_odd_decrease :
    (∀ pos, pos < 8 → (mainBoard 4 rowOfThreeInput).cells pos ≠ STAR) ∧
      countCells 8 (mainState rowOfThreeInput).cells 49 = 3 ∧
      (move_now (mainBoard 4 rowOfThreeInput) 8 (mainState rowOfThreeInput) 0).map
          (fun out => (out.state.fail, countCells 8 out.state.cells 49)) =
        some (false, 0) := by
  decide

theorem ball_count_after_move_witness :
    (0 : Int) < 49 ∧
      move_now (mainBoard 4 rowOfThreeInput) 8 (mainState rowOfThreeInput) 0 =
        some rowOfThreeOut ∧
      countCells ((mainBoard 4 rowOfThreeInput).height * (mainBoard 4 rowOfThreeInput).width)
          rowOfThreeOut.state.cells 49 ≤
        countCells ((mainBoard 4 rowOfThreeInput).height * (mainBoard 4 rowOfThreeInput).width)
          (mainState rowOfThreeInput).cells 49 :=
  ⟨by decide, rfl,
    (ball_count_after_move (mainBoard 4 rowOfThreeInput) 8 (mainState rowOfThreeInput) 0
      rowOfThreeOut 49 (by decide) rfl).1⟩

theorem trapped_ball_not_moved_witness :
    (2 < 4 ∧ getAt signBoard.width signBoard.cells 0 0 = DIRECTION_CHAR.getD 2 0 ∧ 2 ≠ 0 ∧
        (48 ≤ getAt signBoard.width signCells 0 0 ∧ getAt signBoard.width signCells 0 0 ≤ 57)) ∧
      ((∀ p : Pass, visit signBoard [] false 0 0 0 p = p) ∧
        48 ≤ getAt signBoard.width (pass signBoard [] false 0 signCells (-1)).cells 0 0 ∧
        getAt signBoard.width (pass signBoard [] false 0 signCells (-1)).cells 0 0 ≤ 57) :=
  ⟨⟨by decide, by decide, by decide, by decide⟩,
    trapped_ball_not_moved signBoard [] false 0 0 0 2 signCells (-1) (by decide) (by decide)
      (by decide) (by decide)⟩

theorem portal_symmetry_witness :
    (special_positions portalInput PORTAL = [1, 3] ∧
        (48 ≤ getAt 5 portalPass.cells 0 0 ∧ getAt 5 portalPass.cells 0 0 ≤ 57) ∧
        portalPass.cells 1 = 0 ∧
        trapped (getAt 5 (mainBoard 5 portalInput).cells 0 0) 0 = false) ∧
      (gotoLookup (mainBoard 5 portalInput).goto_table 1 = 3 ∧
        gotoLookup (mainBoard 5 portalInput).goto_table 3 = 1 ∧
        (visit (mainBoard 5 portalInput) [] false 0 0 0 portalPass).cells 1 = 0 ∧
        (visit (mainBoard 5 portalInput) [] false 0 0 0 portalPass).cells 3 =
          getAt 5 portalPass.cells 0 0 ∧
        (visit (mainBoard 5 portalInput) [] false 0 0 0 portalPass).pending_direction =
          portalPass.pending_direction) :=
  ⟨⟨by decide, by decide, by decide, by decide⟩,
    portal_symmetry 5 portalInput 1 3 1 3 (by decide) (Or.inl ⟨rfl, rfl⟩) [] false 0 0 0
      portalPass (by decide) (by decide) (by decide) (by decide) (by decide)⟩

end Chrooma

namespace Transmission

theorem error_ne_ok {α : Type} {e : Fault} {a : α} : (throw e : Run α) = Except.ok a ↔ False := by
  simp [throw, throwThe, MonadExceptOf.throw]

/-! ## What `getAvailableConnections` offers -/

theorem offers_true (lv : Level) (obj : Objectives) (s : State) (i j : Nat)
    (h : offers lv obj s i j = .ok true) :
    i ≠ j ∧ canConnectToNow lv s i j = .ok true ∧
      (obj.has ObjCrossWires = true → willCrossIfConnectNow lv s i j = false) := by
  unfold offers at h
  by_cases hij : i = j
  · rw [if_pos hij, pure_ok] at h
    cases h
  · rw [if_neg hij] at h
    obtain ⟨can, hcan, h⟩ := bind_ok.1 h
    cases can with
    | false => simp [pure_ok] at h
    | true =>
        refine ⟨hij, hcan, ?_⟩
        intro ho
        by_contra hw
        have hw' : willCrossIfConnectNow lv s i j = true := by simpa using hw
        simp [ho, hw', pure_ok] at h

theorem availableFrom_mem (lv : Level) (obj : Objectives) (s : State) (i : Nat) (js : List Nat) :
    ∀ (cs : List (Nat × Nat)) (c : Nat × Nat), availableFrom lv obj s i js = .ok cs → c ∈ cs →
      c.1 = i ∧ c.2 ∈ js ∧ c.1 ≠ c.2 ∧ canConnectToNow lv s c.1 c.2 = .ok true ∧
        (obj.has ObjCrossWires = true → willCrossIfConnectNow lv s c.1 c.2 = false) := by
  induction js with
  | nil =>
      intro cs c h hc
      simp [availableFrom, pure_ok] at h
      subst h
      simp at hc
  | cons j js ih =>
      intro cs c h hc
      unfold availableFrom at h
      obtain ⟨b, hb, h⟩ := bind_ok.1 h
      obtain ⟨rest, hrest, h⟩ := bind_ok.1 h
      rw [pure_ok] at h
      subst h
      have lift : c ∈ rest → c.1 = i ∧ c.2 ∈ j :: js ∧ c.1 ≠ c.2 ∧
          canConnectToNow lv s c.1 c.2 = .ok true ∧
          (obj.has ObjCrossWires = true → willCrossIfConnectNow lv s c.1 c.2 = false) := by
        intro hm
        obtain ⟨a, b, c', d⟩ := ih rest c hrest hm
        exact ⟨a, List.mem_cons_of_mem _ b, c', d⟩
      cases b with
      | false => exact lift (by simpa using hc)
      | true =>
          simp only [if_true] at hc
          rcases List.mem_cons.1 hc with hc | hc
          · subst hc
            obtain ⟨h1, h2, h3⟩ := offers_true lv obj s i j hb
            exact ⟨rfl, List.mem_cons_self _ _, h1, h2, h3⟩
          · exact lift hc

theorem availableAll_mem (lv : Level) (obj : Objectives) (s : State) (is : List Nat) :
    ∀ (cs : List (Nat × Nat)) (c : Nat × Nat), availableAll lv obj s is = .ok cs → c ∈ cs →
      c.1 ∈ is ∧ c.2 < lv.size ∧ c.1 ≠ c.2 ∧ canConnectToNow lv s c.1 c.2 = .ok true ∧
        (obj.has ObjCrossWires = true → willCrossIfConnectNow lv s c.1 c.2 = false) := by
  induction is with
  | nil =>
      intro cs c h hc
      simp [availableAll, pure_ok] at h
      subst h
      simp at hc
  | cons i is ih =>
      intro cs c h hc
      unfold availableAll at h
      obtain ⟨row, hrow, h⟩ := bind_ok.1 h
      obtain ⟨rest, hrest, h⟩ := bind_ok.1 h
      rw [pure_ok] at h
      subst h
      rcases List.mem_append.1 hc with hc | hc
      · obtain ⟨a, b, c', d⟩ := availableFrom_mem lv obj s i _ row c hrow hc
        exact ⟨by rw [a]; exact List.mem_cons_self _ _, List.mem_range.1 b, c', d⟩
      · obtain ⟨a, b⟩ := ih rest c hrest hc
        exact ⟨List.mem_cons_of_mem _ a, b⟩

theorem getAvailableConnections_mem (lv : Level) (obj : Objectives) (s : State)
    (cs : List (Nat × Nat)) (i j : Nat) (h : getAvailableConnections lv obj s = .ok cs)
    (hc : (i, j) ∈ cs) :
    i < lv.size ∧ j < lv.size ∧ i ≠ j ∧ canConnectToNow lv s i j = .ok true ∧
      (obj.has ObjCrossWires = true → willCrossIfConnectNow lv s i j = false) := by
  obtain ⟨a, b⟩ := availableAll_mem lv obj s _ cs (i, j) h hc
  exact ⟨List.mem_range.1 a, b⟩

theorem ConnGuard.bounds {lv : Level} {obj : Objectives} {s : State} {src dst : Nat}
    (h : ConnGuard lv obj s src dst) : src < lv.size ∧ dst < lv.size := by
  rcases h with ⟨cs, h1, h2⟩ | ⟨_, _, h3, h4⟩
  · obtain ⟨a, b, _⟩ := getAvailableConnections_mem lv obj s cs src dst h1 h2
    exact ⟨a, b⟩
  · exact ⟨h3, h4⟩


/-! ## Closed forms of the atomic updates -/

theorem deliver_ok {s s1 : State} {id did : Nat} {n : Int} (h : deliver s id did n = .ok s1) :
    s1.connected = set2 s.connected id did (s.connected id did + n) ∧
      s1.left = set1 (set1 s.left id (s.left id - n)) did
        (set1 s.left id (s.left id - n) did + n) ∧
      s1.amounts = set1 s.amounts did (s.amounts did + n) ∧
      s1.colorSwapped = s.colorSwapped := by
  unfold deliver at h
  obtain ⟨c, hc, h⟩ := bind_ok.1 h
  obtain ⟨l, hl, h⟩ := bind_ok.1 h
  obtain ⟨a, ha, h⟩ := bind_ok.1 h
  obtain ⟨l2, hl2, h⟩ := bind_ok.1 h
  rw [pure_ok] at h
  obtain ⟨_, hc⟩ := toChar_ok.1 hc
  obtain ⟨_, hl⟩ := toChar_ok.1 hl
  obtain ⟨_, ha⟩ := toChar_ok.1 ha
  obtain ⟨_, hl2⟩ := toChar_ok.1 hl2
  subst h
  simp only [hc, hl, ha, hl2, and_self]

theorem radialGive_ok {s s1 : State} {id i : Nat} {n : Int} (h : radialGive s id i n = .ok s1) :
    s1.connected = set2 s.connected id i (s.connected id i + n) ∧
      s1.left = set1 s.left i (s.left i + n) ∧
      s1.amounts = set1 s.amounts i (s.amounts i + n) ∧
      s1.colorSwapped = s.colorSwapped := by
  unfold radialGive at h
  obtain ⟨c, hc, h⟩ := bind_ok.1 h
  obtain ⟨l, hl, h⟩ := bind_ok.1 h
  obtain ⟨a, ha, h⟩ := bind_ok.1 h
  rw [pure_ok] at h
  obtain ⟨_, hc⟩ := toChar_ok.1 hc
  obtain ⟨_, hl⟩ := toChar_ok.1 hl
  obtain ⟨_, ha⟩ := toChar_ok.1 ha
  subst h
  simp only [hc, hl, ha, and_self]

theorem sync_fold (lv : Level) (id : Nat) (v : Int) (l : List Nat) :
    ∀ s : State,
      let t := l.foldl
        (fun st e =>
          if e = id then st
          else if (lv.el e).color = (lv.el id).color ∧ (lv.el e).type = (lv.el id).type then
            { st with amounts := set1 st.amounts e v, left := set1 st.left e v }
          else st)
        s
      t.connected = s.connected ∧ t.colorSwapped = s.colorSwapped ∧
      (∀ k, t.amounts k =
        if k ∈ l ∧ k ≠ id ∧ (lv.el k).color = (lv.el id).color ∧
            (lv.el k).type = (lv.el id).type then v else s.amounts k) ∧
      (∀ k, t.left k =
        if k ∈ l ∧ k ≠ id ∧ (lv.el k).color = (lv.el id).color ∧
            (lv.el k).type = (lv.el id).type then v else s.left k) := by
  induction l with
  | nil => intro s; simp
  | cons e es ih =>
      intro s
      simp only [List.foldl_cons]
      by_cases he : e = id
      · rw [if_pos he]
        obtain ⟨h1, h2, h3, h4⟩ := ih s
        refine ⟨h1, h2, ?_, ?_⟩
        · intro k
          rw [h3 k]
          by_cases hk : k = e
          · have : k = id := hk.trans he
            simp [this]
          · simp [hk]
        · intro k
          rw [h4 k]
          by_cases hk : k = e
          · have : k = id := hk.trans he
            simp [this]
          · simp [hk]
      · rw [if_neg he]
        by_cases hm : (lv.el e).color = (lv.el id).color ∧ (lv.el e).type = (lv.el id).type
        · rw [if_pos hm]
          obtain ⟨h1, h2, h3, h4⟩ :=
            ih { s with amounts := set1 s.amounts e v, left := set1 s.left e v }
          refine ⟨h1, h2, ?_, ?_⟩
          · intro k
            rw [h3 k]
            by_cases hk : k = e
            · subst hk
              simp [he, hm, set1]
            · simp [hk, set1]
          · intro k
            rw [h4 k]
            by_cases hk : k = e
            · subst hk
              simp [he, hm, set1]
            · simp [hk, set1]
        · rw [if_neg hm]
          obtain ⟨h1, h2, h3, h4⟩ := ih s
          refine ⟨h1, h2, ?_, ?_⟩
          · intro k
            rw [h3 k]
            by_cases hk : k = e
            · subst hk
              simp [hm]
            · simp [hk]
          · intro k
            rw [h4 k]
            by_cases hk : k = e
            · subst hk
              simp [hm]
            · simp [hk]

theorem sync_ok (lv : Level) (s : State) (id : Nat) :
    (syncToAllCellTransmittersNow lv s id).connected = s.connected ∧
      (syncToAllCellTransmittersNow lv s id).colorSwapped = s.colorSwapped ∧
      (∀ k, (syncToAllCellTransmittersNow lv s id).amounts k =
        if k < lv.size ∧ k ≠ id ∧ (lv.el k).color = (lv.el id).color ∧
            (lv.el k).type = (lv.el id).type then s.left id else s.amounts k) ∧
      (∀ k, (syncToAllCellTransmittersNow lv s id).left k =
        if k < lv.size ∧ k ≠ id ∧ (lv.el k).color = (lv.el id).color ∧
            (lv.el k).type = (lv.el id).type then s.left id else s.left k) := by
  have h := sync_fold lv id (s.left id) (List.range lv.size) s
  simp only [List.mem_range] at h
  exact h


/-! ## A predicate that survives the atomic updates survives the stepper -/

theorem leaf_radial (lv : Level) (s : State) (id src : Nat)
    (h : (lv.el id).type = ElementType.RadialTransmitter) :
    onConnectedNowLeaf lv s id src = .ok (s, 0) := by
  unfold onConnectedNowLeaf
  rw [h]
  rfl

theorem onConnectedNowF_leaf (lv : Level) (recur : State → Nat → Nat → Run (State × Int))
    (s : State) (id src : Nat) (h : (lv.el id).type ≠ ElementType.RadialTransmitter) :
    onConnectedNowF lv recur s id src = onConnectedNowLeaf lv s id src := by
  unfold onConnectedNowF
  cases ht : (lv.el id).type <;> first | rfl | exact absurd ht h

theorem mem_adjIds {lv : Level} {id i : Nat} (h : i ∈ adjIds lv id) :
    i < lv.size ∧ i ≠ id ∧ (lv.el i).isReceiver = true := by
  unfold adjIds at h
  obtain ⟨h1, h2⟩ := List.mem_filter.1 h
  simp only [Bool.and_eq_true, Bool.not_eq_true', Bool.or_eq_false_iff, decide_eq_false_iff_not,
    Bool.not_eq_false'] at h2
  exact ⟨List.mem_range.1 h1, h2.1.1, h2.1.2⟩

theorem radialLoop_stable (lv : Level) (obj : Objectives) (P : State → Prop)
    (hP : Stable lv obj P) (recur : State → Nat → Nat → Run (State × Int))
    (hrec : ∀ (s1 : State) (id src : Nat) (s2 : State) (r : Int), id < lv.size →
      (∀ s3 x, onConnectedNowLeaf lv s1 id src = .ok (s3, x) → P s3) →
      recur s1 id src = .ok (s2, r) → P s2)
    (s0 : State) (id : Nat) (h0 : P s0)
    (hty : (lv.el id).type = ElementType.RadialTransmitter) (hid : id < lv.size)
    (rest : List Nat) (hsub : ∀ i ∈ rest, i ∈ adjIds lv id) :
    ∀ (s : State) (result : Int) (s2 : State) (r : Int), P s →
      radialLoop lv recur id (sumTo lv.size (fun k => s0.connected k id)) rest s result =
        .ok (s2, r) → P s2 := by
  induction rest with
  | nil =>
      intro s result s2 r hs h
      simp only [radialLoop, pure_ok, Prod.mk.injEq] at h
      rw [← h.1]
      exact hs
  | cons i rest ih =>
      intro s result s2 r hs h
      have ih' := ih (fun a ha => hsub a (List.mem_cons_of_mem _ ha))
      unfold radialLoop at h
      split_ifs at h with h1 h2 h3 h4
      · exact ih' s result s2 r hs h
      · exact ih' s result s2 r hs h
      · exact ih' s result s2 r hs h
      · exact ih' s result s2 r hs h
      · obtain ⟨s1, hgive, h⟩ := bind_ok.1 h
        obtain ⟨⟨sa, x⟩, hcall, h⟩ := bind_ok.1 h
        simp only [] at h
        have hi := hsub i (List.mem_cons_self _ _)
        have hsa : P sa :=
          hrec s1 i id sa x (mem_adjIds hi).1
            (fun s3 y hleaf => hP.give s0 s id i s1 s3 y h0 hs hty hid hi h2 h3 h4 hgive hleaf)
            hcall
        exact ih' sa _ s2 r hsa h

theorem onConnectedNow_stable (lv : Level) (obj : Objectives) (P : State → Prop)
    (hP : Stable lv obj P) (fuel : Nat) :
    ∀ (s1 : State) (id src : Nat) (s2 : State) (r : Int), id < lv.size →
      (∀ s3 x, onConnectedNowLeaf lv s1 id src = .ok (s3, x) → P s3) →
      onConnectedNow lv fuel s1 id src = .ok (s2, r) → P s2 := by
  induction fuel with
  | zero =>
      intro s1 id src s2 r _ _ h
      simp [onConnectedNow, error_ne_ok] at h
  | succ k ih =>
      intro s1 id src s2 r hid hleaf h
      by_cases hty : (lv.el id).type = ElementType.RadialTransmitter
      · have h1 : P s1 := hleaf s1 0 (leaf_radial lv s1 id src hty)
        have h' : radialLoop lv (onConnectedNow lv k) id
            (sumTo lv.size (fun i => s1.connected i id)) (adjIds lv id) s1 0 = .ok (s2, r) := by
          simp only [onConnectedNow, onConnectedNowF, hty] at h
          exact h
        exact radialLoop_stable lv obj P hP (onConnectedNow lv k) ih s1 id h1 hty hid
          (adjIds lv id) (fun i hi => hi) s1 0 s2 r h1 h'
      · have h' : onConnectedNowLeaf lv s1 id src = .ok (s2, r) := by
          rw [← onConnectedNowF_leaf lv (onConnectedNow lv k) s1 id src hty]
          exact h
        exact hleaf s2 r h'

theorem base_connect_stable (lv : Level) (obj : Objectives) (P : State → Prop)
    (hP : Stable lv obj P) (fuel : Nat) (s : State) (src dst : Nat) (s2 : State) (r : Int)
    (hs : P s) (hg : ConnGuard lv obj s src dst)
    (h : Element.connectToNow lv fuel s src dst = .ok (s2, r)) : P s2 := by
  unfold Element.connectToNow at h
  simp only [] at h
  split_ifs at h with hn
  · obtain ⟨s4, hdel, h⟩ := bind_ok.1 h
    obtain ⟨⟨s5, x⟩, hcall, h⟩ := bind_ok.1 h
    simp only [pure_ok, Prod.mk.injEq] at h
    rw [← h.1]
    exact onConnectedNow_stable lv obj P hP fuel s4 dst src s5 x hg.bounds.2
      (fun s3 y hleaf => hP.wire s src dst s4 s3 y hs hg hn hdel hleaf) hcall
  · simp only [pure_ok, Prod.mk.injEq] at h
    rw [← h.1]
    exact hs

theorem connectToNow_stable (lv : Level) (obj : Objectives) (P : State → Prop)
    (hP : Stable lv obj P) (fuel : Nat) (s : State) (src dst : Nat) (s2 : State) (r : Int)
    (hs : P s) (hg : ConnGuard lv obj s src dst)
    (h : connectToNow lv fuel s src dst = .ok (s2, r)) : P s2 := by
  unfold connectToNow at h
  by_cases hty : (lv.el src).type = ElementType.CellTransmitter
  · simp only [hty] at h
    obtain ⟨⟨s1, result⟩, hbase, h⟩ := bind_ok.1 h
    simp only [] at h
    have h1 : P s1 := base_connect_stable lv obj P hP fuel s src dst s1 result hs hg hbase
    split_ifs at h
    · simp only [pure_ok, Prod.mk.injEq] at h
      rw [← h.1]
      exact hP.sync s1 src h1 hty
    · simp only [pure_ok, Prod.mk.injEq] at h
      rw [← h.1]
      exact h1
  · have h' : Element.connectToNow lv fuel s src dst = .ok (s2, r) := by
      cases ht : (lv.el src).type <;> simp only [ht] at h <;>
        first | exact h | exact absurd ht hty
    exact base_connect_stable lv obj P hP fuel s src dst s2 r hs hg h'


/-! ## From `connectToNow` to every reachable node -/

theorem flowRow_preserves (lv : Level) (obj : Objectives) (P : State → Prop) (fuel : Nat)
    (hconn : ∀ (s : State) (src dst : Nat) (s2 : State) (r : Int), P s →
      ConnGuard lv obj s src dst → connectToNow lv fuel s src dst = .ok (s2, r) → P s2)
    (i : Nat) (hi : i < lv.size) (hsend : (lv.el i).isSender = true) (js : List Nat)
    (hjs : ∀ j ∈ js, j < lv.size) :
    ∀ (s : State) (result : Int) (s2 : State) (r : Int), P s →
      flowRow lv fuel i js s result = .ok (s2, r) → P s2 := by
  induction js with
  | nil =>
      intro s result s2 r hs h
      simp only [flowRow, pure_ok, Prod.mk.injEq] at h
      rw [← h.1]
      exact hs
  | cons j js ih =>
      intro s result s2 r hs h
      have ih' := ih (fun a ha => hjs a (List.mem_cons_of_mem _ ha))
      unfold flowRow at h
      split_ifs at h with h1
      · exact ih' s result s2 r hs h
      · obtain ⟨⟨s1, x⟩, hcall, h⟩ := bind_ok.1 h
        simp only [] at h
        have h1' : P s1 :=
          hconn s i j s1 x hs (Or.inr ⟨h1, hsend, hi, hjs j (List.mem_cons_self _ _)⟩) hcall
        exact ih' s1 _ s2 r h1' h

theorem flowRows_preserves (lv : Level) (obj : Objectives) (P : State → Prop) (fuel : Nat)
    (hconn : ∀ (s : State) (src dst : Nat) (s2 : State) (r : Int), P s →
      ConnGuard lv obj s src dst → connectToNow lv fuel s src dst = .ok (s2, r) → P s2)
    (is : List Nat) (his : ∀ i ∈ is, i < lv.size) :
    ∀ (s : State) (result : Int) (s2 : State) (r : Int), P s →
      flowRows lv fuel is s result = .ok (s2, r) → P s2 := by
  induction is with
  | nil =>
      intro s result s2 r hs h
      simp only [flowRows, pure_ok, Prod.mk.injEq] at h
      rw [← h.1]
      exact hs
  | cons i is ih =>
      intro s result s2 r hs h
      have ih' := ih (fun a ha => his a (List.mem_cons_of_mem _ ha))
      unfold flowRows at h
      split_ifs at h with h1
      · exact ih' s result s2 r hs h
      · obtain ⟨⟨s1, x⟩, hcall, h⟩ := bind_ok.1 h
        simp only [] at h
        have hsend : (lv.el i).isSender = true := by
          by_contra hc
          exact h1 (Or.inr (by simpa using hc))
        have h1' : P s1 :=
          flowRow_preserves lv obj P fuel hconn i (his i (List.mem_cons_self _ _)) hsend _
            (fun j hj => List.mem_range.1 hj) s result s1 x hs hcall
        exact ih' s1 _ s2 r h1' h

theorem flowLoop_preserves (lv : Level) (obj : Objectives) (P : State → Prop) (fuel : Nat)
    (hconn : ∀ (s : State) (src dst : Nat) (s2 : State) (r : Int), P s →
      ConnGuard lv obj s src dst → connectToNow lv fuel s src dst = .ok (s2, r) → P s2)
    (k : Nat) :
    ∀ (s s2 : State), P s → flowLoop lv fuel k s = .ok s2 → P s2 := by
  induction k with
  | zero =>
      intro s s2 _ h
      simp [flowLoop, error_ne_ok] at h
  | succ k ih =>
      intro s s2 hs h
      unfold flowLoop at h
      obtain ⟨⟨s1, x⟩, hcall, h⟩ := bind_ok.1 h
      simp only [] at h
      have h1 : P s1 :=
        flowRows_preserves lv obj P fuel hconn _ (fun i hi => List.mem_range.1 hi) s 0 s1 x hs
          hcall
      split_ifs at h
      · exact ih s1 s2 h1 h
      · rw [pure_ok] at h
        rw [← h]
        exact h1

theorem addConnection_state (lv : Level) (fuel : Nat) (sp sp1 : StatePlus) (src dst : Nat)
    (h : addConnection lv fuel sp src dst = .ok sp1) :
    ∃ (s1 : State) (x : Int), connectToNow lv fuel sp.state src dst = .ok (s1, x) ∧
      flowLoop lv fuel fuel s1 = .ok sp1.state ∧ sp1.depth = sp.depth + 1 ∧
      sp1.steps = (src, dst) :: sp.steps := by
  unfold addConnection at h
  obtain ⟨⟨s1, x⟩, hcall, h⟩ := bind_ok.1 h
  simp only [] at h
  obtain ⟨s2, hloop, h⟩ := bind_ok.1 h
  rw [pure_ok] at h
  subst h
  exact ⟨s1, x, hcall, hloop, rfl, rfl⟩

/-- Induction over the reachable nodes, at the level of `connectToNow`. -/
theorem reachable_of_connect (lv : Level) (obj : Objectives) (P : State → Prop)
    (hinit : ∀ sp, getInitialState lv = .ok sp → P sp.state)
    (hconn : ∀ (fuel : Nat) (s : State) (src dst : Nat) (s2 : State) (r : Int), P s →
      ConnGuard lv obj s src dst → connectToNow lv fuel s src dst = .ok (s2, r) → P s2) :
    ∀ sp, Reachable lv obj sp → P sp.state := by
  intro sp h
  induction h with
  | init sp h => exact hinit sp h
  | step sp cs c fuel sp1 _ hcs hc hadd ih =>
      obtain ⟨s1, x, hcall, hloop, _, _⟩ := addConnection_state lv fuel sp sp1 c.1 c.2 hadd
      have h1 : P s1 := hconn fuel sp.state c.1 c.2 s1 x ih (Or.inl ⟨cs, hcs, hc⟩) hcall
      exact flowLoop_preserves lv obj P fuel (hconn fuel) fuel s1 sp1.state h1 hloop

/-- Induction over the reachable nodes, at the level of the atomic updates. -/
theorem reachable_of_stable (lv : Level) (obj : Objectives) (P : State → Prop)
    (hinit : ∀ sp, getInitialState lv = .ok sp → P sp.state) (hP : Stable lv obj P) :
    ∀ sp, Reachable lv obj sp → P sp.state :=
  reachable_of_connect lv obj P hinit
    (fun fuel s src dst s2 r hs hg h => connectToNow_stable lv obj P hP fuel s src dst s2 r hs hg h)

/-! ## The initial state -/

theorem initLoop_ok (es : List Element) :
    ∀ (id : Nat) (s s1 : State), initLoop es id s = .ok s1 →
      s1.connected = s.connected ∧ s1.colorSwapped = s.colorSwapped ∧
      (∀ k, s1.amounts k =
        if id ≤ k ∧ k < id + es.length then (es.getD (k - id) default).amount else s.amounts k) ∧
      (∀ k, s1.left k =
        if id ≤ k ∧ k < id + es.length then (es.getD (k - id) default).amount else s.left k) := by
  induction es with
  | nil =>
      intro id s s1 h
      simp only [initLoop, pure_ok] at h
      subst h
      refine ⟨rfl, rfl, ?_, ?_⟩ <;> intro k <;>
        rw [if_neg (by simp only [List.length_nil]; omega)]
  | cons e es ih =>
      intro id s s1 h
      unfold initLoop at h
      obtain ⟨v, hv, h⟩ := bind_ok.1 h
      obtain ⟨_, hv⟩ := toChar_ok.1 hv
      subst hv
      obtain ⟨h1, h2, h3, h4⟩ := ih (id + 1) _ s1 h
      refine ⟨h1, h2, ?_, ?_⟩
      · intro k
        rw [h3 k]
        simp only [List.length_cons]
        by_cases hk : k = id
        · subst hk
          simp [set1]
        · by_cases hlt : id + 1 ≤ k ∧ k < id + 1 + es.length
          · have : id ≤ k ∧ k < id + (es.length + 1) := by omega
            rw [if_pos hlt, if_pos this]
            have hk' : k - id = (k - (id + 1)) + 1 := by omega
            rw [hk']
            simp
          · have : ¬ (id ≤ k ∧ k < id + (es.length + 1)) := by omega
            rw [if_neg hlt, if_neg this]
            simp [set1, hk]
      · intro k
        rw [h4 k]
        simp only [List.length_cons]
        by_cases hk : k = id
        · subst hk
          simp [set1]
        · by_cases hlt : id + 1 ≤ k ∧ k < id + 1 + es.length
          · have : id ≤ k ∧ k < id + (es.length + 1) := by omega
            rw [if_pos hlt, if_pos this]
            have hk' : k - id = (k - (id + 1)) + 1 := by omega
            rw [hk']
            simp
          · have : ¬ (id ≤ k ∧ k < id + (es.length + 1)) := by omega
            rw [if_neg hlt, if_neg this]
            simp [set1, hk]

theorem el_amount_of_ge (lv : Level) (k : Nat) (h : lv.size ≤ k) : (lv.el k).amount = 0 := by
  unfold Level.el
  unfold Level.size at h
  rw [List.getD_eq_default _ _ h]
  rfl

theorem getInitialState_ok (lv : Level) (sp : StatePlus) (h : getInitialState lv = .ok sp) :
    (∀ i j, sp.state.connected i j = 0) ∧ (∀ k, sp.state.colorSwapped k = 0) ∧
      (∀ k, sp.state.amounts k = (lv.el k).amount) ∧
      (∀ k, sp.state.left k = (lv.el k).amount) ∧ sp.depth = 0 ∧ sp.steps = [] := by
  unfold getInitialState at h
  obtain ⟨s, hs, h⟩ := bind_ok.1 h
  rw [pure_ok] at h
  subst h
  obtain ⟨h1, h2, h3, h4⟩ := initLoop_ok lv.elements 0 zeroState s hs
  refine ⟨?_, ?_, ?_, ?_, rfl, rfl⟩
  · intro i j
    show s.connected i j = 0
    rw [h1]
    rfl
  · intro k
    show s.colorSwapped k = 0
    rw [h2]
    rfl
  · intro k
    show s.amounts k = _
    rw [h3 k]
    by_cases hk : k < lv.size
    · have : 0 ≤ k ∧ k < 0 + lv.elements.length := ⟨Nat.zero_le _, by simpa [Level.size] using hk⟩
      rw [if_pos this]
      rfl
    · have : ¬ (0 ≤ k ∧ k < 0 + lv.elements.length) := by
        simp only [Level.size] at hk
        omega
      rw [if_neg this, el_amount_of_ge lv k (by omega)]
      rfl
  · intro k
    show s.left k = _
    rw [h4 k]
    by_cases hk : k < lv.size
    · have : 0 ≤ k ∧ k < 0 + lv.elements.length := ⟨Nat.zero_le _, by simpa [Level.size] using hk⟩
      rw [if_pos this]
      rfl
    · have : ¬ (0 ≤ k ∧ k < 0 + lv.elements.length) := by
        simp only [Level.size] at hk
        omega
      rw [if_neg this, el_amount_of_ge lv k (by omega)]
      rfl


/-! ## The reactions that make no nested call -/

theorem leaf_cases (lv : Level) (s1 s2 : State) (id src : Nat) (r : Int)
    (h : onConnectedNowLeaf lv s1 id src = .ok (s2, r)) :
    s2.connected = s1.connected ∧
      (((lv.el id).type = ElementType.SignalBooster ∧ s1.left id > 0 ∧
          s1.left id = s1.amounts id ∧ s2.left = set1 s1.left id (s1.left id * 2) ∧
          s2.amounts = s1.amounts ∧ s2.colorSwapped = s1.colorSwapped ∧ r = s1.amounts id) ∨
        ((lv.el id).type = ElementType.CellTransmitter ∧
          s2 = syncToAllCellTransmittersNow lv s1 id ∧ r = 0) ∨
        ((lv.el id).type ≠ ElementType.SignalBooster ∧
          (lv.el id).type ≠ ElementType.CellTransmitter ∧ s2.left = s1.left ∧
          s2.amounts = s1.amounts ∧ r = 0)) := by
  unfold onConnectedNowLeaf at h
  cases hty : (lv.el id).type <;> simp only [hty] at h
  · -- CellTransmitter
    simp only [pure_ok, Prod.mk.injEq] at h
    obtain ⟨h1, h2⟩ := h
    subst h1
    exact ⟨(sync_ok lv s1 id).1, Or.inr (Or.inl ⟨rfl, rfl, h2.symm⟩)⟩
  · -- RadialTransmitter
    simp only [pure_ok, Prod.mk.injEq] at h
    obtain ⟨h1, h2⟩ := h
    subst h1
    exact ⟨rfl, Or.inr (Or.inr ⟨by simp, by simp, rfl, rfl, h2.symm⟩)⟩
  · -- Receiver
    simp only [pure_ok, Prod.mk.injEq] at h
    obtain ⟨h1, h2⟩ := h
    subst h1
    exact ⟨rfl, Or.inr (Or.inr ⟨by simp, by simp, rfl, rfl, h2.symm⟩)⟩
  · -- SignalBooster
    by_cases ha : ¬ s1.left id > 0
    · rw [if_pos ha] at h
      exact absurd h (by simp [error_ne_ok])
    · rw [if_neg ha] at h
      by_cases hb : s1.left id ≠ s1.amounts id
      · rw [if_pos hb] at h
        exact absurd h (by simp [error_ne_ok])
      · rw [if_neg hb] at h
        obtain ⟨l, hl, h⟩ := bind_ok.1 h
        obtain ⟨_, hl⟩ := toChar_ok.1 hl
        simp only [pure_ok, Prod.mk.injEq] at h
        obtain ⟨h1, h2⟩ := h
        subst h1
        subst hl
        refine ⟨rfl, Or.inl ⟨rfl, by omega, by simpa using hb, rfl, rfl, rfl, h2.symm⟩⟩
  · -- SwapperTransmitter
    split_ifs at h
    · obtain ⟨c, _, h⟩ := bind_ok.1 h
      simp only [pure_ok, Prod.mk.injEq] at h
      obtain ⟨h1, h2⟩ := h
      subst h1
      exact ⟨rfl, Or.inr (Or.inr ⟨by simp, by simp, rfl, rfl, h2.symm⟩)⟩
    · simp only [pure_ok, Prod.mk.injEq] at h
      obtain ⟨h1, h2⟩ := h
      subst h1
      exact ⟨rfl, Or.inr (Or.inr ⟨by simp, by simp, rfl, rfl, h2.symm⟩)⟩
  · -- Transceiver
    simp only [pure_ok, Prod.mk.injEq] at h
    obtain ⟨h1, h2⟩ := h
    subst h1
    exact ⟨rfl, Or.inr (Or.inr ⟨by simp, by simp, rfl, rfl, h2.symm⟩)⟩
  · -- Transmitter
    simp only [pure_ok, Prod.mk.injEq] at h
    obtain ⟨h1, h2⟩ := h
    subst h1
    exact ⟨rfl, Or.inr (Or.inr ⟨by simp, by simp, rfl, rfl, h2.symm⟩)⟩

/-! ## What a legal connection guarantees -/

theorem canConnectToNow_true (lv : Level) (s : State) (i j : Nat)
    (h : canConnectToNow lv s i j = .ok true) :
    connectable lv i j = true ∧ s.connected i j = 0 ∧ s.connected j i = 0 ∧ s.left i > 0 ∧
      canReceivePacketNow lv s j = true := by
  unfold canConnectToNow at h
  split_ifs at h with h1 h2 h3
  · simp [pure_ok] at h
  · simp [pure_ok] at h
  · simp [pure_ok] at h
  · refine ⟨by simpa using h1, ?_, ?_, ?_, ?_⟩
    · by_contra hc; exact h2 (Or.inl hc)
    · by_contra hc; exact h2 (Or.inr hc)
    · by_contra hc
      apply h3
      left
      simp [hasExtraPacketNow, hc]
    · by_contra hc
      apply h3
      right
      simpa using hc

theorem isWireAlwaysBlocked_false (lv : Level) (i j : Nat)
    (h : isWireAlwaysBlocked lv i j = false) :
    i ≠ j ∧ (lv.el i).isSender = true ∧ (lv.el j).isReceiver = true ∧
      (lv.el i).isColorMatch (lv.el j) = true := by
  unfold isWireAlwaysBlocked at h
  simp only [] at h
  by_cases h1 : i = j ∨ (!(lv.el i).isSender) = true ∨ (!(lv.el j).isReceiver) = true
  · rw [if_pos h1] at h
    cases h
  · by_cases h2 : (!(lv.el i).isColorMatch (lv.el j)) = true
    · rw [if_neg h1, if_pos h2] at h
      cases h
    · refine ⟨fun e => h1 (Or.inl e), ?_, ?_, by simpa using h2⟩
      · by_contra hc
        exact h1 (Or.inr (Or.inl (by simpa using hc)))
      · by_contra hc
        exact h1 (Or.inr (Or.inr (by simpa using hc)))

theorem connectable_true (lv : Level) (i j : Nat) (h : connectable lv i j = true) :
    i < lv.size ∧ j < lv.size ∧ i ≠ j ∧ (lv.el i).isSender = true ∧
      (lv.el j).isReceiver = true ∧ (lv.el i).isColorMatch (lv.el j) = true := by
  unfold connectable at h
  simp only [Bool.and_eq_true, decide_eq_true_eq, Bool.not_eq_true'] at h
  obtain ⟨⟨hi, hj⟩, hb⟩ := h
  obtain ⟨a, b, c, d⟩ := isWireAlwaysBlocked_false lv i j hb
  exact ⟨hi, hj, a, b, c, d⟩

theorem ConnGuard.facts {lv : Level} {obj : Objectives} {s : State} {src dst : Nat}
    (h : ConnGuard lv obj s src dst) :
    src < lv.size ∧ dst < lv.size ∧ (lv.el src).isSender = true := by
  rcases h with ⟨cs, h1, h2⟩ | ⟨_, h2, h3, h4⟩
  · obtain ⟨a, b, _, hcan, _⟩ := getAvailableConnections_mem lv obj s cs src dst h1 h2
    obtain ⟨hconn, _⟩ := canConnectToNow_true lv s src dst hcan
    exact ⟨a, b, (connectable_true lv src dst hconn).2.2.2.1⟩
  · exact ⟨h3, h4, h2⟩

theorem set2_apply (c : Nat → Nat → Int) (i j : Nat) (v : Int) (a b : Nat) :
    set2 c i j v a b = if a = i ∧ b = j then v else c a b := rfl

theorem set1_apply (f : Nat → Int) (i : Nat) (v : Int) (a : Nat) :
    set1 f i v a = if a = i then v else f a := rfl

theorem sumTo_nonneg (n : Nat) (f : Nat → Int) (h : ∀ k, 0 ≤ f k) : 0 ≤ sumTo n f := by
  induction n with
  | zero => simp [sumTo]
  | succ k ih =>
      simp only [sumTo]
      have := h k
      omega


/-! ## C2: anti-parallel exclusion -/

theorem ConnGuard.oneWay {lv : Level} {obj : Objectives} {s : State} {src dst : Nat}
    (h : ConnGuard lv obj s src dst) (hq : ∀ i j, s.connected i j ≠ 0 → s.connected j i = 0) :
    src ≠ dst ∧ s.connected dst src = 0 := by
  rcases h with ⟨cs, h1, h2⟩ | ⟨h1, _, _, _⟩
  · obtain ⟨_, _, hne, hcan, _⟩ := getAvailableConnections_mem lv obj s cs src dst h1 h2
    exact ⟨hne, (canConnectToNow_true lv s src dst hcan).2.2.1⟩
  · refine ⟨?_, hq src dst h1⟩
    intro e
    subst e
    exact h1 (hq src src h1)

theorem oneWay_set2 (lv : Level) (s : State) (a b : Nat) (v : Int) (hs : OneWay lv s)
    (hab : a ≠ b) (hba : s.connected b a = 0)
    (hv : (lv.el b).type = ElementType.RadialTransmitter → 0 ≤ v) (c : Nat → Nat → Int)
    (hc : c = set2 s.connected a b v) :
    (∀ i j, c i j ≠ 0 → c j i = 0) ∧
      (∀ x r, (lv.el r).type = ElementType.RadialTransmitter → 0 ≤ c x r) := by
  subst hc
  constructor
  · intro i j hij
    simp only [set2_apply] at hij ⊢
    by_cases h1 : i = a ∧ j = b
    · obtain ⟨rfl, rfl⟩ := h1
      rw [if_neg (by intro h; exact hab h.1.symm)]
      exact hba
    · rw [if_neg h1] at hij
      by_cases h2 : j = a ∧ i = b
      · obtain ⟨rfl, rfl⟩ := h2
        exact absurd hba hij
      · rw [if_neg h2]
        exact hs.1 i j hij
  · intro x r hr
    simp only [set2_apply]
    split_ifs with h1
    · obtain ⟨rfl, rfl⟩ := h1
      exact hv hr
    · exact hs.2 x r hr

theorem oneWay_stable (lv : Level) (obj : Objectives) : Stable lv obj (OneWay lv) := by
  constructor
  · intro s src dst s1 s2 r hs hg hn hdel hleaf
    obtain ⟨hne, hba⟩ := hg.oneWay hs.1
    obtain ⟨hc1, _⟩ := deliver_ok hdel
    obtain ⟨hc2, _⟩ := leaf_cases lv s1 s2 dst src r hleaf
    refine oneWay_set2 lv s src dst _ hs hne hba ?_ s2.connected (hc2.trans hc1)
    intro hr
    have := hs.2 src dst hr
    omega
  · intro s0 s id i s1 s2 r h0 hs hty hid hi hcan hanti hnp hgive hleaf
    obtain ⟨_, hne, _⟩ := mem_adjIds hi
    obtain ⟨hc1, _⟩ := radialGive_ok hgive
    obtain ⟨hc2, _⟩ := leaf_cases lv s1 s2 i id r hleaf
    have hba : s.connected i id = 0 := by
      by_cases hz : s.connected id i = 0
      · have h1 : ¬ s.connected i id > 0 := fun h => hanti ⟨hz, h⟩
        have h2 := hs.2 i id hty
        omega
      · exact hs.1 id i hz
    refine oneWay_set2 lv s id i _ hs (Ne.symm hne) hba ?_ s2.connected (hc2.trans hc1)
    intro hr
    have h1 := hs.2 id i hr
    have h2 : 0 ≤ sumTo lv.size (fun k => s0.connected k id) :=
      sumTo_nonneg _ _ (fun k => h0.2 k id hty)
    have h3 : canReceivePacketNumberNow lv s i = 32767 := by
      unfold canReceivePacketNumberNow
      rw [hr]
    unfold newPacketNumber
    simp only [h3]
    split_ifs <;> omega
  · intro s id hs _
    obtain ⟨hc, _⟩ := sync_ok lv s id
    unfold OneWay
    rw [hc]
    exact hs

/-- C2. In every node reachable from the initial state by legal connections, wireless edges
of RadialTransmitters and `flowOnce` top-ups included, `connected[i][j] > 0` implies
`connected[j][i] = 0`. -/
theorem anti_parallel (lv : Level) (obj : Objectives) (sp : StatePlus)
    (h : Reachable lv obj sp) (i j : Nat) (hij : sp.state.connected i j > 0) :
    sp.state.connected j i = 0 := by
  have hinv : OneWay lv sp.state := by
    refine reachable_of_stable lv obj (OneWay lv) ?_ (oneWay_stable lv obj) sp h
    intro sp0 h0
    obtain ⟨hc, _⟩ := getInitialState_ok lv sp0 h0
    exact ⟨fun a b _ => hc b a, fun a r _ => by rw [hc a r]⟩
  exact hinv.1 i j (by omega)


/-! ## Sums over a row or a column of `connected` -/

theorem packetNumber_le (lv : Level) (s : State) (src dst : Nat) :
    packetNumber lv s src dst ≤ s.left src ∧
      packetNumber lv s src dst ≤ canReceivePacketNumberNow lv s dst := by
  unfold packetNumber
  simp only []
  split_ifs <;> omega

/-! ## C3: booster doubling -/

theorem leaf_booster_view (lv : Level) (s1 s2 : State) (id src b : Nat) (r : Int)
    (hb : (lv.el b).type = ElementType.SignalBooster)
    (h : onConnectedNowLeaf lv s1 id src = .ok (s2, r)) :
    s2.amounts b = s1.amounts b ∧
      ((id = b ∧ s1.left b > 0 ∧ s1.left b = s1.amounts b ∧ s2.left b = 2 * s1.left b) ∨
        (id ≠ b ∧ s2.left b = s1.left b)) := by
  obtain ⟨_, hcase⟩ := leaf_cases lv s1 s2 id src r h
  rcases hcase with ⟨hty, h1, h2, h3, h4, _, _⟩ | ⟨hty, h1, _⟩ | ⟨hty, _, h1, h2, _⟩
  · refine ⟨by rw [h4], ?_⟩
    by_cases e : id = b
    · subst e
      left
      refine ⟨rfl, h1, h2, ?_⟩
      rw [h3]
      simp [set1_apply]
      ring
    · right
      refine ⟨e, ?_⟩
      rw [h3]
      simp [set1_apply, Ne.symm e]
  · have hne : id ≠ b := by
      intro e
      rw [e, hb] at hty
      cases hty
    obtain ⟨_, _, ha, hl⟩ := sync_ok lv s1 id
    have hno : ¬ (b < lv.size ∧ b ≠ id ∧ (lv.el b).color = (lv.el id).color ∧
        (lv.el b).type = (lv.el id).type) := by
      intro hh
      rw [hb, hty] at hh
      cases hh.2.2.2
    subst h1
    refine ⟨by rw [ha b, if_neg hno], Or.inr ⟨hne, by rw [hl b, if_neg hno]⟩⟩
  · have hne : id ≠ b := by
      intro e
      rw [e] at hty
      exact hty hb
    exact ⟨by rw [h2], Or.inr ⟨hne, by rw [h1]⟩⟩

theorem booster_headroom (lv : Level) (s : State) (b : Nat)
    (hb : (lv.el b).type = ElementType.SignalBooster)
    (h : canReceivePacketNumberNow lv s b ≠ 0) : s.amounts b ≤ 0 := by
  unfold canReceivePacketNumberNow at h
  rw [hb] at h
  simp only [] at h
  by_contra hc
  rw [if_pos (by omega)] at h
  exact h rfl

theorem willCross_false (lv : Level) (s : State) (src dst : Nat)
    (h : willCrossIfConnectNow lv s src dst = false) (i j : Nat) (hi : i < lv.size)
    (hj : j < lv.size) (hij : i < j) (hwi : (lv.el i).isWireless = false)
    (hwj : (lv.el j).isWireless = false) (hw : Wire s i j) : lv.crossing i j src dst = false := by
  unfold willCrossIfConnectNow at h
  rw [List.any_eq_false] at h
  have h1 := h i (List.mem_range.2 hi)
  simp only [hwi, Bool.not_false, Bool.true_and] at h1
  have h1 : ((List.range lv.size).any fun j =>
      decide (i < j) && !(lv.el j).isWireless &&
        decide (s.connected i j + s.connected j i ≠ 0) && lv.crossing i j src dst) = false := by
    simpa using h1
  rw [List.any_eq_false] at h1
  have h2 := h1 j (List.mem_range.2 hj)
  unfold Wire at hw
  simpa [hij, hwj, hw] using h2

theorem sender_not_wireless (lv : Level) (i : Nat) (h : (lv.el i).isSender = true) :
    (lv.el i).isWireless = false := by
  unfold Element.isSender at h
  unfold Element.isWireless
  cases ht : (lv.el i).type <;> simp only [ht] at h ⊢
  all_goals first | rfl | cases h

theorem radial_wireless (lv : Level) (i : Nat)
    (h : (lv.el i).type = ElementType.RadialTransmitter) : (lv.el i).isWireless = true := by
  unfold Element.isWireless
  rw [h]

theorem wire_set2_other (s : State) (c : Nat → Nat → Int) (a b : Nat) (v : Int) (i j : Nat)
    (hc : c = set2 s.connected a b v) (h1 : ¬ (i = a ∧ j = b)) (h2 : ¬ (j = a ∧ i = b)) :
    c i j + c j i = s.connected i j + s.connected j i := by
  subst hc
  simp only [set2_apply, if_neg h1, if_neg h2]

theorem noCrossing_stable (lv : Level) (obj : Objectives)
    (hobj : obj.has ObjCrossWires = true) : Stable lv obj (NoCrossing lv) := by
  constructor
  · intro s src dst s1 s2 r hs hg hn hdel hleaf
    obtain ⟨hsrc, hdst, hsend⟩ := hg.facts
    obtain ⟨hc1, _⟩ := deliver_ok hdel
    obtain ⟨hc2, _⟩ := leaf_cases lv s1 s2 dst src r hleaf
    generalize packetNumber lv s src dst = n at *
    have hc : s2.connected = set2 s.connected src dst (s.connected src dst + n) := hc2.trans hc1
    have hwsrc := sender_not_wireless lv src hsend
    obtain ⟨hN0, hN1, hW⟩ := hs
    -- the test that was run when the wire is new, or the wire was there before
    have hold : ∀ i j, i < j → ((i = src ∧ j = dst) ∨ (j = src ∧ i = dst)) →
        (lv.el i).isWireless = false → (lv.el j).isWireless = false →
        Wire s i j ∨ (∀ k l, k < l → (lv.el k).isWireless = false →
          (lv.el l).isWireless = false → Wire s k l → lv.crossing k l src dst = false) := by
      intro i j _ hij hwi hwj
      rcases hg with ⟨cs, h1, h2⟩ | ⟨h1, _, _, _⟩
      · right
        obtain ⟨_, _, _, _, hcross⟩ := getAvailableConnections_mem lv obj s cs src dst h1 h2
        intro k l hkl hwk hwl hw
        have hkb : k < lv.size ∧ l < lv.size := by
          unfold Wire at hw
          by_cases hz : s.connected k l = 0
          · have : s.connected l k ≠ 0 := by
              intro h0
              rw [hz, h0] at hw
              exact hw rfl
            exact ⟨(hN0 l k this).2, (hN0 l k this).1⟩
          · exact hN0 k l hz
        exact willCross_false lv s src dst (hcross hobj) k l hkb.1 hkb.2 hkl hwk hwl hw
      · left
        unfold Wire
        have p1 := hN1 i j hwi
        have p2 := hN1 j i hwj
        rcases hij with ⟨e1, e2⟩ | ⟨e1, e2⟩
        · rw [e1, e2] at p1 p2 ⊢
          omega
        · rw [e1, e2] at p1 p2 ⊢
          omega
    refine ⟨?_, ?_, ?_⟩
    · intro a b hab
      rw [hc, set2_apply] at hab
      by_cases e : a = src ∧ b = dst
      · rw [e.1, e.2]
        exact ⟨hsrc, hdst⟩
      · rw [if_neg e] at hab
        exact hN0 a b hab
    · intro a b ha
      rw [hc, set2_apply]
      split_ifs with e
      · have := hN1 src dst hwsrc
        omega
      · exact hN1 a b ha
    · intro i j k l hij hkl hne hwi hwj hwk hwl hw1 hw2
      by_cases e1 : (i = src ∧ j = dst) ∨ (j = src ∧ i = dst)
      · have e2 : ¬ ((k = src ∧ l = dst) ∨ (l = src ∧ k = dst)) := by
          intro e2
          apply hne
          rw [Prod.mk.injEq]
          rcases e1 with ⟨a, b⟩ | ⟨a, b⟩ <;> rcases e2 with ⟨c, d⟩ | ⟨c, d⟩ <;>
            constructor <;> omega
        have hw2' : Wire s k l := by
          unfold Wire at hw2 ⊢
          rw [wire_set2_other s s2.connected src dst _ k l hc (fun h => e2 (Or.inl h))
            (fun h => e2 (Or.inr h))] at hw2
          exact hw2
        rcases hold i j hij e1 hwi hwj with hw1' | htest
        · exact hW i j k l hij hkl hne hwi hwj hwk hwl hw1' hw2'
        · have := htest k l hkl hwk hwl hw2'
          rcases e1 with ⟨a, b⟩ | ⟨a, b⟩
          · rw [← a, ← b] at this
            exact Or.inr (Or.inr (Or.inl this))
          · rw [← a, ← b] at this
            exact Or.inr (Or.inr (Or.inr this))
      · have hw1' : Wire s i j := by
          unfold Wire at hw1 ⊢
          rw [wire_set2_other s s2.connected src dst _ i j hc (fun h => e1 (Or.inl h))
            (fun h => e1 (Or.inr h))] at hw1
          exact hw1
        by_cases e2 : (k = src ∧ l = dst) ∨ (l = src ∧ k = dst)
        · rcases hold k l hkl e2 hwk hwl with hw2' | htest
          · exact hW i j k l hij hkl hne hwi hwj hwk hwl hw1' hw2'
          · have := htest i j hij hwi hwj hw1'
            rcases e2 with ⟨a, b⟩ | ⟨a, b⟩
            · rw [← a, ← b] at this
              exact Or.inl this
            · rw [← a, ← b] at this
              exact Or.inr (Or.inl this)
        · have hw2' : Wire s k l := by
            unfold Wire at hw2 ⊢
            rw [wire_set2_other s s2.connected src dst _ k l hc (fun h => e2 (Or.inl h))
              (fun h => e2 (Or.inr h))] at hw2
            exact hw2
          exact hW i j k l hij hkl hne hwi hwj hwk hwl hw1' hw2'
  · intro s0 s id i s1 s2 r _ hs hty hid hi _ _ _ hgive hleaf
    obtain ⟨hilt, _, _⟩ := mem_adjIds hi
    obtain ⟨hc1, _⟩ := radialGive_ok hgive
    obtain ⟨hc2, _⟩ := leaf_cases lv s1 s2 i id r hleaf
    generalize newPacketNumber lv s id i (sumTo lv.size fun k => s0.connected k id) = n at *
    have hc : s2.connected = set2 s.connected id i (s.connected id i + n) := hc2.trans hc1
    have hwid := radial_wireless lv id hty
    obtain ⟨hN0, hN1, hW⟩ := hs
    have hsame : ∀ a b, (lv.el a).isWireless = false → (lv.el b).isWireless = false →
        (Wire s2 a b ↔ Wire s a b) := by
      intro a b ha hb
      unfold Wire
      rw [wire_set2_other s s2.connected id i _ a b hc
        (fun h => by rw [h.1, hwid] at ha; cases ha)
        (fun h => by rw [h.1, hwid] at hb; cases hb)]
    refine ⟨?_, ?_, ?_⟩
    · intro a b hab
      rw [hc, set2_apply] at hab
      by_cases e : a = id ∧ b = i
      · rw [e.1, e.2]
        exact ⟨hid, hilt⟩
      · rw [if_neg e] at hab
        exact hN0 a b hab
    · intro a b ha
      rw [hc, set2_apply, if_neg (fun h => by rw [h.1, hwid] at ha; cases ha)]
      exact hN1 a b ha
    · intro a b k l hab hkl hne hwa hwb hwk hwl hw1 hw2
      exact hW a b k l hab hkl hne hwa hwb hwk hwl ((hsame a b hwa hwb).1 hw1)
        ((hsame k l hwk hwl).1 hw2)
  · intro s id hs _
    obtain ⟨hc, _⟩ := sync_ok lv s id
    unfold NoCrossing Wire
    rw [hc]
    exact hs

/-- C5. With the crossing objective selected, in every node the search can reach, for any two
different wires `{i, j}` and `{k, l}` (pairs with `connected[i][j] + connected[j][i] > 0`)
none of whose ends is a RadialTransmitter, the shortened segments do not intersect: the
`LineSegment::intersect` test between them, in the form the solver ran it when the later of
the two wires was added (see `Uncrossed`), is false. -/
theorem wires_do_not_cross (lv : Level) (obj : Objectives) (sp : StatePlus)
    (hobj : obj.has ObjCrossWires = true) (h : Reachable lv obj sp) (i j k l : Nat)
    (hij : i < j) (hkl : k < l) (hne : (i, j) ≠ (k, l))
    (hi : (lv.el i).type ≠ ElementType.RadialTransmitter)
    (hj : (lv.el j).type ≠ ElementType.RadialTransmitter)
    (hk : (lv.el k).type ≠ ElementType.RadialTransmitter)
    (hl : (lv.el l).type ≠ ElementType.RadialTransmitter)
    (h1 : sp.state.connected i j + sp.state.connected j i > 0)
    (h2 : sp.state.connected k l + sp.state.connected l k > 0) :
    Uncrossed lv i j k l := by
  have hinv : NoCrossing lv sp.state := by
    refine reachable_of_stable lv obj (NoCrossing lv) ?_ (noCrossing_stable lv obj hobj) sp h
    intro sp0 h0
    obtain ⟨hc, _⟩ := getInitialState_ok lv sp0 h0
    refine ⟨fun a b hab => absurd (hc a b) hab, fun a b _ => by rw [hc a b], ?_⟩
    intro a b _ _ _ _ _ _ _ _ _ hw _
    unfold Wire at hw
    rw [hc a b, hc b a] at hw
    exact absurd rfl hw
  have nw : ∀ x, (lv.el x).type ≠ ElementType.RadialTransmitter →
      (lv.el x).isWireless = false := by
    intro x hx
    unfold Element.isWireless
    cases ht : (lv.el x).type <;> first | rfl | exact absurd ht hx
  exact hinv.2.2 i j k l hij hkl hne (nw i hi) (nw j hj) (nw k hk) (nw l hl)
    (by unfold Wire; omega) (by unfold Wire; omega)


/-! ## C10: the SigCount bound -/

theorem addConnection_depth (lv : Level) (fuel : Nat) (sp sp1 : StatePlus) (src dst : Nat)
    (h : addConnection lv fuel sp src dst = .ok sp1) :
    sp1.depth = sp.depth + 1 ∧ sp1.steps.length = sp.steps.length + 1 := by
  obtain ⟨_, _, _, _, h1, h2⟩ := addConnection_state lv fuel sp sp1 src dst h
  exact ⟨h1, by rw [h2]; rfl⟩

theorem searchExpand_mem (lv : Level) (obj : Objectives) (fuel : Nat) (state : StatePlus)
    (cs0 : List (Nat × Nat)) (Q W : StatePlus → Prop)
    (hQ : ∀ (c : Nat × Nat) (nextState : StatePlus), c ∈ cs0 →
      addConnection lv fuel state c.1 c.2 = .ok nextState → Q nextState ∧ W nextState)
    (cs : List (Nat × Nat)) (hsub : ∀ c ∈ cs, c ∈ cs0) :
    ∀ (visited : List State) (queue : List StatePlus) (res : ExpandResult),
      (∀ sp ∈ queue, Q sp) →
      searchExpand lv obj fuel state cs visited queue = .ok res →
      match res with
      | ExpandResult.win s => W s
      | ExpandResult.next _ queue1 => ∀ sp ∈ queue1, Q sp := by
  induction cs with
  | nil =>
      intro visited queue res hq h
      simp only [searchExpand, pure_ok] at h
      subst h
      exact hq
  | cons c cs ih =>
      intro visited queue res hq h
      have ih' := ih (fun a ha => hsub a (List.mem_cons_of_mem _ ha))
      unfold searchExpand at h
      obtain ⟨nextState, hadd, h⟩ := bind_ok.1 h
      have hn := hQ c nextState (hsub c (List.mem_cons_self _ _)) hadd
      split_ifs at h with h1 h2
      · exact ih' visited queue res hq h
      · rw [pure_ok] at h
        subst h
        exact hn.2
      · refine ih' _ _ res ?_ h
        intro sp hsp
        rcases List.mem_append.1 hsp with hsp | hsp
        · exact hq sp hsp
        · rw [List.mem_singleton.1 hsp]
          exact hn.1

/-- What holds of a node inside the search: it is reachable and its depth is the number of
connections on its path; a node that is expanded, and so the node reported as solved, lies
within the SigCount bound. -/
theorem searchLoop_spec (lv : Level) (obj : Objectives) (fuel : Nat)
    (hobj : obj.has ObjSigCount = true) (k : Nat) :
    ∀ (visited : List State) (queue expanded : List StatePlus),
      (∀ sp ∈ queue, Reachable lv obj sp ∧ (sp.steps.length : Int) = sp.depth) →
      (∀ sp ∈ expanded, sp.depth < obj.objSigCount) →
      (∀ sp ∈ (searchLoop lv obj fuel k visited queue expanded).expanded,
        sp.depth < obj.objSigCount) ∧
      (∀ sp, (searchLoop lv obj fuel k visited queue expanded).result =
          .ok (SearchOutcome.solved sp) →
        Reachable lv obj sp ∧ (sp.steps.length : Int) = sp.depth ∧
          sp.depth ≤ obj.objSigCount) := by
  induction k with
  | zero =>
      intro visited queue expanded _ he
      simp only [searchLoop]
      exact ⟨he, fun sp h => by simp [error_ne_ok] at h⟩
  | succ k ih =>
      intro visited queue expanded hq he
      cases queue with
      | nil =>
          simp only [searchLoop]
          exact ⟨he, fun sp h => by simp [pure_ok] at h⟩
      | cons state queue =>
          have hq' : ∀ sp ∈ queue, Reachable lv obj sp ∧ (sp.steps.length : Int) = sp.depth :=
            fun sp hsp => hq sp (List.mem_cons_of_mem _ hsp)
          obtain ⟨hr, hlen⟩ := hq state (List.mem_cons_self _ _)
          unfold searchLoop
          by_cases hcut : obj.has ObjSigCount = true ∧ state.depth ≥ obj.objSigCount
          · rw [if_pos hcut]
            exact ih visited queue expanded hq' he
          · rw [if_neg hcut]
            have hd : state.depth < obj.objSigCount := by
              by_contra hc
              exact hcut ⟨hobj, by omega⟩
            have he' : ∀ sp ∈ expanded ++ [state], sp.depth < obj.objSigCount := by
              intro sp hsp
              rcases List.mem_append.1 hsp with hsp | hsp
              · exact he sp hsp
              · rw [List.mem_singleton.1 hsp]
                exact hd
            cases hcs : getAvailableConnections lv obj state.state with
            | error e =>
                simp only []
                exact ⟨he', fun sp h => by simp [error_ne_ok] at h⟩
            | ok cs =>
                simp only []
                have hstep : ∀ (c : Nat × Nat) (nextState : StatePlus), c ∈ cs →
                    addConnection lv fuel state c.1 c.2 = .ok nextState →
                    (Reachable lv obj nextState ∧
                      (nextState.steps.length : Int) = nextState.depth) ∧
                    (Reachable lv obj nextState ∧
                      (nextState.steps.length : Int) = nextState.depth ∧
                      nextState.depth ≤ obj.objSigCount) := by
                  intro c nextState hc hadd
                  obtain ⟨h1, h2⟩ := addConnection_depth lv fuel state nextState c.1 c.2 hadd
                  have hreach := Reachable.step state cs c fuel nextState hr hcs hc hadd
                  have hl : (nextState.steps.length : Int) = nextState.depth := by
                    rw [h1, h2]
                    push_cast
                    omega
                  exact ⟨⟨hreach, hl⟩, hreach, hl, by omega⟩
                cases hex : searchExpand lv obj fuel state cs visited queue with
                | error e =>
                    simp only []
                    exact ⟨he', fun sp h => by simp [error_ne_ok] at h⟩
                | ok res =>
                    have hres := searchExpand_mem lv obj fuel state cs
                      (fun sp => Reachable lv obj sp ∧ (sp.steps.length : Int) = sp.depth)
                      (fun sp => Reachable lv obj sp ∧ (sp.steps.length : Int) = sp.depth ∧
                        sp.depth ≤ obj.objSigCount) hstep cs (fun c hc => hc) visited queue res
                      hq' hex
                    cases res with
                    | win s =>
                        simp only []
                        refine ⟨he', fun sp h => ?_⟩
                        simp only [pure_ok, SearchOutcome.solved.injEq] at h
                        rw [← h]
                        exact hres
                    | next visited1 queue1 =>
                        simp only []
                        exact ih visited1 queue1 (expanded ++ [state]) hres he'

/-- C10. With the SigCount objective selected, `search` never expands a node of depth
`>= objSigCount`, and the node it reports as SOLVED is reachable by legal connections, has as
many connections on its path as its depth says, and that depth is at most `objSigCount`. -/
theorem sigcount_bound (lv : Level) (obj : Objectives) (fuel : Nat)
    (hobj : obj.has ObjSigCount = true) :
    (∀ sp ∈ (search lv obj fuel).expanded, sp.depth < obj.objSigCount) ∧
      (∀ sp, (search lv obj fuel).result = .ok (SearchOutcome.solved sp) →
        Reachable lv obj sp ∧ (sp.steps.length : Int) = sp.depth ∧
          sp.depth ≤ obj.objSigCount) := by
  unfold search
  cases hinit : getInitialState lv with
  | error e =>
      simp only []
      exact ⟨fun sp h => by simp at h, fun sp h => by simp [error_ne_ok] at h⟩
  | ok initState =>
      simp only []
      refine searchLoop_spec lv obj fuel hobj fuel _ _ _ ?_ (fun sp h => by simp at h)
      intro sp hsp
      rw [List.mem_singleton.1 hsp]
      obtain ⟨_, _, _, _, hd, hst⟩ := getInitialState_ok lv initState hinit
      exact ⟨Reachable.init initState hinit, by rw [hd, hst]; rfl⟩


/-! ## The example levels -/

theorem poolNode1_reachable : Reachable poolLevel noObjectives poolNode1 :=
  Reachable.step poolNode0 [(0, 1), (0, 2), (0, 3)] (0, 1) 2 poolNode1
    (Reachable.init poolNode0 rfl) rfl (by decide) rfl

theorem squareNode2_reachable : Reachable squareLevel crossObjective squareNode2 :=
  Reachable.step squareNode1 [(2, 3)] (2, 3) 2 squareNode2
    (Reachable.step squareNode0 [(0, 1), (0, 3), (2, 1), (2, 3)] (0, 1) 2 squareNode1
      (Reachable.init squareNode0 rfl) rfl (by decide) rfl)
    rfl (by decide) rfl

theorem anti_parallel_witness :
    (Reachable poolLevel noObjectives poolNode1 ∧ poolNode1.state.connected 0 1 > 0) ∧
      poolNode1.state.connected 1 0 = 0 :=
  ⟨⟨poolNode1_reachable, by decide⟩,
    anti_parallel poolLevel noObjectives poolNode1 poolNode1_reachable 0 1 (by decide)⟩

theorem wires_do_not_cross_witness :
    (crossObjective.has ObjCrossWires = true ∧ Reachable squareLevel crossObjective squareNode2 ∧
        0 < 1 ∧ 2 < 3 ∧ ((0, 1) : Nat × Nat) ≠ (2, 3) ∧
        (squareLevel.el 0).type ≠ ElementType.RadialTransmitter ∧
        (squareLevel.el 1).type ≠ ElementType.RadialTransmitter ∧
        (squareLevel.el 2).type ≠ ElementType.RadialTransmitter ∧
        (squareLevel.el 3).type ≠ ElementType.RadialTransmitter ∧
        squareNode2.state.connected 0 1 + squareNode2.state.connected 1 0 > 0 ∧
        squareNode2.state.connected 2 3 + squareNode2.state.connected 3 2 > 0) ∧
      Uncrossed squareLevel 0 1 2 3 :=
  ⟨⟨by decide, squareNode2_reachable, by decide, by decide, by decide, by decide, by decide,
      by decide, by decide, by decide, by decide⟩,
    wires_do_not_cross squareLevel crossObjective squareNode2 (by decide) squareNode2_reachable
      0 1 2 3 (by decide) (by decide) (by decide) (by decide) (by decide) (by decide) (by decide)
      (by decide) (by decide)⟩

theorem sigcount_bound_witness :
    (twoSignals.has ObjSigCount = true ∧ solvedDepth (search wireLevel twoSignals 2) = some 1) ∧
      ((∀ sp ∈ (search wireLevel twoSignals 2).expanded, sp.depth < twoSignals.objSigCount) ∧
        (∀ sp, (search wireLevel twoSignals 2).result = .ok (SearchOutcome.solved sp) →
          Reachable wireLevel twoSignals sp ∧ (sp.steps.length : Int) = sp.depth ∧
            sp.depth ≤ twoSignals.objSigCount)) :=
  ⟨⟨by decide, by decide⟩, sigcount_bound wireLevel twoSignals 2 (by decide)⟩

end Transmission

namespace Transmission

/-! ## C18: pairs that are never connectable -/

theorem isSender_false_iff (e : Element) :
    e.isSender = false ↔
      e.type = ElementType.Receiver ∨ e.type = ElementType.RadialTransmitter := by
  unfold Element.isSender
  cases e.type <;> simp

theorem isReceiver_false_iff (e : Element) :
    e.isReceiver = false ↔ e.type = ElementType.Transmitter := by
  unfold Element.isReceiver
  cases e.type <;> simp

theorem isColorMatch_true (e dst : Element) (h : e.isColorMatch dst = true) :
    dst.canReceiveColor e.color = true ∨
      (e.type = ElementType.SwapperTransmitter ∧ dst.canReceiveColor e.swapColor = true) := by
  unfold Element.isColorMatch at h
  cases hty : e.type <;> simp only [hty] at h
  · by_cases hd : dst.type = ElementType.CellTransmitter
    · rw [if_pos hd] at h
      cases h
    · rw [if_neg hd] at h
      exact Or.inl h
  · exact Or.inl h
  · exact Or.inl h
  · exact Or.inl h
  · rcases Bool.or_eq_true_iff.1 h with h | h
    · exact Or.inl h
    · exact Or.inr ⟨rfl, h⟩
  · exact Or.inl h
  · exact Or.inl h

/-- C18. The entry `connectable[i][j]` computed by `calculateConnectable` is false when `i = j`,
when element `i` is not a sender, when element `j` is not a receiver, and when element `j`
can receive neither the colour of `i` nor, for a SwapperTransmitter `i`, its swap colour. -/
theorem connectable_exclusions (lv : Level) (i j : Nat)
    (h : i = j ∨ (lv.el i).isSender = false ∨ (lv.el j).isReceiver = false ∨
      ((lv.el j).canReceiveColor (lv.el i).color = false ∧
        ((lv.el i).type = ElementType.SwapperTransmitter →
          (lv.el j).canReceiveColor (lv.el i).swapColor = false))) :
    connectable lv i j = false := by
  by_contra hc
  have hc' : connectable lv i j = true := by simpa using hc
  obtain ⟨_, _, hij, hs, hr, hm⟩ := connectable_true lv i j hc'
  rcases h with h | h | h | ⟨h1, h2⟩
  · exact hij h
  · rw [hs] at h
    cases h
  · rw [hr] at h
    cases h
  · rcases isColorMatch_true _ _ hm with hm | ⟨hty, hm⟩
    · rw [h1] at hm
      cases hm
    · rw [h2 hty] at hm
      cases hm

/-! ## C11: the connections that are offered -/

theorem anyBlockNow_ok (lv : Level) (s : State) (i j : Nat) (c : ElementGroup)
    (hc : colorNow lv s i = .ok c) (bs : List BlockElement) :
    anyBlockNow lv s i j bs = .ok (bs.any fun b => b.canBlock c i j) := by
  induction bs with
  | nil => rfl
  | cons b bs ih =>
      unfold anyBlockNow
      rw [hc]
      show (if b.canBlock c i j = true then pure true else anyBlockNow lv s i j bs) = _
      by_cases hb : b.canBlock c i j = true
      · rw [if_pos hb]
        simp [hb, pure, Except.pure]
      · rw [if_neg hb, ih]
        simp [hb]

theorem blockedNow_ok (lv : Level) (s : State) (i j : Nat) (c : ElementGroup)
    (hc : colorNow lv s i = .ok c) :
    isWireBlockedByBlockersNow lv s i j =
      .ok (!(lv.el i).isColorFixed && lv.blocks.any fun b => b.canBlock c i j) := by
  unfold isWireBlockedByBlockersNow
  by_cases hf : (lv.el i).isColorFixed = true
  · rw [if_pos hf]
    simp [hf, pure, Except.pure]
  · rw [if_neg hf, anyBlockNow_ok lv s i j c hc]
    simp [hf]

theorem connectable_exclusions_witness :
    (poolLevel.el 3).isSender = false ∧ connectable poolLevel 3 0 = false :=
  ⟨by decide, connectable_exclusions poolLevel 3 0 (Or.inr (Or.inl (by decide)))⟩

end Transmission

namespace Transmission

/-! ## C12: the effect of a connection between plain elements -/

end Transmission

namespace Transmission

/-! ## C15: wires lie on connectable pairs -/

theorem ConnGuard.connectable {lv : Level} {obj : Objectives} {s : State} {src dst : Nat}
    (h : ConnGuard lv obj s src dst) (hs : EdgesConnectable lv s) :
    connectable lv src dst = true := by
  rcases h with ⟨cs, h1, h2⟩ | ⟨h1, h2, _, _⟩
  · obtain ⟨_, _, _, hcan, _⟩ := getAvailableConnections_mem lv obj s cs src dst h1 h2
    exact (canConnectToNow_true lv s src dst hcan).1
  · refine hs src dst ?_ h1
    intro hty
    unfold Element.isSender at h2
    rw [hty] at h2
    cases h2

theorem edgesConnectable_stable (lv : Level) (obj : Objectives) :
    Stable lv obj (EdgesConnectable lv) := by
  constructor
  · intro s src dst s1 s2 r hs hg _ hdel hleaf
    have hcon := hg.connectable hs
    obtain ⟨hc1, _⟩ := deliver_ok hdel
    obtain ⟨hc2, _⟩ := leaf_cases lv s1 s2 dst src r hleaf
    intro i j hi hij
    rw [hc2, hc1, set2_apply] at hij
    by_cases hab : i = src ∧ j = dst
    · rw [hab.1, hab.2]
      exact hcon
    · rw [if_neg hab] at hij
      exact hs i j hi hij
  · intro s0 s id i s1 s2 r _ hs hty _ _ _ _ _ hgive hleaf
    obtain ⟨hc1, _⟩ := radialGive_ok hgive
    obtain ⟨hc2, _⟩ := leaf_cases lv s1 s2 i id r hleaf
    intro a b ha hab
    rw [hc2, hc1, set2_apply] at hab
    have hne : ¬ (a = id ∧ b = i) := by
      rintro ⟨rfl, _⟩
      exact ha hty
    rw [if_neg hne] at hab
    exact hs a b ha hab
  · intro s id hs _ a b ha hab
    rw [(sync_ok lv s id).1] at hab
    exact hs a b ha hab

/-- C15 (amended). In every node reachable from the initial state by offered connections,
for all elements `i` and `j` where `i` is not a RadialTransmitter, `connected[i][j] > 0`
implies that `connectable[i][j]` is true. -/
theorem edges_connectable (lv : Level) (obj : Objectives) (sp : StatePlus)
    (h : Reachable lv obj sp) (i j : Nat)
    (hi : (lv.el i).type ≠ ElementType.RadialTransmitter) (hc : sp.state.connected i j > 0) :
    connectable lv i j = true := by
  have hinv : EdgesConnectable lv sp.state := by
    refine reachable_of_stable lv obj (EdgesConnectable lv) ?_ (edgesConnectable_stable lv obj)
      sp h
    intro sp0 h0 a b _ hab
    exact absurd ((getInitialState_ok lv sp0 h0).1 a b) hab
  exact hinv i j hi (by omega)

theorem beamNode1_reachable : Reachable beamLevel noObjectives beamNode1 :=
  Reachable.step beamNode0 [(0, 1), (0, 2)] (0, 1) 3 beamNode1 (Reachable.init _ rfl) rfl
    (by simp) rfl

/-- C15 (counterexample). The claim fails for a wire that leaves a RadialTransmitter: in
`beamLevel`, after the Transmitter 0 is connected to the RadialTransmitter 1, the
RadialTransmitter has handed one packet to the Receiver 2, so `connected[1][2] = 1`, while
`connectable[1][2]` is false because a RadialTransmitter is not a sender. -/
theorem radial_edge_not_connectable :
    Reachable beamLevel noObjectives beamNode1 ∧ beamNode1.state.connected 1 2 = 1 ∧
      connectable beamLevel 1 2 = false :=
  ⟨beamNode1_reachable, by decide, by decide⟩

theorem edges_connectable_witness :
    beamNode1.state.connected 0 1 > 0 ∧ connectable beamLevel 0 1 = true :=
  ⟨by decide, edges_connectable beamLevel noObjectives beamNode1 beamNode1_reachable 0 1
    (by decide) (by decide)⟩

end Transmission

namespace Transmission


/-! ## C16: the colour state of a SwapperTransmitter -/

theorem leaf_colorSwapped (lv : Level) (s1 s2 : State) (id src : Nat) (r : Int)
    (h : onConnectedNowLeaf lv s1 id src = .ok (s2, r)) :
    s2.colorSwapped = s1.colorSwapped ∨
      ((lv.el id).type = ElementType.SwapperTransmitter ∧ s1.colorSwapped id = 0 ∧
        ∃ c, colorNow lv s1 src = .ok c ∧
          s2.colorSwapped =
            set1 s1.colorSwapped id (if c = (lv.el id).color then 1 else -1)) := by
  by_cases hty : (lv.el id).type = ElementType.SwapperTransmitter
  · unfold onConnectedNowLeaf at h
    simp only [hty] at h
    by_cases h0 : s1.colorSwapped id = 0
    · rw [if_pos h0] at h
      obtain ⟨c, hc, h⟩ := bind_ok.1 h
      simp only [pure_ok, Prod.mk.injEq] at h
      right
      refine ⟨hty, h0, c, hc, ?_⟩
      rw [← h.1]
    · rw [if_neg h0] at h
      simp only [pure_ok, Prod.mk.injEq] at h
      left
      rw [← h.1]
  · left
    obtain ⟨_, hc⟩ := leaf_cases lv s1 s2 id src r h
    rcases hc with ⟨_, _, _, _, _, hcs, _⟩ | ⟨_, hs2, _⟩ | ⟨hb, hcell, _⟩
    · exact hcs
    · rw [hs2]
      exact (sync_ok lv s1 id).2.1
    · unfold onConnectedNowLeaf at h
      cases hk : (lv.el id).type <;> simp only [hk] at h
      · exact absurd hk hcell
      · simp only [pure_ok, Prod.mk.injEq] at h
        rw [← h.1]
      · simp only [pure_ok, Prod.mk.injEq] at h
        rw [← h.1]
      · exact absurd hk hb
      · exact absurd hk hty
      · simp only [pure_ok, Prod.mk.injEq] at h
        rw [← h.1]
      · simp only [pure_ok, Prod.mk.injEq] at h
        rw [← h.1]

theorem swapValue_set (s : State) (c : Nat → Int) (id : Nat) (v : Int)
    (hv : v = 0 ∨ v = 1 ∨ v = -1) (hc : c = set1 s.colorSwapped id v)
    (hs : ∀ k, SwapValue s k) (k : Nat) : c k = 0 ∨ c k = 1 ∨ c k = -1 := by
  subst hc
  rw [set1_apply]
  by_cases hk : k = id
  · rw [if_pos hk]
    exact hv
  · rw [if_neg hk]
    exact hs k

theorem leaf_swapValue (lv : Level) (s1 s2 : State) (id src : Nat) (r : Int)
    (h : onConnectedNowLeaf lv s1 id src = .ok (s2, r)) (hs : ∀ k, SwapValue s1 k) :
    ∀ k, SwapValue s2 k := by
  intro k
  rcases leaf_colorSwapped lv s1 s2 id src r h with hc | ⟨_, _, c, _, hc⟩
  · unfold SwapValue
    rw [hc]
    exact hs k
  · refine swapValue_set s1 s2.colorSwapped id _ ?_ hc hs k
    by_cases hcc : c = (lv.el id).color
    · rw [if_pos hcc]
      exact Or.inr (Or.inl rfl)
    · rw [if_neg hcc]
      exact Or.inr (Or.inr rfl)

theorem swapValue_stable (lv : Level) (obj : Objectives) :
    Stable lv obj (fun s => ∀ k, SwapValue s k) := by
  constructor
  · intro s src dst s1 s2 r hs _ _ hdel hleaf
    refine leaf_swapValue lv s1 s2 dst src r hleaf ?_
    intro k
    unfold SwapValue
    rw [(deliver_ok hdel).2.2.2]
    exact hs k
  · intro s0 s id i s1 s2 r _ hs _ _ _ _ _ _ hgive hleaf
    refine leaf_swapValue lv s1 s2 i id r hleaf ?_
    intro k
    unfold SwapValue
    rw [(radialGive_ok hgive).2.2.2]
    exact hs k
  · intro s id hs _ k
    unfold SwapValue
    rw [(sync_ok lv s id).2.1]
    exact hs k

theorem leaf_keeps_swap (lv : Level) (s1 s2 : State) (id src : Nat) (r : Int)
    (h : onConnectedNowLeaf lv s1 id src = .ok (s2, r)) (k : Nat)
    (hk : s1.colorSwapped k ≠ 0) : s2.colorSwapped k = s1.colorSwapped k := by
  rcases leaf_colorSwapped lv s1 s2 id src r h with hc | ⟨_, h0, c, _, hc⟩
  · rw [hc]
  · rw [hc, set1_apply, if_neg]
    intro e
    rw [e] at hk
    exact hk h0

theorem swapKept_stable (lv : Level) (obj : Objectives) (k : Nat) (v : Int) (hv : v ≠ 0) :
    Stable lv obj (fun s => s.colorSwapped k = v) := by
  constructor
  · intro s src dst s1 s2 r hs _ _ hdel hleaf
    have h1 : s1.colorSwapped k = v := by rw [(deliver_ok hdel).2.2.2]; exact hs
    rw [leaf_keeps_swap lv s1 s2 dst src r hleaf k (by rw [h1]; exact hv), h1]
  · intro s0 s id i s1 s2 r _ hs _ _ _ _ _ _ hgive hleaf
    have h1 : s1.colorSwapped k = v := by rw [(radialGive_ok hgive).2.2.2]; exact hs
    rw [leaf_keeps_swap lv s1 s2 i id r hleaf k (by rw [h1]; exact hv), h1]
  · intro s id hs _
    show (syncToAllCellTransmittersNow lv s id).colorSwapped k = v
    rw [(sync_ok lv s id).2.1]
    exact hs

theorem addConnection_preserves (lv : Level) (obj : Objectives) (P : State → Prop)
    (hP : Stable lv obj P) (sp : StatePlus) (cs : List (Nat × Nat)) (c : Nat × Nat)
    (fuel : Nat) (sp1 : StatePlus) (hcs : getAvailableConnections lv obj sp.state = .ok cs)
    (hc : c ∈ cs) (h : addConnection lv fuel sp c.1 c.2 = .ok sp1) (hs : P sp.state) :
    P sp1.state := by
  obtain ⟨s1, x, hconn, hflow, _⟩ := addConnection_state lv fuel sp sp1 c.1 c.2 h
  have h1 : P s1 :=
    connectToNow_stable lv obj P hP fuel sp.state c.1 c.2 s1 x hs (Or.inl ⟨cs, hcs, hc⟩) hconn
  exact flowLoop_preserves lv obj P fuel
    (fun s src dst s2 r hs hg h => connectToNow_stable lv obj P hP fuel s src dst s2 r hs hg h)
    fuel s1 sp1.state h1 hflow

theorem swapper_hook (lv : Level) (fuel : Nat) (s : State) (id src : Nat)
    (hty : (lv.el id).type = ElementType.SwapperTransmitter) :
    onConnectedNow lv (fuel + 1) s id src = onConnectedNowLeaf lv s id src := by
  show onConnectedNowF lv (onConnectedNow lv fuel) s id src = _
  unfold onConnectedNowF
  rw [hty]

/-- C16. For a SwapperTransmitter `id`: in every reachable node `colorSwapped[id]` is `0`,
`1` or `-1`. While it is `0`, the call `onConnectedNow` made for an incoming connection from
a sender whose colour now is `c` returns and sets it to `1` when `c` is the primary colour
(from then on `colorNow` is the swap colour) and to `-1` otherwise (from then on `colorNow`
is the primary colour); if the colour `c` was accepted, then afterwards exactly the colour
`c` is accepted. Once it is not `0`, `onConnectedNow` leaves the state as it is, and
`addConnection` with all its flow steps does not change it. With the value `1` exactly the
primary colour is accepted, with `-1` exactly the swap colour. -/
theorem swapper_state_machine (lv : Level) (obj : Objectives) (id : Nat)
    (hty : (lv.el id).type = ElementType.SwapperTransmitter) :
    (∀ sp, Reachable lv obj sp → SwapValue sp.state id) ∧
    (∀ (fuel : Nat) (s : State) (src : Nat) (c : ElementGroup),
      s.colorSwapped id = 0 → colorNow lv s src = .ok c →
      ∃ s2, onConnectedNow lv (fuel + 1) s id src = .ok (s2, 0) ∧
        s2.colorSwapped id = (if c = (lv.el id).color then 1 else -1) ∧
        colorNow lv s2 id =
          .ok (if c = (lv.el id).color then (lv.el id).swapColor else (lv.el id).color) ∧
        (canReceiveColorNow lv s id c = .ok true →
          ∀ c1, canReceiveColorNow lv s2 id c1 = .ok (decide (c = c1)))) ∧
    (∀ (fuel : Nat) (s : State) (src : Nat), s.colorSwapped id ≠ 0 →
      onConnectedNow lv (fuel + 1) s id src = .ok (s, 0)) ∧
    (∀ (sp : StatePlus) (cs : List (Nat × Nat)) (c : Nat × Nat) (fuel : Nat) (sp1 : StatePlus),
      getAvailableConnections lv obj sp.state = .ok cs → c ∈ cs →
      addConnection lv fuel sp c.1 c.2 = .ok sp1 → sp.state.colorSwapped id ≠ 0 →
      sp1.state.colorSwapped id = sp.state.colorSwapped id) ∧
    (∀ (s : State) (c : ElementGroup),
      (s.colorSwapped id = 1 →
        canReceiveColorNow lv s id c = .ok (decide ((lv.el id).color = c))) ∧
      (s.colorSwapped id = -1 →
        canReceiveColorNow lv s id c = .ok (decide ((lv.el id).swapColor = c)))) := by
  have hacc : ∀ (s : State) (c : ElementGroup),
      (s.colorSwapped id = 1 →
        canReceiveColorNow lv s id c = .ok (decide ((lv.el id).color = c))) ∧
      (s.colorSwapped id = -1 →
        canReceiveColorNow lv s id c = .ok (decide ((lv.el id).swapColor = c))) := by
    intro s c
    constructor
    · intro h1
      unfold canReceiveColorNow
      simp only [hty]
      rw [if_neg (by rw [h1]; decide), if_pos h1]
      rfl
    · intro h1
      unfold canReceiveColorNow
      simp only [hty]
      rw [if_neg (by rw [h1]; decide), if_neg (by rw [h1]; decide), if_pos h1]
      rfl
  refine ⟨?_, ?_, ?_, ?_, hacc⟩
  · intro sp h
    refine reachable_of_stable lv obj (fun s => ∀ k, SwapValue s k) ?_
      (swapValue_stable lv obj) sp h id
    intro sp0 h0 k
    exact Or.inl ((getInitialState_ok lv sp0 h0).2.1 k)
  · intro fuel s src c h0 hc
    obtain ⟨v, hv⟩ : ∃ v : Int, v = if c = (lv.el id).color then 1 else -1 := ⟨_, rfl⟩
    have hrun : onConnectedNow lv (fuel + 1) s id src =
        .ok ({ s with colorSwapped := set1 s.colorSwapped id v }, 0) := by
      rw [swapper_hook lv fuel s id src hty, hv]
      unfold onConnectedNowLeaf
      simp only [hty]
      rw [if_pos h0, hc]
      rfl
    have hcell : ({ s with colorSwapped := set1 s.colorSwapped id v } : State).colorSwapped id
        = v := by
      show set1 s.colorSwapped id v id = v
      rw [set1_apply, if_pos rfl]
    refine ⟨_, hrun, ?_, ?_, ?_⟩
    · rw [hcell, hv]
    · have hcell1 : set1 s.colorSwapped id v id = v := hcell
      unfold colorNow
      simp only [hty, hcell1]
      by_cases hcc : c = (lv.el id).color
      · rw [if_pos hcc] at hv
        rw [if_pos hcc, if_neg (by rw [hv]; decide), if_pos hv]
        rfl
      · rw [if_neg hcc] at hv
        rw [if_neg hcc, if_pos hv]
        rfl
    · intro hok c1
      have h0acc :
          (decide ((lv.el id).color = c) || decide ((lv.el id).swapColor = c)) = true := by
        unfold canReceiveColorNow at hok
        simp only [hty] at hok
        rw [if_pos h0, pure_ok] at hok
        exact hok
      by_cases hcc : c = (lv.el id).color
      · rw [if_pos hcc] at hv
        rw [((hacc _ c1).1 (hcell.trans hv)), hcc]
      · rw [if_neg hcc] at hv
        have hsw : (lv.el id).swapColor = c := by
          rcases Bool.or_eq_true_iff.1 h0acc with h | h
          · exact absurd (of_decide_eq_true h).symm hcc
          · exact of_decide_eq_true h
        rw [((hacc _ c1).2 (hcell.trans hv)), hsw]
  · intro fuel s src hne
    rw [swapper_hook lv fuel s id src hty]
    unfold onConnectedNowLeaf
    simp only [hty]
    rw [if_neg hne]
    rfl
  · intro sp cs c fuel sp1 hcs hc hadd hne
    exact addConnection_preserves lv obj (fun s => s.colorSwapped id = sp.state.colorSwapped id)
      (swapKept_stable lv obj id _ hne) sp cs c fuel sp1 hcs hc hadd rfl

theorem swapNode1_reachable : Reachable swapLevel noObjectives swapNode1 :=
  Reachable.step swapNode0 [(0, 1)] (0, 1) 2 swapNode1 (Reachable.init _ rfl) rfl (by simp) rfl

theorem swapper_state_machine_witness :
    SwapValue swapNode1.state 1 ∧ swapNode1.state.colorSwapped 1 = 1 ∧
      swapNode2.state.colorSwapped 1 = swapNode1.state.colorSwapped 1 ∧
      colorNow swapLevel swapNode1.state 1 = .ok ElementGroup.Fibre :=
  have h := swapper_state_machine swapLevel noObjectives 1 rfl
  ⟨h.1 swapNode1 swapNode1_reachable, by decide,
    h.2.2.2.1 swapNode1 [(1, 2)] (1, 2) 2 swapNode2 rfl (by simp) rfl (by decide), rfl⟩

end Transmission

namespace Transmission

/-! ## Levels in which no SwapperTransmitter starts with a packet -/

theorem leaf_left_swapper (lv : Level) (s1 s2 : State) (id src : Nat) (r : Int)
    (h : onConnectedNowLeaf lv s1 id src = .ok (s2, r)) (k : Nat) (hk : k ≠ id)
    (hty : (lv.el k).type = ElementType.SwapperTransmitter) : s2.left k = s1.left k := by
  obtain ⟨_, hc⟩ := leaf_cases lv s1 s2 id src r h
  rcases hc with ⟨_, _, _, hl, _⟩ | ⟨hcell, hs2, _⟩ | ⟨_, _, hl, _⟩
  · rw [hl, set1_apply, if_neg hk]
  · rw [hs2, (sync_ok lv s1 id).2.2.2 k, if_neg]
    rintro ⟨_, _, _, he⟩
    rw [hty, hcell] at he
    cases he
  · rw [hl]

theorem leaf_sets_swapper (lv : Level) (s1 s2 : State) (id src : Nat) (r : Int)
    (h : onConnectedNowLeaf lv s1 id src = .ok (s2, r))
    (hty : (lv.el id).type = ElementType.SwapperTransmitter) : s2.colorSwapped id ≠ 0 := by
  by_cases h0 : s1.colorSwapped id = 0
  · rcases leaf_colorSwapped lv s1 s2 id src r h with hc | ⟨_, _, c, _, hc⟩
    · unfold onConnectedNowLeaf at h
      simp only [hty] at h
      rw [if_pos h0] at h
      obtain ⟨c, _, h⟩ := bind_ok.1 h
      simp only [pure_ok, Prod.mk.injEq] at h
      rw [← h.1]
      show set1 s1.colorSwapped id _ id ≠ 0
      rw [set1_apply, if_pos rfl]
      split_ifs <;> decide
    · rw [hc, set1_apply, if_pos rfl]
      split_ifs <;> decide
  · rw [leaf_keeps_swap lv s1 s2 id src r h id h0]
    exact h0

theorem leaf_other_swap (lv : Level) (s1 s2 : State) (id src : Nat) (r : Int)
    (h : onConnectedNowLeaf lv s1 id src = .ok (s2, r)) (k : Nat) (hk : k ≠ id) :
    s2.colorSwapped k = s1.colorSwapped k := by
  rcases leaf_colorSwapped lv s1 s2 id src r h with hc | ⟨_, _, c, _, hc⟩
  · rw [hc]
  · rw [hc, set1_apply, if_neg hk]

theorem swapperReady_stable (lv : Level) (obj : Objectives) :
    Stable lv obj (SwapperReady lv) := by
  constructor
  · intro s src dst s1 s2 r hs _ hn hdel hleaf k hty hl
    by_cases hk : k = dst
    · rw [hk]
      rw [hk] at hty
      exact leaf_sets_swapper lv s1 s2 dst src r hleaf hty
    · obtain ⟨_, hl1, _, hcs⟩ := deliver_ok hdel
      rw [leaf_other_swap lv s1 s2 dst src r hleaf k hk, hcs]
      rw [leaf_left_swapper lv s1 s2 dst src r hleaf k hk hty, hl1, set1_apply, if_neg hk,
        set1_apply] at hl
      refine hs k hty ?_
      by_cases hks : k = src
      · rw [if_pos hks] at hl
        rw [hks]
        omega
      · rw [if_neg hks] at hl
        exact hl
  · intro s0 s id i s1 s2 r _ hs _ _ _ _ _ _ hgive hleaf k hty hl
    by_cases hk : k = i
    · rw [hk]
      rw [hk] at hty
      exact leaf_sets_swapper lv s1 s2 i id r hleaf hty
    · obtain ⟨_, hl1, _, hcs⟩ := radialGive_ok hgive
      rw [leaf_other_swap lv s1 s2 i id r hleaf k hk, hcs]
      rw [leaf_left_swapper lv s1 s2 i id r hleaf k hk hty, hl1, set1_apply, if_neg hk] at hl
      exact hs k hty hl
  · intro s id hs hcell k hty hl
    rw [(sync_ok lv s id).2.1]
    rw [(sync_ok lv s id).2.2.2 k, if_neg] at hl
    · exact hs k hty hl
    · rintro ⟨_, _, _, he⟩
      rw [hty, hcell] at he
      cases he

theorem colorNow_ready (lv : Level) (s : State) (i : Nat) (hv : SwapValue s i)
    (hr : SwapperReady lv s) (hl : s.left i > 0) : ∃ c, colorNow lv s i = .ok c := by
  unfold colorNow
  cases hty : (lv.el i).type
  case SwapperTransmitter =>
    have hne := hr i hty hl
    rcases hv with h | h | h
    · exact absurd h hne
    · exact ⟨_, by simp only [h]; rfl⟩
    · exact ⟨_, by simp only [h]; rfl⟩
  all_goals exact ⟨_, rfl⟩

theorem canReceiveColorNow_total (lv : Level) (s : State) (j : Nat) (c : ElementGroup)
    (hv : SwapValue s j) : ∃ b, canReceiveColorNow lv s j c = .ok b := by
  unfold canReceiveColorNow
  cases hty : (lv.el j).type
  case SwapperTransmitter =>
    rcases hv with h | h | h
    · exact ⟨_, by simp only [h]; rfl⟩
    · exact ⟨_, by simp only [h]; rfl⟩
    · exact ⟨_, by simp only [h]; rfl⟩
  all_goals exact ⟨_, rfl⟩

theorem canConnectToNow_total (lv : Level) (s : State) (i j : Nat)
    (hv : ∀ k, SwapValue s k) (hr : SwapperReady lv s) :
    ∃ b, canConnectToNow lv s i j = .ok b := by
  unfold canConnectToNow
  by_cases h1 : (!connectable lv i j) = true
  · exact ⟨false, by rw [if_pos h1]; rfl⟩
  · rw [if_neg h1]
    by_cases h2 : s.connected i j ≠ 0 ∨ s.connected j i ≠ 0
    · exact ⟨false, by rw [if_pos h2]; rfl⟩
    · rw [if_neg h2]
      by_cases h3 : (!hasExtraPacketNow s i) = true ∨ (!canReceivePacketNow lv s j) = true
      · exact ⟨false, by rw [if_pos h3]; rfl⟩
      · rw [if_neg h3]
        have hl : s.left i > 0 := by
          by_contra hc
          exact h3 (Or.inl (by simp [hasExtraPacketNow, hc]))
        obtain ⟨c, hc⟩ := colorNow_ready lv s i (hv i) hr hl
        obtain ⟨ok, hok⟩ := canReceiveColorNow_total lv s j c (hv j)
        rw [hc]
        show ∃ b, (do
          let ok ← canReceiveColorNow lv s j c
          if !ok then pure false
          else do
            let blocked ← isWireBlockedByBlockersNow lv s i j
            if blocked then pure false else pure true) = .ok b
        rw [hok, blockedNow_ok lv s i j c hc]
        cases ok
        · exact ⟨false, rfl⟩
        · cases (!(lv.el i).isColorFixed && lv.blocks.any fun b => b.canBlock c i j)
          · exact ⟨true, rfl⟩
          · exact ⟨false, rfl⟩

theorem offers_total (lv : Level) (obj : Objectives) (s : State) (i j : Nat)
    (hv : ∀ k, SwapValue s k) (hr : SwapperReady lv s) : ∃ b, offers lv obj s i j = .ok b := by
  unfold offers
  by_cases hij : i = j
  · exact ⟨false, by rw [if_pos hij]; rfl⟩
  · rw [if_neg hij]
    obtain ⟨can, hcan⟩ := canConnectToNow_total lv s i j hv hr
    rw [hcan]
    cases can
    · exact ⟨false, rfl⟩
    · show ∃ b, (if (!true) = true then pure false
        else if obj.has ObjCrossWires = true ∧ willCrossIfConnectNow lv s i j = true then
          pure false
        else pure true) = Except.ok b
      rw [if_neg (by simp)]
      by_cases hw : obj.has ObjCrossWires = true ∧ willCrossIfConnectNow lv s i j = true
      · exact ⟨false, by rw [if_pos hw]; rfl⟩
      · exact ⟨true, by rw [if_neg hw]; rfl⟩

theorem availableFrom_total (lv : Level) (obj : Objectives) (s : State) (i : Nat)
    (hv : ∀ k, SwapValue s k) (hr : SwapperReady lv s) (js : List Nat) :
    ∃ cs, availableFrom lv obj s i js = .ok cs := by
  induction js with
  | nil => exact ⟨[], rfl⟩
  | cons j js ih =>
      obtain ⟨b, hb⟩ := offers_total lv obj s i j hv hr
      obtain ⟨rest, hrest⟩ := ih
      unfold availableFrom
      rw [hb, hrest]
      exact ⟨_, rfl⟩

theorem availableAll_total (lv : Level) (obj : Objectives) (s : State)
    (hv : ∀ k, SwapValue s k) (hr : SwapperReady lv s) (is : List Nat) :
    ∃ cs, availableAll lv obj s is = .ok cs := by
  induction is with
  | nil => exact ⟨[], rfl⟩
  | cons i is ih =>
      obtain ⟨row, hrow⟩ := availableFrom_total lv obj s i hv hr (List.range lv.size)
      obtain ⟨rest, hrest⟩ := ih
      unfold availableAll
      rw [hrow, hrest]
      exact ⟨_, rfl⟩

/-- In a level in which no SwapperTransmitter starts with a packet, `getAvailableConnections`
returns a list in every reachable node: it evaluates `colorNow` only for elements with
`left > 0`, and a SwapperTransmitter with `left > 0` has been set by its first incoming
connection. -/
theorem getAvailableConnections_total (lv : Level) (obj : Objectives)
    (hlv : ∀ k, (lv.el k).type = ElementType.SwapperTransmitter → (lv.el k).amount ≤ 0)
    (sp : StatePlus) (h : Reachable lv obj sp) :
    ∃ cs, getAvailableConnections lv obj sp.state = .ok cs := by
  have hv : ∀ k, SwapValue sp.state k := by
    refine reachable_of_stable lv obj (fun s => ∀ k, SwapValue s k) ?_
      (swapValue_stable lv obj) sp h
    intro sp0 h0 k
    exact Or.inl ((getInitialState_ok lv sp0 h0).2.1 k)
  have hr : SwapperReady lv sp.state := by
    refine reachable_of_stable lv obj (SwapperReady lv) ?_ (swapperReady_stable lv obj) sp h
    intro sp0 h0 k hty hl
    rw [(getInitialState_ok lv sp0 h0).2.2.2.1 k] at hl
    have := hlv k hty
    omega
  exact availableAll_total lv obj sp.state hv hr _

end Transmission

namespace Transmission

/-! ## C17: `colorNow` on a SwapperTransmitter that is not set -/

/-- C17 (failing input). In the initial state of `loadedSwapLevel` the SwapperTransmitter 0
has `left[0] = 1` and `colorSwapped[0] = 0`, the pair `(0, 1)` is connectable, and
`getAvailableConnections` stops on the `assert(false)` of
`SwapperTransmitterElement::colorNow`, which `canConnectToNow` evaluates for element 0. -/
theorem unset_swapper_read :
    getInitialState loadedSwapLevel = .ok loadedSwapNode0 ∧
      Reachable loadedSwapLevel noObjectives loadedSwapNode0 ∧
      loadedSwapNode0.state.left 0 = 1 ∧ loadedSwapNode0.state.colorSwapped 0 = 0 ∧
      connectable loadedSwapLevel 0 1 = true ∧
      colorNow loadedSwapLevel loadedSwapNode0.state 0 = .error Fault.assertion ∧
      canConnectToNow loadedSwapLevel loadedSwapNode0.state 0 1 = .error Fault.assertion ∧
      getAvailableConnections loadedSwapLevel noObjectives loadedSwapNode0.state =
        .error Fault.assertion :=
  ⟨rfl, Reachable.init _ rfl, by decide, by decide, by decide, rfl, rfl, rfl⟩

end Transmission

namespace Transmission

/-! ## C19: where the search tests the win predicate -/

theorem searchExpand_tested (lv : Level) (obj : Objectives) (fuel : Nat) (state : StatePlus)
    (hd : 0 ≤ state.depth) (cs : List (Nat × Nat)) :
    ∀ (visited : List State) (queue : List StatePlus) (res : ExpandResult),
      (∀ sp ∈ queue, Tested lv obj sp) →
      searchExpand lv obj fuel state cs visited queue = .ok res →
      match res with
      | ExpandResult.win s => isWin lv obj s.state = true ∧ 1 ≤ s.depth
      | ExpandResult.next _ queue1 => ∀ sp ∈ queue1, Tested lv obj sp := by
  induction cs with
  | nil =>
      intro visited queue res hq h
      simp only [searchExpand, pure_ok] at h
      subst h
      exact hq
  | cons c cs ih =>
      intro visited queue res hq h
      unfold searchExpand at h
      obtain ⟨nextState, hadd, h⟩ := bind_ok.1 h
      have hdep := (addConnection_depth lv fuel state nextState c.1 c.2 hadd).1
      split_ifs at h with h1 h2
      · exact ih visited queue res hq h
      · rw [pure_ok] at h
        subst h
        exact ⟨h2, by omega⟩
      · refine ih _ _ res ?_ h
        intro sp hsp
        rcases List.mem_append.1 hsp with hsp | hsp
        · exact hq sp hsp
        · rw [List.mem_singleton.1 hsp]
          exact ⟨by omega, fun _ => by simpa using h2⟩

theorem searchLoop_tested (lv : Level) (obj : Objectives) (fuel : Nat) (k : Nat) :
    ∀ (visited : List State) (queue expanded : List StatePlus),
      (∀ sp ∈ queue, Tested lv obj sp) → (∀ sp ∈ expanded, Tested lv obj sp) →
      (∀ sp ∈ (searchLoop lv obj fuel k visited queue expanded).expanded, Tested lv obj sp) ∧
      (∀ sp, (searchLoop lv obj fuel k visited queue expanded).result =
          .ok (SearchOutcome.solved sp) → isWin lv obj sp.state = true ∧ 1 ≤ sp.depth) := by
  induction k with
  | zero =>
      intro visited queue expanded _ he
      simp only [searchLoop]
      exact ⟨he, fun sp h => by simp [error_ne_ok] at h⟩
  | succ k ih =>
      intro visited queue expanded hq he
      cases queue with
      | nil =>
          simp only [searchLoop]
          exact ⟨he, fun sp h => by simp [pure_ok] at h⟩
      | cons state queue =>
          have hq' : ∀ sp ∈ queue, Tested lv obj sp :=
            fun sp hsp => hq sp (List.mem_cons_of_mem _ hsp)
          have hst := hq state (List.mem_cons_self _ _)
          unfold searchLoop
          by_cases hcut : obj.has ObjSigCount = true ∧ state.depth ≥ obj.objSigCount
          · rw [if_pos hcut]
            exact ih visited queue expanded hq' he
          · rw [if_neg hcut]
            have he' : ∀ sp ∈ expanded ++ [state], Tested lv obj sp := by
              intro sp hsp
              rcases List.mem_append.1 hsp with hsp | hsp
              · exact he sp hsp
              · rw [List.mem_singleton.1 hsp]
                exact hst
            cases hcs : getAvailableConnections lv obj state.state with
            | error e =>
                simp only []
                exact ⟨he', fun sp h => by simp [error_ne_ok] at h⟩
            | ok cs =>
                simp only []
                cases hex : searchExpand lv obj fuel state cs visited queue with
                | error e =>
                    simp only []
                    exact ⟨he', fun sp h => by simp [error_ne_ok] at h⟩
                | ok res =>
                    have hres := searchExpand_tested lv obj fuel state hst.1 cs visited queue
                      res hq' hex
                    cases res with
                    | win s =>
                        simp only []
                        refine ⟨he', fun sp h => ?_⟩
                        simp only [pure_ok, SearchOutcome.solved.injEq] at h
                        rw [← h]
                        exact hres
                    | next visited1 queue1 =>
                        simp only []
                        exact ih visited1 queue1 (expanded ++ [state]) hres he'

/-- C19 (amended). The Transmission search tests `isWin` on every successor that
`addConnection` produces, before the successor enters the queue; it does not test the initial
state. For a level with initial node `init`: the node that `search` reports as SOLVED
satisfies `isWin` and has depth at least one; every node of depth at least one on which the
search calls `getAvailableConnections` fails `isWin`; and when no connection is offered in
the initial state, `search` returns NOT SOLVED, whether or not the initial state satisfies
`isWin`. -/
theorem win_tested_on_successors (lv : Level) (obj : Objectives) (fuel : Nat)
    (init : StatePlus) (h0 : getInitialState lv = .ok init) :
    (∀ sp, (search lv obj fuel).result = .ok (SearchOutcome.solved sp) →
      isWin lv obj sp.state = true ∧ 1 ≤ sp.depth) ∧
    (∀ sp ∈ (search lv obj fuel).expanded, 1 ≤ sp.depth → isWin lv obj sp.state = false) ∧
    (getAvailableConnections lv obj init.state = .ok [] →
      (search lv obj (fuel + 2)).result = .ok SearchOutcome.notSolved) := by
  have hd0 : init.depth = 0 := (getInitialState_ok lv init h0).2.2.2.2.1
  have hroot : ∀ sp ∈ [init], Tested lv obj sp := by
    intro sp hsp
    rw [List.mem_singleton.1 hsp]
    exact ⟨by omega, fun h => by omega⟩
  have hloop := searchLoop_tested lv obj fuel fuel [init.state] [init] [] hroot
    (fun sp h => by simp at h)
  refine ⟨?_, ?_, ?_⟩
  · unfold search
    rw [h0]
    exact hloop.2
  · unfold search
    rw [h0]
    exact fun sp hsp => (hloop.1 sp hsp).2
  · intro hcs
    unfold search
    rw [h0]
    show (searchLoop lv obj (fuel + 2) (fuel + 1 + 1) [init.state] [init] []).result = _
    unfold searchLoop
    by_cases hcut : obj.has ObjSigCount = true ∧ init.depth ≥ obj.objSigCount
    · rw [if_pos hcut]
      rfl
    · rw [if_neg hcut, hcs]
      rfl

/-- C19 (counterexample). The initial state of `doneLevel` satisfies `isWin`, and `search`
returns NOT SOLVED: it takes the initial node from the queue, finds no connection to try and
ends with an empty queue, without having tested `isWin` on the initial state. -/
theorem initial_win_not_reported :
    getInitialState doneLevel = .ok doneNode0 ∧
      isWin doneLevel noObjectives doneNode0.state = true ∧
      (search doneLevel noObjectives 2).result = .ok SearchOutcome.notSolved ∧
      (search doneLevel noObjectives 5).result = .ok SearchOutcome.notSolved :=
  ⟨rfl, by decide, rfl, rfl⟩

theorem win_tested_on_successors_witness :
    getInitialState wireLevel = .ok wireNode0 ∧
      solvedDepth (search wireLevel noObjectives 2) = some 1 ∧
      ∀ sp, (search wireLevel noObjectives 2).result = .ok (SearchOutcome.solved sp) →
        isWin wireLevel noObjectives sp.state = true ∧ 1 ≤ sp.depth :=
  ⟨rfl, by decide,
    (win_tested_on_successors wireLevel noObjectives 2 wireNode0 rfl).1⟩

end Transmission

namespace Transmission

/-! ## C20: the renumbering of the element ids -/

theorem mapSet_fresh (m : List (Int × Int)) (k v : Int) (h : k ∉ m.map Prod.fst) :
    mapSet m k v = m ++ [(k, v)] := by
  induction m with
  | nil => rfl
  | cons p rest ih =>
      obtain ⟨k1, v1⟩ := p
      simp only [List.map_cons, List.mem_cons, not_or] at h
      unfold mapSet
      rw [if_neg (fun e => h.1 e.symm), ih h.2]
      rfl

theorem mapGet_zip (keys : List Int) (hnd : keys.Nodup) (m : List (Int × Int))
    (hk : m.map Prod.fst = keys) (i : Nat) (p : Int × Int) (hp : m[i]? = some p) :
    mapGet m p.1 = some p.2 := by
  induction m generalizing keys i with
  | nil => simp at hp
  | cons q rest ih =>
      obtain ⟨k1, v1⟩ := q
      cases keys with
      | nil => simp at hk
      | cons k ks =>
          simp only [List.map_cons, List.cons.injEq] at hk
          obtain ⟨hk1, hrest⟩ := hk
          rw [List.nodup_cons] at hnd
          unfold mapGet
          cases i with
          | zero =>
              simp only [List.getElem?_cons_zero, Option.some.injEq] at hp
              rw [← hp]
              simp
          | succ i =>
              simp only [List.getElem?_cons_succ] at hp
              have hmem : p.1 ∈ ks := by
                rw [← hrest]
                exact List.mem_map.2 ⟨p, List.getElem?_mem hp, rfl⟩
              have hne : k1 ≠ p.1 := by
                intro e
                rw [← hk1, e] at hnd
                exact hnd.1 hmem
              rw [if_neg hne]
              exact ih ks hnd.2 hrest i hp

theorem readLine_skip (lv : LevelData) (line : XMLLine) (h : keptOf line = none) :
    (readLine lv line).idMap = lv.idMap ∧ (readLine lv line).elements = lv.elements := by
  unfold keptOf at h
  unfold readLine
  cases hr : readElementFromXMLLine line with
  | none => exact ⟨rfl, rfl⟩
  | some e =>
      rw [hr] at h
      simp only [] at h ⊢
      by_cases ho : e.type.isObjective = true
      · rw [if_pos ho]
        exact ⟨rfl, rfl⟩
      · rw [if_neg ho]
        by_cases hb : e.type.isBlock = true
        · rw [if_pos hb]
          exact ⟨rfl, rfl⟩
        · simp [ho, hb] at h

theorem readLine_keep (lv : LevelData) (line : XMLLine) (e : RawElement)
    (h : keptOf line = some e) :
    (readLine lv line).idMap = mapSet lv.idMap e.id lv.idMap.length ∧
      (readLine lv line).elements = lv.elements ++ [{ e with id := lv.idMap.length }] := by
  unfold keptOf at h
  unfold readLine
  cases hr : readElementFromXMLLine line with
  | none =>
      rw [hr] at h
      cases h
  | some e1 =>
      rw [hr] at h
      simp only [] at h ⊢
      by_cases ho : e1.type.isObjective = true
      · simp [ho] at h
      · by_cases hb : e1.type.isBlock = true
        · simp [hb] at h
        · simp only [ho, hb, Bool.or_self, Bool.false_eq_true, if_false,
            Option.some.injEq] at h
          rw [if_neg ho, if_neg hb, h]
          exact ⟨rfl, rfl⟩

theorem renumbered_push (lv lv1 : LevelData) (done : List RawElement) (e : RawElement)
    (h : Renumbered lv done) (hfresh : e.id ∉ done.map (fun x => x.id))
    (hm : lv1.idMap = mapSet lv.idMap e.id lv.idMap.length)
    (he : lv1.elements = lv.elements ++ [{ e with id := lv.idMap.length }]) :
    Renumbered lv1 (done ++ [e]) := by
  obtain ⟨h1, h2, h3, h4⟩ := h
  have hlen : lv.idMap.length = done.length := by
    have := congrArg List.length h1
    simpa using this
  have hset : lv1.idMap = lv.idMap ++ [(e.id, (lv.idMap.length : Int))] := by
    rw [hm]
    exact mapSet_fresh _ _ _ (by rw [h1]; exact hfresh)
  refine ⟨?_, ?_, ?_, ?_⟩
  · rw [hset, List.map_append, h1, List.map_append]
    rfl
  · rw [hset, List.map_append, h2, List.length_append, List.length_singleton,
      List.range_succ, List.map_append, hlen]
    rfl
  · rw [he, List.map_append, h3, List.length_append, List.length_singleton,
      List.range_succ, List.map_append, hlen]
    rfl
  · rw [he, List.map_append, h4, List.map_append]
    rfl

theorem foldl_renumbered (lines : List XMLLine) :
    ∀ (lv : LevelData) (done : List RawElement), Renumbered lv done →
      ((done ++ keptElements lines).map (fun e => e.id)).Nodup →
      Renumbered (lines.foldl readLine lv) (done ++ keptElements lines) := by
  induction lines with
  | nil =>
      intro lv done h _
      simpa [keptElements] using h
  | cons line lines ih =>
      intro lv done h hnd
      rw [List.foldl_cons]
      cases hk : keptOf line with
      | none =>
          have hkept : keptElements (line :: lines) = keptElements lines := by
            unfold keptElements
            rw [List.filterMap_cons, hk]
          rw [hkept] at hnd ⊢
          obtain ⟨hm, he⟩ := readLine_skip lv line hk
          refine ih _ done ?_ hnd
          unfold Renumbered
          rw [hm, he]
          exact h
      | some e =>
          have hkept : keptElements (line :: lines) = e :: keptElements lines := by
            unfold keptElements
            rw [List.filterMap_cons, hk]
          rw [hkept] at hnd ⊢
          have happ : done ++ e :: keptElements lines = (done ++ [e]) ++ keptElements lines := by
            simp
          rw [happ] at hnd ⊢
          obtain ⟨hm, he⟩ := readLine_keep lv line e hk
          refine ih _ (done ++ [e]) (renumbered_push lv _ done e h ?_ hm he) hnd
          intro hmem
          rw [List.map_append, List.map_append] at hnd
          have hnd1 := (List.nodup_append.1 hnd).1
          rw [List.nodup_append] at hnd1
          exact hnd1.2.2 hmem (by simp)

/-- C20 (amended). For every input sequence of lines in which the elements that are neither
objectives nor blockers carry pairwise distinct ids: after `Level::readXML` the ids in
`elements` are `0, 1, ..., N-1` in this order, the `k`-th entry of `elements` is the `k`-th
such element of the input, and `idMap` maps the input id of the `k`-th such element to
`k`. -/
theorem readXML_renumbers (lines : List XMLLine)
    (hnd : ((keptElements lines).map (fun e => e.id)).Nodup) :
    (readXML lines).elements.map (fun e => e.id) =
        (List.range (keptElements lines).length).map Int.ofNat ∧
      (readXML lines).elements.map (fun e => e.type) =
        (keptElements lines).map (fun e => e.type) ∧
      ∀ (k : Nat) (e : RawElement), (keptElements lines)[k]? = some e →
        mapGet (readXML lines).idMap e.id = some (k : Int) := by
  have h : Renumbered (readXML lines) ([] ++ keptElements lines) :=
    foldl_renumbered lines ⟨[], [], [], []⟩ [] ⟨rfl, rfl, rfl, rfl⟩ (by simpa using hnd)
  rw [List.nil_append] at h
  obtain ⟨h1, h2, h3, h4⟩ := h
  refine ⟨h3, h4, ?_⟩
  intro k e hk
  have hlt : k < (keptElements lines).length := by
    by_contra hc
    rw [List.getElem?_eq_none (not_lt.1 hc)] at hk
    cases hk
  have hp : (readXML lines).idMap[k]? = some (e.id, (k : Int)) := by
    have hlen : (readXML lines).idMap.length = (keptElements lines).length := by
      have := congrArg List.length h1
      simpa using this
    have hk' : k < (readXML lines).idMap.length := by omega
    rw [List.getElem?_eq_getElem hk']
    have e1 : ((readXML lines).idMap.map Prod.fst)[k]? = some e.id := by
      rw [h1, List.getElem?_map, hk]
      rfl
    have e2 : ((readXML lines).idMap.map Prod.snd)[k]? = some (k : Int) := by
      rw [h2, List.getElem?_map, List.getElem?_range hlt]
      rfl
    rw [List.getElem?_map, List.getElem?_eq_getElem hk'] at e1 e2
    simp only [Option.map_some', Option.some.injEq] at e1 e2
    rw [← e1, ← e2]
  exact mapGet_zip _ hnd _ h1 k _ hp

/-- C20 (counterexample). For three Transmitter lines with the input ids 5, 5 and 7,
`Level::readXML` gives the elements the ids 0, 1 and 1: the repeated key does not make
`idMap` grow, so `idMap.size()` is 1 again for the third element, and `elements[2].id` is 1,
not 2. -/
theorem repeated_id_collides :
    (keptElements repeatedIdLines).length = 3 ∧
      (readXML repeatedIdLines).elements.map (fun e => e.id) = [0, 1, 1] ∧
      (readXML repeatedIdLines).idMap = [(5, 1), (7, 1)] := by
  decide

theorem readXML_renumbers_witness :
    ((keptElements mixedLines).map (fun e => e.id)).Nodup ∧
      (readXML mixedLines).elements.map (fun e => e.id) = [0, 1] ∧
      mapGet (readXML mixedLines).idMap 2 = some 1 :=
  have h := readXML_renumbers mixedLines (by decide)
  ⟨by decide, h.1, h.2.2 1 ⟨2, XMLType.Receiver⟩ rfl⟩

end Transmission

namespace Chrooma

/-! ## C13: the set `seen` of the Chrooma search -/

theorem le_foldl_max (l : List Nat) : ∀ (init : Nat),
    init ≤ l.foldl max init ∧ ∀ a ∈ l, a ≤ l.foldl max init := by
  induction l with
  | nil => intro init; exact ⟨le_refl _, fun a h => by simp at h⟩
  | cons b l ih =>
      intro init
      obtain ⟨h1, h2⟩ := ih (max init b)
      rw [List.foldl_cons]
      refine ⟨le_trans (le_max_left _ _) h1, ?_⟩
      intro a ha
      rcases List.mem_cons.1 ha with ha | ha
      · rw [ha]
        exact le_trans (le_max_right _ _) h1
      · exact h2 a ha

/-- The pointer that `new State()` returns is in no case a member of `seen`: the test
`seen.count(next_state)` of `search` is false for every successor. -/
theorem newAddr_fresh (seen : List Node) :
    seen.any (fun n => decide (n.addr = newAddr seen)) = false := by
  rw [List.any_eq_false]
  intro n hn
  have hle : n.addr ≤ (seen.map fun n => n.addr).foldl max 0 :=
    (le_foldl_max _ 0).2 n.addr (List.mem_map.2 ⟨n, hn, rfl⟩)
  unfold newAddr
  simp only [decide_eq_true_eq]
  omega

/-- Every successor that `move_state` returns without the `fail` flag is inserted into
`seen` and pushed to the queue, whatever `seen` holds. -/
theorem expand_enqueues (board : Board) (fuel : Nat) (pstate : Node) (d : Nat) (ds : List Nat)
    (seen queue : List Node) (generated : List State) (next : State)
    (h : move_state board fuel pstate.state d = some (Outcome.returned next))
    (hf : next.fail = false) :
    expand board fuel pstate (d :: ds) seen queue generated =
      expand board fuel pstate ds (seen ++ [⟨newAddr seen, next⟩])
        (queue ++ [⟨newAddr seen, next⟩]) (generated ++ [next]) := by
  rw [expand, h]
  simp only []
  rw [if_neg]
  rw [newAddr_fresh seen, hf]
  simp

/-- C13 (failing input). On the one-row board `1. 1.` the search takes three nodes from the
queue in its first three iterations: the initial state, its successor by the move east, and
the successor of that by the move west. The ball grid of the third node is cell for cell
the grid of the initial state, whose pointer is in `seen`: the successor was not skipped,
and the same grid is expanded twice. -/
theorem same_grid_expanded_twice :
    (mainBoard 5 shuttleInput).height * (mainBoard 5 shuttleInput).width = 5 ∧
      (search (mainBoard 5 shuttleInput) 8 3 (mainState shuttleInput)).popped.map
        (fun n => (n.addr, n.state.step, gridOf 5 n.state)) =
        [(1, 0, [49, 0, 0, 49, 0]), (2, 1, [0, 49, 0, 0, 49]), (3, 2, [49, 0, 0, 49, 0])] := by
  decide

end Chrooma

namespace Chrooma

/-! ## C14: the step limit of the Chrooma search -/

theorem check_adjacent_step (board : Board) (s : State) :
    (∀ s1, check_adjacent board s = Adjacent.exited s1 → s1.step = s.step) ∧
      (∀ b s1, check_adjacent board s = Adjacent.returned b s1 → s1.step = s.step) := by
  unfold check_adjacent
  simp only []
  split_ifs
  · exact ⟨fun s1 h => (by cases h; rfl), fun b s1 h => (by cases h)⟩
  · exact ⟨fun s1 h => (by cases h), fun b s1 h => (by cases h; rfl)⟩
  · exact ⟨fun s1 h => (by cases h), fun b s1 h => (by cases h; rfl)⟩

theorem moveLoop_step (board : Board) (fuel : Nat) :
    ∀ (d : Nat) (s : State) (unlocked first : Bool) (pending : Int) (out : Outcome),
      moveLoop board fuel d s unlocked first pending = some out →
      out.state.step = s.step := by
  induction fuel with
  | zero => intro d s unlocked first pending out h; simp [moveLoop] at h
  | succ k ih =>
      intro d s unlocked first pending out h
      unfold moveLoop at h
      simp only [] at h
      split_ifs at h with h1 h2 h3
      · cases h
        rfl
      · split at h
        · rename_i s2 hca
          cases h
          have e := (check_adjacent_step board _).1 s2 hca
          exact e
        · rename_i s2 hca
          have e1 := ih _ _ _ _ _ _ h
          have e2 := (check_adjacent_step board _).2 _ s2 hca
          exact e1.trans e2
        · rename_i s2 hca
          cases h
          have e := (check_adjacent_step board _).2 _ s2 hca
          exact e
      · have e := ih _ _ _ _ _ _ h
        exact e
      · have e := ih _ _ _ _ _ _ h
        exact e

theorem move_state_step (board : Board) (fuel : Nat) (s : State) (d : Nat) (out : Outcome)
    (h : move_state board fuel s d = some out) : out.state.step = s.step + 1 := by
  unfold move_state move_now at h
  exact moveLoop_step board fuel _ _ _ _ _ out h

theorem expand_steps (board : Board) (fuel : Nat) (pstate : Node)
    (hp : pstate.state.step ≤ STEP_LIMIT) (ds : List Nat) :
    ∀ (seen queue : List Node) (generated : List State) (res : Expanded),
      (∀ n ∈ queue, n.state.step ≤ STEP_LIMIT + 1) →
      (∀ s ∈ generated, s.step ≤ STEP_LIMIT + 1) →
      expand board fuel pstate ds seen queue generated = some res →
      match res with
      | Expanded.exited s generated1 =>
          s.step ≤ STEP_LIMIT + 1 ∧ ∀ t ∈ generated1, t.step ≤ STEP_LIMIT + 1
      | Expanded.continued _ queue1 generated1 =>
          (∀ n ∈ queue1, n.state.step ≤ STEP_LIMIT + 1) ∧
            ∀ t ∈ generated1, t.step ≤ STEP_LIMIT + 1 := by
  induction ds with
  | nil =>
      intro seen queue generated res hq hg h
      simp only [expand, Option.some.injEq] at h
      subst h
      exact ⟨hq, hg⟩
  | cons d ds ih =>
      intro seen queue generated res hq hg h
      unfold expand at h
      cases hm : move_state board fuel pstate.state d with
      | none =>
          rw [hm] at h
          cases h
      | some out =>
          have hstep := move_state_step board fuel pstate.state d out hm
          rw [hm] at h
          cases out with
          | exited s =>
              simp only [Option.some.injEq] at h
              subst h
              have hs : s.step ≤ STEP_LIMIT + 1 := by
                have : s.step = pstate.state.step + 1 := hstep
                omega
              refine ⟨hs, ?_⟩
              intro t ht
              rcases List.mem_append.1 ht with ht | ht
              · exact hg t ht
              · rw [List.mem_singleton.1 ht]
                exact hs
          | returned next =>
              have hs : next.step ≤ STEP_LIMIT + 1 := by
                have : next.step = pstate.state.step + 1 := hstep
                omega
              have hg1 : ∀ t ∈ generated ++ [next], t.step ≤ STEP_LIMIT + 1 := by
                intro t ht
                rcases List.mem_append.1 ht with ht | ht
                · exact hg t ht
                · rw [List.mem_singleton.1 ht]
                  exact hs
              simp only [] at h
              split_ifs at h
              · exact ih seen queue _ res hq hg1 h
              · refine ih _ _ _ res ?_ hg1 h
                intro n hn
                rcases List.mem_append.1 hn with hn | hn
                · exact hq n hn
                · rw [List.mem_singleton.1 hn]
                  exact hs

theorem searchLoop_steps (board : Board) (fuel : Nat) (k : Nat) :
    ∀ (seen queue popped : List Node) (generated : List State),
      (∀ n ∈ queue, n.state.step ≤ STEP_LIMIT + 1) →
      (∀ n ∈ popped, n.state.step ≤ STEP_LIMIT) →
      (∀ s ∈ generated, s.step ≤ STEP_LIMIT + 1) →
      (∀ n ∈ (searchLoop board fuel k seen queue popped generated).popped,
        n.state.step ≤ STEP_LIMIT) ∧
      (∀ s ∈ (searchLoop board fuel k seen queue popped generated).generated,
        s.step ≤ STEP_LIMIT + 1) ∧
      (∀ s, (searchLoop board fuel k seen queue popped generated).result =
          some (SearchEnd.success s) → s.step ≤ STEP_LIMIT + 1) := by
  induction k with
  | zero =>
      intro seen queue popped generated _ hp hg
      simp only [searchLoop]
      exact ⟨hp, hg, fun s h => by cases h⟩
  | succ k ih =>
      intro seen queue popped generated hq hp hg
      cases queue with
      | nil =>
          simp only [searchLoop]
          exact ⟨hp, hg, fun s h => by cases h⟩
      | cons pstate queue =>
          have hq1 : ∀ n ∈ queue, n.state.step ≤ STEP_LIMIT + 1 :=
            fun n hn => hq n (List.mem_cons_of_mem _ hn)
          unfold searchLoop
          by_cases hlim : pstate.state.step > STEP_LIMIT
          · rw [if_pos hlim]
            exact ⟨hp, hg, fun s h => by cases h⟩
          · rw [if_neg hlim]
            have hle : pstate.state.step ≤ STEP_LIMIT := not_lt.1 hlim
            have hp1 : ∀ n ∈ popped ++ [pstate], n.state.step ≤ STEP_LIMIT := by
              intro n hn
              rcases List.mem_append.1 hn with hn | hn
              · exact hp n hn
              · rw [List.mem_singleton.1 hn]
                exact hle
            cases hex : expand board fuel pstate [0, 1, 2, 3] seen queue generated with
            | none =>
                simp only []
                exact ⟨hp1, hg, fun s h => by cases h⟩
            | some res =>
                have hres := expand_steps board fuel pstate hle _ seen queue generated res
                  hq1 hg hex
                cases res with
                | exited s generated1 =>
                    simp only []
                    refine ⟨hp1, hres.2, fun t h => ?_⟩
                    simp only [Option.some.injEq, SearchEnd.success.injEq] at h
                    rw [← h]
                    exact hres.1
                | continued seen1 queue1 generated1 =>
                    simp only []
                    exact ih seen1 queue1 _ generated1 hres.1 hp1 hres.2

/-- C14 (amended). The Chrooma search started on a state with `step = 0` takes no node with
`step` greater than `STEP_LIMIT = 10` from the queue for expansion, and `move_state`
produces no successor with `step` greater than 11; so every solution it reports consists of
at most 11 moves. When the node at the front of the queue has `step` greater than 10, the
search ends with `STEP LIMIT EXCEEDED`. -/
theorem step_limit_bound (board : Board) (fuel iterations : Nat) (initial_state : State)
    (h0 : initial_state.step = 0) :
    (∀ n ∈ (search board fuel iterations initial_state).popped, n.state.step ≤ STEP_LIMIT) ∧
      (∀ s ∈ (search board fuel iterations initial_state).generated,
        s.step ≤ STEP_LIMIT + 1) ∧
      (∀ s, (search board fuel iterations initial_state).result = some (SearchEnd.success s) →
        s.step ≤ STEP_LIMIT + 1) ∧
      (∀ (k : Nat) (seen queue popped : List Node) (generated : List State) (pstate : Node),
        pstate.state.step > STEP_LIMIT →
        (searchLoop board fuel (k + 1) seen (pstate :: queue) popped generated).result =
          some SearchEnd.stepLimitExceeded) := by
  have hinit : ∀ n ∈ [(⟨newAddr [], initial_state⟩ : Node)],
      n.state.step ≤ STEP_LIMIT + 1 := by
    intro n hn
    rw [List.mem_singleton.1 hn]
    show initial_state.step ≤ STEP_LIMIT + 1
    rw [h0]
    decide
  obtain ⟨h1, h2, h3⟩ := searchLoop_steps board fuel iterations
    [⟨newAddr [], initial_state⟩] [⟨newAddr [], initial_state⟩] [] [] hinit
    (fun n hn => by simp at hn) (fun s hs => by simp at hs)
  refine ⟨h1, h2, h3, ?_⟩
  intro k seen queue popped generated pstate hlim
  unfold searchLoop
  rw [if_pos hlim]

/-- C14 (counterexample). On the board of `stairInput` the search, started on a state with
`step = 0`, ends with `SUCCESS` and exit code 0 in a state with `step = 11`: the node with
`step = 10` passes the test `step > STEP_LIMIT` and is expanded, and its successor by the
move east, the eleventh move, clears the grid. -/
theorem eleven_move_solution :
    (mainState stairInput).step = 0 ∧
      (search (mainBoard 14 stairInput) 8 11 (mainState stairInput)).result.map
        SearchEnd.exitCode = some 0 ∧
      (search (mainBoard 14 stairInput) 8 11 (mainState stairInput)).result.bind
        SearchEnd.moves = some 11 := by
  decide!

theorem step_limit_bound_witness :
    (search (mainBoard 3 pairInput) 8 1 (mainState pairInput)).result.bind
        SearchEnd.moves = some 1 ∧
      ∀ s, (search (mainBoard 3 pairInput) 8 1 (mainState pairInput)).result =
        some (SearchEnd.success s) → s.step ≤ STEP_LIMIT + 1 :=
  ⟨by decide, (step_limit_bound (mainBoard 3 pairInput) 8 1 (mainState pairInput) rfl).2.2.1⟩

end Chrooma

namespace Chrooma

/-! ## C23: a move in which no ball moves -/

theorem moveBall_moving (board : Board) (y x yd xd : Nat) (v : Int) (p : Pass) :
    (moveBall board y x yd xd v p).moving = true := by
  unfold moveBall
  simp only []
  split_ifs <;> rfl

theorem visit_still (board : Board) (killed : List Nat) (unlocked : Bool) (d y x : Nat)
    (p : Pass) (h : (visit board killed unlocked d y x p).moving = false) :
    visit board killed unlocked d y x p = p := by
  rcases visit_cases board killed unlocked d y x p with h1 | ⟨_, _, _, _, _, heq⟩
  · exact h1
  · rw [heq, moveBall_moving] at h
    cases h

theorem passRow_still (board : Board) (killed : List Nat) (unlocked : Bool) (d y : Nat)
    (xs : List Nat) :
    ∀ p : Pass, (passRow board killed unlocked d y xs p).moving = false →
      passRow board killed unlocked d y xs p = p := by
  induction xs with
  | nil => intro p _; rfl
  | cons x xs ih =>
      intro p h
      have h1 := ih _ h
      have h2 : passRow board killed unlocked d y (x :: xs) p =
          visit board killed unlocked d y x p := h1
      rw [h2] at h ⊢
      exact visit_still board killed unlocked d y x p h

theorem passRows_still (board : Board) (killed : List Nat) (unlocked : Bool) (d : Nat)
    (xs ys : List Nat) :
    ∀ p : Pass, (passRows board killed unlocked d xs ys p).moving = false →
      passRows board killed unlocked d xs ys p = p := by
  induction ys with
  | nil => intro p _; rfl
  | cons y ys ih =>
      intro p h
      have h1 := ih _ h
      have h2 : passRows board killed unlocked d xs (y :: ys) p =
          passRow board killed unlocked d y xs p := h1
      rw [h2] at h ⊢
      exact passRow_still board killed unlocked d y xs p h

/-- C23. When the first pass of a user move in direction `d` moves no ball (the pass ends
with `moving = false`), `move_state(d)` returns a state with the `fail` flag whose ball grid
is the grid of the parent; `check_adjacent` is not run, the step is one more than the
parent's, and `last_direction` is `d`. -/
theorem noop_move_fails (board : Board) (fuel : Nat) (s : State) (d : Nat)
    (h : (pass board [] (get_board_unlocked board s.cells) d s.cells (-1)).moving = false) :
    move_state board (fuel + 1) s d =
      some (Outcome.returned
        { cells := s.cells, fail := true, killed_positions := [], step := s.step + 1,
          last_direction := d }) := by
  have hp : pass board [] (get_board_unlocked board s.cells) d s.cells (-1) =
      ⟨s.cells, false, -1⟩ := by
    unfold pass at h ⊢
    exact passRows_still board [] _ d _ _ _ h
  unfold move_state move_now moveLoop
  simp only [hp]
  rfl

theorem noop_move_fails_witness :
    (pass (mainBoard 5 shuttleInput) []
        (get_board_unlocked (mainBoard 5 shuttleInput) (mainState shuttleInput).cells) 1
        (mainState shuttleInput).cells (-1)).moving = false ∧
      move_state (mainBoard 5 shuttleInput) 1 (mainState shuttleInput) 1 =
        some (Outcome.returned
          { cells := (mainState shuttleInput).cells, fail := true, killed_positions := [],
            step := (mainState shuttleInput).step + 1, last_direction := 1 }) :=
  ⟨by decide, noop_move_fails (mainBoard 5 shuttleInput) 0 (mainState shuttleInput) 1
    (by decide)⟩

/-! ## C25: the order in which a pass visits the cells -/

/-- C25 (amended). A pass of `move_now` visits the rows in the outer loop and the columns in
the inner loop, each in the direction of the move, so the trailing edge comes first: for
East the columns go left to right, for West right to left, for South the rows go top to
bottom, for North bottom to top; in the axis across the move the order is ascending. Each
cell is visited once in a pass. -/
theorem traversal_order (board : Board) (killed : List Nat) (unlocked : Bool) (d : Nat)
    (cells : Nat → Int) (pending : Int) :
    pass board killed unlocked d cells pending =
        passRows board killed unlocked d (loopOrder (DIRECTION_DX d) board.width)
          (loopOrder (DIRECTION_DY d) board.height) ⟨cells, false, pending⟩ ∧
      (loopOrder (DIRECTION_DX 0) board.width = List.range board.width ∧
        loopOrder (DIRECTION_DY 0) board.height = List.range board.height) ∧
      (loopOrder (DIRECTION_DX 2) board.width = (List.range board.width).reverse ∧
        loopOrder (DIRECTION_DY 2) board.height = List.range board.height) ∧
      (loopOrder (DIRECTION_DY 1) board.height = List.range board.height ∧
        loopOrder (DIRECTION_DX 1) board.width = List.range board.width) ∧
      (loopOrder (DIRECTION_DY 3) board.height = (List.range board.height).reverse ∧
        loopOrder (DIRECTION_DX 3) board.width = List.range board.width) ∧
      (∀ (k : Int) (size : Nat), (loopOrder k size).Nodup ∧
        ∀ x, x ∈ loopOrder k size ↔ x < size) := by
  refine ⟨rfl, ⟨rfl, rfl⟩, ⟨rfl, rfl⟩, ⟨rfl, rfl⟩, ⟨rfl, rfl⟩, ?_⟩
  intro k size
  unfold loopOrder
  split_ifs
  · exact ⟨List.nodup_range size, fun x => List.mem_range⟩
  · exact ⟨List.nodup_reverse.2 (List.nodup_range size),
      fun x => by rw [List.mem_reverse, List.mem_range]⟩

/-- C25 (counterexample). On the one-row board `12.` the pass for the move east visits the
columns 0, 1, 2 in this order. The ball of colour `1` in column 0 is visited first and is
blocked by the ball of colour `2` in column 1, which is visited after it and then moves:
after the pass the row is `1.2`. -/
theorem east_pass_trailing_first :
    loopOrder (DIRECTION_DX 0) (mainBoard 3 queueInput).width = [0, 1, 2] ∧
      gridOf 3 (mainState queueInput) = [49, 50, 0] ∧
      (List.range 3).map
        (pass (mainBoard 3 queueInput) [] false 0 (mainState queueInput).cells (-1)).cells =
        [49, 0, 50] := by
  decide

end Chrooma

namespace Transmission

/-! ## C28: wireless elements in the crossing test -/

theorem radialSquareNode1_reachable :
    Reachable radialSquareLevel crossObjective radialSquareNode1 :=
  Reachable.step radialSquareNode0 [(0, 1), (0, 3), (2, 1), (2, 3)] (0, 3) 2 radialSquareNode1
    (Reachable.init _ rfl) rfl (by simp) rfl

/-- What the two loops of `willCrossIfConnectNow` compute: the result is true exactly when
some pair `i < j` of elements that are both not wireless carries a wire
(`connected[i][j] + connected[j][i] != 0`) whose shortened segment intersects that of the
candidate. The calls of `isWireless` are on the ends of the existing wires only; the ends
`id` and `dst` of the candidate are not asked. -/
theorem willCross_iff (lv : Level) (s : State) (id dst : Nat) :
    willCrossIfConnectNow lv s id dst = true ↔
      ∃ i j, i < j ∧ j < lv.size ∧ (lv.el i).isWireless = false ∧
        (lv.el j).isWireless = false ∧ s.connected i j + s.connected j i ≠ 0 ∧
        lv.crossing i j id dst = true := by
  unfold willCrossIfConnectNow
  constructor
  · intro h
    rw [List.any_eq_true] at h
    obtain ⟨i, _, h⟩ := h
    rw [Bool.and_eq_true, List.any_eq_true] at h
    obtain ⟨hwi, j, hj, h⟩ := h
    simp only [Bool.and_eq_true, decide_eq_true_eq, Bool.not_eq_true'] at h hwi
    obtain ⟨⟨⟨hij, hwj⟩, hc⟩, hx⟩ := h
    exact ⟨i, j, hij, List.mem_range.1 hj, hwi, hwj, hc, hx⟩
  · rintro ⟨i, j, hij, hj, hwi, hwj, hc, hx⟩
    rw [List.any_eq_true]
    refine ⟨i, List.mem_range.2 (lt_trans hij hj), ?_⟩
    rw [Bool.and_eq_true, List.any_eq_true]
    refine ⟨by simp [hwi], j, List.mem_range.2 hj, ?_⟩
    simp [hij, hwj, hc, hx]

theorem radialFirstNode1_reachable :
    Reachable radialSquareLevel crossObjective radialFirstNode1 :=
  Reachable.step radialSquareNode0 [(0, 1), (0, 3), (2, 1), (2, 3)] (2, 1) 2 radialFirstNode1
    (Reachable.init _ rfl) rfl (by simp) rfl

/-- C28 (failing input). In `radialSquareLevel` with the crossing objective the segment
between the Transmitter 2 and the RadialTransmitter 1 crosses the segment between the
Transmitter 0 and the Receiver 3, and the test treats the two orders of making these
connections differently, against the comment on `isWireless` (wireless elements are ignored
for the crossing objective).

* After `0 -> 3`, the candidate `2 -> 1` passes `canConnectToNow` but
  `willCrossIfConnectNow` is true for it: a candidate whose destination is a
  RadialTransmitter is rejected, and nothing is offered, although without the crossing
  objective `2 -> 1` is offered.
* After `2 -> 1`, the wire between 1 and 2 is in the state, and the candidate `0 -> 3`
  that crosses it is not rejected: it is offered. -/
theorem radial_destination_rejected :
    Reachable radialSquareLevel crossObjective radialSquareNode1 ∧
      (radialSquareLevel.el 1).type = ElementType.RadialTransmitter ∧
      canConnectToNow radialSquareLevel radialSquareNode1.state 2 1 = .ok true ∧
      willCrossIfConnectNow radialSquareLevel radialSquareNode1.state 2 1 = true ∧
      getAvailableConnections radialSquareLevel crossObjective radialSquareNode1.state =
        .ok [] ∧
      getAvailableConnections radialSquareLevel noObjectives radialSquareNode1.state =
        .ok [(2, 1)] ∧
      Reachable radialSquareLevel crossObjective radialFirstNode1 ∧
      radialFirstNode1.state.connected 2 1 + radialFirstNode1.state.connected 1 2 ≠ 0 ∧
      radialSquareLevel.crossing 1 2 0 3 = true ∧
      willCrossIfConnectNow radialSquareLevel radialFirstNode1.state 0 3 = false ∧
      getAvailableConnections radialSquareLevel crossObjective radialFirstNode1.state =
        .ok [(0, 1), (0, 3)] :=
  ⟨radialSquareNode1_reachable, rfl, rfl, by decide, rfl, rfl, radialFirstNode1_reachable,
    by decide, by decide, by decide, rfl⟩

end Transmission

namespace Transmission

namespace geometry

/-! ## C26: the direction of a shortened segment -/

end geometry

end Transmission

namespace Transmission

namespace geometry

/-! ## C27: edge cases of the intersection test -/

theorem between_min_max (x1 x2 t : ℚ) (h0 : 0 ≤ t) (h1 : t ≤ 1) :
    min x1 x2 ≤ x1 + t * (x2 - x1) ∧ x1 + t * (x2 - x1) ≤ max x1 x2 := by
  unfold min max
  constructor
  · split_ifs with h
    · have := mul_nonneg h0 (sub_nonneg.2 (le_of_lt h))
      linarith
    · have := mul_nonneg (sub_nonneg.2 h1) (sub_nonneg.2 (not_lt.1 h))
      nlinarith
  · split_ifs with h
    · have := mul_nonneg h0 (sub_nonneg.2 (le_of_lt h))
      nlinarith
    · have := mul_nonneg (sub_nonneg.2 h1) (sub_nonneg.2 (not_lt.1 h))
      nlinarith

theorem is_zero_iff (x : ℚ) : is_zero x = true ↔ -eps ≤ x ∧ x ≤ eps := by
  unfold is_zero
  simp only [Bool.and_eq_true, decide_eq_true_eq, ge_iff_le]
  exact And.comm

theorem is_zero_scaled (c u : ℚ) (h0 : 0 ≤ u) (h1 : u ≤ 1) (h : is_zero c = true) :
    is_zero (u * c) = true := by
  rw [is_zero_iff] at h ⊢
  have he : (0 : ℚ) ≤ eps := by norm_num [eps]
  obtain ⟨ha, hb⟩ := h
  constructor
  · have := mul_nonneg h0 (by linarith : 0 ≤ c + eps)
    have := mul_nonneg (sub_nonneg.2 h1) he
    nlinarith
  · have := mul_nonneg h0 (by linarith : 0 ≤ eps - c)
    have := mul_nonneg (sub_nonneg.2 h1) he
    nlinarith

theorem intersect_of_share (a l : LineSegment) (h : SharePoint a l) :
    a.intersect l = true := by
  obtain ⟨t, u, ht0, ht1, hu0, hu1, hx, hy⟩ := h
  unfold LineSegment.intersect
  simp only [LineSegment.p1, Point.minus, Point.cross]
  by_cases hz : is_zero ((a.x2 - a.x1) * (l.y2 - l.y1) - (a.y2 - a.y1) * (l.x2 - l.x1)) = true
  · rw [if_pos hz]
    have hoff : (l.x1 - a.x1) * (a.y2 - a.y1) - (l.y1 - a.y1) * (a.x2 - a.x1) =
        u * ((a.x2 - a.x1) * (l.y2 - l.y1) - (a.y2 - a.y1) * (l.x2 - l.x1)) := by
      have e1 : l.x1 - a.x1 = t * (a.x2 - a.x1) - u * (l.x2 - l.x1) := by linarith
      have e2 : l.y1 - a.y1 = t * (a.y2 - a.y1) - u * (l.y2 - l.y1) := by linarith
      rw [e1, e2]
      ring
    have hz2 := is_zero_scaled _ u hu0 hu1 hz
    rw [← hoff] at hz2
    rw [if_pos hz2]
    have ax := between_min_max a.x1 a.x2 t ht0 ht1
    have ay := between_min_max a.y1 a.y2 t ht0 ht1
    have lx := between_min_max l.x1 l.x2 u hu0 hu1
    have ly := between_min_max l.y1 l.y2 u hu0 hu1
    simp only [Bool.and_eq_true, decide_eq_true_eq, ge_iff_le]
    refine ⟨⟨⟨?_, ?_⟩, ?_⟩, ?_⟩ <;> linarith [ax.1, ax.2, ay.1, ay.2, lx.1, lx.2, ly.1, ly.2]
  · rw [if_neg hz]
    have hc : (a.x2 - a.x1) * (l.y2 - l.y1) - (a.y2 - a.y1) * (l.x2 - l.x1) ≠ 0 := by
      intro h0
      apply hz
      rw [h0, is_zero_iff]
      constructor <;> norm_num [eps]
    have hc2 : (l.x2 - l.x1) * (a.y2 - a.y1) - (l.y2 - l.y1) * (a.x2 - a.x1) ≠ 0 := by
      intro h0
      apply hc
      linarith
    have et : ((l.x1 - a.x1) * (l.y2 - l.y1) - (l.y1 - a.y1) * (l.x2 - l.x1)) /
        ((a.x2 - a.x1) * (l.y2 - l.y1) - (a.y2 - a.y1) * (l.x2 - l.x1)) = t := by
      rw [div_eq_iff hc]
      have e1 : l.x1 - a.x1 = t * (a.x2 - a.x1) - u * (l.x2 - l.x1) := by linarith
      have e2 : l.y1 - a.y1 = t * (a.y2 - a.y1) - u * (l.y2 - l.y1) := by linarith
      rw [e1, e2]
      ring
    have eu : ((a.x1 - l.x1) * (a.y2 - a.y1) - (a.y1 - l.y1) * (a.x2 - a.x1)) /
        ((l.x2 - l.x1) * (a.y2 - a.y1) - (l.y2 - l.y1) * (a.x2 - a.x1)) = u := by
      rw [div_eq_iff hc2]
      have e1 : a.x1 - l.x1 = u * (l.x2 - l.x1) - t * (a.x2 - a.x1) := by linarith
      have e2 : a.y1 - l.y1 = u * (l.y2 - l.y1) - t * (a.y2 - a.y1) := by linarith
      rw [e1, e2]
      ring
    simp only [et, eu, Bool.and_eq_true, decide_eq_true_eq, ge_iff_le]
    exact ⟨⟨⟨hu0, hu1⟩, ht0⟩, ht1⟩

/-- C27 (amended). In exact arithmetic, `LineSegment::intersect` returns true for any two
segments that have a point in common; this covers collinear segments that share a point and
segments that touch at an endpoint (a parameter equal to 0 or 1). For parallel segments
(the cross product of the directions is zero) it returns false when the cross product of
the offset `q - p` with the direction `r` is not within `eps` of zero; when it is within
`eps` of zero, the answer is whether the bounding boxes of the two segments overlap. -/
theorem intersect_edge_cases (a l : LineSegment) :
    (SharePoint a l → a.intersect l = true) ∧
      (a.direction.cross l.direction = 0 →
        is_zero ((l.p1.minus a.p1).cross a.direction) = false → a.intersect l = false) ∧
      (a.direction.cross l.direction = 0 →
        is_zero ((l.p1.minus a.p1).cross a.direction) = true →
        a.intersect l =
          (decide (max a.x1 a.x2 ≥ min l.x1 l.x2) && decide (min a.x1 a.x2 ≤ max l.x1 l.x2) &&
            decide (max a.y1 a.y2 ≥ min l.y1 l.y2) &&
            decide (min a.y1 a.y2 ≤ max l.y1 l.y2))) := by
  have hz0 : is_zero 0 = true := by
    rw [is_zero_iff]
    constructor <;> norm_num [eps]
  refine ⟨intersect_of_share a l, ?_, ?_⟩
  · intro hpar hoff
    unfold LineSegment.intersect
    simp only [LineSegment.direction, LineSegment.p1] at hpar hoff ⊢
    simp only [hpar, hz0, hoff, if_true]
    rfl
  · intro hpar hoff
    unfold LineSegment.intersect
    simp only [LineSegment.direction, LineSegment.p1] at hpar hoff ⊢
    simp only [hpar, hz0, hoff, if_true]

theorem intersect_edge_cases_witness :
    SharePoint diagonal hook ∧ diagonal.intersect hook = true ∧
      diagonal.direction.cross farDiagonal.direction = 0 ∧
      is_zero ((farDiagonal.p1.minus diagonal.p1).cross diagonal.direction) = false ∧
      diagonal.intersect farDiagonal = false :=
  have hs : SharePoint diagonal hook :=
    ⟨1, 0, by norm_num, by norm_num, by norm_num, by norm_num,
      by norm_num [diagonal, hook], by norm_num [diagonal, hook]⟩
  have hp : diagonal.direction.cross farDiagonal.direction = 0 := by
    norm_num [diagonal, farDiagonal, LineSegment.direction, Point.cross]
  have ho : is_zero ((farDiagonal.p1.minus diagonal.p1).cross diagonal.direction) = false := by
    norm_num [diagonal, farDiagonal, LineSegment.direction, LineSegment.p1, Point.cross,
      Point.minus, is_zero, eps]
  ⟨hs, (intersect_edge_cases diagonal hook).1 hs, hp, ho,
    (intersect_edge_cases diagonal farDiagonal).2.1 hp ho⟩

/-- C27 (counterexample). The segments from (0, 0) to (1, 1) and from (0, 2^-24) to
(1, 1 + 2^-24) are parallel (the cross product of their directions is zero), they are not
collinear (the cross product of the offset with the direction is `-2^-24`, not zero) and
they have no point in common, yet `intersect` returns true: the offset is within `eps` and
the bounding boxes overlap. -/
theorem near_parallel_intersect :
    diagonal.direction.cross liftedDiagonal.direction = 0 ∧
      (liftedDiagonal.p1.minus diagonal.p1).cross diagonal.direction = -(1 / 16777216) ∧
      ¬ SharePoint diagonal liftedDiagonal ∧
      diagonal.intersect liftedDiagonal = true := by
  refine ⟨?_, ?_, ?_, ?_⟩
  · norm_num [diagonal, liftedDiagonal, LineSegment.direction, Point.cross]
  · norm_num [diagonal, liftedDiagonal, LineSegment.direction, LineSegment.p1, Point.cross,
      Point.minus]
  · rintro ⟨t, u, _, _, _, _, hx, hy⟩
    simp only [diagonal, liftedDiagonal] at hx hy
    norm_num at hx hy
    linarith
  · norm_num [diagonal, liftedDiagonal, LineSegment.intersect, LineSegment.p1, Point.cross,
      Point.minus, is_zero, eps, min, max]

end geometry

end Transmission

namespace Chrooma

/-! ## C24: the lock door -/

end Chrooma

namespace Transmission

/-! ## C30: a SignalBooster that has received packets -/

theorem booster_amounts_stable (lv : Level) (obj : Objectives) (b : Nat)
    (hb : (lv.el b).type = ElementType.SignalBooster) (v : Int) (hv : 0 < v) :
    Stable lv obj (fun s => s.amounts b = v) := by
  constructor
  · intro s src dst s1 s2 r hs _ hn hdel hleaf
    obtain ⟨_, _, ha1, _⟩ := deliver_ok hdel
    obtain ⟨hamt, _⟩ := leaf_booster_view lv s1 s2 dst src b r hb hleaf
    obtain ⟨_, hle2⟩ := packetNumber_le lv s src dst
    show s2.amounts b = v
    rw [hamt, ha1, set1_apply]
    by_cases e : b = dst
    · subst e
      have := booster_headroom lv s b hb (by omega)
      have hs1 : s.amounts b = v := hs
      omega
    · rw [if_neg e]
      exact hs
  · intro s0 s id i s1 s2 r _ hs _ _ _ hcan _ _ hgive hleaf
    obtain ⟨_, _, ha1, _⟩ := radialGive_ok hgive
    obtain ⟨hamt, _⟩ := leaf_booster_view lv s1 s2 i id b r hb hleaf
    show s2.amounts b = v
    rw [hamt, ha1, set1_apply]
    by_cases e : b = i
    · subst e
      have := booster_headroom lv s b hb hcan
      have hs1 : s.amounts b = v := hs
      omega
    · rw [if_neg e]
      exact hs
  · intro s id hs hty
    obtain ⟨_, _, ha, _⟩ := sync_ok lv s id
    show (syncToAllCellTransmittersNow lv s id).amounts b = v
    rw [ha b, if_neg]
    · exact hs
    · rintro ⟨_, _, _, h⟩
      rw [hb, hty] at h
      cases h

theorem saturated_set (s : State) (c : Nat → Nat → Int) (a b : Nat) (n : Int) (amt : Int)
    (hc : c = set2 s.connected a b (s.connected a b + n)) (hs : Saturated s b)
    (hle : s.amounts b ≤ 0) (hamt : 0 < amt) :
    (amt ≤ 0 → ∀ x, c x b = 0) ∧ (∀ x x1, c x b ≠ 0 → c x1 b ≠ 0 → x = x1) := by
  have hz := hs.1 hle
  refine ⟨fun h => absurd hamt (not_lt.2 h), ?_⟩
  intro x x1 hx hx1
  rw [hc, set2_apply] at hx hx1
  by_cases e : x = a
  · by_cases e1 : x1 = a
    · rw [e, e1]
    · rw [if_neg (by intro h; exact e1 h.1)] at hx1
      exact absurd (hz x1) hx1
  · rw [if_neg (by intro h; exact e h.1)] at hx
    exact absurd (hz x) hx

theorem saturated_other (s : State) (c : Nat → Nat → Int) (a d b : Nat) (v : Int) (amt : Int)
    (hc : c = set2 s.connected a d v) (hs : Saturated s b) (hne : b ≠ d)
    (hamt : amt = s.amounts b) :
    (amt ≤ 0 → ∀ x, c x b = 0) ∧ (∀ x x1, c x b ≠ 0 → c x1 b ≠ 0 → x = x1) := by
  have hcol : ∀ x, c x b = s.connected x b := by
    intro x
    rw [hc, set2_apply, if_neg (by intro h; exact hne h.2)]
  refine ⟨?_, ?_⟩
  · intro h x
    rw [hcol]
    exact hs.1 (by omega) x
  · intro x x1 hx hx1
    rw [hcol] at hx hx1
    exact hs.2 x x1 hx hx1

theorem saturated_stable (lv : Level) (obj : Objectives) (b : Nat)
    (hb : (lv.el b).type = ElementType.SignalBooster) :
    Stable lv obj (fun s => Saturated s b) := by
  constructor
  · intro s src dst s1 s2 r hs _ hn hdel hleaf
    obtain ⟨hc1, _, ha1, _⟩ := deliver_ok hdel
    obtain ⟨hc2, _⟩ := leaf_cases lv s1 s2 dst src r hleaf
    obtain ⟨hamt, hleft⟩ := leaf_booster_view lv s1 s2 dst src b r hb hleaf
    obtain ⟨_, hle2⟩ := packetNumber_le lv s src dst
    have hc : s2.connected = set2 s.connected src dst (s.connected src dst +
        packetNumber lv s src dst) := hc2.trans hc1
    show Saturated s2 b
    by_cases e : b = dst
    · subst e
      have hle := booster_headroom lv s b hb (by omega)
      rcases hleft with ⟨_, h1, h2, _⟩ | ⟨e1, _⟩
      · exact saturated_set s s2.connected src b _ (s2.amounts b) hc hs hle (by omega)
      · exact absurd rfl e1
    · rw [ha1, set1_apply, if_neg e] at hamt
      exact saturated_other s s2.connected src dst b _ (s2.amounts b) hc hs e hamt
  · intro s0 s id i s1 s2 r _ hs _ _ _ hcan _ _ hgive hleaf
    obtain ⟨hc1, _, ha1, _⟩ := radialGive_ok hgive
    obtain ⟨hc2, _⟩ := leaf_cases lv s1 s2 i id r hleaf
    obtain ⟨hamt, hleft⟩ := leaf_booster_view lv s1 s2 i id b r hb hleaf
    have hc : s2.connected = set2 s.connected id i (s.connected id i +
        newPacketNumber lv s id i (sumTo lv.size fun k => s0.connected k id)) := hc2.trans hc1
    show Saturated s2 b
    by_cases e : b = i
    · subst e
      have hle := booster_headroom lv s b hb hcan
      rcases hleft with ⟨_, h1, h2, _⟩ | ⟨e1, _⟩
      · exact saturated_set s s2.connected id b _ (s2.amounts b) hc hs hle (by omega)
      · exact absurd rfl e1
    · rw [ha1, set1_apply, if_neg e] at hamt
      exact saturated_other s s2.connected id i b _ (s2.amounts b) hc hs e hamt
  · intro s id hs hty
    obtain ⟨hc, _, ha, _⟩ := sync_ok lv s id
    have hab : (syncToAllCellTransmittersNow lv s id).amounts b = s.amounts b := by
      rw [ha b, if_neg]
      rintro ⟨_, _, _, h⟩
      rw [hb, hty] at h
      cases h
    show Saturated (syncToAllCellTransmittersNow lv s id) b
    unfold Saturated
    rw [hc, hab]
    exact hs

theorem reachableFrom_stable (lv : Level) (obj : Objectives) (P : State → Prop)
    (hP : Stable lv obj P) (sp sp1 : StatePlus) (h : ReachableFrom lv obj sp sp1)
    (hs : P sp.state) : P sp1.state := by
  induction h with
  | here => exact hs
  | step sp1 cs c fuel sp2 _ hcs hc hadd ih =>
      exact addConnection_preserves lv obj P hP sp1 cs c fuel sp2 hcs hc hadd ih

theorem saturated_init (lv : Level) (b : Nat) (sp : StatePlus)
    (h : getInitialState lv = .ok sp) : Saturated sp.state b := by
  obtain ⟨hc, _⟩ := getInitialState_ok lv sp h
  exact ⟨fun _ a => hc a b, fun a a1 ha _ => absurd (hc a b) ha⟩

theorem relayNode1_reachable : Reachable relayLevel noObjectives relayNode1 :=
  Reachable.step relayNode0 [(0, 1), (0, 2)] (0, 1) 2 relayNode1 (Reachable.init _ rfl) rfl
    (by simp) rfl

theorem relayNode2_later : ReachableFrom relayLevel noObjectives relayNode1 relayNode2 :=
  ReachableFrom.step relayNode1 [(1, 2)] (1, 2) 2 relayNode2 ReachableFrom.here rfl
    (by simp) rfl

/-- C30. For a SignalBooster `b`: in a state with `amounts[b] > 0` the booster can receive no
packet (`canReceivePacketNumberNow` is 0), and `amounts[b]` has the same value in every node
that the search constructs from that node on. In every reachable node at most one entry of
`connected` that leads into `b` is different from zero, so `b` has at most one incoming
edge of positive weight. -/
theorem booster_saturation (lv : Level) (obj : Objectives) (b : Nat)
    (hb : (lv.el b).type = ElementType.SignalBooster) :
    (∀ sp sp1, sp.state.amounts b > 0 → ReachableFrom lv obj sp sp1 →
      canReceivePacketNumberNow lv sp.state b = 0 ∧
        sp1.state.amounts b = sp.state.amounts b) ∧
    (∀ sp, Reachable lv obj sp → ∀ a a1, sp.state.connected a b > 0 →
      sp.state.connected a1 b > 0 → a = a1) := by
  refine ⟨?_, ?_⟩
  · intro sp sp1 hpos hlater
    refine ⟨?_, ?_⟩
    · unfold canReceivePacketNumberNow
      rw [hb]
      exact if_pos hpos
    · exact reachableFrom_stable lv obj (fun s => s.amounts b = sp.state.amounts b)
        (booster_amounts_stable lv obj b hb _ hpos) sp sp1 hlater rfl
  · intro sp hr a a1 ha ha1
    have hs : Saturated sp.state b :=
      reachable_of_stable lv obj (fun s => Saturated s b) (saturated_init lv b)
        (saturated_stable lv obj b hb) sp hr
    exact hs.2 a a1 (ne_of_gt ha) (ne_of_gt ha1)

theorem booster_saturation_witness :
    (relayLevel.el 1).type = ElementType.SignalBooster ∧ relayNode1.state.amounts 1 > 0 ∧
      (canReceivePacketNumberNow relayLevel relayNode1.state 1 = 0 ∧
        relayNode2.state.amounts 1 = relayNode1.state.amounts 1) ∧
      relayNode1.state.connected 0 1 > 0 ∧ (0 : Nat) = 0 :=
  have h := booster_saturation relayLevel noObjectives 1 (by decide)
  ⟨by decide, by decide, h.1 relayNode1 relayNode2 (by decide) relayNode2_later,
    by decide, h.2 relayNode1 relayNode1_reachable 0 0 (by decide) (by decide)⟩

end Transmission

namespace Chrooma

/-! ## C21: match-and-clear -/

theorem index_inj (w y x y1 x1 : Nat) (hx : x < w) (hx1 : x1 < w)
    (h : y * w + x = y1 * w + x1) : y = y1 ∧ x = x1 := by
  have hw : 0 < w := by omega
  have e1 : (y * w + x) % w = x := by
    rw [Nat.add_comm, Nat.add_mul_mod_self_right, Nat.mod_eq_of_lt hx]
  have e2 : (y1 * w + x1) % w = x1 := by
    rw [Nat.add_comm, Nat.add_mul_mod_self_right, Nat.mod_eq_of_lt hx1]
  have hxx : x = x1 := by rw [← e1, ← e2, h]
  subst hxx
  have : y * w = y1 * w := by omega
  exact ⟨Nat.eq_of_mul_eq_mul_right hw this, rfl⟩

theorem setCell_apply (cells : Nat → Int) (pos : Nat) (v : Int) (k : Nat) :
    setCell cells pos v k = if k = pos then v else cells k := rfl

/-- Every write of `markCell` is a write of the pair of the cell and one of its two
neighbours below and to the right, of the negated colour of the cell, made when the two
colours agree. -/
theorem markCell_ind (board : Board) (y x : Nat) (m : Marking) (P : Marking → Prop) (h0 : P m)
    (hstep : ∀ (m1 : Marking) (pb : Nat), P m1 → |m.cells (y * board.width + x)| ≠ 0 →
      |m1.cells (y * board.width + x)| = |m1.cells pb| →
      ((y + 1 < board.height ∧ pb = (y + 1) * board.width + x) ∨
        (x + 1 < board.width ∧ pb = y * board.width + (x + 1))) →
      P ⟨setCell (setCell m1.cells (y * board.width + x) (-|m.cells (y * board.width + x)|)) pb
        (-|m.cells (y * board.width + x)|), true⟩) :
    P (markCell board y x m) := by
  unfold markCell
  simp only [getAt, setAt]
  by_cases hv : |m.cells (y * board.width + x)| = 0
  · rw [if_pos hv]
    exact h0
  · rw [if_neg hv]
    by_cases c1 : (y : Int) < (board.height : Int) - 1 ∧
        |m.cells (y * board.width + x)| = |m.cells ((y + 1) * board.width + x)|
    · have h1 := hstep m ((y + 1) * board.width + x) h0 hv c1.2 (Or.inl ⟨by omega, rfl⟩)
      rw [if_pos c1]
      split_ifs with c2
      · exact hstep _ (y * board.width + (x + 1)) h1 hv c2.2 (Or.inr ⟨by omega, rfl⟩)
      · exact h1
    · rw [if_neg c1]
      split_ifs with c2
      · exact hstep _ (y * board.width + (x + 1)) h0 hv c2.2 (Or.inr ⟨by omega, rfl⟩)
      · exact h0

theorem markCell_neg (board : Board) (y x : Nat) (m : Marking) (pos : Nat)
    (h : m.cells pos < 0) : (markCell board y x m).cells pos < 0 := by
  apply markCell_ind board y x m (fun m1 => m1.cells pos < 0) h
  intro m1 pb h1 hv _ _
  have : 0 < |m.cells (y * board.width + x)| := lt_of_le_of_ne (abs_nonneg _) (Ne.symm hv)
  simp only [setCell_apply]
  split_ifs <;> omega

theorem markRow_neg (board : Board) (y : Nat) (pos : Nat) (xs : List Nat) :
    ∀ m : Marking, m.cells pos < 0 → (markRow board y xs m).cells pos < 0 := by
  induction xs with
  | nil => intro m h; exact h
  | cons x xs ih => intro m h; exact ih _ (markCell_neg board y x m pos h)

theorem markRows_neg (board : Board) (pos : Nat) (ys : List Nat) :
    ∀ m : Marking, m.cells pos < 0 → (markRows board ys m).cells pos < 0 := by
  induction ys with
  | nil => intro m h; exact h
  | cons y ys ih => intro m h; exact ih _ (markRow_neg board y pos _ m h)

theorem matched_pair (board : Board) (c0 : Nat → Int)
    (hball : ∀ y x, y < board.height → x < board.width → 0 ≤ getAt board.width c0 y x)
    (y x pb : Nat) (hy : y < board.height) (hx : x < board.width)
    (hv : |c0 (y * board.width + x)| ≠ 0)
    (hab : |c0 (y * board.width + x)| = |c0 pb|)
    (hpb : (y + 1 < board.height ∧ pb = (y + 1) * board.width + x) ∨
      (x + 1 < board.width ∧ pb = y * board.width + (x + 1))) :
    MatchedAt board c0 (y * board.width + x) ∧ MatchedAt board c0 pb := by
  have ha := hball y x hy hx
  unfold getAt at ha
  have hne : c0 (y * board.width + x) ≠ 0 := fun e => hv (by rw [e]; rfl)
  rcases hpb with ⟨hy1, e⟩ | ⟨hx1, e⟩
  · have hb := hball (y + 1) x hy1 hx
    unfold getAt at hb
    rw [e, abs_of_nonneg ha, abs_of_nonneg hb] at hab
    refine ⟨⟨y, x, hy, hx, rfl, hne, Or.inl ⟨hy1, hab.symm⟩⟩,
      ⟨y + 1, x, hy1, hx, e, ?_, Or.inr (Or.inl ⟨by omega, ?_⟩)⟩⟩
    · unfold getAt
      rw [← hab]
      exact hne
    · simp only [Nat.add_sub_cancel]
      exact hab
  · have hb := hball y (x + 1) hy hx1
    unfold getAt at hb
    rw [e, abs_of_nonneg ha, abs_of_nonneg hb] at hab
    refine ⟨⟨y, x, hy, hx, rfl, hne, Or.inr (Or.inr (Or.inl ⟨hx1, hab.symm⟩))⟩,
      ⟨y, x + 1, hy, hx1, e, ?_, Or.inr (Or.inr (Or.inr ⟨by omega, ?_⟩))⟩⟩
    · unfold getAt
      rw [← hab]
      exact hne
    · simp only [Nat.add_sub_cancel]
      exact hab

theorem markCell_inv (board : Board) (c0 : Nat → Int)
    (hball : ∀ y x, y < board.height → x < board.width → 0 ≤ getAt board.width c0 y x)
    (y x : Nat) (hy : y < board.height) (hx : x < board.width) (m : Marking)
    (h : MarkInv board c0 m) : MarkInv board c0 (markCell board y x m) := by
  apply markCell_ind board y x m (MarkInv board c0) h
  intro m1 pb h1 hv hab hpb
  obtain ⟨habs, hsound, _⟩ := h1
  have hpos : 0 < |m.cells (y * board.width + x)| := lt_of_le_of_ne (abs_nonneg _) (Ne.symm hv)
  have hv0 : |c0 (y * board.width + x)| ≠ 0 := by
    rw [← h.1]
    exact hv
  have hab0 : |c0 (y * board.width + x)| = |c0 pb| := by
    rw [← habs, ← habs, hab]
  obtain ⟨hMa, hMb⟩ := matched_pair board c0 hball y x pb hy hx hv0 hab0 hpb
  refine ⟨?_, ?_, fun _ => ⟨_, hMa⟩⟩
  · intro pos
    simp only [setCell_apply]
    split_ifs with e1 e2
    · rw [abs_neg, abs_abs, e1, h.1, hab0]
    · rw [abs_neg, abs_abs, e2, h.1]
    · exact habs pos
  · intro pos
    simp only [setCell_apply]
    split_ifs with e1 e2
    · right
      rw [e1]
      exact ⟨by omega, hMb⟩
    · right
      rw [e2]
      exact ⟨by omega, hMa⟩
    · exact hsound pos

theorem markRow_inv (board : Board) (c0 : Nat → Int)
    (hball : ∀ y x, y < board.height → x < board.width → 0 ≤ getAt board.width c0 y x)
    (y : Nat) (hy : y < board.height) (xs : List Nat) :
    ∀ m : Marking, (∀ x ∈ xs, x < board.width) → MarkInv board c0 m →
      MarkInv board c0 (markRow board y xs m) := by
  induction xs with
  | nil => intro m _ h; exact h
  | cons x xs ih =>
      intro m hxs h
      exact ih _ (fun a ha => hxs a (List.mem_cons_of_mem _ ha))
        (markCell_inv board c0 hball y x hy (hxs x (List.mem_cons_self _ _)) m h)

theorem markRows_inv (board : Board) (c0 : Nat → Int)
    (hball : ∀ y x, y < board.height → x < board.width → 0 ≤ getAt board.width c0 y x)
    (ys : List Nat) :
    ∀ m : Marking, (∀ y ∈ ys, y < board.height) → MarkInv board c0 m →
      MarkInv board c0 (markRows board ys m) := by
  induction ys with
  | nil => intro m _ h; exact h
  | cons y ys ih =>
      intro m hys h
      exact ih _ (fun a ha => hys a (List.mem_cons_of_mem _ ha))
        (markRow_inv board c0 hball y (hys y (List.mem_cons_self _ _)) _ m
          (fun x hx => List.mem_range.1 hx) h)

theorem markCell_split (board : Board) (y x : Nat) (m : Marking)
    (hv : |m.cells (y * board.width + x)| ≠ 0) :
    ∃ m1 : Marking,
      m1 = (if (y : Int) < (board.height : Int) - 1 ∧
          |m.cells (y * board.width + x)| = |m.cells ((y + 1) * board.width + x)| then
        (⟨setCell (setCell m.cells (y * board.width + x) (-|m.cells (y * board.width + x)|))
          ((y + 1) * board.width + x) (-|m.cells (y * board.width + x)|), true⟩ : Marking)
        else m) ∧
      markCell board y x m =
        if (x : Int) < (board.width : Int) - 1 ∧
            |m1.cells (y * board.width + x)| = |m1.cells (y * board.width + (x + 1))| then
          (⟨setCell (setCell m1.cells (y * board.width + x) (-|m.cells (y * board.width + x)|))
            (y * board.width + (x + 1)) (-|m.cells (y * board.width + x)|), true⟩ : Marking)
        else m1 := by
  refine ⟨_, rfl, ?_⟩
  unfold markCell
  simp only [getAt, setAt]
  rw [if_neg hv]

/-- The visit of `markCell` to a cell whose colour agrees with that of its neighbour `pb`
below or to the right leaves both cells negative. -/
theorem markCell_marks (board : Board) (c0 : Nat → Int) (y x pb : Nat) (m : Marking)
    (h : MarkInv board c0 m) (hv : c0 (y * board.width + x) ≠ 0)
    (hab : c0 pb = c0 (y * board.width + x))
    (hpb : (y + 1 < board.height ∧ pb = (y + 1) * board.width + x) ∨
      (x + 1 < board.width ∧ pb = y * board.width + (x + 1))) :
    (markCell board y x m).cells (y * board.width + x) < 0 ∧
      (markCell board y x m).cells pb < 0 := by
  have hv1 : |m.cells (y * board.width + x)| ≠ 0 := by
    rw [h.1]
    exact abs_ne_zero.2 hv
  have hpos : 0 < |m.cells (y * board.width + x)| := lt_of_le_of_ne (abs_nonneg _) (Ne.symm hv1)
  have hab1 : |m.cells (y * board.width + x)| = |m.cells pb| := by
    rw [h.1, h.1, hab]
  have wr : ∀ (cells : Nat → Int) (a b k : Nat) (v : Int), v < 0 →
      (k = a ∨ k = b ∨ cells k < 0) → setCell (setCell cells a v) b v k < 0 := by
    intro cells a b k v hv hk
    simp only [setCell_apply]
    split_ifs with e1 e2
    · exact hv
    · exact hv
    · rcases hk with hk | hk | hk
      · exact absurd hk e2
      · exact absurd hk e1
      · exact hk
  obtain ⟨m1, hm1, heq⟩ := markCell_split board y x m hv1
  have hneg : -|m.cells (y * board.width + x)| < 0 := by omega
  have habs1 : ∀ pos, |m1.cells pos| = |m.cells pos| := by
    intro pos
    rw [hm1]
    split_ifs with c1
    · simp only [setCell_apply]
      split_ifs with e1 e2
      · rw [abs_neg, abs_abs, e1, c1.2]
      · rw [abs_neg, abs_abs, e2]
      · rfl
    · rfl
  rw [heq]
  rcases hpb with ⟨hy1, e⟩ | ⟨hx1, e⟩
  · have hm1v : m1.cells (y * board.width + x) < 0 ∧ m1.cells pb < 0 := by
      rw [hm1, if_pos ⟨by omega, by rw [← e]; exact hab1⟩, ← e]
      exact ⟨wr _ _ _ _ _ hneg (Or.inl rfl), wr _ _ _ _ _ hneg (Or.inr (Or.inl rfl))⟩
    split_ifs
    · exact ⟨wr _ _ _ _ _ hneg (Or.inl rfl), wr _ _ _ _ _ hneg (Or.inr (Or.inr hm1v.2))⟩
    · exact hm1v
  · rw [if_pos ⟨by omega, by rw [habs1, habs1, ← e]; exact hab1⟩, ← e]
    exact ⟨wr _ _ _ _ _ hneg (Or.inl rfl), wr _ _ _ _ _ hneg (Or.inr (Or.inl rfl))⟩

theorem markRow_marks (board : Board) (c0 : Nat → Int)
    (hball : ∀ y x, y < board.height → x < board.width → 0 ≤ getAt board.width c0 y x)
    (y x pos : Nat) (hy : y < board.height)
    (heff : ∀ m, MarkInv board c0 m → (markCell board y x m).cells pos < 0) (xs : List Nat) :
    ∀ m : Marking, (∀ a ∈ xs, a < board.width) → x ∈ xs → MarkInv board c0 m →
      (markRow board y xs m).cells pos < 0 := by
  induction xs with
  | nil => intro m _ hx; simp at hx
  | cons a xs ih =>
      intro m hxs hx h
      by_cases e : x ∈ xs
      · exact ih _ (fun b hb => hxs b (List.mem_cons_of_mem _ hb)) e
          (markCell_inv board c0 hball y a hy (hxs a (List.mem_cons_self _ _)) m h)
      · have ea : x = a := by
          rcases List.mem_cons.1 hx with h1 | h1
          · exact h1
          · exact absurd h1 e
        subst ea
        exact markRow_neg board y pos xs _ (heff m h)

theorem markRows_marks (board : Board) (c0 : Nat → Int)
    (hball : ∀ y x, y < board.height → x < board.width → 0 ≤ getAt board.width c0 y x)
    (y x pos : Nat) (hx : x < board.width)
    (heff : ∀ m, MarkInv board c0 m → (markCell board y x m).cells pos < 0) (ys : List Nat) :
    ∀ m : Marking, (∀ a ∈ ys, a < board.height) → y ∈ ys → MarkInv board c0 m →
      (markRows board ys m).cells pos < 0 := by
  induction ys with
  | nil => intro m _ hy; simp at hy
  | cons a ys ih =>
      intro m hys hy h
      by_cases e : y ∈ ys
      · exact ih _ (fun b hb => hys b (List.mem_cons_of_mem _ hb)) e
          (markRow_inv board c0 hball a (hys a (List.mem_cons_self _ _)) _ m
            (fun x hx => List.mem_range.1 hx) h)
      · have ea : y = a := by
          rcases List.mem_cons.1 hy with h1 | h1
          · exact h1
          · exact absurd h1 e
        subst ea
        exact markRows_neg board pos ys _
          (markRow_marks board c0 hball y x pos (hys y (List.mem_cons_self _ _)) heff _ m
            (fun x hx => List.mem_range.1 hx) (List.mem_range.2 hx) h)

theorem markInv_start (board : Board) (c0 : Nat → Int) : MarkInv board c0 ⟨c0, false⟩ :=
  ⟨fun _ => rfl, fun _ => Or.inl rfl, fun h => by cases h⟩

/-- The first double loop of `check_adjacent` on a ball grid `c0`: afterwards a cell of the
grid is negative exactly when it is `Matched` in `c0`, and every other cell is as in `c0`. -/
theorem markRows_spec (board : Board) (c0 : Nat → Int)
    (hball : ∀ y x, y < board.height → x < board.width → 0 ≤ getAt board.width c0 y x) :
    MarkInv board c0 (markRows board (List.range board.height) ⟨c0, false⟩) ∧
      ∀ y x, y < board.height → x < board.width → Matched board c0 y x →
        (markRows board (List.range board.height) ⟨c0, false⟩).cells (y * board.width + x) < 0 := by
  refine ⟨markRows_inv board c0 hball _ _ (fun y hy => List.mem_range.1 hy)
    (markInv_start board c0), ?_⟩
  intro y x hy hx hM
  obtain ⟨hne, hM⟩ := hM
  unfold getAt at hne hM
  have run : ∀ y1 x1, y1 < board.height → x1 < board.width →
      (∀ m, MarkInv board c0 m →
        (markCell board y1 x1 m).cells (y * board.width + x) < 0) →
      (markRows board (List.range board.height) ⟨c0, false⟩).cells (y * board.width + x) < 0 :=
    fun y1 x1 hy1 hx1 heff =>
      markRows_marks board c0 hball y1 x1 _ hx1 heff _ _ (fun a ha => List.mem_range.1 ha)
        (List.mem_range.2 hy1) (markInv_start board c0)
  rcases hM with ⟨hy1, e⟩ | ⟨hy1, e⟩ | ⟨hx1, e⟩ | ⟨hx1, e⟩
  · exact run y x hy hx fun m hm =>
      (markCell_marks board c0 y x _ m hm hne e (Or.inl ⟨hy1, rfl⟩)).1
  · have hyy : y - 1 + 1 = y := by omega
    refine run (y - 1) x (by omega) hx fun m hm => ?_
    have := (markCell_marks board c0 (y - 1) x (y * board.width + x) m hm (by rw [e]; exact hne)
      e.symm (Or.inl ⟨by omega, by rw [hyy]⟩)).2
    exact this
  · exact run y x hy hx fun m hm =>
      (markCell_marks board c0 y x _ m hm hne e (Or.inr ⟨hx1, rfl⟩)).1
  · have hxx : x - 1 + 1 = x := by omega
    refine run y (x - 1) hy (by omega) fun m hm => ?_
    have := (markCell_marks board c0 y (x - 1) (y * board.width + x) m hm (by rw [e]; exact hne)
      e.symm (Or.inr ⟨by omega, by rw [hxx]⟩)).2
    exact this

theorem sweepCell_inv (board : Board) (m0 : Nat → Int) (k0 : List Nat) (y x : Nat)
    (hy : y < board.height) (hx : x < board.width) (w : Sweep)
    (h : SweepInv board m0 k0 w) : SweepInv board m0 k0 (sweepCell board y x w) := by
  unfold sweepCell
  simp only [getAt, setAt]
  split_ifs with h1 h2
  · exact h
  · obtain ⟨hc, hk, hk0⟩ := h
    have hm : m0 (y * board.width + x) < 0 := by
      rcases hc (y * board.width + x) with e | ⟨_, e, _⟩
      · rw [← e]
        exact h2
      · omega
    refine ⟨?_, ?_, ?_⟩
    · intro pos
      simp only [setCell_apply]
      split_ifs with e
      · right
        rw [e]
        exact ⟨hm, rfl, List.mem_cons_self _ _, y, x, hy, hx, rfl⟩
      · rcases hc pos with e1 | ⟨a, b, c, d⟩
        · exact Or.inl e1
        · exact Or.inr ⟨a, b, List.mem_cons_of_mem _ c, d⟩
    · intro pos hpos
      rcases List.mem_cons.1 hpos with e | e
      · right
        rw [e]
        exact ⟨hm, y, x, hy, hx, rfl⟩
      · exact hk pos e
    · intro pos hpos
      exact List.mem_cons_of_mem _ (hk0 pos hpos)
  · exact h

theorem sweepCell_nonneg (board : Board) (y x : Nat) (w : Sweep) (pos : Nat)
    (h : 0 ≤ w.cells pos ∨ pos = y * board.width + x) :
    0 ≤ (sweepCell board y x w).cells pos := by
  unfold sweepCell
  simp only [getAt, setAt]
  split_ifs with h1 h2
  · show 0 ≤ w.cells pos
    rcases h with h | h
    · exact h
    · rw [h]
      omega
  · simp only [setCell_apply]
    split_ifs with e
    · exact le_refl _
    · rcases h with h | h
      · exact h
      · exact absurd h e
  · rcases h with h | h
    · exact h
    · rw [h]
      omega

theorem sweepRow_inv (board : Board) (m0 : Nat → Int) (k0 : List Nat) (y : Nat)
    (hy : y < board.height) (xs : List Nat) :
    ∀ w : Sweep, (∀ x ∈ xs, x < board.width) → SweepInv board m0 k0 w →
      SweepInv board m0 k0 (sweepRow board y xs w) := by
  induction xs with
  | nil => intro w _ h; exact h
  | cons x xs ih =>
      intro w hxs h
      exact ih _ (fun a ha => hxs a (List.mem_cons_of_mem _ ha))
        (sweepCell_inv board m0 k0 y x hy (hxs x (List.mem_cons_self _ _)) w h)

theorem sweepRows_inv (board : Board) (m0 : Nat → Int) (k0 : List Nat) (ys : List Nat) :
    ∀ w : Sweep, (∀ y ∈ ys, y < board.height) → SweepInv board m0 k0 w →
      SweepInv board m0 k0 (sweepRows board ys w) := by
  induction ys with
  | nil => intro w _ h; exact h
  | cons y ys ih =>
      intro w hys h
      exact ih _ (fun a ha => hys a (List.mem_cons_of_mem _ ha))
        (sweepRow_inv board m0 k0 y (hys y (List.mem_cons_self _ _)) _ w
          (fun x hx => List.mem_range.1 hx) h)

theorem sweepRow_nonneg (board : Board) (y y1 x1 : Nat) (xs : List Nat) :
    ∀ w : Sweep, (0 ≤ w.cells (y1 * board.width + x1) ∨ (y = y1 ∧ x1 ∈ xs)) →
      0 ≤ (sweepRow board y xs w).cells (y1 * board.width + x1) := by
  induction xs with
  | nil =>
      intro w h
      rcases h with h | ⟨_, h⟩
      · exact h
      · simp at h
  | cons x xs ih =>
      intro w h
      apply ih
      by_cases e : y = y1 ∧ x1 ∈ xs
      · exact Or.inr e
      · left
        apply sweepCell_nonneg
        rcases h with h | ⟨h1, h2⟩
        · exact Or.inl h
        · right
          rcases List.mem_cons.1 h2 with h3 | h3
          · rw [h1, h3]
          · exact absurd ⟨h1, h3⟩ e

theorem sweepRows_nonneg (board : Board) (y1 x1 : Nat) (hx1 : x1 < board.width)
    (ys : List Nat) :
    ∀ w : Sweep, (0 ≤ w.cells (y1 * board.width + x1) ∨ y1 ∈ ys) →
      0 ≤ (sweepRows board ys w).cells (y1 * board.width + x1) := by
  induction ys with
  | nil =>
      intro w h
      rcases h with h | h
      · exact h
      · simp at h
  | cons y ys ih =>
      intro w h
      apply ih
      by_cases e : y1 ∈ ys
      · exact Or.inr e
      · left
        apply sweepRow_nonneg
        rcases h with h | h
        · exact Or.inl h
        · right
          rcases List.mem_cons.1 h with h3 | h3
          · exact ⟨h3.symm, List.mem_range.2 hx1⟩
          · exact absurd h3 e

theorem sweepInv_start (board : Board) (m0 : Nat → Int) (k0 : List Nat) :
    SweepInv board m0 k0 ⟨m0, k0, []⟩ :=
  ⟨fun _ => Or.inl rfl, fun _ h => Or.inl h, fun _ h => h⟩

theorem adjacent_state (board : Board) (s : State) :
    (check_adjacent board s).state.cells =
        (sweepRows board (List.range board.height)
          ⟨(markRows board (List.range board.height) ⟨s.cells, false⟩).cells,
            s.killed_positions, []⟩).cells ∧
      (check_adjacent board s).state.killed_positions =
        (sweepRows board (List.range board.height)
          ⟨(markRows board (List.range board.height) ⟨s.cells, false⟩).cells,
            s.killed_positions, []⟩).killed_positions := by
  unfold check_adjacent
  simp only []
  split_ifs <;> exact ⟨rfl, rfl⟩

theorem adjacent_true (board : Board) (s s1 : State)
    (h : check_adjacent board s = Adjacent.returned true s1) :
    (markRows board (List.range board.height) ⟨s.cells, false⟩).killed = true := by
  unfold check_adjacent at h
  simp only [] at h
  split_ifs at h
  · cases h
  · exact (Adjacent.returned.inj h).1

/-- What `check_adjacent` does to a ball grid, position by position: a position that is
`MatchedAt` is cleared and put into `killed_positions`, every other position keeps its cell,
nothing else is put into `killed_positions`, and the result true needs a `MatchedAt`
position. -/
theorem check_adjacent_spec (board : Board) (s : State)
    (hball : ∀ y x, y < board.height → x < board.width → 0 ≤ getAt board.width s.cells y x) :
    (∀ pos, MatchedAt board s.cells pos →
      (check_adjacent board s).state.cells pos = 0 ∧
        pos ∈ (check_adjacent board s).state.killed_positions) ∧
    (∀ pos, ¬ MatchedAt board s.cells pos →
      (check_adjacent board s).state.cells pos = s.cells pos) ∧
    (∀ pos, pos ∈ (check_adjacent board s).state.killed_positions →
      pos ∈ s.killed_positions ∨ MatchedAt board s.cells pos) ∧
    (∀ pos, pos ∈ s.killed_positions →
      pos ∈ (check_adjacent board s).state.killed_positions) ∧
    (∀ s1, check_adjacent board s = Adjacent.returned true s1 →
      ∃ pos, MatchedAt board s.cells pos) := by
  obtain ⟨hcells, hkilled⟩ := adjacent_state board s
  obtain ⟨hminv, hmarks⟩ := markRows_spec board s.cells hball
  have hsinv := sweepRows_inv board
    (markRows board (List.range board.height) ⟨s.cells, false⟩).cells s.killed_positions
    (List.range board.height) _ (fun y hy => List.mem_range.1 hy) (sweepInv_start board _ _)
  have hnn : ∀ y x, y < board.height → x < board.width →
      0 ≤ (check_adjacent board s).state.cells (y * board.width + x) := by
    intro y x hy hx
    rw [hcells]
    exact sweepRows_nonneg board y x hx _ _ (Or.inr (List.mem_range.2 hy))
  obtain ⟨hc, hk, hk0⟩ := hsinv
  rw [← hcells, ← hkilled] at hc
  rw [← hkilled] at hk hk0
  have hflag1 : ∀ s1, check_adjacent board s = Adjacent.returned true s1 →
      (markRows board (List.range board.height) ⟨s.cells, false⟩).killed = true :=
    fun s1 h1 => adjacent_true board s s1 h1
  clear hcells hkilled
  generalize (check_adjacent board s).state = fin at hc hk hk0 hnn ⊢
  generalize markRows board (List.range board.height) ⟨s.cells, false⟩ = m at hc hk hminv hmarks hflag1
  obtain ⟨_, hsound, hflag⟩ := hminv
  have hunm : ∀ pos, ¬ MatchedAt board s.cells pos → m.cells pos = s.cells pos := by
    intro pos hn
    rcases hsound pos with e | ⟨_, e⟩
    · exact e
    · exact absurd e hn
  refine ⟨?_, ?_, ?_, hk0, fun s1 h1 => hflag (hflag1 s1 h1)⟩
  · rintro pos ⟨y, x, hy, hx, e, hM⟩
    have h1 := hmarks y x hy hx hM
    have h2 := hnn y x hy hx
    rw [← e] at h1 h2
    rcases hc pos with e1 | ⟨_, e1, e2, _⟩
    · omega
    · exact ⟨e1, e2⟩
  · intro pos hn
    rcases hc pos with e1 | ⟨e1, _, _, y, x, hy, hx, e⟩
    · rw [e1, hunm pos hn]
    · have := hball y x hy hx
      unfold getAt at this
      rw [hunm pos hn, e] at e1
      omega
  · intro pos h
    rcases hk pos h with h1 | ⟨h1, y, x, hy, hx, e⟩
    · exact Or.inl h1
    · right
      by_contra hn
      have := hball y x hy hx
      unfold getAt at this
      rw [hunm pos hn, e] at h1
      omega

/-- C21. On a ball grid (no cell of the grid is negative), `check_adjacent` ends with a grid
in which every cell that held a ball with a horizontally or vertically adjacent ball of the
same colour is empty and every other cell, in the grid or outside it, is unchanged; the set
`killed_positions` then holds its former members and the positions of the cleared cells, and
nothing else; and `check_adjacent` returns true only if some cell was cleared. -/
theorem match_and_clear (board : Board) (s : State)
    (hball : ∀ y x, y < board.height → x < board.width → 0 ≤ getAt board.width s.cells y x) :
    (∀ y x, y < board.height → x < board.width →
      (Matched board s.cells y x →
        getAt board.width (check_adjacent board s).state.cells y x = 0) ∧
      (¬ Matched board s.cells y x →
        getAt board.width (check_adjacent board s).state.cells y x =
          getAt board.width s.cells y x)) ∧
    (∀ pos, (∀ y x, y < board.height → x < board.width → pos ≠ y * board.width + x) →
      (check_adjacent board s).state.cells pos = s.cells pos) ∧
    (∀ pos, pos ∈ (check_adjacent board s).state.killed_positions ↔
      pos ∈ s.killed_positions ∨ MatchedAt board s.cells pos) ∧
    (∀ s1, check_adjacent board s = Adjacent.returned true s1 →
      ∃ y x, y < board.height ∧ x < board.width ∧ Matched board s.cells y x) := by
  obtain ⟨hclear, hkeep, hk, hk0, hflag⟩ := check_adjacent_spec board s hball
  refine ⟨?_, ?_, ?_, ?_⟩
  · intro y x hy hx
    refine ⟨fun hM => (hclear _ ⟨y, x, hy, hx, rfl, hM⟩).1, fun hn => hkeep _ ?_⟩
    rintro ⟨y1, x1, _, hx1, e, hM⟩
    obtain ⟨e1, e2⟩ := index_inj board.width y x y1 x1 hx hx1 e
    rw [e1, e2] at hn
    exact hn hM
  · intro pos hpos
    apply hkeep
    rintro ⟨y, x, hy, hx, e, _⟩
    exact hpos y x hy hx e
  · intro pos
    constructor
    · exact hk pos
    · rintro (h | h)
      · exact hk0 pos h
      · exact (hclear pos h).2
  · intro s1 h1
    obtain ⟨pos, y, x, hy, hx, _, hM⟩ := hflag s1 h1
    exact ⟨y, x, hy, hx, hM⟩

theorem mainState_nonneg (buf : List Int) (pos : Nat) : 0 ≤ (mainState buf).cells pos := by
  show 0 ≤ (if buf.getD pos 0 ≥ 48 ∧ buf.getD pos 0 ≤ 57 then buf.getD pos 0 else 0)
  split_ifs with h
  · omega
  · exact le_refl _

theorem match_and_clear_witness :
    (∀ y x, y < (mainBoard 4 rowOfThreeInput).height → x < (mainBoard 4 rowOfThreeInput).width →
        0 ≤ getAt (mainBoard 4 rowOfThreeInput).width (mainState rowOfThreeInput).cells y x) ∧
      Matched (mainBoard 4 rowOfThreeInput) (mainState rowOfThreeInput).cells 0 0 ∧
      getAt (mainBoard 4 rowOfThreeInput).width
        (check_adjacent (mainBoard 4 rowOfThreeInput) (mainState rowOfThreeInput)).state.cells
        0 0 = 0 :=
  have hb : ∀ y x, y < (mainBoard 4 rowOfThreeInput).height →
      x < (mainBoard 4 rowOfThreeInput).width →
      0 ≤ getAt (mainBoard 4 rowOfThreeInput).width (mainState rowOfThreeInput).cells y x :=
    fun _ _ _ _ => mainState_nonneg rowOfThreeInput _
  have hm : Matched (mainBoard 4 rowOfThreeInput) (mainState rowOfThreeInput).cells 0 0 :=
    ⟨by decide, Or.inr (Or.inr (Or.inl ⟨by decide, by decide⟩))⟩
  ⟨hb, hm,
    ((match_and_clear (mainBoard 4 rowOfThreeInput) (mainState rowOfThreeInput) hb).1 0 0
      (by decide) (by decide)).1 hm⟩

end Chrooma

namespace Chrooma

/-! ## Properties of the grid that every step of a move keeps -/

theorem passRow_keeps (board : Board) (P : (Nat → Int) → Prop) (killed : List Nat)
    (unlocked : Bool) (d y : Nat)
    (hvisit : ∀ x p, x < board.width → P p.cells →
      P (visit board killed unlocked d y x p).cells) (xs : List Nat) :
    ∀ p : Pass, (∀ x ∈ xs, x < board.width) → P p.cells →
      P (passRow board killed unlocked d y xs p).cells := by
  induction xs with
  | nil => intro p _ h; exact h
  | cons x xs ih =>
      intro p hxs h
      exact ih _ (fun a ha => hxs a (List.mem_cons_of_mem _ ha))
        (hvisit x p (hxs x (List.mem_cons_self _ _)) h)

theorem passRows_keeps (board : Board) (P : (Nat → Int) → Prop) (killed : List Nat)
    (unlocked : Bool) (d : Nat)
    (hvisit : ∀ y x p, y < board.height → x < board.width → P p.cells →
      P (visit board killed unlocked d y x p).cells) (xs : List Nat)
    (hxs : ∀ x ∈ xs, x < board.width) (ys : List Nat) :
    ∀ p : Pass, (∀ y ∈ ys, y < board.height) → P p.cells →
      P (passRows board killed unlocked d xs ys p).cells := by
  induction ys with
  | nil => intro p _ h; exact h
  | cons y ys ih =>
      intro p hys h
      exact ih _ (fun a ha => hys a (List.mem_cons_of_mem _ ha))
        (passRow_keeps board P killed unlocked d y
          (fun x p hx hp => hvisit y x p (hys y (List.mem_cons_self _ _)) hx hp) xs p hxs h)

theorem pass_keeps (board : Board) (P : (Nat → Int) → Prop)
    (hvisit : ∀ killed unlocked d y x p, y < board.height → x < board.width → P p.cells →
      P (visit board killed unlocked d y x p).cells)
    (killed : List Nat) (unlocked : Bool) (d : Nat) (cells : Nat → Int) (pending : Int)
    (h : P cells) : P (pass board killed unlocked d cells pending).cells := by
  unfold pass
  exact passRows_keeps board P killed unlocked d (hvisit killed unlocked d) _
    (fun x hx => mem_loopOrder _ _ x hx) _ _ (fun y hy => mem_loopOrder _ _ y hy) h

theorem adjacent_cases (board : Board) (s : State) :
    check_adjacent board s = Adjacent.exited (check_adjacent board s).state ∨
      ∃ b, check_adjacent board s = Adjacent.returned b (check_adjacent board s).state := by
  cases h : check_adjacent board s with
  | returned b s1 => exact Or.inr ⟨b, rfl⟩
  | exited s1 => exact Or.inl rfl

/-- A property of the ball grid that every visit of a cell and every `check_adjacent` keep is
kept by `move_now` with all its passes and chained calls; if moreover `check_adjacent` never
calls `exit` on a grid with the property, `move_now` returns. -/
theorem moveLoop_keeps (board : Board) (P : (Nat → Int) → Prop)
    (hvisit : ∀ killed unlocked d y x p, y < board.height → x < board.width → P p.cells →
      P (visit board killed unlocked d y x p).cells)
    (hadj : ∀ s, P s.cells → P (check_adjacent board s).state.cells) (fuel : Nat) :
    ∀ (d : Nat) (s : State) (unlocked first : Bool) (pending : Int) (out : Outcome),
      moveLoop board fuel d s unlocked first pending = some out → P s.cells →
      P out.state.cells ∧
        ((∀ s1 s2, P s1.cells → check_adjacent board s1 ≠ Adjacent.exited s2) →
          ∃ s3, out = Outcome.returned s3) := by
  induction fuel with
  | zero => intro d s unlocked first pending out h; simp [moveLoop] at h
  | succ k ih =>
      intro d s unlocked first pending out h hs
      have hp := pass_keeps board P hvisit s.killed_positions unlocked d s.cells pending hs
      unfold moveLoop at h
      simp only [] at h
      split_ifs at h with h1 h2 h3
      · cases h
        exact ⟨hp, fun _ => ⟨_, rfl⟩⟩
      · have hq := hadj { s with cells :=
          (pass board s.killed_positions unlocked d s.cells pending).cells } hp
        split at h
        · rename_i s2 hca
          cases h
          rw [hca] at hq
          exact ⟨hq, fun hne => absurd hca (hne _ _ hp)⟩
        · rename_i s2 hca
          rw [hca] at hq
          have e := ih _ _ _ _ _ _ h hq
          exact e
        · rename_i s2 hca
          cases h
          rw [hca] at hq
          exact ⟨hq, fun _ => ⟨_, rfl⟩⟩
      · have e := ih _ _ _ _ _ _ h hp
        exact e
      · have e := ih _ _ _ _ _ _ h hp
        exact e

/-! ## C29: where the balls are -/

theorem markCell_abs (board : Board) (c0 : Nat → Int) (y x : Nat) (m : Marking)
    (h : ∀ pos, |m.cells pos| = |c0 pos|) :
    ∀ pos, |(markCell board y x m).cells pos| = |c0 pos| := by
  apply markCell_ind board y x m (fun m1 => ∀ pos, |m1.cells pos| = |c0 pos|) h
  intro m1 pb h1 _ hab _ pos
  simp only [setCell_apply]
  split_ifs with e1 e2
  · rw [abs_neg, abs_abs, e1, ← h1 pb, ← hab, h1, h]
  · rw [abs_neg, abs_abs, e2, h]
  · exact h1 pos

theorem markRow_abs (board : Board) (c0 : Nat → Int) (y : Nat) (xs : List Nat) :
    ∀ m : Marking, (∀ pos, |m.cells pos| = |c0 pos|) →
      ∀ pos, |(markRow board y xs m).cells pos| = |c0 pos| := by
  induction xs with
  | nil => intro m h; exact h
  | cons x xs ih => intro m h; exact ih _ (markCell_abs board c0 y x m h)

theorem markRows_abs (board : Board) (c0 : Nat → Int) (ys : List Nat) :
    ∀ m : Marking, (∀ pos, |m.cells pos| = |c0 pos|) →
      ∀ pos, |(markRows board ys m).cells pos| = |c0 pos| := by
  induction ys with
  | nil => intro m h; exact h
  | cons y ys ih => intro m h; exact ih _ (markRow_abs board c0 y _ m h)

theorem adjacent_nonzero (board : Board) (s : State) (pos : Nat)
    (h : (check_adjacent board s).state.cells pos ≠ 0) : s.cells pos ≠ 0 := by
  obtain ⟨hcells, _⟩ := adjacent_state board s
  have hsinv := sweepRows_inv board
    (markRows board (List.range board.height) ⟨s.cells, false⟩).cells s.killed_positions
    (List.range board.height) _ (fun y hy => List.mem_range.1 hy) (sweepInv_start board _ _)
  obtain ⟨hc, _, _⟩ := hsinv
  rw [← hcells] at hc
  have habs := markRows_abs board s.cells (List.range board.height) ⟨s.cells, false⟩
    (fun _ => rfl) pos
  rcases hc pos with e | ⟨_, e, _⟩
  · rw [e] at h
    intro h0
    rw [h0] at habs
    exact h (abs_eq_zero.1 habs)
  · exact absurd e h

theorem adjacent_placed (board : Board) (s : State) (h : Placed board s.cells) :
    Placed board (check_adjacent board s).state.cells :=
  fun pos hne => h pos (adjacent_nonzero board s pos hne)

theorem destTerrain_wall (board : Board) (killed : List Nat) (unlocked : Bool) (yd xd : Nat)
    (h : destTerrain board killed unlocked yd xd ≠ WALL) :
    getAt board.width board.cells yd xd ≠ WALL := by
  unfold destTerrain at h
  simp only [] at h
  by_cases hl : getAt board.width board.cells yd xd = LOCK
  · rw [hl]
    decide
  · rw [if_neg hl] at h
    exact h

theorem moveBall_placed (board : Board) (hportal : PortalsPaired board) (y x yd xd : Nat)
    (v : Int) (p : Pass) (hyd : yd < board.height) (hxd : xd < board.width)
    (hwall : getAt board.width board.cells yd xd ≠ WALL) (h : Placed board p.cells) :
    Placed board (moveBall board y x yd xd v p).cells := by
  have hdst := index_lt _ _ _ _ hyd hxd
  unfold getAt at hwall
  intro pos hne
  unfold moveBall at hne
  simp only [getAt, setAt] at hne
  split_ifs at hne with t1 t2 t3 t4 t5 t6
  · simp only [setCell_apply] at hne
    split_ifs at hne
    · exact absurd rfl hne
    · exact absurd rfl hne
    · exact h pos hne
  · simp only [setCell_apply] at hne
    split_ifs at hne with e1 e2 e3
    · rw [e1]
      exact hportal _ hdst t2
    · exact absurd rfl hne
    · exact absurd rfl hne
    · exact h pos hne
  all_goals
    simp only [setCell_apply] at hne
    split_ifs at hne with e1 e2
    · exact absurd rfl hne
    · rw [e2]
      exact ⟨hdst, hwall, t1⟩
    · exact h pos hne

theorem visit_placed (board : Board) (hportal : PortalsPaired board) (killed : List Nat)
    (unlocked : Bool) (d y x : Nat) (p : Pass) (h : Placed board p.cells) :
    Placed board (visit board killed unlocked d y x p).cells := by
  rcases visit_cases board killed unlocked d y x p with h1 | ⟨_, hin, hdest, _, _, heq⟩
  · rw [h1]
    exact h
  · rw [heq]
    exact moveBall_placed board hportal y x _ _ _ p (by omega) (by omega)
      (destTerrain_wall board killed unlocked _ _ hdest) h

theorem mem_special_positions (buf : List Int) (c : Int) (hc : c ≠ 0) (pos : Nat)
    (h : buf.getD pos 0 = c) : pos ∈ special_positions buf c := by
  unfold special_positions
  rw [List.mem_filter, List.mem_range]
  refine ⟨?_, by simpa using h⟩
  by_contra hlt
  rw [List.getD_eq_default _ _ (not_lt.1 hlt)] at h
  exact hc h.symm

theorem mainBoard_cells (width : Nat) (buf : List Int) (pos : Nat) :
    (mainBoard width buf).cells pos =
      if buf.getD pos 0 ≥ 48 ∧ buf.getD pos 0 ≤ 57 then BLANK else buf.getD pos 0 := rfl

theorem mainBoard_portals (width : Nat) (buf : List Int)
    (hsize : buf.length / width * width = buf.length)
    (hport : (special_positions buf PORTAL).length = 0 ∨
      (special_positions buf PORTAL).length = 2) : PortalsPaired (mainBoard width buf) := by
  intro pos _ hcell
  have hgrid : (mainBoard width buf).height * (mainBoard width buf).width = buf.length := hsize
  have hbuf : buf.getD pos 0 = PORTAL := by
    rw [mainBoard_cells] at hcell
    split_ifs at hcell
    · exact absurd hcell (by decide)
    · exact hcell
  have hmem := mem_special_positions buf PORTAL (by decide) pos hbuf
  rcases hport with h0 | h2
  · rw [List.length_eq_zero] at h0
    rw [h0] at hmem
    simp at hmem
  · obtain ⟨p0, p1, hl⟩ := List.length_eq_two.1 h2
    obtain ⟨_, hc0, hc1, hg0, hg1⟩ := portal_pair_facts width buf p0 p1 hl
    have hlt : ∀ q, q ∈ special_positions buf PORTAL → q < buf.length := by
      intro q hq
      unfold special_positions at hq
      exact List.mem_range.1 (List.mem_filter.1 hq).1
    have hp0 := hlt p0 (by rw [hl]; simp)
    have hp1 := hlt p1 (by rw [hl]; simp)
    rw [hl] at hmem
    rw [hgrid]
    rcases List.mem_cons.1 hmem with e | e
    · rw [e, hg0, hc1]
      exact ⟨hp1, by decide, by decide⟩
    · have e1 : pos = p1 := by simpa using e
      rw [e1, hg1, hc0]
      exact ⟨hp0, by decide, by decide⟩

theorem mainState_placed (width : Nat) (buf : List Int)
    (hsize : buf.length / width * width = buf.length) :
    Placed (mainBoard width buf) (mainState buf).cells := by
  intro pos hne
  have hgrid : (mainBoard width buf).height * (mainBoard width buf).width = buf.length := hsize
  have hcell : (mainState buf).cells pos =
      if buf.getD pos 0 ≥ 48 ∧ buf.getD pos 0 ≤ 57 then buf.getD pos 0 else 0 := rfl
  rw [hcell] at hne
  by_cases hd : buf.getD pos 0 ≥ 48 ∧ buf.getD pos 0 ≤ 57
  · rw [hgrid, mainBoard_cells, if_pos hd]
    refine ⟨?_, by decide, by decide⟩
    by_contra hlt
    rw [List.getD_eq_default _ _ (not_lt.1 hlt)] at hd
    omega
  · rw [if_neg hd] at hne
    exact absurd rfl hne

/-- C29. On a board that `main` builds from an input that passes its size check and has zero
or exactly two portal cells: if every ball is on a cell of the grid whose terrain is neither
a wall nor a consumer, then the same holds after every pass of `move_now` in any direction
and after `check_adjacent`, and it holds in the state in which `move_now` ends, with all its
passes, clears, teleports and chained redirects. -/
theorem ball_placement (width : Nat) (buf : List Int)
    (hsize : buf.length / width * width = buf.length)
    (hport : (special_positions buf PORTAL).length = 0 ∨
      (special_positions buf PORTAL).length = 2)
    (s : State) (hplaced : Placed (mainBoard width buf) s.cells) (d : Nat) :
    (∀ killed unlocked pending,
      Placed (mainBoard width buf)
        (pass (mainBoard width buf) killed unlocked d s.cells pending).cells) ∧
    Placed (mainBoard width buf) (check_adjacent (mainBoard width buf) s).state.cells ∧
    (∀ fuel out, move_now (mainBoard width buf) fuel s d = some out →
      Placed (mainBoard width buf) out.state.cells) := by
  have hportal := mainBoard_portals width buf hsize hport
  have hvisit : ∀ killed unlocked d y x (p : Pass), y < (mainBoard width buf).height →
      x < (mainBoard width buf).width → Placed (mainBoard width buf) p.cells →
      Placed (mainBoard width buf) (visit (mainBoard width buf) killed unlocked d y x p).cells :=
    fun killed unlocked d y x p _ _ hp =>
      visit_placed (mainBoard width buf) hportal killed unlocked d y x p hp
  refine ⟨fun killed unlocked pending => pass_keeps _ _ hvisit killed unlocked d s.cells
    pending hplaced, adjacent_placed _ s hplaced, ?_⟩
  intro fuel out hmove
  exact (moveLoop_keeps (mainBoard width buf) (Placed (mainBoard width buf)) hvisit
    (fun s1 h1 => adjacent_placed _ s1 h1) fuel d _ _ _ _ out hmove hplaced).1

theorem ball_placement_witness :
    (portalInput.length / 5 * 5 = portalInput.length ∧
        (special_positions portalInput PORTAL).length = 2 ∧
        Placed (mainBoard 5 portalInput) (mainState portalInput).cells ∧
        move_now (mainBoard 5 portalInput) 8 (mainState portalInput) 0 = some portalOut) ∧
      Placed (mainBoard 5 portalInput) portalOut.state.cells ∧
      (List.range 5).map portalOut.state.cells = [0, 0, 0, 0, 49] :=
  ⟨⟨by decide, by decide, mainState_placed 5 portalInput (by decide), rfl⟩,
    (ball_placement 5 portalInput (by decide) (Or.inr (by decide)) (mainState portalInput)
      (mainState_placed 5 portalInput (by decide)) 0).2.2 8 portalOut rfl, by decide⟩

end Chrooma

namespace Chrooma

/-! ## C22: a colour with a single ball -/

theorem countCells_congr (n : Nat) (a b : Nat → Int) (c : Int)
    (h : ∀ pos, pos < n → (a pos = c ↔ b pos = c)) : countCells n a c = countCells n b c := by
  induction n with
  | zero => rfl
  | succ k ih =>
      simp only [countCells]
      rw [ih (fun pos hpos => h pos (Nat.lt_succ_of_lt hpos))]
      have := h k (Nat.lt_succ_self k)
      by_cases e : a k = c
      · rw [if_pos e, if_pos (this.1 e)]
      · rw [if_neg e, if_neg (fun e1 => e (this.2 e1))]

theorem countCells_pos (n : Nat) (cells : Nat → Int) (c : Int) (hc : c ≠ 0) (pos : Nat)
    (hpos : pos < n) (h : cells pos = c) :
    countCells n cells c = countCells n (setCell cells pos 0) c + 1 := by
  have e := countCells_setCell n cells pos 0 c
  rw [if_pos ⟨hpos, h⟩, if_neg (by intro h1; exact hc h1.2.symm)] at e
  omega

theorem countCells_two (n : Nat) (cells : Nat → Int) (c : Int) (hc : c ≠ 0) (p1 p2 : Nat)
    (h1 : p1 < n) (h2 : p2 < n) (hne : p1 ≠ p2) (e1 : cells p1 = c) (e2 : cells p2 = c) :
    2 ≤ countCells n cells c := by
  have a := countCells_pos n cells c hc p1 h1 e1
  have b := countCells_pos n (setCell cells p1 0) c hc p2 h2 (by
    rw [setCell_apply, if_neg (fun e => hne e.symm)]
    exact e2)
  omega

theorem countCells_above (n : Nat) (cells : Nat → Int) (pos : Nat) (v c : Int)
    (h : n ≤ pos) : countCells n (setCell cells pos v) c = countCells n cells c := by
  apply countCells_congr
  intro k hk
  rw [setCell_apply, if_neg (by omega)]

/-! ### The map `left` of `check_adjacent` -/

theorem sweepCell_left (board : Board) (y x : Nat) (w : Sweep)
    (h : LeftCounts (y * board.width + x) w) :
    LeftCounts (y * board.width + x + 1) (sweepCell board y x w) := by
  intro c hc
  have h0 := h c hc
  unfold sweepCell
  simp only [getAt, setAt]
  split_ifs with h1 h2
  · show (w.cells (y * board.width + x) :: w.left).count c =
      countCells (y * board.width + x + 1) w.cells c
    rw [List.count_cons, h0]
    simp only [countCells, beq_iff_eq]
  · show w.left.count c =
      countCells (y * board.width + x + 1) (setCell w.cells (y * board.width + x) 0) c
    simp only [countCells]
    rw [countCells_above _ _ _ _ _ (le_refl _), h0, setCell_apply, if_pos rfl,
      if_neg (by omega)]
    rfl
  · show w.left.count c = countCells (y * board.width + x + 1) w.cells c
    simp only [countCells]
    rw [h0, if_neg (by omega)]
    rfl

theorem sweepRow_left (board : Board) (y : Nat) (len : Nat) :
    ∀ (x0 : Nat) (w : Sweep), LeftCounts (y * board.width + x0) w →
      LeftCounts (y * board.width + (x0 + len)) (sweepRow board y (List.range' x0 len) w) := by
  induction len with
  | zero => intro x0 w h; exact h
  | succ k ih =>
      intro x0 w h
      rw [List.range'_succ]
      have e : x0 + (k + 1) = x0 + 1 + k := by omega
      rw [e]
      exact ih (x0 + 1) _ (sweepCell_left board y x0 w h)

theorem sweepRows_left (board : Board) (len : Nat) :
    ∀ (y0 : Nat) (w : Sweep), LeftCounts (y0 * board.width) w →
      LeftCounts ((y0 + len) * board.width) (sweepRows board (List.range' y0 len) w) := by
  induction len with
  | zero => intro y0 w h; exact h
  | succ k ih =>
      intro y0 w h
      rw [List.range'_succ]
      have e : y0 + (k + 1) = y0 + 1 + k := by omega
      rw [e]
      apply ih (y0 + 1)
      have h1 := sweepRow_left board y0 board.width 0 w (by rw [Nat.add_zero]; exact h)
      rw [← List.range_eq_range', Nat.zero_add] at h1
      have e2 : (y0 + 1) * board.width = y0 * board.width + board.width := by ring
      rw [e2]
      exact h1

theorem adjacent_left (board : Board) (s : State) (c : Int) (hc : 0 < c) :
    (sweepRows board (List.range board.height)
        ⟨(markRows board (List.range board.height) ⟨s.cells, false⟩).cells,
          s.killed_positions, []⟩).left.count c =
      countCells (board.height * board.width) (check_adjacent board s).state.cells c := by
  rw [(adjacent_state board s).1, List.range_eq_range']
  have h := sweepRows_left board board.height 0
    ⟨(markRows board (List.range' 0 board.height) ⟨s.cells, false⟩).cells,
      s.killed_positions, []⟩ (fun c _ => by simp [countCells])
  rw [Nat.zero_add] at h
  exact h c hc

/-- When `check_adjacent` leaves exactly one ball of some colour on the grid, it sets `fail`
and returns false. -/
theorem adjacent_single (board : Board) (s : State) (c : Int) (hc : 0 < c)
    (h : countCells (board.height * board.width) (check_adjacent board s).state.cells c = 1) :
    ∃ s1, check_adjacent board s = Adjacent.returned false s1 ∧ s1.fail = true := by
  have hl := adjacent_left board s c hc
  rw [h] at hl
  have hmem : c ∈ (sweepRows board (List.range board.height)
      ⟨(markRows board (List.range board.height) ⟨s.cells, false⟩).cells,
        s.killed_positions, []⟩).left := List.count_pos_iff.1 (by omega)
  unfold check_adjacent
  simp only []
  rw [if_neg, if_pos]
  · exact ⟨_, rfl, rfl⟩
  · rw [List.any_eq_true]
    exact ⟨c, hmem, by simp [hl]⟩
  · intro he
    rw [List.isEmpty_iff] at he
    rw [he] at hmem
    simp at hmem

/-! ### Moves on a board without consumers and portals -/

theorem check_adjacent_at (board : Board) (s : State) (hball : ∀ pos, 0 ≤ s.cells pos)
    (pos : Nat) :
    (MatchedAt board s.cells pos → (check_adjacent board s).state.cells pos = 0) ∧
      (¬ MatchedAt board s.cells pos →
        (check_adjacent board s).state.cells pos = s.cells pos) := by
  obtain ⟨h1, h2, _⟩ := check_adjacent_spec board s (fun y x _ _ => hball _)
  exact ⟨fun hM => (h1 pos hM).1, h2 pos⟩

theorem matched_twice (board : Board) (cells : Nat → Int) (c : Int) (hc : c ≠ 0) (pos : Nat)
    (hM : MatchedAt board cells pos) (h : cells pos = c) :
    2 ≤ countCells (board.height * board.width) cells c := by
  obtain ⟨y, x, hy, hx, e, _, hM⟩ := hM
  unfold getAt at hM
  rw [e] at h
  have hpos := index_lt _ _ _ _ hy hx
  rcases hM with ⟨hy1, e1⟩ | ⟨hy1, e1⟩ | ⟨hx1, e1⟩ | ⟨hx1, e1⟩
  · refine countCells_two _ cells c hc _ _ hpos (index_lt _ _ _ _ hy1 hx) ?_ h (e1.trans h)
    intro e2
    have := (index_inj board.width _ _ _ _ hx hx e2).1
    omega
  · refine countCells_two _ cells c hc _ _ hpos (index_lt _ _ (y - 1) _ (by omega) hx) ?_ h
      (e1.trans h)
    intro e2
    have := (index_inj board.width _ _ _ _ hx hx e2).1
    omega
  · refine countCells_two _ cells c hc _ _ hpos (index_lt _ _ _ _ hy hx1) ?_ h (e1.trans h)
    intro e2
    have := (index_inj board.width _ _ _ _ hx hx1 e2).2
    omega
  · refine countCells_two _ cells c hc _ _ hpos (index_lt _ _ _ (x - 1) hy (by omega)) ?_ h
      (e1.trans h)
    intro e2
    have := (index_inj board.width _ _ _ _ hx (by omega) e2).2
    omega

theorem adjacent_lonely (board : Board) (c : Int) (hc : 0 < c) (s : State)
    (h : Lonely board c s.cells) : Lonely board c (check_adjacent board s).state.cells := by
  obtain ⟨hball, hcount⟩ := h
  refine ⟨?_, ?_⟩
  · intro pos
    by_cases hM : MatchedAt board s.cells pos
    · rw [(check_adjacent_at board s hball pos).1 hM]
    · rw [(check_adjacent_at board s hball pos).2 hM]
      exact hball pos
  · rw [← hcount]
    apply countCells_congr
    intro pos _
    by_cases hM : MatchedAt board s.cells pos
    · rw [(check_adjacent_at board s hball pos).1 hM]
      constructor
      · intro e
        omega
      · intro e
        have := matched_twice board s.cells c (by omega) pos hM e
        omega
    · rw [(check_adjacent_at board s hball pos).2 hM]

theorem visit_lonely (board : Board) (hboard : NoStarPortal board) (c : Int) (hc : 0 < c)
    (killed : List Nat) (unlocked : Bool) (d y x : Nat) (p : Pass) (hy : y < board.height)
    (hx : x < board.width) (h : Lonely board c p.cells) :
    Lonely board c (visit board killed unlocked d y x p).cells := by
  rcases visit_cases board killed unlocked d y x p with h1 | ⟨hv, hin, _, hempty, _, heq⟩
  · rw [h1]
    exact h
  · rw [heq]
    obtain ⟨hball, hcount⟩ := h
    have hsrc := index_lt _ _ _ _ hy hx
    have hdst : ((y : Int) + DIRECTION_DY d).toNat * board.width +
        ((x : Int) + DIRECTION_DX d).toNat < board.height * board.width :=
      index_lt _ _ _ _ (by omega) (by omega)
    generalize ((y : Int) + DIRECTION_DY d).toNat = yd at *
    generalize ((x : Int) + DIRECTION_DX d).toNat = xd at *
    obtain ⟨hstar, hportal⟩ := hboard _ hdst
    unfold getAt at hv hempty
    have hne : y * board.width + x ≠ yd * board.width + xd := by
      intro e
      rw [e] at hv
      omega
    have hcells : (moveBall board y x yd xd (getAt board.width p.cells y x) p).cells =
        setCell (setCell p.cells (yd * board.width + xd) (p.cells (y * board.width + x)))
          (y * board.width + x) 0 := by
      unfold moveBall
      simp only [getAt, setAt]
      rw [if_neg hstar, if_neg hportal]
      split_ifs <;> rfl
    rw [hcells]
    refine ⟨?_, ?_⟩
    · intro pos
      simp only [setCell_apply]
      split_ifs
      · exact le_refl _
      · omega
      · exact hball pos
    · have e1 := countCells_setCell (board.height * board.width) p.cells (yd * board.width + xd)
        (p.cells (y * board.width + x)) c
      have e2 := countCells_setCell (board.height * board.width)
        (setCell p.cells (yd * board.width + xd) (p.cells (y * board.width + x)))
        (y * board.width + x) 0 c
      have v1 : setCell p.cells (yd * board.width + xd) (p.cells (y * board.width + x))
          (y * board.width + x) = p.cells (y * board.width + x) := by
        rw [setCell_apply, if_neg hne]
      rw [v1] at e2
      rw [hempty] at e1
      have hc0 : ¬ ((0 : Int) = c) := by omega
      simp only [hsrc, hdst, true_and, hc0, and_false, if_false, add_zero] at e1 e2
      omega

theorem moveLoop_lonely (board : Board) (hboard : NoStarPortal board) (c : Int) (hc : 0 < c)
    (fuel d : Nat) (s : State) (unlocked first : Bool) (pending : Int) (out : Outcome)
    (hmove : moveLoop board fuel d s unlocked first pending = some out)
    (h : Lonely board c s.cells) :
    ∃ s1, out = Outcome.returned s1 ∧ Lonely board c s1.cells := by
  obtain ⟨hout, hret⟩ := moveLoop_keeps board (Lonely board c)
    (fun killed unlocked d y x p hy hx hp =>
      visit_lonely board hboard c hc killed unlocked d y x p hy hx hp)
    (fun s1 h1 => adjacent_lonely board c hc s1 h1) fuel d s unlocked first pending out hmove h
  obtain ⟨s3, e⟩ := hret (by
    intro s1 s2 h1 hex
    obtain ⟨s4, h4, _⟩ := adjacent_single board s1 c hc (adjacent_lonely board c hc s1 h1).2
    rw [h4] at hex
    cases hex)
  rw [e] at hout
  exact ⟨s3, e, hout⟩

theorem runMoves_lonely (board : Board) (hboard : NoStarPortal board) (c : Int) (hc : 0 < c)
    (fuel : Nat) (ds : List Nat) :
    ∀ (s : State) (out : Outcome), runMoves board fuel ds s = some out →
      Lonely board c s.cells → ∃ s1, out = Outcome.returned s1 ∧ Lonely board c s1.cells := by
  induction ds with
  | nil =>
      intro s out h hs
      cases h
      exact ⟨s, rfl, hs⟩
  | cons d ds ih =>
      intro s out h hs
      unfold runMoves at h
      cases hm : move_state board fuel s d with
      | none =>
          rw [hm] at h
          cases h
      | some o =>
          obtain ⟨s1, e, h1⟩ := moveLoop_lonely board hboard c hc fuel d _ _ _ _ o hm hs
          rw [hm, e] at h
          exact ih s1 out h h1

/-- C22 (amended). When `check_adjacent` leaves some colour `c` with exactly one ball on the
grid, it sets `fail` and returns false. On a board without consumer cells `'*'` and portal
cells `'@'` this is sound: from a ball grid in which the colour `c` has exactly one ball, no
sequence of moves reaches the win (the `exit` of `check_adjacent` on a cleared grid); every
sequence of moves that ends leaves exactly one ball of colour `c`. -/
theorem single_survivor (board : Board) (c : Int) (hc : 0 < c) :
    (∀ s, countCells (board.height * board.width) (check_adjacent board s).state.cells c = 1 →
      ∃ s1, check_adjacent board s = Adjacent.returned false s1 ∧ s1.fail = true) ∧
    (NoStarPortal board → ∀ s, (∀ pos, 0 ≤ s.cells pos) →
      countCells (board.height * board.width) s.cells c = 1 →
      ∀ fuel ds out, runMoves board fuel ds s = some out →
        ∃ s1, out = Outcome.returned s1 ∧
          countCells (board.height * board.width) s1.cells c = 1) := by
  refine ⟨fun s h => adjacent_single board s c hc h, ?_⟩
  intro hboard s hball hcount fuel ds out hrun
  obtain ⟨s1, e, h1⟩ := runMoves_lonely board hboard c hc fuel ds s out hrun ⟨hball, hcount⟩
  exact ⟨s1, e, h1.2⟩

theorem queueBoard_plain : NoStarPortal (mainBoard 3 queueInput) := by
  intro pos hpos
  have h3 : pos < 3 := hpos
  interval_cases pos <;> decide

theorem single_survivor_witness :
    ((0 : Int) < 49 ∧ NoStarPortal (mainBoard 3 queueInput) ∧
        (∀ pos, 0 ≤ (mainState queueInput).cells pos) ∧
        countCells ((mainBoard 3 queueInput).height * (mainBoard 3 queueInput).width)
          (mainState queueInput).cells 49 = 1 ∧
        runMoves (mainBoard 3 queueInput) 8 [0, 2] (mainState queueInput) = some queueOut) ∧
      (∃ s1, queueOut = Outcome.returned s1 ∧
        countCells ((mainBoard 3 queueInput).height * (mainBoard 3 queueInput).width)
          s1.cells 49 = 1) ∧
      (∃ s1, check_adjacent (mainBoard 3 queueInput) (mainState queueInput) =
        Adjacent.returned false s1 ∧ s1.fail = true) :=
  have h := single_survivor (mainBoard 3 queueInput) 49 (by decide)
  ⟨⟨by decide, queueBoard_plain, mainState_nonneg queueInput, by decide, rfl⟩,
    h.2 queueBoard_plain (mainState queueInput) (mainState_nonneg queueInput) (by decide) 8
      [0, 2] queueOut rfl,
    h.1 (mainState queueInput) (by decide)⟩

/-- C22 (counterexample). On the board `1*` the colour `1` has exactly one ball, and the
move east wins: the ball slides onto the consumer, the grid is empty and `check_adjacent`
ends the program with success. On the board with the rows `21@...@` and `      2` the
colour `1` has exactly one ball as well, and the move east wins: the ball of colour `1` is
teleported to the second portal, the ball of colour `2` behind it is teleported onto it and
replaces it, and then clears with the ball of colour `2` below. -/
theorem lone_ball_removed :
    (countCells ((mainBoard 2 starInput).height * (mainBoard 2 starInput).width)
        (mainState starInput).cells 49 = 1 ∧
      ∃ s, runMoves (mainBoard 2 starInput) 4 [0] (mainState starInput) =
          some (Outcome.exited s) ∧ gridOf 2 s = [0, 0]) ∧
    (countCells ((mainBoard 7 swallowInput).height * (mainBoard 7 swallowInput).width)
        (mainState swallowInput).cells 49 = 1 ∧
      (List.range 14).map
        (pass (mainBoard 7 swallowInput) [] false 0 (mainState swallowInput).cells (-1)).cells =
        [50, 0, 0, 0, 0, 0, 49, 0, 0, 0, 0, 0, 0, 50] ∧
      ∃ s, runMoves (mainBoard 7 swallowInput) 6 [0] (mainState swallowInput) =
          some (Outcome.exited s) ∧
        gridOf 14 s = [0, 0, 0, 0, 0, 0, 0, 0, 0, 0, 0, 0, 0, 0]) :=
  ⟨⟨by decide,
      ((runMoves (mainBoard 2 starInput) 4 [0] (mainState starInput)).getD
        (Outcome.returned (mainState starInput))).state, rfl, by decide⟩,
    ⟨by decide, by decide,
      ((runMoves (mainBoard 7 swallowInput) 6 [0] (mainState swallowInput)).getD
        (Outcome.returned (mainState swallowInput))).state, rfl, by decide⟩⟩

end Chrooma

namespace Transmission

/-! ## C31: no element with a target is over-filled -/

theorem headroom_of_target (lv : Level) (s : State) (j : Nat)
    (h : (lv.el j).hasTarget = true) :
    canReceivePacketNumberNow lv s j = (lv.el j).target - s.amounts j ∧
      (lv.el j).type ≠ ElementType.CellTransmitter := by
  unfold Element.hasTarget at h
  unfold canReceivePacketNumberNow
  cases ht : (lv.el j).type <;> simp only [ht] at h ⊢
  all_goals first | exact ⟨trivial, by decide⟩ | cases h

theorem notOverfilled_stable (lv : Level) (obj : Objectives) :
    Stable lv obj (NotOverfilled lv) := by
  constructor
  · intro s src dst s1 s2 r hs _ _ hdel hleaf
    obtain ⟨_, _, ha1, _⟩ := deliver_ok hdel
    obtain ⟨_, hcase⟩ := leaf_cases lv s1 s2 dst src r hleaf
    obtain ⟨_, hle2⟩ := packetNumber_le lv s src dst
    intro j hj ht
    obtain ⟨hhead, hnc⟩ := headroom_of_target lv s j ht
    have hs2 : s2.amounts j = s1.amounts j := by
      rcases hcase with ⟨_, _, _, _, h, _⟩ | ⟨hc, h, _⟩ | ⟨_, _, _, h, _⟩
      · rw [h]
      · rw [h, (sync_ok lv s1 dst).2.2.1 j, if_neg]
        rintro ⟨_, _, _, h4⟩
        rw [hc] at h4
        exact hnc h4
      · rw [h]
    rw [hs2, ha1, set1_apply]
    by_cases e : j = dst
    · rw [if_pos e]
      subst e
      rw [hhead] at hle2
      omega
    · rw [if_neg e]
      exact hs j hj ht
  · intro s0 s id i s1 s2 r _ hs _ _ _ _ _ _ hgive hleaf
    obtain ⟨_, _, ha1, _⟩ := radialGive_ok hgive
    obtain ⟨_, hcase⟩ := leaf_cases lv s1 s2 i id r hleaf
    intro j hj ht
    obtain ⟨hhead, hnc⟩ := headroom_of_target lv s j ht
    have hs2 : s2.amounts j = s1.amounts j := by
      rcases hcase with ⟨_, _, _, _, h, _⟩ | ⟨hc, h, _⟩ | ⟨_, _, _, h, _⟩
      · rw [h]
      · rw [h, (sync_ok lv s1 i).2.2.1 j, if_neg]
        rintro ⟨_, _, _, h4⟩
        rw [hc] at h4
        exact hnc h4
      · rw [h]
    rw [hs2, ha1, set1_apply]
    by_cases e : j = i
    · rw [if_pos e]
      subst e
      have hn : newPacketNumber lv s id j (sumTo lv.size fun k => s0.connected k id) ≤
          canReceivePacketNumberNow lv s j := by
        unfold newPacketNumber
        simp only []
        split_ifs with hgt
        · exact le_refl _
        · omega
      rw [hhead] at hn
      omega
    · rw [if_neg e]
      exact hs j hj ht
  · intro s id hs hty j hj ht
    obtain ⟨_, hnc⟩ := headroom_of_target lv s j ht
    rw [(sync_ok lv s id).2.2.1 j, if_neg]
    · exact hs j hj ht
    · rintro ⟨_, _, _, h4⟩
      rw [hty] at h4
      exact hnc h4

/-- C31. In a level in which every Receiver, Transceiver and SwapperTransmitter starts with
an amount that is at most its target, in every node that the search can reach (with the
radial hand-outs and the `flowOnce` top-ups of every connection) `amounts[j]` is at most the
target of `j` for each such element `j`. -/
theorem receivers_not_overfilled (lv : Level) (obj : Objectives)
    (hinit : ∀ j, j < lv.size → (lv.el j).hasTarget = true →
      (lv.el j).amount ≤ (lv.el j).target)
    (sp : StatePlus) (hr : Reachable lv obj sp) (j : Nat) (hj : j < lv.size)
    (ht : (lv.el j).type = ElementType.Receiver ∨ (lv.el j).type = ElementType.Transceiver ∨
      (lv.el j).type = ElementType.SwapperTransmitter) :
    sp.state.amounts j ≤ (lv.el j).target := by
  have hT : (lv.el j).hasTarget = true := by
    unfold Element.hasTarget
    rcases ht with h | h | h <;> rw [h]
  refine reachable_of_stable lv obj (NotOverfilled lv) ?_ (notOverfilled_stable lv obj) sp hr
    j hj hT
  intro sp0 h0 k hk hkT
  rw [(getInitialState_ok lv sp0 h0).2.2.1 k]
  exact hinit k hk hkT

theorem wireNode1_reachable : Reachable wireLevel noObjectives wireNode1 :=
  Reachable.step wireNode0 [(0, 1)] (0, 1) 2 wireNode1 (Reachable.init _ rfl) rfl
    (by simp) rfl

theorem receivers_not_overfilled_witness :
    (∀ j, j < wireLevel.size → (wireLevel.el j).hasTarget = true →
        (wireLevel.el j).amount ≤ (wireLevel.el j).target) ∧
      Reachable wireLevel noObjectives wireNode1 ∧
      (wireLevel.el 1).type = ElementType.Receiver ∧
      wireNode1.state.amounts 1 = 1 ∧
      wireNode1.state.amounts 1 ≤ (wireLevel.el 1).target :=
  have hinit : ∀ j, j < wireLevel.size → (wireLevel.el j).hasTarget = true →
      (wireLevel.el j).amount ≤ (wireLevel.el j).target := by
    intro j hj
    have h2 : j < 2 := hj
    interval_cases j <;> decide
  ⟨hinit, wireNode1_reachable, rfl, by decide,
    receivers_not_overfilled wireLevel noObjectives hinit wireNode1 wireNode1_reachable 1
      (by decide) (Or.inl rfl)⟩

end Transmission

namespace Transmission

/-! ## C34: the flow loop ends -/

end Transmission

namespace Chrooma

/-! ## C33: `move_now` ends -/

theorem weightSum_setCell (wt : Nat → Nat) (n : Nat) (cells : Nat → Int) (pos : Nat) (v : Int) :
    weightSum wt n (setCell cells pos v) + (if pos < n ∧ cells pos ≠ 0 then wt pos else 0) =
      weightSum wt n cells + (if pos < n ∧ v ≠ 0 then wt pos else 0) := by
  induction n with
  | zero => simp [weightSum]
  | succ k ih =>
      simp only [weightSum]
      by_cases hk : k = pos
      · subst hk
        have h1 : ¬ (k < k) := lt_irrefl k
        simp only [h1, false_and, if_false, add_zero] at ih
        simp only [setCell, if_true, Nat.lt_succ_self, true_and]
        rw [ih]
        omega
      · have h2 : setCell cells pos v k = cells k := by
          rw [setCell_apply, if_neg hk]
        rw [h2]
        have h3 : (pos < k + 1) = (pos < k) := by
          apply propext
          constructor
          · intro h
            omega
          · intro h
            omega
        simp only [h3]
        omega

theorem weightSum_mono (wt : Nat → Nat) (n : Nat) (a b : Nat → Int)
    (h : ∀ pos, pos < n → a pos ≠ 0 → b pos ≠ 0) : weightSum wt n a ≤ weightSum wt n b := by
  induction n with
  | zero => exact le_refl _
  | succ k ih =>
      simp only [weightSum]
      have h1 := ih (fun pos hpos => h pos (Nat.lt_succ_of_lt hpos))
      by_cases e : a k ≠ 0
      · rw [if_pos e, if_pos (h k (Nat.lt_succ_self k) e)]
        omega
      · rw [if_neg e]
        omega

theorem weightSum_lt (wt : Nat → Nat) (n : Nat) (a b : Nat → Int)
    (h : ∀ pos, pos < n → a pos ≠ 0 → b pos ≠ 0) (pos : Nat) (hpos : pos < n)
    (ha : a pos = 0) (hb : b pos ≠ 0) (hw : 1 ≤ wt pos) :
    weightSum wt n a < weightSum wt n b := by
  have h1 : weightSum wt n a ≤ weightSum wt n (setCell b pos 0) := by
    apply weightSum_mono
    intro k hk hne
    rw [setCell_apply]
    split_ifs with e
    · rw [e] at hne
      exact absurd ha hne
    · exact h k hk hne
  have h2 := weightSum_setCell wt n b pos 0
  rw [if_pos ⟨hpos, hb⟩, if_neg (by simp)] at h2
  omega

theorem index_div_mod (w y x : Nat) (hx : x < w) :
    (y * w + x) / w = y ∧ (y * w + x) % w = x := by
  have hw : 0 < w := by omega
  constructor
  · rw [Nat.add_comm, Nat.add_mul_div_right _ _ hw, Nat.div_eq_of_lt hx, Nat.zero_add]
  · rw [Nat.add_comm, Nat.add_mul_mod_self_right, Nat.mod_eq_of_lt hx]

theorem ballWeight_pos (board : Board) (d pos : Nat) : 1 ≤ ballWeight board d pos := by
  unfold ballWeight
  omega

/-- A step in the direction of the move, inside the grid and to another cell, leads to a
cell of smaller weight. -/
theorem ballWeight_step (board : Board) (d y x yd xd : Nat) (hy : y < board.height)
    (hx : x < board.width) (hyd : yd < board.height) (hxd : xd < board.width)
    (ey : (y : Int) + DIRECTION_DY d = yd) (ex : (x : Int) + DIRECTION_DX d = xd)
    (hne : y * board.width + x ≠ yd * board.width + xd) :
    ballWeight board d (yd * board.width + xd) + 1 ≤ ballWeight board d (y * board.width + x) := by
  obtain ⟨a1, a2⟩ := index_div_mod board.width y x hx
  obtain ⟨b1, b2⟩ := index_div_mod board.width yd xd hxd
  unfold ballWeight
  rw [a1, a2, b1, b2]
  rcases d with _ | _ | _ | _ | d
  · have e1 : DIRECTION_DX 0 = 1 := rfl
    have e2 : DIRECTION_DY 0 = 0 := rfl
    rw [e1] at ex ⊢
    rw [e2] at ey ⊢
    simp only [gt_iff_lt, zero_lt_one, if_true, lt_irrefl, if_false]
    omega
  · have e1 : DIRECTION_DX 1 = 0 := rfl
    have e2 : DIRECTION_DY 1 = 1 := rfl
    rw [e1] at ex ⊢
    rw [e2] at ey ⊢
    simp only [gt_iff_lt, zero_lt_one, if_true, lt_irrefl, if_false]
    omega
  · have e1 : DIRECTION_DX 2 = -1 := rfl
    have e2 : DIRECTION_DY 2 = 0 := rfl
    rw [e1] at ex ⊢
    rw [e2] at ey ⊢
    have n1 : ¬ ((-1 : Int) > 0) := by decide
    have n2 : (-1 : Int) < 0 := by decide
    simp only [n1, n2, if_true, if_false, gt_iff_lt, lt_irrefl]
    omega
  · have e1 : DIRECTION_DX 3 = 0 := rfl
    have e2 : DIRECTION_DY 3 = -1 := rfl
    rw [e1] at ex ⊢
    rw [e2] at ey ⊢
    have n1 : ¬ ((-1 : Int) > 0) := by decide
    have n2 : (-1 : Int) < 0 := by decide
    simp only [n1, n2, if_true, if_false, gt_iff_lt, lt_irrefl]
    omega
  · have e1 : DIRECTION_DX (d + 4) = 0 := rfl
    have e2 : DIRECTION_DY (d + 4) = 0 := rfl
    rw [e1] at ex
    rw [e2] at ey
    exfalso
    apply hne
    have : y = yd := by omega
    have : x = xd := by omega
    subst_vars
    rfl

/-- On a board without portals and direction signs, a visit that moves a ball takes at
least one unit from the potential, sets `moving` and leaves `pending_direction` as it is. -/
theorem visit_potential (board : Board) (hboard : NoPortalSign board) (killed : List Nat)
    (unlocked : Bool) (d y x : Nat) (p : Pass) (hy : y < board.height) (hx : x < board.width) :
    visit board killed unlocked d y x p = p ∨
      ((visit board killed unlocked d y x p).moving = true ∧
        (visit board killed unlocked d y x p).pending_direction = p.pending_direction ∧
        potential board d (visit board killed unlocked d y x p).cells + 1 ≤
          potential board d p.cells) := by
  rcases visit_cases board killed unlocked d y x p with h1 | ⟨hv, hin, _, hempty, _, heq⟩
  · exact Or.inl h1
  · right
    rw [heq]
    have hsrc := index_lt _ _ _ _ hy hx
    have hyd : ((y : Int) + DIRECTION_DY d).toNat < board.height := by omega
    have hxd : ((x : Int) + DIRECTION_DX d).toNat < board.width := by omega
    have ey : (y : Int) + DIRECTION_DY d = (((y : Int) + DIRECTION_DY d).toNat : Nat) := by
      omega
    have ex : (x : Int) + DIRECTION_DX d = (((x : Int) + DIRECTION_DX d).toNat : Nat) := by
      omega
    generalize ((y : Int) + DIRECTION_DY d).toNat = yd at *
    generalize ((x : Int) + DIRECTION_DX d).toNat = xd at *
    have hdst := index_lt _ _ _ _ hyd hxd
    obtain ⟨hportal, hs1, hs2, hs3, hs4⟩ := hboard _ hdst
    unfold getAt at hv hempty
    have hne : y * board.width + x ≠ yd * board.width + xd := by
      intro e
      rw [e] at hv
      omega
    have hstep := ballWeight_step board d y x yd xd hy hx hyd hxd ey ex hne
    have e1 := weightSum_setCell (ballWeight board d) (board.height * board.width) p.cells
      (yd * board.width + xd) (p.cells (y * board.width + x))
    have e2 := weightSum_setCell (ballWeight board d) (board.height * board.width)
      (setCell p.cells (yd * board.width + xd) (p.cells (y * board.width + x)))
      (y * board.width + x) 0
    have e3 := weightSum_setCell (ballWeight board d) (board.height * board.width)
      (setCell (setCell p.cells (yd * board.width + xd) (p.cells (y * board.width + x)))
        (y * board.width + x) 0) (yd * board.width + xd) 0
    have v1 : setCell p.cells (yd * board.width + xd) (p.cells (y * board.width + x))
        (y * board.width + x) = p.cells (y * board.width + x) := by
      rw [setCell_apply, if_neg hne]
    have hv0 : p.cells (y * board.width + x) ≠ 0 := by omega
    rw [v1, if_pos ⟨hsrc, hv0⟩,
      if_neg (show ¬ (y * board.width + x < board.height * board.width ∧ (0 : Int) ≠ 0) by
        simp)] at e2
    rw [hempty,
      if_neg (show ¬ (yd * board.width + xd < board.height * board.width ∧ (0 : Int) ≠ 0) by
        simp), if_pos ⟨hdst, hv0⟩] at e1
    rw [if_neg (show ¬ (yd * board.width + xd < board.height * board.width ∧ (0 : Int) ≠ 0) by
        simp)] at e3
    unfold potential moveBall
    simp only [getAt, setAt]
    rw [if_neg hportal, if_neg hs1, if_neg hs2, if_neg hs3, if_neg hs4]
    split_ifs
    · refine ⟨rfl, rfl, ?_⟩
      dsimp only
      omega
    · refine ⟨rfl, rfl, ?_⟩
      dsimp only
      omega

/-- What a pass keeps true of its loop variables, relative to the grid `cells` and the
pending direction `pending` it started with. -/
theorem passRows_potential (board : Board) (hboard : NoPortalSign board) (killed : List Nat)
    (unlocked : Bool) (d : Nat) (c0 : Nat → Int) (pending : Int) (xs : List Nat)
    (hxs : ∀ x ∈ xs, x < board.width) (ys : List Nat) :
    ∀ p : Pass, (∀ y ∈ ys, y < board.height) →
      (p.pending_direction = pending ∧
        potential board d p.cells + (if p.moving = true then 1 else 0) ≤ potential board d c0) →
      ((passRows board killed unlocked d xs ys p).pending_direction = pending ∧
        potential board d (passRows board killed unlocked d xs ys p).cells +
          (if (passRows board killed unlocked d xs ys p).moving = true then 1 else 0) ≤
          potential board d c0) := by
  have hvisit : ∀ (y x : Nat) (p : Pass), y < board.height → x < board.width →
      (p.pending_direction = pending ∧
        potential board d p.cells + (if p.moving = true then 1 else 0) ≤ potential board d c0) →
      ((visit board killed unlocked d y x p).pending_direction = pending ∧
        potential board d (visit board killed unlocked d y x p).cells +
          (if (visit board killed unlocked d y x p).moving = true then 1 else 0) ≤
          potential board d c0) := by
    intro y x p hy hx hp
    rcases visit_potential board hboard killed unlocked d y x p hy hx with e | ⟨h1, h2, h3⟩
    · rw [e]
      exact hp
    · rw [h1, h2]
      refine ⟨hp.1, ?_⟩
      have := hp.2
      rw [if_pos rfl]
      split_ifs at this <;> omega
  have hrow : ∀ (y : Nat), y < board.height → ∀ (l : List Nat), (∀ x ∈ l, x < board.width) →
      ∀ p : Pass,
      (p.pending_direction = pending ∧
        potential board d p.cells + (if p.moving = true then 1 else 0) ≤ potential board d c0) →
      ((passRow board killed unlocked d y l p).pending_direction = pending ∧
        potential board d (passRow board killed unlocked d y l p).cells +
          (if (passRow board killed unlocked d y l p).moving = true then 1 else 0) ≤
          potential board d c0) := by
    intro y hy l
    induction l with
    | nil => intro _ p hp; exact hp
    | cons x l ih =>
        intro hl p hp
        exact ih (fun a ha => hl a (List.mem_cons_of_mem _ ha)) _
          (hvisit y x p hy (hl x (List.mem_cons_self _ _)) hp)
  induction ys with
  | nil => intro p _ hp; exact hp
  | cons y ys ih =>
      intro p hys hp
      exact ih _ (fun a ha => hys a (List.mem_cons_of_mem _ ha))
        (hrow y (hys y (List.mem_cons_self _ _)) xs hxs p hp)

theorem pass_potential (board : Board) (hboard : NoPortalSign board) (killed : List Nat)
    (unlocked : Bool) (d : Nat) (cells : Nat → Int) (pending : Int) :
    (pass board killed unlocked d cells pending).pending_direction = pending ∧
      potential board d (pass board killed unlocked d cells pending).cells +
        (if (pass board killed unlocked d cells pending).moving = true then 1 else 0) ≤
        potential board d cells := by
  unfold pass
  exact passRows_potential board hboard killed unlocked d cells pending _
    (fun x hx => mem_loopOrder _ _ x hx) _ _ (fun y hy => mem_loopOrder _ _ y hy)
    ⟨rfl, by simp⟩

/-! ### The potential under `check_adjacent` -/

theorem markCell_flag (board : Board) (y x : Nat) (hy : y < board.height)
    (hx : x < board.width) (m : Marking)
    (h : m.killed = true → ∃ y1 x1, y1 < board.height ∧ x1 < board.width ∧
      m.cells (y1 * board.width + x1) < 0) :
    (markCell board y x m).killed = true → ∃ y1 x1, y1 < board.height ∧ x1 < board.width ∧
      (markCell board y x m).cells (y1 * board.width + x1) < 0 := by
  apply markCell_ind board y x m (fun m1 => m1.killed = true →
    ∃ y1 x1, y1 < board.height ∧ x1 < board.width ∧ m1.cells (y1 * board.width + x1) < 0) h
  intro m1 pb _ hv _ _ _
  have hpos : 0 < |m.cells (y * board.width + x)| := lt_of_le_of_ne (abs_nonneg _) (Ne.symm hv)
  refine ⟨y, x, hy, hx, ?_⟩
  simp only [setCell_apply]
  split_ifs <;> omega

theorem markRows_flag (board : Board) (ys : List Nat) :
    ∀ m : Marking, (∀ y ∈ ys, y < board.height) →
      (m.killed = true → ∃ y1 x1, y1 < board.height ∧ x1 < board.width ∧
        m.cells (y1 * board.width + x1) < 0) →
      (markRows board ys m).killed = true → ∃ y1 x1, y1 < board.height ∧ x1 < board.width ∧
        (markRows board ys m).cells (y1 * board.width + x1) < 0 := by
  have hrow : ∀ (y : Nat), y < board.height → ∀ (l : List Nat), (∀ x ∈ l, x < board.width) →
      ∀ m : Marking,
      (m.killed = true → ∃ y1 x1, y1 < board.height ∧ x1 < board.width ∧
        m.cells (y1 * board.width + x1) < 0) →
      (markRow board y l m).killed = true → ∃ y1 x1, y1 < board.height ∧ x1 < board.width ∧
        (markRow board y l m).cells (y1 * board.width + x1) < 0 := by
    intro y hy l
    induction l with
    | nil => intro _ m hm; exact hm
    | cons x l ih =>
        intro hl m hm
        exact ih (fun a ha => hl a (List.mem_cons_of_mem _ ha)) _
          (markCell_flag board y x hy (hl x (List.mem_cons_self _ _)) m hm)
  induction ys with
  | nil => intro m _ hm; exact hm
  | cons y ys ih =>
      intro m hys hm
      exact ih _ (fun a ha => hys a (List.mem_cons_of_mem _ ha))
        (hrow y (hys y (List.mem_cons_self _ _)) _ (fun x hx => List.mem_range.1 hx) m hm)

theorem adjacent_potential (board : Board) (d : Nat) (s : State) :
    potential board d (check_adjacent board s).state.cells ≤ potential board d s.cells ∧
      (∀ s1, check_adjacent board s = Adjacent.returned true s1 →
        potential board d s1.cells < potential board d s.cells) := by
  have hmono : ∀ pos, pos < board.height * board.width →
      (check_adjacent board s).state.cells pos ≠ 0 → s.cells pos ≠ 0 :=
    fun pos _ h => adjacent_nonzero board s pos h
  refine ⟨weightSum_mono _ _ _ _ hmono, ?_⟩
  intro s1 h1
  have hst : (check_adjacent board s).state = s1 := by rw [h1]; rfl
  obtain ⟨y, x, hy, hx, hneg⟩ := markRows_flag board (List.range board.height)
    ⟨s.cells, false⟩ (fun y hy => List.mem_range.1 hy) (fun h => by cases h)
    (adjacent_true board s s1 h1)
  have habs := markRows_abs board s.cells (List.range board.height) ⟨s.cells, false⟩
    (fun _ => rfl) (y * board.width + x)
  have hc0 : s.cells (y * board.width + x) ≠ 0 := by
    intro e
    rw [e] at habs
    have := abs_eq_zero.1 habs
    omega
  obtain ⟨hcells, _⟩ := adjacent_state board s
  have hsinv := sweepRows_inv board
    (markRows board (List.range board.height) ⟨s.cells, false⟩).cells s.killed_positions
    (List.range board.height) _ (fun y hy => List.mem_range.1 hy) (sweepInv_start board _ _)
  obtain ⟨hc, _, _⟩ := hsinv
  rw [← hcells] at hc
  have hnn : 0 ≤ (check_adjacent board s).state.cells (y * board.width + x) := by
    rw [hcells]
    exact sweepRows_nonneg board y x hx _ _ (Or.inr (List.mem_range.2 hy))
  have hzero : (check_adjacent board s).state.cells (y * board.width + x) = 0 := by
    rcases hc (y * board.width + x) with e | ⟨_, e, _⟩
    · omega
    · exact e
  rw [← hst]
  exact weightSum_lt _ _ _ _ hmono _ (index_lt _ _ _ _ hy hx) hzero hc0
    (ballWeight_pos board d _)

theorem moveLoop_ends (board : Board) (hboard : NoPortalSign board) (fuel : Nat) :
    ∀ (d : Nat) (s : State) (unlocked first : Bool), potential board d s.cells < fuel →
      ∃ out, moveLoop board fuel d s unlocked first (-1) = some out := by
  induction fuel with
  | zero => intro d s unlocked first h; omega
  | succ k ih =>
      intro d s unlocked first h
      obtain ⟨hpend, hpot⟩ := pass_potential board hboard s.killed_positions unlocked d s.cells
        (-1)
      unfold moveLoop
      simp only []
      split_ifs with h1 h2 h3
      · exact ⟨_, rfl⟩
      · have hadj := adjacent_potential board d
          { s with cells := (pass board s.killed_positions unlocked d s.cells (-1)).cells }
        split
        · exact ⟨_, rfl⟩
        · rename_i s2 hca
          rw [hpend]
          apply ih
          have := hadj.2 s2 hca
          have h4 : potential board d (pass board s.killed_positions unlocked d s.cells
              (-1)).cells ≤ potential board d s.cells := by omega
          have h5 : potential board d s2.cells < potential board d
              (pass board s.killed_positions unlocked d s.cells (-1)).cells := this
          omega
        · exact ⟨_, rfl⟩
      · rw [hpend]
        apply ih
        rw [if_pos h3] at hpot
        show potential board d (pass board s.killed_positions unlocked d s.cells (-1)).cells < k
        omega
      · exfalso
        rw [hpend] at h2
        apply h2
        refine ⟨?_, by decide⟩
        simpa using h3

/-- C33. On a board without portal cells and direction-sign cells, for every grid and every
direction, `move_now` ends: every pass in which a ball moves and every `check_adjacent` that
clears balls takes at least one unit from the measure `potential` (the sum, over the
occupied cells, of one plus the number of steps to the edge of the grid in the direction of
the move), so with more passes allowed than `potential` of the grid `move_now` returns or
exits with success. -/
theorem move_now_terminates (board : Board) (hboard : NoPortalSign board) (s : State)
    (d : Nat) (fuel : Nat) (hf : potential board d s.cells < fuel) :
    ∃ out, move_now board fuel s d = some out := by
  unfold move_now
  exact moveLoop_ends board hboard fuel d _ _ true hf

theorem queueBoard_open : NoPortalSign (mainBoard 3 queueInput) := by
  intro pos hpos
  have h3 : pos < 3 := hpos
  interval_cases pos <;> decide

theorem move_now_terminates_witness :
    (NoPortalSign (mainBoard 3 queueInput) ∧
        potential (mainBoard 3 queueInput) 0 (mainState queueInput).cells = 5) ∧
      ∃ out, move_now (mainBoard 3 queueInput) 6 (mainState queueInput) 0 = some out :=
  ⟨⟨queueBoard_open, by decide⟩,
    move_now_terminates (mainBoard 3 queueInput) queueBoard_open (mainState queueInput) 0 6
      (by decide)⟩

end Chrooma

namespace Transmission

/-! ## C32: the search reports a shortest solution -/

theorem radialLoop_mono (lv : Level) (recur recur2 : State → Nat → Nat → Run (State × Int))
    (hrec : ∀ (s : State) (i id : Nat) (r : State × Int), recur s i id = .ok r →
      recur2 s i id = .ok r)
    (id : Nat) (npacket : Int) (rest : List Nat) :
    ∀ (s : State) (result : Int) (r : State × Int),
      radialLoop lv recur id npacket rest s result = .ok r →
      radialLoop lv recur2 id npacket rest s result = .ok r := by
  induction rest with
  | nil =>
      intro s result r h
      exact h
  | cons i rest ih =>
      intro s result r h
      unfold radialLoop at h ⊢
      split_ifs at h ⊢ with h1 h2 h3 h4
      · exact ih s result r h
      · exact ih s result r h
      · exact ih s result r h
      · exact ih s result r h
      · obtain ⟨s1, hgive, h⟩ := bind_ok.1 h
        obtain ⟨⟨sa, x⟩, hcall, h⟩ := bind_ok.1 h
        exact bind_ok.2 ⟨s1, hgive, bind_ok.2 ⟨(sa, x), hrec s1 i id (sa, x) hcall, ih sa _ r h⟩⟩

theorem onConnectedNow_mono (lv : Level) (k : Nat) :
    ∀ (k2 : Nat) (s : State) (id src : Nat) (r : State × Int), k ≤ k2 →
      onConnectedNow lv k s id src = .ok r → onConnectedNow lv k2 s id src = .ok r := by
  induction k with
  | zero =>
      intro k2 s id src r _ h
      simp [onConnectedNow, error_ne_ok] at h
  | succ k ih =>
      intro k2 s id src r hle h
      obtain ⟨m, rfl⟩ : ∃ m, k2 = m + 1 := ⟨k2 - 1, by omega⟩
      have hrec : ∀ (s : State) (i id : Nat) (r : State × Int),
          onConnectedNow lv k s i id = .ok r → onConnectedNow lv m s i id = .ok r :=
        fun s i id r hr => ih m s i id r (by omega) hr
      simp only [onConnectedNow] at h ⊢
      unfold onConnectedNowF at h ⊢
      cases hty : (lv.el id).type <;> simp only [hty] at h ⊢ <;>
        first
        | exact h
        | exact radialLoop_mono lv _ _ hrec id _ _ s 0 r h

theorem base_connect_mono (lv : Level) (k k2 : Nat) (hle : k ≤ k2) (s : State) (id did : Nat)
    (r : State × Int) (h : Element.connectToNow lv k s id did = .ok r) :
    Element.connectToNow lv k2 s id did = .ok r := by
  unfold Element.connectToNow at h ⊢
  simp only [] at h ⊢
  split_ifs at h ⊢ with hn
  · obtain ⟨s4, hdel, h⟩ := bind_ok.1 h
    obtain ⟨⟨s5, x⟩, hcall, h⟩ := bind_ok.1 h
    exact bind_ok.2 ⟨s4, hdel,
      bind_ok.2 ⟨(s5, x), onConnectedNow_mono lv k k2 s4 did id (s5, x) hle hcall, h⟩⟩
  · exact h

theorem connectToNow_mono (lv : Level) (k k2 : Nat) (hle : k ≤ k2) (s : State) (id did : Nat)
    (r : State × Int) (h : connectToNow lv k s id did = .ok r) :
    connectToNow lv k2 s id did = .ok r := by
  unfold connectToNow at h ⊢
  cases hty : (lv.el id).type <;> simp only [hty] at h ⊢ <;>
    first
    | exact base_connect_mono lv k k2 hle s id did r h
    | (obtain ⟨⟨s1, x⟩, hbase, h⟩ := bind_ok.1 h
       exact bind_ok.2 ⟨(s1, x), base_connect_mono lv k k2 hle s id did (s1, x) hbase, h⟩)

theorem flowRow_mono (lv : Level) (k k2 : Nat) (hle : k ≤ k2) (i : Nat) (js : List Nat) :
    ∀ (s : State) (result : Int) (r : State × Int),
      flowRow lv k i js s result = .ok r → flowRow lv k2 i js s result = .ok r := by
  induction js with
  | nil =>
      intro s result r h
      exact h
  | cons j js ih =>
      intro s result r h
      unfold flowRow at h ⊢
      split_ifs at h ⊢ with h1
      · exact ih s result r h
      · obtain ⟨⟨s1, x⟩, hcall, h⟩ := bind_ok.1 h
        exact bind_ok.2 ⟨(s1, x), connectToNow_mono lv k k2 hle s i j (s1, x) hcall,
          ih s1 _ r h⟩

theorem flowRows_mono (lv : Level) (k k2 : Nat) (hle : k ≤ k2) (is : List Nat) :
    ∀ (s : State) (result : Int) (r : State × Int),
      flowRows lv k is s result = .ok r → flowRows lv k2 is s result = .ok r := by
  induction is with
  | nil =>
      intro s result r h
      exact h
  | cons i is ih =>
      intro s result r h
      unfold flowRows at h ⊢
      split_ifs at h ⊢ with h1
      · exact ih s result r h
      · obtain ⟨⟨s1, x⟩, hcall, h⟩ := bind_ok.1 h
        exact bind_ok.2 ⟨(s1, x), flowRow_mono lv k k2 hle i _ s result (s1, x) hcall,
          ih s1 _ r h⟩

theorem flowLoop_mono (lv : Level) (k k2 : Nat) (hle : k ≤ k2) (n : Nat) :
    ∀ (n2 : Nat) (s r : State), n ≤ n2 →
      flowLoop lv k n s = .ok r → flowLoop lv k2 n2 s = .ok r := by
  induction n with
  | zero =>
      intro n2 s r _ h
      simp [flowLoop, error_ne_ok] at h
  | succ n ih =>
      intro n2 s r hn h
      obtain ⟨m, rfl⟩ : ∃ m, n2 = m + 1 := ⟨n2 - 1, by omega⟩
      unfold flowLoop at h ⊢
      obtain ⟨⟨s1, x⟩, hcall, h⟩ := bind_ok.1 h
      refine bind_ok.2 ⟨(s1, x), flowRows_mono lv k k2 hle _ s 0 (s1, x) hcall, ?_⟩
      simp only [] at h ⊢
      split_ifs at h ⊢
      · exact ih m s1 r (by omega) h
      · exact h

theorem addConnection_mono (lv : Level) (k k2 : Nat) (hle : k ≤ k2) (sp sp1 : StatePlus)
    (src dst : Nat) (h : addConnection lv k sp src dst = .ok sp1) :
    addConnection lv k2 sp src dst = .ok sp1 := by
  unfold addConnection at h ⊢
  obtain ⟨⟨s1, x⟩, hcall, h⟩ := bind_ok.1 h
  simp only [] at h
  obtain ⟨s2, hloop, h⟩ := bind_ok.1 h
  exact bind_ok.2 ⟨(s1, x), connectToNow_mono lv k k2 hle sp.state src dst (s1, x) hcall,
    bind_ok.2 ⟨s2, flowLoop_mono lv k k2 hle k k2 s1 s2 hle hloop, h⟩⟩

theorem addConnection_agree (lv : Level) (k k2 : Nat) (sp sp2 a b : StatePlus) (src dst : Nat)
    (hs : sp.state = sp2.state) (h1 : addConnection lv k sp src dst = .ok a)
    (h2 : addConnection lv k2 sp2 src dst = .ok b) : a.state = b.state := by
  have e1 := addConnection_mono lv k (Nat.max k k2) (Nat.le_max_left k k2) sp a src dst h1
  have e2 := addConnection_mono lv k2 (Nat.max k k2) (Nat.le_max_right k k2) sp2 b src dst h2
  obtain ⟨s1, x, hc1, hl1, _, _⟩ := addConnection_state lv _ sp a src dst e1
  obtain ⟨s2, y, hc2, hl2, _, _⟩ := addConnection_state lv _ sp2 b src dst e2
  rw [hs, hc2] at hc1
  simp only [Except.ok.injEq, Prod.mk.injEq] at hc1
  rw [← hc1.1, hl2] at hl1
  simp only [Except.ok.injEq] at hl1
  exact hl1.symm

theorem reachableIn_reachable (lv : Level) (obj : Objectives) (k : Nat) (sp : StatePlus)
    (h : ReachableIn lv obj k sp) : Reachable lv obj sp := by
  induction h with
  | init sp h => exact Reachable.init sp h
  | step k sp cs c fuel sp1 _ hcs hc hadd ih => exact Reachable.step sp cs c fuel sp1 ih hcs hc hadd

theorem leaf_outside (lv : Level) (s1 s2 : State) (id src : Nat) (r : Int)
    (h : onConnectedNowLeaf lv s1 id src = .ok (s2, r)) (hid : id < lv.size) (i : Nat)
    (hi : lv.size ≤ i) :
    s2.amounts i = s1.amounts i ∧ s2.left i = s1.left i ∧
      s2.colorSwapped i = s1.colorSwapped i := by
  have hne : i ≠ id := by omega
  have hno : ¬ (i < lv.size ∧ i ≠ id ∧ (lv.el i).color = (lv.el id).color ∧
      (lv.el i).type = (lv.el id).type) := by
    intro hh
    omega
  refine ⟨?_, ?_, ?_⟩
  · obtain ⟨_, hcase⟩ := leaf_cases lv s1 s2 id src r h
    rcases hcase with ⟨_, _, _, _, h4, _, _⟩ | ⟨_, h1, _⟩ | ⟨_, _, _, h2, _⟩
    · rw [h4]
    · rw [h1, (sync_ok lv s1 id).2.2.1 i, if_neg hno]
    · rw [h2]
  · obtain ⟨_, hcase⟩ := leaf_cases lv s1 s2 id src r h
    rcases hcase with ⟨_, _, _, h3, _, _, _⟩ | ⟨_, h1, _⟩ | ⟨_, _, h1, _, _⟩
    · rw [h3, set1_apply, if_neg hne]
    · rw [h1, (sync_ok lv s1 id).2.2.2 i, if_neg hno]
    · rw [h1]
  · rcases leaf_colorSwapped lv s1 s2 id src r h with hc | ⟨_, _, c, _, hc⟩
    · rw [hc]
    · rw [hc, set1_apply, if_neg hne]

theorem inRange_stable (lv : Level) (obj : Objectives) : Stable lv obj (InRange lv) := by
  constructor
  · intro s src dst s1 s2 r hs hg _ hdel hleaf
    obtain ⟨hsrc, hdst⟩ := hg.bounds
    obtain ⟨hc1, hl1, ha1, hw1⟩ := deliver_ok hdel
    obtain ⟨hc2, _⟩ := leaf_cases lv s1 s2 dst src r hleaf
    refine ⟨fun i hi => ?_, fun i j hij => ?_⟩
    · obtain ⟨e1, e2, e3⟩ := leaf_outside lv s1 s2 dst src r hleaf hdst i hi
      obtain ⟨p1, p2, p3⟩ := hs.1 i hi
      rw [e1, e2, e3, ha1, hl1, hw1]
      simp only [set1_apply]
      rw [if_neg (by omega), if_neg (by omega), if_neg (by omega)]
      exact ⟨p1, p2, p3⟩
    · rw [hc2, hc1, set2_apply, if_neg (by omega)]
      exact hs.2 i j hij
  · intro s0 s id i s1 s2 r _ hs _ hid hi _ _ _ hgive hleaf
    obtain ⟨hi1, _, _⟩ := mem_adjIds hi
    obtain ⟨hc1, hl1, ha1, hw1⟩ := radialGive_ok hgive
    obtain ⟨hc2, _⟩ := leaf_cases lv s1 s2 i id r hleaf
    refine ⟨fun x hx => ?_, fun x j hij => ?_⟩
    · obtain ⟨e1, e2, e3⟩ := leaf_outside lv s1 s2 i id r hleaf hi1 x hx
      obtain ⟨p1, p2, p3⟩ := hs.1 x hx
      rw [e1, e2, e3, ha1, hl1, hw1]
      simp only [set1_apply]
      rw [if_neg (by omega), if_neg (by omega)]
      exact ⟨p1, p2, p3⟩
    · rw [hc2, hc1, set2_apply, if_neg (by omega)]
      exact hs.2 x j hij
  · intro s id hs _
    obtain ⟨hc, hw, ha, hl⟩ := sync_ok lv s id
    refine ⟨fun i hi => ?_, fun i j hij => ?_⟩
    · obtain ⟨p1, p2, p3⟩ := hs.1 i hi
      rw [ha i, hl i, hw, if_neg (by omega), if_neg (by omega)]
      exact ⟨p1, p2, p3⟩
    · rw [hc]
      exact hs.2 i j hij

theorem inRange_init (lv : Level) (sp : StatePlus) (h : getInitialState lv = .ok sp) :
    InRange lv sp.state := by
  obtain ⟨h1, h2, h3, h4, _, _⟩ := getInitialState_ok lv sp h
  exact ⟨fun i hi => ⟨by rw [h3 i, el_amount_of_ge lv i hi],
    by rw [h4 i, el_amount_of_ge lv i hi], h2 i⟩, fun i j _ => h1 i j⟩

theorem reachable_inRange (lv : Level) (obj : Objectives) (sp : StatePlus)
    (h : Reachable lv obj sp) : InRange lv sp.state :=
  reachable_of_stable lv obj (InRange lv) (inRange_init lv) (inRange_stable lv obj) sp h

theorem sameBytes_refl (a : State) : a.sameBytes a = true := by
  simp [State.sameBytes]

theorem sameBytes_eq (lv : Level) (hsize : lv.size ≤ MAX_ELEMENTS) (a b : State)
    (ha : InRange lv a) (hb : InRange lv b) (h : a.sameBytes b = true) : a = b := by
  unfold State.sameBytes at h
  simp only [List.all_eq_true, List.mem_range, Bool.and_eq_true, decide_eq_true_eq] at h
  have e1 : a.amounts = b.amounts := by
    funext i
    by_cases hi : i < MAX_ELEMENTS
    · exact (h i hi).1.1.1
    · rw [(ha.1 i (by omega)).1, (hb.1 i (by omega)).1]
  have e2 : a.left = b.left := by
    funext i
    by_cases hi : i < MAX_ELEMENTS
    · exact (h i hi).1.1.2
    · rw [(ha.1 i (by omega)).2.1, (hb.1 i (by omega)).2.1]
  have e3 : a.colorSwapped = b.colorSwapped := by
    funext i
    by_cases hi : i < MAX_ELEMENTS
    · exact (h i hi).1.2
    · rw [(ha.1 i (by omega)).2.2, (hb.1 i (by omega)).2.2]
  have e4 : a.connected = b.connected := by
    funext i j
    by_cases hi : i < MAX_ELEMENTS
    · by_cases hj : j < MAX_ELEMENTS
      · exact (h i hi).2 j hj
      · rw [ha.2 i j (Or.inr (by omega)), hb.2 i j (Or.inr (by omega))]
    · rw [ha.2 i j (Or.inl (by omega)), hb.2 i j (Or.inl (by omega))]
  cases a
  cases b
  simp only [State.mk.injEq]
  exact ⟨e1, e2, e4, e3⟩

theorem searchExpand_frontier (lv : Level) (obj : Objectives) (fuel : Nat) (state : StatePlus)
    (cs : List (Nat × Nat)) :
    ∀ (visited : List State) (queue : List StatePlus) (res : ExpandResult),
      searchExpand lv obj fuel state cs visited queue = .ok res →
      match res with
      | ExpandResult.win w =>
          ∃ c ∈ cs, addConnection lv fuel state c.1 c.2 = .ok w ∧ isWin lv obj w.state = true
      | ExpandResult.next visited1 queue1 =>
          ∃ fresh : List StatePlus, queue1 = queue ++ fresh ∧
            (∀ x ∈ fresh, isWin lv obj x.state = false ∧
              ∃ c ∈ cs, addConnection lv fuel state c.1 c.2 = .ok x) ∧
            (∀ v ∈ visited1, v ∈ visited ∨ ∃ x ∈ fresh, x.state = v) ∧
            (∀ c ∈ cs, ∃ r, addConnection lv fuel state c.1 c.2 = .ok r ∧
              ∃ v, (v ∈ visited ∨ ∃ x ∈ fresh, x.state = v) ∧ v.sameBytes r.state = true) := by
  induction cs with
  | nil =>
      intro visited queue res h
      simp only [searchExpand, pure_ok] at h
      subst h
      exact ⟨[], by simp, by simp, fun v hv => Or.inl hv, by simp⟩
  | cons c cs ih =>
      intro visited queue res h
      unfold searchExpand at h
      obtain ⟨nextState, hadd, h⟩ := bind_ok.1 h
      by_cases h1 : (visited.any fun v => v.sameBytes nextState.state) = true
      · rw [if_pos h1] at h
        have hres := ih visited queue res h
        obtain ⟨v0, hv0, hsame⟩ := List.any_eq_true.1 h1
        cases res with
        | win w =>
            obtain ⟨c1, hc1, hw⟩ := hres
            exact ⟨c1, List.mem_cons_of_mem _ hc1, hw⟩
        | next visited1 queue1 =>
            obtain ⟨fresh, hq, hfresh, hseen, hall⟩ := hres
            refine ⟨fresh, hq, ?_, hseen, ?_⟩
            · intro x hx
              obtain ⟨hx1, c1, hc1, hx2⟩ := hfresh x hx
              exact ⟨hx1, c1, List.mem_cons_of_mem _ hc1, hx2⟩
            · intro c1 hc1
              rcases List.mem_cons.1 hc1 with e | hc1
              · subst e
                exact ⟨nextState, hadd, v0, Or.inl hv0, hsame⟩
              · exact hall c1 hc1
      · rw [if_neg h1] at h
        by_cases h2 : isWin lv obj nextState.state = true
        · rw [if_pos h2, pure_ok] at h
          subst h
          exact ⟨c, List.mem_cons_self _ _, hadd, h2⟩
        · rw [if_neg h2] at h
          have hres := ih (nextState.state :: visited) (queue ++ [nextState]) res h
          cases res with
          | win w =>
              obtain ⟨c1, hc1, hw⟩ := hres
              exact ⟨c1, List.mem_cons_of_mem _ hc1, hw⟩
          | next visited1 queue1 =>
              obtain ⟨fresh, hq, hfresh, hseen, hall⟩ := hres
              have hconv : ∀ v, (v ∈ nextState.state :: visited ∨ ∃ x ∈ fresh, x.state = v) →
                  (v ∈ visited ∨ ∃ x ∈ nextState :: fresh, x.state = v) := by
                intro v hv
                rcases hv with hv | ⟨x, hx, hxv⟩
                · rcases List.mem_cons.1 hv with e | hv
                  · exact Or.inr ⟨nextState, List.mem_cons_self _ _, e.symm⟩
                  · exact Or.inl hv
                · exact Or.inr ⟨x, List.mem_cons_of_mem _ hx, hxv⟩
              refine ⟨nextState :: fresh, by rw [hq, List.append_assoc]; rfl, ?_,
                fun v hv => hconv v (hseen v hv), ?_⟩
              · intro x hx
                rcases List.mem_cons.1 hx with e | hx
                · subst e
                  exact ⟨by simpa using h2, c, List.mem_cons_self _ _, hadd⟩
                · obtain ⟨hx1, c1, hc1, hx2⟩ := hfresh x hx
                  exact ⟨hx1, c1, List.mem_cons_of_mem _ hc1, hx2⟩
              · intro c1 hc1
                rcases List.mem_cons.1 hc1 with e | hc1
                · subst e
                  exact ⟨nextState, hadd, nextState.state,
                    Or.inr ⟨nextState, List.mem_cons_self _ _, rfl⟩, sameBytes_refl _⟩
                · obtain ⟨r, hr, v, hv, hsame⟩ := hall c1 hc1
                  exact ⟨r, hr, v, hconv v hv, hsame⟩

theorem frontier_complete (lv : Level) (obj : Objectives) (fuel : Nat) (start : StatePlus)
    (hstart : getInitialState lv = .ok start) (visited : List State)
    (queue expanded : List StatePlus) (hF : Frontier lv obj fuel start visited queue expanded) :
    ∀ (j : Nat) (sp : StatePlus), ReachableIn lv obj j sp →
      (∃ n ∈ expanded ++ queue, n.state = sp.state ∧ n.depth ≤ j) ∨
        (∃ q ∈ queue, q.depth < j) := by
  intro j sp h
  induction h with
  | init sp h =>
      rw [hstart] at h
      simp only [Except.ok.injEq] at h
      subst h
      obtain ⟨n, hn, hs, hd⟩ := hF.root
      exact Or.inl ⟨n, hn, hs, by rw [hd]; rfl⟩
  | step k sp cs c fuel2 sp1 _ hcs hc hadd ih =>
      rcases ih with ⟨n, hn, hs, hd⟩ | ⟨q, hq, hd⟩
      · rcases List.mem_append.1 hn with he | hq
        · rw [← hs] at hcs
          obtain ⟨r, hr, n1, hn1, hs1, hd1⟩ := hF.closed n he cs c hcs hc
          have hagree := addConnection_agree lv fuel fuel2 n sp r sp1 c.1 c.2 hs hr hadd
          refine Or.inl ⟨n1, hn1, by rw [hs1, hagree], ?_⟩
          push_cast
          omega
        · refine Or.inr ⟨n, hq, ?_⟩
          push_cast
          omega
      · refine Or.inr ⟨q, hq, ?_⟩
        push_cast
        omega

theorem searchLoop_shortest (lv : Level) (obj : Objectives) (fuel : Nat)
    (hsize : lv.size ≤ MAX_ELEMENTS) (hobj : obj.has ObjSigCount = false) (start : StatePlus)
    (hstart : getInitialState lv = .ok start) (k : Nat) :
    ∀ (visited : List State) (queue expanded : List StatePlus),
      Frontier lv obj fuel start visited queue expanded →
      ∀ w, (searchLoop lv obj fuel k visited queue expanded).result =
          .ok (SearchOutcome.solved w) →
        ∃ d : Nat, 1 ≤ d ∧ ReachableIn lv obj d w ∧ w.depth = d ∧ isWin lv obj w.state = true ∧
          ∀ (j : Nat) (sp : StatePlus), ReachableIn lv obj j sp →
            isWin lv obj sp.state = true → sp.state ≠ start.state → d ≤ j := by
  induction k with
  | zero =>
      intro visited queue expanded _ w h
      simp [searchLoop, error_ne_ok] at h
  | succ k ih =>
      intro visited queue expanded hF w h
      cases queue with
      | nil => simp [searchLoop, pure_ok] at h
      | cons state queue =>
          unfold searchLoop at h
          have hcut : ¬ (obj.has ObjSigCount = true ∧ state.depth ≥ obj.objSigCount) := by
            rw [hobj]
            simp
          rw [if_neg hcut] at h
          have hstq : state ∈ state :: queue := List.mem_cons_self _ _
          have hstn : state ∈ expanded ++ state :: queue :=
            List.mem_append.2 (Or.inr hstq)
          obtain ⟨dh, hreach, hdepth⟩ := hF.reach state hstn
          have hhead : ∀ q ∈ state :: queue, state.depth ≤ q.depth := by
            intro q hq
            rcases List.mem_cons.1 hq with e | hq
            · rw [e]
            · exact (List.pairwise_cons.1 hF.sorted).1 q hq
          cases hcs : getAvailableConnections lv obj state.state with
          | error e =>
              rw [hcs] at h
              simp [error_ne_ok] at h
          | ok cs =>
              rw [hcs] at h
              simp only [] at h
              cases hex : searchExpand lv obj fuel state cs visited queue with
              | error e =>
                  rw [hex] at h
                  simp [error_ne_ok] at h
              | ok res =>
                  rw [hex] at h
                  have hres := searchExpand_frontier lv obj fuel state cs visited queue res hex
                  have hchild : ∀ (c : Nat × Nat) (x : StatePlus), c ∈ cs →
                      addConnection lv fuel state c.1 c.2 = .ok x →
                      ReachableIn lv obj (dh + 1) x ∧ x.depth = state.depth + 1 :=
                    fun c x hc hx =>
                      ⟨ReachableIn.step dh state cs c fuel x hreach hcs hc hx,
                        (addConnection_depth lv fuel state x c.1 c.2 hx).1⟩
                  cases res with
                  | win s =>
                      simp only [pure_ok, SearchOutcome.solved.injEq] at h
                      subst h
                      obtain ⟨c, hc, hadd, hwin⟩ := hres
                      obtain ⟨hr1, hd1⟩ := hchild c s hc hadd
                      refine ⟨dh + 1, by omega, hr1, by rw [hd1, hdepth]; push_cast; rfl, hwin, ?_⟩
                      intro j sp hsp hspwin hne
                      rcases frontier_complete lv obj fuel start hstart visited
                          (state :: queue) expanded hF j sp hsp with
                        ⟨n, hn, hs, _⟩ | ⟨q, hq, hd⟩
                      · rcases hF.lose n hn with h0 | hl
                        · exact absurd (hs.symm.trans h0) hne
                        · rw [hs, hspwin] at hl
                          cases hl
                      · have := hhead q hq
                        omega
                  | next visited1 queue1 =>
                      simp only [] at h
                      obtain ⟨fresh, hq1, hfresh, hseen, hall⟩ := hres
                      subst hq1
                      refine ih visited1 (queue ++ fresh) (expanded ++ [state]) ?_ w h
                      have hmem : ∀ n, n ∈ expanded ++ state :: queue →
                          n ∈ (expanded ++ [state]) ++ (queue ++ fresh) := by
                        intro n hn
                        simp only [List.mem_append, List.mem_cons, List.mem_singleton,
                          List.not_mem_nil, or_false] at hn ⊢
                        tauto
                      have hmem2 : ∀ n, n ∈ (expanded ++ [state]) ++ (queue ++ fresh) →
                          n ∈ expanded ++ state :: queue ∨ n ∈ fresh := by
                        intro n hn
                        simp only [List.mem_append, List.mem_cons, List.mem_singleton,
                          List.not_mem_nil, or_false] at hn ⊢
                        tauto
                      have hfd : ∀ x ∈ fresh, x.depth = state.depth + 1 := by
                        intro x hx
                        obtain ⟨_, c, hc, hadd⟩ := hfresh x hx
                        exact (hchild c x hc hadd).2
                      have hqd : ∀ q ∈ queue, state.depth ≤ q.depth ∧ q.depth ≤ state.depth + 1 :=
                        fun q hq => ⟨hhead q (List.mem_cons_of_mem _ hq),
                          hF.near state hstq q (List.mem_cons_of_mem _ hq)⟩
                      constructor
                      · obtain ⟨n, hn, hs, hd⟩ := hF.root
                        exact ⟨n, hmem n hn, hs, hd⟩
                      · intro n hn
                        rcases hmem2 n hn with hn | hn
                        · exact hF.reach n hn
                        · obtain ⟨_, c, hc, hadd⟩ := hfresh n hn
                          obtain ⟨hr1, hd1⟩ := hchild c n hc hadd
                          exact ⟨dh + 1, hr1, by rw [hd1, hdepth]; push_cast; rfl⟩
                      · intro n hn
                        rcases hmem2 n hn with hn | hn
                        · exact hF.lose n hn
                        · exact Or.inr (hfresh n hn).1
                      · intro v hv
                        rcases hseen v hv with hv | ⟨x, hx, hxv⟩
                        · obtain ⟨n, hn, hs⟩ := hF.seen v hv
                          exact ⟨n, hmem n hn, hs⟩
                        · exact ⟨x, List.mem_append.2 (Or.inr (List.mem_append.2 (Or.inr hx))),
                            hxv⟩
                      · refine List.pairwise_append.2
                          ⟨(List.pairwise_cons.1 hF.sorted).2, ?_, ?_⟩
                        · refine List.pairwise_iff_forall_sublist.2 ?_
                          intro a b hab
                          have ha : a ∈ fresh := hab.subset (by simp)
                          have hb : b ∈ fresh := hab.subset (by simp)
                          rw [hfd a ha, hfd b hb]
                        · intro a ha b hb
                          rw [hfd b hb]
                          exact (hqd a ha).2
                      · intro a ha b hb
                        rcases List.mem_append.1 ha with ha | ha <;>
                          rcases List.mem_append.1 hb with hb | hb
                        · exact hF.near a (List.mem_cons_of_mem _ ha) b
                            (List.mem_cons_of_mem _ hb)
                        · have := hfd b hb
                          have := (hqd a ha).1
                          omega
                        · have := hfd a ha
                          have := (hqd b hb).2
                          omega
                        · have := hfd a ha
                          have := hfd b hb
                          omega
                      · intro e he q hq
                        rcases List.mem_append.1 he with he | he <;>
                          rcases List.mem_append.1 hq with hq | hq
                        · exact hF.before e he q (List.mem_cons_of_mem _ hq)
                        · have := hF.before e he state hstq
                          have := hfd q hq
                          omega
                        · rw [List.mem_singleton.1 he]
                          exact (hqd q hq).1
                        · rw [List.mem_singleton.1 he]
                          have := hfd q hq
                          omega
                      · intro e he cs1 c hcs1 hc
                        rcases List.mem_append.1 he with he | he
                        · obtain ⟨r, hr, n, hn, hs, hd⟩ := hF.closed e he cs1 c hcs1 hc
                          exact ⟨r, hr, n, hmem n hn, hs, hd⟩
                        · rw [List.mem_singleton.1 he] at hcs1 ⊢
                          rw [hcs] at hcs1
                          simp only [Except.ok.injEq] at hcs1
                          subst hcs1
                          obtain ⟨r, hr, v, hv, hsame⟩ := hall c hc
                          obtain ⟨hr1, hd1⟩ := hchild c r hc hr
                          have hrin : InRange lv r.state :=
                            reachable_inRange lv obj r (reachableIn_reachable lv obj _ r hr1)
                          rcases hv with hv | ⟨x, hx, hxv⟩
                          · obtain ⟨n, hn, hs⟩ := hF.seen v hv
                            obtain ⟨dn, hnr, _⟩ := hF.reach n hn
                            have hnin : InRange lv n.state :=
                              reachable_inRange lv obj n (reachableIn_reachable lv obj _ n hnr)
                            rw [← hs] at hsame
                            have heq := sameBytes_eq lv hsize n.state r.state hnin hrin hsame
                            refine ⟨r, hr, n, hmem n hn, heq, ?_⟩
                            rcases List.mem_append.1 hn with hn | hn
                            · have := hF.before n hn state hstq
                              omega
                            · exact hF.near state hstq n hn
                          · obtain ⟨_, c1, hc1, hadd1⟩ := hfresh x hx
                            obtain ⟨hr2, _⟩ := hchild c1 x hc1 hadd1
                            have hxin : InRange lv x.state :=
                              reachable_inRange lv obj x (reachableIn_reachable lv obj _ x hr2)
                            rw [← hxv] at hsame
                            have heq := sameBytes_eq lv hsize x.state r.state hxin hrin hsame
                            refine ⟨r, hr, x,
                              List.mem_append.2 (Or.inr (List.mem_append.2 (Or.inr hx))), heq, ?_⟩
                            rw [hfd x hx]

theorem canReceive_pos (lv : Level) (s : State) (j : Nat)
    (h : canReceivePacketNow lv s j = true) : canReceivePacketNumberNow lv s j > 0 := by
  unfold canReceivePacketNow at h
  cases hty : (lv.el j).type <;> simp only [hty] at h <;>
    first
    | (simp only [canReceivePacketNumberNow, hty]
       decide)
    | (have h2 := of_decide_eq_true h
       exact h2)

theorem offered_packet_pos (lv : Level) (s : State) (src dst : Nat)
    (h : canConnectToNow lv s src dst = .ok true) : packetNumber lv s src dst > 0 := by
  obtain ⟨_, _, _, hl, hr⟩ := canConnectToNow_true lv s src dst h
  have hp := canReceive_pos lv s dst hr
  unfold packetNumber
  simp only []
  split_ifs <;> omega

theorem hasWire_stable (lv : Level) (obj : Objectives) : Stable lv obj (HasWire lv) := by
  constructor
  · intro s src dst s1 s2 r hs _ hn hdel hleaf
    obtain ⟨hc1, _⟩ := deliver_ok hdel
    obtain ⟨hc2, _⟩ := leaf_cases lv s1 s2 dst src r hleaf
    obtain ⟨a, b, ha, hab⟩ := hs
    refine ⟨a, b, ha, ?_⟩
    rw [hc2, hc1, set2_apply]
    by_cases e : a = src ∧ b = dst
    · rw [if_pos e]
      obtain ⟨e1, e2⟩ := e
      subst e1
      subst e2
      omega
    · rw [if_neg e]
      exact hab
  · intro s0 s id i s1 s2 r _ hs hty _ _ _ _ _ hgive hleaf
    obtain ⟨hc1, _⟩ := radialGive_ok hgive
    obtain ⟨hc2, _⟩ := leaf_cases lv s1 s2 i id r hleaf
    obtain ⟨a, b, ha, hab⟩ := hs
    refine ⟨a, b, ha, ?_⟩
    have hne : a ≠ id := by
      intro e
      rw [e] at ha
      unfold Element.isSender at ha
      rw [hty] at ha
      cases ha
    rw [hc2, hc1, set2_apply, if_neg (fun e => hne e.1)]
    exact hab
  · intro s id hs _
    obtain ⟨a, b, ha, hab⟩ := hs
    exact ⟨a, b, ha, by rw [(sync_ok lv s id).1]; exact hab⟩

theorem base_connect_wire (lv : Level) (obj : Objectives) (fuel : Nat) (s : State)
    (src dst : Nat) (s2 : State) (r : Int) (hcan : canConnectToNow lv s src dst = .ok true)
    (h : Element.connectToNow lv fuel s src dst = .ok (s2, r)) : HasWire lv s2 := by
  obtain ⟨hconn, h0, _, _, _⟩ := canConnectToNow_true lv s src dst hcan
  obtain ⟨_, hdst, _, hsend, _, _⟩ := connectable_true lv src dst hconn
  have hn := offered_packet_pos lv s src dst hcan
  unfold Element.connectToNow at h
  simp only [] at h
  rw [if_pos hn] at h
  obtain ⟨s4, hdel, h⟩ := bind_ok.1 h
  obtain ⟨⟨s5, x⟩, hcall, h⟩ := bind_ok.1 h
  simp only [pure_ok, Prod.mk.injEq] at h
  rw [← h.1]
  obtain ⟨hc1, _⟩ := deliver_ok hdel
  have h4 : HasWire lv s4 := by
    refine ⟨src, dst, hsend, ?_⟩
    rw [hc1, set2_apply, if_pos ⟨rfl, rfl⟩, h0]
    omega
  refine onConnectedNow_stable lv obj (HasWire lv) (hasWire_stable lv obj) fuel s4 dst src s5 x
    hdst ?_ hcall
  intro s3 y hleaf
  obtain ⟨a, b, ha, hab⟩ := h4
  exact ⟨a, b, ha, by rw [(leaf_cases lv s4 s3 dst src y hleaf).1]; exact hab⟩

theorem connect_wire (lv : Level) (obj : Objectives) (fuel : Nat) (s : State)
    (src dst : Nat) (s2 : State) (r : Int) (hcan : canConnectToNow lv s src dst = .ok true)
    (h : connectToNow lv fuel s src dst = .ok (s2, r)) : HasWire lv s2 := by
  unfold connectToNow at h
  by_cases hty : (lv.el src).type = ElementType.CellTransmitter
  · simp only [hty] at h
    obtain ⟨⟨s1, result⟩, hbase, h⟩ := bind_ok.1 h
    simp only [] at h
    have h1 := base_connect_wire lv obj fuel s src dst s1 result hcan hbase
    split_ifs at h
    · simp only [pure_ok, Prod.mk.injEq] at h
      rw [← h.1]
      exact (hasWire_stable lv obj).sync s1 src h1 hty
    · simp only [pure_ok, Prod.mk.injEq] at h
      rw [← h.1]
      exact h1
  · have h2 : Element.connectToNow lv fuel s src dst = .ok (s2, r) := by
      cases ht : (lv.el src).type <;> simp only [ht] at h <;>
        first | exact h | exact absurd ht hty
    exact base_connect_wire lv obj fuel s src dst s2 r hcan h2

theorem reachableIn_wire (lv : Level) (obj : Objectives) (j : Nat) (sp : StatePlus)
    (h : ReachableIn lv obj j sp) (hj : 1 ≤ j) : HasWire lv sp.state := by
  cases h with
  | init sp h => omega
  | step k sp0 cs c fuel sp1 _ hcs hc hadd =>
      obtain ⟨s1, x, hconn, hflow, _⟩ := addConnection_state lv fuel sp0 sp c.1 c.2 hadd
      obtain ⟨_, _, _, hcan, _⟩ := getAvailableConnections_mem lv obj sp0.state cs c.1 c.2 hcs hc
      have h1 := connect_wire lv obj fuel sp0.state c.1 c.2 s1 x hcan hconn
      exact flowLoop_preserves lv obj (HasWire lv) fuel
        (fun s src dst s2 r hs hg h =>
          connectToNow_stable lv obj (HasWire lv) (hasWire_stable lv obj) fuel s src dst s2 r hs hg h)
        fuel s1 sp.state h1 hflow

theorem reachableIn_zero (lv : Level) (obj : Objectives) (sp : StatePlus)
    (h : ReachableIn lv obj 0 sp) : getInitialState lv = .ok sp := by
  cases h with
  | init sp h => exact h

/-- C32 (amended). When `search`, run without the SigCount objective on a level of at most
`MAX_ELEMENTS` elements, reports SOLVED with a node `w`, then `w` is a winning state reached
by `d = w.depth >= 1` legal connections, and no winning state is reached by `j` legal
connections with `1 <= j < d`; if moreover the initial state is not a winning one, no winning
state is reached by fewer than `d` legal connections at all. -/
theorem search_shortest (lv : Level) (obj : Objectives) (fuel : Nat)
    (hsize : lv.size ≤ MAX_ELEMENTS) (hobj : obj.has ObjSigCount = false) (w : StatePlus)
    (h : (search lv obj fuel).result = .ok (SearchOutcome.solved w)) :
    ∃ d : Nat, 1 ≤ d ∧ w.depth = d ∧ ReachableIn lv obj d w ∧ isWin lv obj w.state = true ∧
      (∀ (j : Nat) (sp : StatePlus), ReachableIn lv obj j sp →
        isWin lv obj sp.state = true → 1 ≤ j → d ≤ j) ∧
      ((∀ start, getInitialState lv = .ok start → isWin lv obj start.state = false) →
        ∀ (j : Nat) (sp : StatePlus), ReachableIn lv obj j sp →
          isWin lv obj sp.state = true → d ≤ j) := by
  unfold search at h
  cases hinit : getInitialState lv with
  | error e =>
      rw [hinit] at h
      simp [error_ne_ok] at h
  | ok start =>
      rw [hinit] at h
      simp only [] at h
      obtain ⟨hconn0, _, _, _, hd0, _⟩ := getInitialState_ok lv start hinit
      have hF : Frontier lv obj fuel start [start.state] [start] [] := by
        constructor
        · exact ⟨start, by simp, rfl, hd0⟩
        · intro n hn
          simp only [List.nil_append, List.mem_singleton] at hn
          subst hn
          exact ⟨0, ReachableIn.init n hinit, by rw [hd0]; rfl⟩
        · intro n hn
          simp only [List.nil_append, List.mem_singleton] at hn
          exact Or.inl (by rw [hn])
        · intro v hv
          exact ⟨start, by simp, (List.mem_singleton.1 hv).symm⟩
        · exact List.pairwise_singleton _ _
        · intro a ha b hb
          rw [List.mem_singleton.1 ha, List.mem_singleton.1 hb]
          omega
        · intro e he
          simp at he
        · intro e he
          simp at he
      obtain ⟨d, hd1, hr, hdep, hwin, hmin⟩ :=
        searchLoop_shortest lv obj fuel hsize hobj start hinit fuel _ _ _ hF w h
      have hfar : ∀ (j : Nat) (sp : StatePlus), ReachableIn lv obj j sp → 1 ≤ j →
          sp.state ≠ start.state := by
        intro j sp hsp hj e
        obtain ⟨a, b, _, hab⟩ := reachableIn_wire lv obj j sp hsp hj
        rw [e, hconn0 a b] at hab
        omega
      refine ⟨d, hd1, hdep, hr, hwin, ?_, ?_⟩
      · intro j sp hsp hspwin hj
        exact hmin j sp hsp hspwin (hfar j sp hsp hj)
      · intro hlose j sp hsp hspwin
        by_cases hj : 1 ≤ j
        · exact hmin j sp hsp hspwin (hfar j sp hsp hj)
        · have hj0 : j = 0 := by omega
          subst hj0
          have hz := reachableIn_zero lv obj sp hsp
          rw [hinit] at hz
          have := hlose sp hz
          rw [hspwin] at this
          cases this

theorem search_shortest_witness :
    wireLevel.size ≤ MAX_ELEMENTS ∧ noObjectives.has ObjSigCount = false ∧
      (search wireLevel noObjectives 2).result = .ok (SearchOutcome.solved wireNode1) ∧
      ∃ d : Nat, 1 ≤ d ∧ wireNode1.depth = d ∧ ReachableIn wireLevel noObjectives d wireNode1 ∧
        isWin wireLevel noObjectives wireNode1.state = true ∧
        (∀ (j : Nat) (sp : StatePlus), ReachableIn wireLevel noObjectives j sp →
          isWin wireLevel noObjectives sp.state = true → 1 ≤ j → d ≤ j) ∧
        ((∀ start, getInitialState wireLevel = .ok start →
            isWin wireLevel noObjectives start.state = false) →
          ∀ (j : Nat) (sp : StatePlus), ReachableIn wireLevel noObjectives j sp →
            isWin wireLevel noObjectives sp.state = true → d ≤ j) :=
  ⟨by decide, by decide, rfl,
    search_shortest wireLevel noObjectives 2 (by decide) (by decide) wireNode1 rfl⟩

/-- The initial state of `boostLevel` (a Transmitter and a SignalBooster, no element to
fulfil) satisfies `isWin` and is reached by no connection at all, yet `search`, which tests
only the states it generates, reports a node of depth 1. -/
theorem initial_win_overlooked :
    boostLevel.size ≤ MAX_ELEMENTS ∧ noObjectives.has ObjSigCount = false ∧
      solvedDepth (search boostLevel noObjectives 2) = some 1 ∧
      ReachableIn boostLevel noObjectives 0 boostNode0 ∧
      isWin boostLevel noObjectives boostNode0.state = true ∧
      ¬ (∀ (k : Nat) (sp : StatePlus), ReachableIn boostLevel noObjectives k sp →
        (k : Int) < 1 → isWin boostLevel noObjectives sp.state = false) := by
  refine ⟨by decide, by decide, by decide, ReachableIn.init boostNode0 rfl, by decide, ?_⟩
  intro hall
  have := hall 0 boostNode0 (ReachableIn.init boostNode0 rfl) (by decide)
  revert this
  decide

end Transmission
